import Mathlib

/-!
# PhantomID identity tree: embedding and verified properties

The repository holds two implementations of the capacity-bounded identity tree:

* `src/phantomid/phantomid.c`: `PhantomNode` / `PhantomTree` with
  `phantom_tree_find`, `phantom_tree_insert`, `phantom_tree_delete`;
* `src/src/runtime/tree/tree.c`: `TreeNode` / `TreeContext` with
  `tree_find_node`, `tree_create_node`, `tree_delete_node`.

Both are pointer graphs. The embedding keeps them as pointer graphs: memory is a
table of cells indexed by address, a node stores the addresses of its parent and
of its children, and every C assignment through a pointer is a store into that
table.

Conventions of the embedding.

* `calloc` hands out the next unused address and always succeeds; `free` empties
  the cell. A node that a failing call allocates and frees again before it
  returns leaves no trace in the table.
* `children[0 .. child_count-1]` is a list, `child_count` is its length. A store
  to `children[child_count++]` appends, also when `child_count` has already
  reached the capacity of the array: the counter is advanced by the code whether
  or not the slot lies inside the allocation. A list longer than `max_children`
  stands for a store past the end of the array; what the program does after such
  a store is not defined by C, and nothing is claimed of those states beyond the
  fact that the store was made.
* `size_t` and `uint64_t` counters hold values up to `2 ^ 64 - 1` and wrap around.
* A search or a recursion over the pointer graph takes a fuel argument, one unit
  per visited node. The outer `Option` of a result is `none` when the fuel does
  not suffice or when the C code would read a freed or unallocated cell.
* `phantom_tree_insert`, `phantom_tree_delete` and `phantom_on_client_data` give
  the effect of a call on the data, with every lock call let through. The lock
  calls of phantomid.c are listed by `phantom_tree_find_events`,
  `phantom_tree_insert_events` and `phantom_tree_delete_events`, and
  `phantom_tree_insert_locked`, `phantom_tree_delete_locked` and
  `phantom_on_client_data_locked` give the call under the mutexes of the source.
  These are not recursive: a call that asks for a mutex it holds does not return.
* `MAX_CHILDREN` is defined in a header that is not among the sources; it is a
  parameter of every operation that allocates a node.
-/

namespace PhantomID

/-! ## Memory -/

/-- Addresses of heap cells. -/
abbrev Addr := Nat

/-- Identifier strings (`char id[]`, compared with `strcmp`). -/
abbrev Ident := String

/-- The largest value of a `size_t` or `uint64_t`, `2 ^ 64 - 1`. -/
def SIZE_MAX : Nat := 18446744073709551615

/-- The effect of `n++` on a 64-bit unsigned counter: `SIZE_MAX` wraps to `0`. -/
def size_inc (n : Nat) : Nat := if n = SIZE_MAX then 0 else n + 1

/-- The effect of `n--` on a 64-bit unsigned counter: `0` wraps to `SIZE_MAX`. -/
def size_dec (n : Nat) : Nat := if n = 0 then SIZE_MAX else n - 1

/-- Reads the cell at address `a`; `none` when nothing is allocated there. -/
def load {α : Type} (h : List (Option α)) (a : Addr) : Option α :=
  h.getD a none

/-- Overwrites the cell at address `a`. -/
def store {α : Type} (h : List (Option α)) (a : Addr) (v : α) : List (Option α) :=
  h.set a (some v)

/-- Models `free`: empties the cell at address `a`. -/
def release {α : Type} (h : List (Option α)) (a : Addr) : List (Option α) :=
  h.set a none

/-- Models `calloc`: the fresh address and the memory extended by the new cell. -/
def alloc {α : Type} (h : List (Option α)) (v : α) : Addr × List (Option α) :=
  (h.length, h ++ [some v])

/-! ## The bounded work queue shared by both searches

`NodeQueue` is a ring buffer (`nodes`, `front`, `rear`, `size`). It is
represented by the sequence of its live entries from `front` to `rear`; `size`
is the length of that sequence. -/

/-- Capacity of the ring buffer: `QUEUE_SIZE` in phantomid.c, `MAX_QUEUE_SIZE` in tree.c. -/
def QUEUE_SIZE : Nat := 1000

/-- Live entries of the ring buffer, oldest first. -/
abbrev NodeQueue := List Addr

/-- Models `queue_init`. -/
def queue_init : NodeQueue := []

/-- Models `queue_push`: refuses, leaving the queue as it is, once `size >= QUEUE_SIZE`. -/
def queue_push (q : NodeQueue) (node : Addr) : Bool × NodeQueue :=
  if q.length ≥ QUEUE_SIZE then (false, q) else (true, q ++ [node])

/-- Models `queue_pop`: `none` on an empty queue, otherwise the oldest entry and the rest. -/
def queue_pop (q : NodeQueue) : Option (Addr × NodeQueue) :=
  match q with
  | [] => none
  | node :: rest => some (node, rest)

/-- The loop `for (i = 0; i < node->child_count; i++) queue_push(&queue, node->children[i]);`
whose return values the callers ignore. -/
def push_children (q : NodeQueue) (children : List Addr) : NodeQueue :=
  children.foldl (fun acc c => (queue_push acc c).2) q

/-- The loop `while (queue.size > 0)` of `phantom_tree_find` and `tree_find_node`.
`look` reads the identifier and the children array of the node at an address. -/
def bfs_find (look : Addr → Option (Ident × List Addr)) (id : Ident) :
    Nat → NodeQueue → Option (Option Addr)
  | fuel, q =>
    match queue_pop q with
    | none => some none
    | some (node, q1) =>
      match fuel with
      | 0 => none
      | fuel1 + 1 =>
        match look node with
        | none => none
        | some (node_id, children) =>
          if node_id = id then some (some node)
          else bfs_find look id fuel1 (push_children q1 children)

/-! ## phantomid.c -/

/-- The fields of `PhantomAccount` that phantomid.c reads or writes. -/
structure PhantomAccount where
  seed : List Nat
  id : Ident
  creation_time : Nat
  expiry_time : Nat
  deriving DecidableEq, Repr

/-- A `PhantomNode`; `children` holds `children[0 .. child_count-1]`. -/
structure PhantomNode where
  account : PhantomAccount
  parent : Option Addr
  children : List Addr
  max_children : Nat
  is_root : Bool
  is_admin : Bool
  deriving DecidableEq, Repr

/-- A `PhantomTree` together with the memory its pointers refer to. -/
structure PhantomTree where
  heap : List (Option PhantomNode)
  root : Option Addr
  total_nodes : Nat
  deriving DecidableEq, Repr

/-- Models `create_node` of phantomid.c (the node before it is linked). -/
def create_node (MAX_CHILDREN : Nat) (account : PhantomAccount) (is_root : Bool) : PhantomNode :=
  { account := account
    parent := none
    children := []
    max_children := MAX_CHILDREN
    is_root := is_root
    is_admin := is_root }

/-- Models `phantom_tree_init`. -/
def phantom_tree_init : PhantomTree :=
  { heap := [], root := none, total_nodes := 0 }

/-- What the search reads of a `PhantomNode`: `account.id` and the children array. -/
def phantom_look (t : PhantomTree) (a : Addr) : Option (Ident × List Addr) :=
  (load t.heap a).map (fun n => (n.account.id, n.children))

/-- Models `phantom_tree_find`. -/
def phantom_tree_find (fuel : Nat) (t : PhantomTree) (id : Ident) : Option (Option Addr) :=
  match t.root with
  | none => some none
  | some r => bfs_find (phantom_look t) id fuel (queue_push queue_init r).2

/-- Line 201: `parent = parent_id ? phantom_tree_find(phantom, parent_id) : phantom->tree->root`. -/
def phantom_resolve_parent (fuel : Nat) (t : PhantomTree) (parent_id : Option Ident) :
    Option (Option Addr) :=
  match parent_id with
  | some pid => phantom_tree_find fuel t pid
  | none => some t.root

/-- Models the effect of `phantom_tree_insert` on the data, with every lock call let through:
the returned node (`none` for `NULL`) and the tree afterwards. The call takes `tree_lock`
before anything else; with a parent identifier on a tree with a root it then calls
`phantom_tree_find`, which asks for `tree_lock` again. Under the mutexes of the source that
call blocks there: see `phantom_tree_insert_locked`. -/
def phantom_tree_insert (MAX_CHILDREN : Nat) (fuel : Nat) (t : PhantomTree)
    (account : PhantomAccount) (parent_id : Option Ident) :
    Option (Option Addr × PhantomTree) :=
  match t.root with
  | none =>
    match parent_id with
    | some _ => some (none, t)
    | none =>
      let (node, heap1) := alloc t.heap (create_node MAX_CHILDREN account true)
      some (some node, { heap := heap1, root := some node, total_nodes := 1 })
  | some _ =>
    match phantom_resolve_parent fuel t parent_id with
    | none => none
    | some none => some (none, t)
    | some (some parent) =>
      match load t.heap parent with
      | none => none
      | some pn =>
        if pn.children.length ≥ pn.max_children then some (none, t)
        else
          let (node, heap1) :=
            alloc t.heap { create_node MAX_CHILDREN account false with parent := some parent }
          let heap2 := store heap1 parent { pn with children := pn.children ++ [node] }
          some (some node, { heap := heap2, root := t.root, total_nodes := size_inc t.total_nodes })

/-- The loop "Redistribute node's children" of `phantom_tree_delete`, run over the children
array of the deleted node; `parent` and `is_admin` are the deleted node's fields. The loop
stores `children[child_count++] = child` without looking at `max_children`: a pass that
appends to a list that already holds `max_children` entries stands for a store past the
end of the parent's array. -/
def phantom_redistribute (parent : Option Addr) (is_admin : Bool) :
    List (Option PhantomNode) → List Addr → Option (List (Option PhantomNode))
  | h, [] => some h
  | h, child :: rest =>
    match load h child with
    | none => none
    | some cn =>
      let h1 := store h child { cn with parent := parent, is_admin := is_admin }
      match parent with
      | none => phantom_redistribute parent is_admin h1 rest
      | some p =>
        match load h1 p with
        | none => none
        | some pn =>
          phantom_redistribute parent is_admin
            (store h1 p { pn with children := pn.children ++ [child] }) rest

/-- Models the effect of `phantom_tree_delete` on the data, with every lock call let through:
the returned flag and the tree afterwards. The call takes `tree_lock` and then calls
`phantom_tree_find`, which asks for `tree_lock` again. Under the mutexes of the source
every call blocks there: see `phantom_tree_delete_locked`.
A node that is its own parent makes the redistribution loop run over an array that grows
with every pass; that call does not return. -/
def phantom_tree_delete (fuel : Nat) (t : PhantomTree) (id : Ident) :
    Option (Bool × PhantomTree) :=
  match phantom_tree_find fuel t id with
  | none => none
  | some none => some (false, t)
  | some (some node) =>
    match load t.heap node with
    | none => none
    | some n =>
      if n.is_root && decide (n.children.length > 0) then some (false, t)
      else
        match n.parent with
        | some p =>
          if p = node then none
          else
            match load t.heap p with
            | none => none
            | some pn =>
              let h1 := store t.heap p { pn with children := pn.children.erase node }
              match phantom_redistribute (some p) n.is_admin h1 n.children with
              | none => none
              | some h2 =>
                some (true, { heap := release h2 node, root := t.root,
                              total_nodes := size_dec t.total_nodes })
        | none =>
          match phantom_redistribute none n.is_admin t.heap n.children with
          | none => none
          | some h2 =>
            some (true, { heap := release h2 node, root := none,
                          total_nodes := size_dec t.total_nodes })

/-- Models `phantom_tree_has_root`. -/
def phantom_tree_has_root (t : PhantomTree) : Bool := t.root.isSome

/-- Models `phantom_tree_size`. -/
def phantom_tree_size (t : PhantomTree) : Nat := t.total_nodes

/-- Models `get_depth_helper` (the same function in both files); `kids` reads the children
array of the node at an address. -/
def get_depth_helper (kids : Addr → Option (List Addr)) : Nat → Option Addr → Option Nat
  | _, none => some 0
  | 0, some _ => none
  | fuel + 1, some node =>
    match kids node with
    | none => none
    | some children =>
      (children.foldlM
        (fun max_depth c =>
          (get_depth_helper kids fuel (some c)).map
            (fun depth => if depth > max_depth then depth else max_depth))
        0).map (fun max_depth => max_depth + 1)

/-- Models `phantom_tree_depth`. -/
def phantom_tree_depth (fuel : Nat) (t : PhantomTree) : Option Nat :=
  get_depth_helper (fun a => (load t.heap a).map (fun n => n.children)) fuel t.root

/-! ## tree.c -/

/-- A `TreeNode`; `children` holds `children[0 .. child_count-1]`. The field `user_data`
is zeroed by `calloc` and never touched by tree.c. -/
structure TreeNode where
  id : Ident
  creation_time : Nat
  is_root : Bool
  is_active : Bool
  parent : Option Addr
  children : List Addr
  max_children : Nat
  deriving DecidableEq, Repr

/-- A `TreeContext` together with the memory its pointers refer to and the static
`counter` of `generate_node_id`. -/
structure TreeContext where
  heap : List (Option TreeNode)
  root : Option Addr
  total_nodes : Nat
  id_counter : Nat
  deriving DecidableEq, Repr

namespace Tree

/-- Models the static `create_node` of tree.c; `now` is the value of `time(NULL)`.
The identifier is still the zeroed buffer. -/
def create_node (MAX_CHILDREN : Nat) (now : Nat) : TreeNode :=
  { id := ""
    creation_time := now
    is_root := false
    is_active := true
    parent := none
    children := []
    max_children := MAX_CHILDREN }

/-- Models `generate_node_id`: the text `sprintf` writes for the clock reading and the
value fetched from the static counter. -/
def generate_node_id (now : Nat) (counter : Nat) : Ident :=
  "node_" ++ toString now ++ "_" ++ toString counter

end Tree

/-- Models `tree_create`; `counter` is the current value of the static identifier counter. -/
def tree_create (counter : Nat) : TreeContext :=
  { heap := [], root := none, total_nodes := 0, id_counter := counter }

/-- What the search reads of a `TreeNode`: `id` and the children array. -/
def tree_look (ctx : TreeContext) (a : Addr) : Option (Ident × List Addr) :=
  (load ctx.heap a).map (fun n => (n.id, n.children))

/-- Models `tree_find_node`. -/
def tree_find_node (fuel : Nat) (ctx : TreeContext) (node_id : Ident) : Option (Option Addr) :=
  match ctx.root with
  | none => some none
  | some r => bfs_find (tree_look ctx) node_id fuel (queue_push queue_init r).2

/-- Models `tree_create_node`: the returned node (`none` for `NULL`) and the context
afterwards. Both reads of the clock in one call return `now`. The identifier counter
advances before any check is made. -/
def tree_create_node (MAX_CHILDREN : Nat) (fuel : Nat) (ctx : TreeContext) (now : Nat)
    (parent_id : Option Ident) : Option (Option Addr × TreeContext) :=
  let node0 : TreeNode :=
    { Tree.create_node MAX_CHILDREN now with id := Tree.generate_node_id now ctx.id_counter }
  let counter1 := size_inc ctx.id_counter
  if parent_id.isNone || ctx.root.isNone then
    if ctx.root.isNone then
      let (node, heap1) := alloc ctx.heap { node0 with is_root := true }
      some (some node, { heap := heap1, root := some node,
                         total_nodes := size_inc ctx.total_nodes, id_counter := counter1 })
    else
      some (none, { ctx with id_counter := counter1 })
  else
    match parent_id with
    | none => some (none, { ctx with id_counter := counter1 })
    | some pid =>
      match tree_find_node fuel ctx pid with
      | none => none
      | some none => some (none, { ctx with id_counter := counter1 })
      | some (some parent) =>
        match load ctx.heap parent with
        | none => none
        | some pn =>
          if pn.children.length ≥ pn.max_children then
            some (none, { ctx with id_counter := counter1 })
          else
            let (node, heap1) := alloc ctx.heap { node0 with parent := some parent }
            let heap2 := store heap1 parent { pn with children := pn.children ++ [node] }
            some (some node, { heap := heap2, root := ctx.root,
                               total_nodes := size_inc ctx.total_nodes, id_counter := counter1 })

/-- The first loop of `handle_orphans`: the deleted node has parent `p`. Every pass reads
`p`'s `child_count` and `max_children` afresh. -/
def orphans_to_parent (p : Addr) :
    List (Option TreeNode) → List Addr → Option (List (Option TreeNode))
  | h, [] => some h
  | h, child :: rest =>
    match load h p, load h child with
    | some pn, some cn =>
      if pn.children.length < pn.max_children then
        let h1 := store h child { cn with parent := some p }
        match load h1 p with
        | none => none
        | some pn1 =>
          orphans_to_parent p (store h1 p { pn1 with children := pn1.children ++ [child] }) rest
      else
        orphans_to_parent p (store h child { cn with parent := none, is_root := true }) rest
    | _, _ => none

/-- The second loop of `handle_orphans`: the deleted node has no parent. -/
def orphans_to_roots :
    List (Option TreeNode) → List Addr → Option (List (Option TreeNode))
  | h, [] => some h
  | h, child :: rest =>
    match load h child with
    | none => none
    | some cn => orphans_to_roots (store h child { cn with parent := none, is_root := true }) rest

/-- Models `handle_orphans`, called on the node at address `node`. -/
def handle_orphans (h : List (Option TreeNode)) (node : Addr) :
    Option (List (Option TreeNode)) :=
  match load h node with
  | none => none
  | some n =>
    if n.children.length = 0 then some h
    else
      match n.parent with
      | some p => orphans_to_parent p h n.children
      | none => orphans_to_roots h n.children

/-- Models `tree_delete_node`: the returned flag and the context afterwards.
Outside the embedding (result `none`): a node that is its own parent or its own child, for
which the loops of `handle_orphans` would read fields they have just written, and a node
missing from its parent's array, for which the `memmove` length underflows. -/
def tree_delete_node (fuel : Nat) (ctx : TreeContext) (node_id : Ident) :
    Option (Bool × TreeContext) :=
  match tree_find_node fuel ctx node_id with
  | none => none
  | some none => some (false, ctx)
  | some (some node) =>
    match load ctx.heap node with
    | none => none
    | some n =>
      if n.parent = some node ∨ node ∈ n.children then none
      else
        match n.parent with
        | some p =>
          match load ctx.heap p with
          | none => none
          | some pn =>
            if node ∈ pn.children then
              let h1 := store ctx.heap p { pn with children := pn.children.erase node }
              match handle_orphans h1 node with
              | none => none
              | some h2 =>
                some (true, { ctx with heap := release h2 node,
                                       total_nodes := size_dec ctx.total_nodes })
            else none
        | none =>
          let root1 := if ctx.root = some node then none else ctx.root
          match handle_orphans ctx.heap node with
          | none => none
          | some h2 =>
            some (true, { ctx with heap := release h2 node, root := root1,
                                   total_nodes := size_dec ctx.total_nodes })

/-- Models `tree_has_root`. -/
def tree_has_root (ctx : TreeContext) : Bool := ctx.root.isSome

/-- Models `tree_get_size`. -/
def tree_get_size (ctx : TreeContext) : Nat := ctx.total_nodes

/-- Models `tree_get_depth`. -/
def tree_get_depth (fuel : Nat) (ctx : TreeContext) : Option Nat :=
  get_depth_helper (fun a => (load ctx.heap a).map (fun n => n.children)) fuel ctx.root

/-! ## Shape predicates used in the statements -/

/-- Nodes the search can meet: the root, and every entry of the children array of such a
node. -/
inductive Reachable (look : Addr → Option (Ident × List Addr)) (root : Option Addr) :
    Addr → Prop
  | root (r : Addr) : root = some r → Reachable look root r
  | child (a c : Addr) (nid : Ident) (children : List Addr) :
      Reachable look root a → look a = some (nid, children) → c ∈ children →
      Reachable look root c

/-- The pointer graph is a tree in the weakest sense the searches need: the root pointer and
every child pointer refer to an allocated node, and there is a height function that
decreases along every child pointer (no cycle). -/
def TreeShaped (look : Addr → Option (Ident × List Addr)) (root : Option Addr) : Prop :=
  (∀ r, root = some r → (look r).isSome = true) ∧
  ∃ rank : Addr → Nat, ∀ a nid children, look a = some (nid, children) →
    ∀ c ∈ children, (look c).isSome = true ∧ rank c < rank a

/-- How one node record relates to its earlier version after the children listed in `moved`
have been handed to the parent `p`: the payload fields are untouched, `p` has `moved`
appended to its children, and exactly the moved nodes have `parent` and `is_admin`
overwritten. -/
def Reparented (p : Addr) (is_admin : Bool) (moved : List Addr) (b : Addr)
    (old new : PhantomNode) : Prop :=
  new.account = old.account ∧ new.max_children = old.max_children ∧
  new.is_root = old.is_root ∧
  new.children = (if b = p then old.children ++ moved else old.children) ∧
  (b ∈ moved → new.parent = some p ∧ new.is_admin = is_admin) ∧
  (b ∉ moved → new.parent = old.parent ∧ new.is_admin = old.is_admin)

/-- Sum of `(QUEUE_SIZE + 1) ^ rank a` over the queue: the measure that bounds the number
of passes of the search loop. -/
def queue_weight (rank : Addr → Nat) (q : List Addr) : Nat :=
  (q.map (fun a => (QUEUE_SIZE + 1) ^ rank a)).sum

/-! ## Concrete scenarios and checkable shape conditions -/

/-- An account that carries nothing but its identifier. -/
def account_of (id : Ident) : PhantomAccount :=
  { seed := [], id := id, creation_time := 0, expiry_time := 0 }

/-- Runs `phantom_tree_insert` for each `(id, parent_id)` in turn; `none` unless every call
returns a node. -/
def phantom_insert_all (MAX_CHILDREN : Nat) (fuel : Nat) :
    PhantomTree → List (Ident × Option Ident) → Option PhantomTree
  | t, [] => some t
  | t, (id, parent_id) :: rest =>
    match phantom_tree_insert MAX_CHILDREN fuel t (account_of id) parent_id with
    | some (some _, t1) => phantom_insert_all MAX_CHILDREN fuel t1 rest
    | _ => none

/-- Runs `tree_create_node` for each parent identifier in turn, all at clock reading `now`;
`none` unless every call returns a node. -/
def tree_create_all (MAX_CHILDREN : Nat) (fuel : Nat) (now : Nat) :
    TreeContext → List (Option Ident) → Option TreeContext
  | ctx, [] => some ctx
  | ctx, parent_id :: rest =>
    match tree_create_node MAX_CHILDREN fuel ctx now parent_id with
    | some (some _, ctx1) => tree_create_all MAX_CHILDREN fuel now ctx1 rest
    | _ => none

/-- A checkable sufficient condition for `TreeShaped` on a memory of `n` cells: the root is
allocated and every child pointer refers to an allocated node at a higher address. -/
def ordered_check (look : Addr → Option (Ident × List Addr)) (root : Option Addr)
    (n : Nat) : Bool :=
  (match root with
   | none => true
   | some r => (look r).isSome) &&
  (List.range n).all (fun a =>
    match look a with
    | none => true
    | some (_, children) => children.all (fun c => (look c).isSome && decide (a < c)))

/-- Root `R` with children `A`, `B` and grandchild `G` under `A`, as four inserts with
`MAX_CHILDREN = 3` leave it. -/
def scenario_tree : PhantomTree :=
  { heap :=
      [ some { account := account_of "R", parent := none, children := [1, 2],
               max_children := 3, is_root := true, is_admin := true },
        some { account := account_of "A", parent := some 0, children := [3],
               max_children := 3, is_root := false, is_admin := false },
        some { account := account_of "B", parent := some 0, children := [],
               max_children := 3, is_root := false, is_admin := false },
        some { account := account_of "G", parent := some 1, children := [],
               max_children := 3, is_root := false, is_admin := false } ]
    root := some 0
    total_nodes := 4 }

/-- The calls of the orphan scenario for tree.c with `MAX_CHILDREN = 3`, clock reading 7 and
identifier counter starting at 0: a root `node_7_0`, its children `node_7_1`, `node_7_2`,
`node_7_3`, the children `node_7_4`, `node_7_5` of `node_7_1`, then
`tree_delete_node("node_7_1")`. The result is the returned flag and the context. -/
def orphan_scenario : Option (Bool × TreeContext) :=
  (tree_create_all 3 10 7 (tree_create 0)
      [none, some "node_7_0", some "node_7_0", some "node_7_0",
       some "node_7_1", some "node_7_1"]).bind
    (fun ctx => tree_delete_node 10 ctx "node_7_1")

/-- The calls of the root scenario for tree.c with `MAX_CHILDREN = 3`: a root `node_7_0`
with one child `node_7_1`, then `tree_delete_node("node_7_0")`. -/
def root_delete_scenario : Option (Bool × TreeContext) :=
  (tree_create_all 3 10 7 (tree_create 0) [none, some "node_7_0"]).bind
    (fun ctx => tree_delete_node 10 ctx "node_7_0")

/-- Root `R` with `max_children = 2` and the two children `A`, `B`, as three inserts with
`MAX_CHILDREN = 2` leave it. -/
def full_root_tree : PhantomTree :=
  { heap :=
      [ some { account := account_of "R", parent := none, children := [1, 2],
               max_children := 2, is_root := true, is_admin := true },
        some { account := account_of "A", parent := some 0, children := [],
               max_children := 2, is_root := false, is_admin := false },
        some { account := account_of "B", parent := some 0, children := [],
               max_children := 2, is_root := false, is_admin := false } ]
    root := some 0
    total_nodes := 3 }

/-- The tree.c context after the first `tree_create_node` (clock reading 7, counter 0,
`MAX_CHILDREN = 3`): a lone root `node_7_0`. -/
def lone_root_ctx : TreeContext :=
  { heap := [ some { id := "node_7_0", creation_time := 7, is_root := true, is_active := true,
                     parent := none, children := [], max_children := 3 } ]
    root := some 0
    total_nodes := 1
    id_counter := 1 }

/-! ## Traversals -/

/-- The loop `while (queue.size > 0)` of `tree_traverse_bfs` and `phantom_tree_bfs`: the
nodes in the order in which the visitor is applied to them. -/
def bfs_visit (look : Addr → Option (Ident × List Addr)) :
    Nat → NodeQueue → Option (List Addr)
  | fuel, q =>
    match queue_pop q with
    | none => some []
    | some (node, q1) =>
      match fuel with
      | 0 => none
      | fuel1 + 1 =>
        match look node with
        | none => none
        | some (_, children) =>
          (bfs_visit look fuel1 (push_children q1 children)).map (fun rest => node :: rest)

/-- Models `tree_traverse_bfs`: the nodes in visiting order. -/
def tree_traverse_bfs (fuel : Nat) (ctx : TreeContext) : Option (List Addr) :=
  match ctx.root with
  | none => some []
  | some r => bfs_visit (tree_look ctx) fuel (queue_push queue_init r).2

/-- The first node of a visiting order whose identifier equals `id`. -/
def first_match (look : Addr → Option (Ident × List Addr)) (id : Ident)
    (order : List Addr) : Option Addr :=
  order.find? (fun a =>
    match look a with
    | some (node_id, _) => decide (node_id = id)
    | none => false)

/-- The node at address `k` of a complete binary tree of `n` nodes laid out level by level,
as `tree_create_node` builds it when the nodes are created in that order at clock reading 7
with the identifier counter starting at 0: node `k` is the child of node `(k - 1) / 2`. -/
def binary_node (MAX_CHILDREN n k : Nat) : TreeNode :=
  { id := Tree.generate_node_id 7 k
    creation_time := 7
    is_root := decide (k = 0)
    is_active := true
    parent := if k = 0 then none else some ((k - 1) / 2)
    children := [2 * k + 1, 2 * k + 2].filter (fun c => decide (c < n))
    max_children := MAX_CHILDREN }

/-- The cells `k, k + 1, ...` of the complete binary tree of `n` nodes, `count` of them. -/
def binary_cells (MAX_CHILDREN n : Nat) : Nat → Nat → List (Option TreeNode)
  | 0, _ => []
  | count + 1, k => some (binary_node MAX_CHILDREN n k) :: binary_cells MAX_CHILDREN n count (k + 1)

/-- The context holding the complete binary tree of `n` nodes. -/
def binary_ctx (MAX_CHILDREN n : Nat) : TreeContext :=
  { heap := binary_cells MAX_CHILDREN n n 0
    root := if n = 0 then none else some 0
    total_nodes := n
    id_counter := n }

/-! ## state.c: the snapshot codec

A file is its sequence of bytes. Structures are written with `fwrite` as they lie in
memory; the layout taken here is that of a little-endian LP64 platform with natural
alignment and zeroed padding (`NodeState state = {0}`, `calloc`'ed context):

* `StateHeader`, 40 bytes: `magic` at 0 (4), `version` at 4 (4), `flags` at 8 (4), padding
  (4), `timestamp` at 16 (8), `node_count` at 24 (8), `checksum` at 32 (4), padding (4);
* `NodeState`, 152 bytes: `id` at 0 (64), `parent_id` at 64 (64), `creation_time` at 128 (8),
  `is_root` at 136 (1), `is_active` at 137 (1), padding (6), `child_count` at 144 (8).

Identifiers are text without NUL; a character is stored as its code modulo 256. -/

/-- The constant `STATE_MAGIC`, `0x50484944`. -/
def STATE_MAGIC : Nat := 1346914628

/-- The constant `STATE_VERSION`. -/
def STATE_VERSION : Nat := 1

/-- The constant `STATE_BUFFER_SIZE`. -/
def STATE_BUFFER_SIZE : Nat := 4096

/-- The range of a `uint32_t`, `2 ^ 32`. -/
def U32_MOD : Nat := 4294967296

/-- Size of a `StateHeader` in the file. -/
def HEADER_SIZE : Nat := 40

/-- Size of a `NodeState` in the file. -/
def NODE_STATE_SIZE : Nat := 152

/-- One pass of the loop of `calculate_checksum`:
`checksum = ((checksum << 5) + checksum) + bytes[i]` in `uint32_t` arithmetic. -/
def checksum_step (checksum : Nat) (byte : Nat) : Nat :=
  (((checksum <<< 5) % U32_MOD + checksum) % U32_MOD + byte) % U32_MOD

/-- Models `calculate_checksum` (the same function in runtime/state/state.c and
interface/state.c). -/
def calculate_checksum (data : List Nat) : Nat :=
  data.foldl checksum_step 0

/-- The header of a snapshot file (`StateHeader`). -/
structure StateHeader where
  magic : Nat
  version : Nat
  flags : Nat
  timestamp : Nat
  node_count : Nat
  checksum : Nat
  deriving DecidableEq, Repr

/-- One node record of a snapshot file (`NodeState`). -/
structure NodeState where
  id : Ident
  parent_id : Ident
  creation_time : Nat
  is_root : Bool
  is_active : Bool
  child_count : Nat
  deriving DecidableEq, Repr

/-- The fields of `StateContext` that state.c reads or writes; the file it names is passed
to the operations as a byte sequence. -/
structure StateContext where
  flags : Nat
  header : StateHeader
  deriving DecidableEq, Repr

/-- The `width` bytes of an unsigned integer, least significant first. -/
def le_bytes : Nat → Nat → List Nat
  | 0, _ => []
  | width + 1, n => n % 256 :: le_bytes width (n / 256)

/-- The unsigned integer stored in a sequence of bytes, least significant first. -/
def le_value : List Nat → Nat
  | [] => 0
  | b :: rest => b + 256 * le_value rest

/-- The bytes of the characters of an identifier. -/
def ident_bytes (s : Ident) : List Nat :=
  s.toList.map (fun c => c.toNat % 256)

/-- A 64-byte `char` array that was zero before `strncpy(dst, src, 63)`. -/
def cstr_field (s : Ident) : List Nat :=
  let text := (ident_bytes s).take 63
  text ++ List.replicate (64 - text.length) 0

/-- The C string held by a `char` array: the bytes before the first NUL (the whole array
when it holds no NUL). -/
def cstr_read (field : List Nat) : Ident :=
  String.mk ((field.takeWhile (fun b => b != 0)).map Char.ofNat)

/-- The byte of a `bool`. -/
def bool_byte (b : Bool) : Nat := if b then 1 else 0

/-- The image of a `StateHeader` in the file. -/
def encode_header (h : StateHeader) : List Nat :=
  le_bytes 4 h.magic ++ le_bytes 4 h.version ++ le_bytes 4 h.flags ++ List.replicate 4 0 ++
  le_bytes 8 h.timestamp ++ le_bytes 8 h.node_count ++ le_bytes 4 h.checksum ++
  List.replicate 4 0

/-- The `StateHeader` that `fread` finds in 40 bytes of the file. -/
def decode_header (bytes : List Nat) : StateHeader :=
  { magic := le_value ((bytes.drop 0).take 4)
    version := le_value ((bytes.drop 4).take 4)
    flags := le_value ((bytes.drop 8).take 4)
    timestamp := le_value ((bytes.drop 16).take 8)
    node_count := le_value ((bytes.drop 24).take 8)
    checksum := le_value ((bytes.drop 32).take 4) }

/-- The image of a `NodeState` in the file. -/
def encode_node_state (s : NodeState) : List Nat :=
  cstr_field s.id ++ cstr_field s.parent_id ++ le_bytes 8 s.creation_time ++
  [bool_byte s.is_root, bool_byte s.is_active] ++ List.replicate 6 0 ++
  le_bytes 8 s.child_count

/-- The `NodeState` that `fread` finds in 152 bytes of the file. -/
def decode_node_state (bytes : List Nat) : NodeState :=
  { id := cstr_read ((bytes.drop 0).take 64)
    parent_id := cstr_read ((bytes.drop 64).take 64)
    creation_time := le_value ((bytes.drop 128).take 8)
    is_root := (bytes.getD 136 0) != 0
    is_active := (bytes.getD 137 0) != 0
    child_count := le_value ((bytes.drop 144).take 8) }

/-- Models `state_create` (the header a new context starts with); `now` is the clock
reading. -/
def state_create (now : Nat) : StateContext :=
  { flags := 0
    header := { magic := STATE_MAGIC, version := STATE_VERSION, flags := 0,
                timestamp := now, node_count := 0, checksum := 0 } }

/-- Models `dfs_helper` of tree.c: the nodes in the order in which the visitor is applied to
them (the node, then the subtrees of its children from left to right). -/
def dfs_helper (look : Addr → Option (Ident × List Addr)) : Nat → Addr → Option (List Addr)
  | 0, _ => none
  | fuel + 1, node =>
    match look node with
    | none => none
    | some (_, children) =>
      children.foldlM
        (fun visited c => (dfs_helper look fuel c).map (fun sub => visited ++ sub))
        [node]

/-- Models `tree_traverse_dfs`: the nodes in visiting order. -/
def tree_traverse_dfs (fuel : Nat) (ctx : TreeContext) : Option (List Addr) :=
  match ctx.root with
  | none => some []
  | some r => dfs_helper (tree_look ctx) fuel r

/-- Models the visitor `save_node`: the record written for the node at an address. -/
def save_node (ctx : TreeContext) (node : Addr) : Option NodeState :=
  match load ctx.heap node with
  | none => none
  | some n =>
    match n.parent with
    | none =>
      some { id := String.mk (n.id.toList.take 63), parent_id := "",
             creation_time := n.creation_time, is_root := n.is_root,
             is_active := n.is_active, child_count := n.children.length }
    | some p =>
      match load ctx.heap p with
      | none => none
      | some pn =>
        some { id := String.mk (n.id.toList.take 63),
               parent_id := String.mk (pn.id.toList.take 63),
               creation_time := n.creation_time, is_root := n.is_root,
               is_active := n.is_active, child_count := n.children.length }

/-- The second traversal of `state_save`: `save_node` applied to the visited nodes in
order, giving the records written. -/
def save_nodes (ctx : TreeContext) : List Addr → Option (List NodeState)
  | [] => some []
  | node :: rest =>
    match save_node ctx node, save_nodes ctx rest with
    | some s, some records => some (s :: records)
    | _, _ => none

/-- Models `fread(buffer, 1, n, file)` at offset `pos` of a stream: the bytes transferred.
A stream opened with mode `"wb"` is write-only and transfers nothing. -/
def fread_bytes (readable : Bool) (file : List Nat) (pos n : Nat) : List Nat :=
  if readable then (file.drop pos).take n else []

/-- The loop `while ((bytes = fread(buffer, 1, STATE_BUFFER_SIZE, file)) > 0)
checksum ^= calculate_checksum(buffer, bytes);` started at offset `pos`. The first argument
bounds the number of passes; the file length is enough, as every pass consumes a byte. -/
def checksum_loop (readable : Bool) (file : List Nat) : Nat → Nat → Nat → Nat
  | 0, _, checksum => checksum
  | passes + 1, pos, checksum =>
    let buffer := fread_bytes readable file pos STATE_BUFFER_SIZE
    if buffer.length = 0 then checksum
    else checksum_loop readable file passes (pos + buffer.length)
      (checksum ^^^ calculate_checksum buffer)

/-- Models `state_save`: the returned flag, the context afterwards and the bytes of the file
written. The stream is opened with `"wb"`, so the checksum loop reads from a write-only
stream. `now` is the clock reading. -/
def state_save (fuel : Nat) (ctx : StateContext) (tree : TreeContext) (now : Nat) :
    Option (Bool × StateContext × List Nat) :=
  match tree_traverse_dfs fuel tree with
  | none => none
  | some counted =>
    let header1 := { ctx.header with node_count := counted.length, timestamp := now }
    match tree_traverse_dfs fuel tree with
    | none => none
    | some visited =>
      match save_nodes tree visited with
      | none => none
      | some records =>
        let file1 := encode_header header1 ++ (records.map encode_node_state).flatten
        let checksum := checksum_loop false file1 file1.length HEADER_SIZE 0
        let header2 := { header1 with checksum := checksum }
        let file2 := encode_header header2 ++ file1.drop HEADER_SIZE
        some (true, { ctx with header := header2 }, file2)

/-- Models `state_verify_checksum` on the bytes of the file named by the context; the stream
is opened with `"rb"`. -/
def state_verify_checksum (ctx : StateContext) (file : List Nat) : Bool :=
  checksum_loop true file file.length HEADER_SIZE 0 == ctx.header.checksum

/-- The body of the loop "Read nodes" of `state_load` for one record that was read in full:
`tree_create_node` under the record's `parent_id`, then, when a node was returned, the
copy of `id` (`strncpy` of at most 63 characters), `creation_time`, `is_root` and
`is_active` into it. A `NULL` result is skipped. -/
def state_load_record (MAX_CHILDREN fuel now : Nat) (state : NodeState)
    (tree : TreeContext) : Option TreeContext :=
  match tree_create_node MAX_CHILDREN fuel tree now (some state.parent_id) with
  | none => none
  | some (none, tree1) => some tree1
  | some (some node, tree1) =>
    match load tree1.heap node with
    | none => none
    | some n =>
      let restored : TreeNode :=
        { n with id := String.mk (state.id.toList.take 63),
                 creation_time := state.creation_time,
                 is_root := state.is_root, is_active := state.is_active }
      some { tree1 with heap := store tree1.heap node restored }

/-- The loop "Read nodes" of `state_load`: `count` records are still to be read, the next
one at offset `pos`. The flag is false when a record could not be read in full. -/
def state_load_nodes (MAX_CHILDREN fuel now : Nat) (file : List Nat) :
    Nat → Nat → TreeContext → Option (Bool × TreeContext)
  | 0, _, tree => some (true, tree)
  | count + 1, pos, tree =>
    let bytes := fread_bytes true file pos NODE_STATE_SIZE
    if bytes.length < NODE_STATE_SIZE then some (false, tree)
    else
      match state_load_record MAX_CHILDREN fuel now (decode_node_state bytes) tree with
      | none => none
      | some tree1 =>
        state_load_nodes MAX_CHILDREN fuel now file count (pos + NODE_STATE_SIZE) tree1

/-- Models `state_load`: the returned flag, the context and the tree afterwards. -/
def state_load (MAX_CHILDREN fuel now : Nat) (ctx : StateContext) (file : List Nat)
    (tree : TreeContext) : Option (Bool × StateContext × TreeContext) :=
  let bytes := fread_bytes true file 0 HEADER_SIZE
  if bytes.length < HEADER_SIZE then some (false, ctx, tree)
  else
    let header := decode_header bytes
    if header.magic ≠ STATE_MAGIC ∨ header.version > STATE_VERSION then
      some (false, ctx, tree)
    else
      match state_load_nodes MAX_CHILDREN fuel now file header.node_count HEADER_SIZE tree with
      | none => none
      | some (ok, tree1) => some (ok, { ctx with header := header }, tree1)

/-- The snapshot scenario: `state_save` of the three-node tree `node_7_0 -> node_7_1,
node_7_2` through a context created at clock reading 5, saved at clock reading 9. -/
def snapshot_scenario : Option (Bool × StateContext × List Nat) :=
  state_save 10 (state_create 5) (binary_ctx 3 3) 9

/-- The bytes of the file the snapshot scenario writes: a 40-byte header and three
152-byte records. -/
def snapshot_file : List Nat :=
  match snapshot_scenario with
  | some r => r.2.2
  | none => []

/-- The context the snapshot scenario leaves. -/
def snapshot_ctx : StateContext :=
  match snapshot_scenario with
  | some r => r.2.1
  | none => state_create 5

/-- No node is listed twice among the children of one node, and no node is listed among the
children of two different nodes. -/
def UniqueParents (look : Addr → Option (Ident × List Addr)) : Prop :=
  (∀ a nid children, look a = some (nid, children) → children.Nodup) ∧
  (∀ a b na nb ka kb c, look a = some (na, ka) → look b = some (nb, kb) →
    c ∈ ka → c ∈ kb → a = b)

/-- A tree.c context whose pointer graph is a tree with consistent parent pointers: it is
tree-shaped, the root has no parent, no children array lists a node twice, and every node
listed as a child points back to the node that lists it. -/
def TreeProper (ctx : TreeContext) : Prop :=
  TreeShaped (tree_look ctx) ctx.root ∧
  (∀ r n, ctx.root = some r → load ctx.heap r = some n → n.parent = none) ∧
  (∀ a n, load ctx.heap a = some n →
    n.children.Nodup ∧ ∀ c ∈ n.children, ∃ m, load ctx.heap c = some m ∧ m.parent = some a)

/-- A checkable form of the parent-pointer conditions of `TreeProper`. -/
def proper_check (ctx : TreeContext) : Bool :=
  (match ctx.root with
   | none => true
   | some r =>
     match load ctx.heap r with
     | none => true
     | some n => n.parent.isNone) &&
  (List.range ctx.heap.length).all (fun a =>
    match load ctx.heap a with
    | none => true
    | some n =>
      decide n.children.Nodup &&
      n.children.all (fun c =>
        match load ctx.heap c with
        | none => false
        | some m => decide (m.parent = some a)))

/-- Every node of a visiting order except the first is a child of a node visited before
it. -/
def ParentFirst (look : Addr → Option (Ident × List Addr)) (l : List Addr) : Prop :=
  ∀ pre c post, l = pre ++ c :: post → pre ≠ [] →
    ∃ p ∈ pre, ∃ nid children, look p = some (nid, children) ∧ c ∈ children

/-- The record `save_node` writes for the node at address `a`, field by field: the node's id
(at most 63 characters), creation time, flags and child count, and as `parent_id` the id of
the node its parent pointer refers to, or the empty string when it has no parent. -/
def RecordOf (ctx : TreeContext) (a : Addr) (r : NodeState) : Prop :=
  ∃ n, load ctx.heap a = some n ∧
    r.id = String.mk (n.id.toList.take 63) ∧
    r.creation_time = n.creation_time ∧ r.is_root = n.is_root ∧
    r.is_active = n.is_active ∧ r.child_count = n.children.length ∧
    ((n.parent = none ∧ r.parent_id = "") ∨
     (∃ p pn, n.parent = some p ∧ load ctx.heap p = some pn ∧
       r.parent_id = String.mk (pn.id.toList.take 63)))

/-! ## Histories of the phantom tree -/

/-- One call of a history of the phantom tree. -/
inductive PhantomCall where
  | insert (account : PhantomAccount) (parent_id : Option Ident)
  | delete (id : Ident)
  deriving DecidableEq, Repr

/-- A tree together with the number of `phantom_tree_insert` calls that returned a node and
the number of `phantom_tree_delete` calls that returned true so far. -/
structure PhantomTrace where
  tree : PhantomTree
  inserts : Nat
  deletes : Nat
  deriving DecidableEq, Repr

/-- The history of the tree `phantom_tree_init` leaves. -/
def trace_init : PhantomTrace :=
  { tree := phantom_tree_init, inserts := 0, deletes := 0 }

/-- Makes one call, with its lock calls let through, and counts it when it succeeds. -/
def trace_call (MAX_CHILDREN : Nat) (fuel : Nat) (s : PhantomTrace) :
    PhantomCall → Option PhantomTrace
  | PhantomCall.insert account parent_id =>
    match phantom_tree_insert MAX_CHILDREN fuel s.tree account parent_id with
    | none => none
    | some (none, t) => some { tree := t, inserts := s.inserts, deletes := s.deletes }
    | some (some _, t) => some { tree := t, inserts := s.inserts + 1, deletes := s.deletes }
  | PhantomCall.delete id =>
    match phantom_tree_delete fuel s.tree id with
    | none => none
    | some (false, t) => some { tree := t, inserts := s.inserts, deletes := s.deletes }
    | some (true, t) => some { tree := t, inserts := s.inserts, deletes := s.deletes + 1 }

/-- Makes the calls of a list in turn, with their lock calls let through. -/
def trace_run (MAX_CHILDREN : Nat) (fuel : Nat) :
    PhantomTrace → List PhantomCall → Option PhantomTrace
  | s, [] => some s
  | s, call :: rest =>
    match trace_call MAX_CHILDREN fuel s call with
    | none => none
    | some s1 => trace_run MAX_CHILDREN fuel s1 rest

/-- The addresses of the allocated cells of a memory, in increasing order. -/
def live_cells {α : Type} (h : List (Option α)) : List Addr :=
  (List.range h.length).filter (fun a => (load h a).isSome)

/-- Well-formedness of a phantom tree: the allocated nodes are exactly those reachable from
the root; the root is the one node without a parent and carries `is_root`; no children array
lists a node twice; every listed child is allocated and points back to the node listing it;
and there is a height function that decreases along child pointers. -/
def PhantomWF (t : PhantomTree) : Prop :=
  (∀ a, (load t.heap a).isSome = true ↔ Reachable (phantom_look t) t.root a) ∧
  (∀ a n, load t.heap a = some n →
    (n.parent = none ↔ t.root = some a) ∧ (t.root = some a → n.is_root = true)) ∧
  (∀ a n, load t.heap a = some n →
    n.children.Nodup ∧ ∀ c ∈ n.children, ∃ m, load t.heap c = some m ∧ m.parent = some a) ∧
  (∃ rank : Addr → Nat, ∀ a n, load t.heap a = some n → ∀ c ∈ n.children, rank c < rank a)

/-- The invariant of histories: the tree is well-formed, the allocated nodes number the
successful inserts less the successful deletes, and so does the size counter as long as the
number of inserts fits in a `size_t`. -/
def TraceInv (s : PhantomTrace) : Prop :=
  PhantomWF s.tree ∧
  (live_cells s.tree.heap).length + s.deletes = s.inserts ∧
  (s.inserts ≤ SIZE_MAX → s.tree.total_nodes + s.deletes = s.inserts)

/-! ## Loading a snapshot record by record -/

/-- An identifier that a 64-byte `char` array holds unchanged: at most 63 characters, each
of them a single byte other than NUL. -/
def ident_ok (s : Ident) : Bool :=
  decide (s.toList.length ≤ 63) &&
  s.toList.all (fun c => decide (0 < c.toNat) && decide (c.toNat < 256))

/-- The loop "Read nodes" of `state_load` on records that were read in full. -/
def state_load_records (MAX_CHILDREN fuel now : Nat) :
    List NodeState → TreeContext → Option TreeContext
  | [], tree => some tree
  | state :: rest, tree =>
    match state_load_record MAX_CHILDREN fuel now state tree with
    | none => none
    | some tree1 => state_load_records MAX_CHILDREN fuel now rest tree1

/-- The node `u` occurs before the node `v` in the visiting order `l`. -/
def Before (l : List Addr) (u v : Addr) : Prop :=
  ∃ l1 l2, l = l1 ++ v :: l2 ∧ u ∈ l1

/-- What the loading loop uses of the saved tree `src` and of the order in which its nodes
were written: the order has no repetition and at most `QUEUE_SIZE` entries, its nodes are
allocated, it starts with the root, every later node follows a node listing it, siblings
occur in the order of the children array, children arrays are without repetition and point
back, the order is closed under children, identifiers are pairwise distinct, and
identifiers, times and child counts fit their fields. -/
structure SourceFacts (MAX_CHILDREN : Nat) (src : TreeContext) (order : List Addr) : Prop where
  nodup : order.Nodup
  small : order.length ≤ QUEUE_SIZE
  alloc : ∀ x ∈ order, ∃ n, load src.heap x = some n
  root_first : ∀ x rest, order = x :: rest → src.root = some x
  root_parent : ∀ x n, src.root = some x → load src.heap x = some n → n.parent = none
  parent_first : ParentFirst (tree_look src) order
  siblings : ∀ x n, x ∈ order → load src.heap x = some n →
    ∀ k1 u k2, n.children = k1 ++ u :: k2 → ∀ c ∈ k1, Before order c u
  kids : ∀ a n, load src.heap a = some n →
    n.children.Nodup ∧ ∀ c ∈ n.children, ∃ m, load src.heap c = some m ∧ m.parent = some a
  closed : ∀ x n, x ∈ order → load src.heap x = some n → ∀ c ∈ n.children, c ∈ order
  ids : ∀ x y nx ny, x ∈ order → y ∈ order → load src.heap x = some nx →
    load src.heap y = some ny → nx.id = ny.id → x = y
  storable : ∀ x n, x ∈ order → load src.heap x = some n →
    ident_ok n.id = true ∧ n.creation_time ≤ SIZE_MAX ∧ n.children.length ≤ MAX_CHILDREN

/-- The cell `n2` that the loading loop holds for the node `x` with record `n` once the
nodes `done` were read: it carries the identifier, time and flags of `n`, the image of its
parent, and the images of those of its children that are in `done`, in the order of the
children array. -/
def ImageCell (MAX_CHILDREN : Nat) (done : List Addr) (σ : Addr → Addr) (x : Addr)
    (n n2 : TreeNode) : Prop :=
  n2.id = n.id ∧ n2.creation_time = n.creation_time ∧ n2.is_root = n.is_root ∧
  n2.is_active = n.is_active ∧ n2.max_children = MAX_CHILDREN ∧
  ((n.parent = none ∧ n2.parent = none) ∨
   (∃ q ∈ done, n.parent = some q ∧ n2.parent = some (σ q) ∧ σ q < σ x)) ∧
  n2.children = (n.children.filter (fun c => decide (c ∈ done))).map σ

/-- The state of the loading loop after the records of the nodes `done` were read into
`dst`: `σ` numbers the nodes of `done` in the order of their allocation, every cell of `dst`
is the image of one of them and reachable, and the cell of every node of `done` is its
`ImageCell`. -/
def LoadInv (MAX_CHILDREN : Nat) (src : TreeContext) (done : List Addr) (dst : TreeContext)
    (σ : Addr → Addr) : Prop :=
  dst.heap.length = done.length ∧
  (done = [] → dst.root = none) ∧
  (∀ x rest, done = x :: rest → dst.root = some 0 ∧ σ x = 0) ∧
  (∀ x ∈ done, σ x < done.length) ∧
  (∀ x ∈ done, ∀ y ∈ done, σ x = σ y → x = y) ∧
  (∀ a, a < done.length → ∃ x ∈ done, σ x = a) ∧
  (∀ x ∈ done, Reachable (tree_look dst) dst.root (σ x)) ∧
  (∀ x ∈ done, ∀ n, load src.heap x = some n →
    ∃ n2, load dst.heap (σ x) = some n2 ∧ ImageCell MAX_CHILDREN done σ x n n2)

/-- The tree `dst` is the tree `src` with the nodes reachable from the root renamed by `σ`:
the allocated nodes of `dst` are the images of the reachable nodes of `src`, different nodes
have different images, and the image of a node carries its identifier, creation time and
flags, the image of its parent and the images of its children in the same order. -/
def SameTree (src dst : TreeContext) (σ : Addr → Addr) : Prop :=
  dst.root = src.root.map σ ∧
  (∀ a, (load dst.heap a).isSome = true ↔
    ∃ x, Reachable (tree_look src) src.root x ∧ σ x = a) ∧
  (∀ x y, Reachable (tree_look src) src.root x → Reachable (tree_look src) src.root y →
    σ x = σ y → x = y) ∧
  (∀ x n, Reachable (tree_look src) src.root x → load src.heap x = some n →
    ∃ n2, load dst.heap (σ x) = some n2 ∧ n2.id = n.id ∧
      n2.creation_time = n.creation_time ∧ n2.is_root = n.is_root ∧
      n2.is_active = n.is_active ∧ n2.parent = n.parent.map σ ∧
      n2.children = n.children.map σ)

/-- The identifiers of the nodes reachable from the root are pairwise distinct. -/
def DistinctIds (ctx : TreeContext) : Prop :=
  ∀ a b na nb, Reachable (tree_look ctx) ctx.root a → Reachable (tree_look ctx) ctx.root b →
    load ctx.heap a = some na → load ctx.heap b = some nb → na.id = nb.id → a = b

/-- Every node reachable from the root has an identifier that a 64-byte array holds, a
creation time within 64 bits, and at most `MAX_CHILDREN` children. -/
def Storable (MAX_CHILDREN : Nat) (ctx : TreeContext) : Prop :=
  ∀ a n, Reachable (tree_look ctx) ctx.root a → load ctx.heap a = some n →
    ident_ok n.id = true ∧ n.creation_time ≤ SIZE_MAX ∧ n.children.length ≤ MAX_CHILDREN

/-- At most `k` nodes are reachable from the root. -/
def AtMostNodes (ctx : TreeContext) (k : Nat) : Prop :=
  ∀ nodes : List Addr, nodes.Nodup →
    (∀ a ∈ nodes, Reachable (tree_look ctx) ctx.root a) → nodes.length ≤ k

/-- Whether two cells hold nodes with different identifiers (true when one is empty). -/
def cells_differ (c1 c2 : Option TreeNode) : Bool :=
  match c1, c2 with
  | some n1, some n2 => n1.id != n2.id
  | _, _ => true

/-- A checkable sufficient condition for `DistinctIds`: no two allocated nodes share an
identifier. -/
def distinct_ids_check (ctx : TreeContext) : Bool :=
  decide (ctx.heap.Pairwise (fun c1 c2 => cells_differ c1 c2 = true))

/-- A checkable sufficient condition for `Storable`: every allocated node has a storable
identifier, a creation time within 64 bits and at most `MAX_CHILDREN` children. -/
def storable_check (MAX_CHILDREN : Nat) (ctx : TreeContext) : Bool :=
  (List.range ctx.heap.length).all (fun a =>
    match load ctx.heap a with
    | none => true
    | some n =>
      ident_ok n.id && decide (n.creation_time ≤ SIZE_MAX) &&
        decide (n.children.length ≤ MAX_CHILDREN))

/-- The tree that seven `tree_create_node` calls and one `tree_delete_node` call leave, with
`MAX_CHILDREN = 3` at clock reading 7: the root `node_7_0` with the children `node_7_2`,
`node_7_3`, `node_7_4`, of which `node_7_2` has the child `node_7_6` and `node_7_3` the
child `node_7_5`. -/
def round_trip_tree : TreeContext :=
  match tree_create_all 3 50 7 (tree_create 0)
      [none, some "node_7_0", some "node_7_0", some "node_7_1", some "node_7_1",
       some "node_7_3", some "node_7_2"] with
  | none => tree_create 0
  | some t =>
    match tree_delete_node 50 t "node_7_1" with
    | some (true, t2) => t2
    | _ => tree_create 0

/-- Only the root of a phantom tree carries `is_root`. -/
def RootFlag (t : PhantomTree) : Prop :=
  ∀ a n, load t.heap a = some n → n.is_root = true → t.root = some a

/-- The children arrays of the nodes of one level, one after the other in the order of the
level: the next level. -/
def next_level (look : Addr → Option (Ident × List Addr)) (cur : List Addr) : List Addr :=
  (cur.map (fun a =>
    match look a with
    | some (_, children) => children
    | none => [])).flatten

/-- Breadth-first order in the words of the specification: the first `k` levels from the
level `cur` on, one level after the other, each level in left-to-right order of the parents
and of each parent's children. -/
def level_order (look : Addr → Option (Ident × List Addr)) : Nat → List Addr → List Addr
  | 0, _ => []
  | k + 1, cur => cur ++ level_order look k (next_level look cur)

/-- The relation between a node and each of its children, over the child lists that
`get_depth_helper` reads. -/
def ChildOf (kids : Addr → Option (List Addr)) (a b : Addr) : Prop :=
  ∃ children, kids a = some children ∧ b ∈ children

/-- The number `d` is the number of nodes on the longest path from `r` down to a leaf: some
path that starts at `r`, follows child pointers and ends in a node without children has `d`
nodes, and no path that starts at `r` and follows child pointers has more. -/
def LongestPath (kids : Addr → Option (List Addr)) (r : Addr) (d : Nat) : Prop :=
  (∃ path leaf, path.head? = some r ∧ List.Chain' (ChildOf kids) path ∧
    path.getLast? = some leaf ∧ kids leaf = some [] ∧ path.length = d) ∧
  ∀ path, path.head? = some r → List.Chain' (ChildOf kids) path → path.length ≤ d

/-- The child lists of a tree.c context. -/
def tree_kids (ctx : TreeContext) (a : Addr) : Option (List Addr) :=
  (load ctx.heap a).map (fun n => n.children)

/-- The tree of `test_tree_relationships` before the grandchild is added: a root with two
children (`MAX_CHILDREN = 3`, clock reading 7). -/
def two_level_ctx : TreeContext :=
  match tree_create_all 3 50 7 (tree_create 0) [none, some "node_7_0", some "node_7_0"] with
  | some t => t
  | none => tree_create 0

/-- The tree of `test_tree_relationships`: a root with two children, the first of which has
one child (`MAX_CHILDREN = 3`, clock reading 7). -/
def three_level_ctx : TreeContext :=
  match tree_create_all 3 50 7 (tree_create 0)
      [none, some "node_7_0", some "node_7_0", some "node_7_1"] with
  | some t => t
  | none => tree_create 0

/-! ## phantomid.c: the create command -/

/-- The fields of `PhantomDaemon` that the create command reads or writes, together with the
tree the daemon points to. The counters are incremented only below `max_admins`, so they are
kept as numbers without a width. -/
structure PhantomDaemon where
  tree : PhantomTree
  current_admin_count : Nat
  max_admins : Nat
  deriving DecidableEq, Repr

/-- Models the state `phantom_init` sets up: `memset` clears `current_admin_count`,
`max_admins` is set to 5, and `phantom_tree_init` makes the empty tree. -/
def phantom_init : PhantomDaemon :=
  { tree := phantom_tree_init, current_admin_count := 0, max_admins := 5 }

/-- Models the effect on the data of the branch of `phantom_on_client_data` for a create
command, with every lock call let through. The account is what `generate_seed`,
`generate_id` and `time` have filled in; `parent_id` is the zeroed buffer, the empty
string. Returns the node `phantom_tree_insert` returned and the daemon afterwards. Under
the mutexes of the source the `phantom_tree_insert` of a command over the quota blocks on a
tree with a root: see `phantom_on_client_data_locked`. -/
def phantom_on_client_data (MAX_CHILDREN : Nat) (fuel : Nat) (phantom : PhantomDaemon)
    (account : PhantomAccount) : Option (Option Addr × PhantomDaemon) :=
  let parent_id : Ident := ""
  let is_root : Bool := decide (phantom.current_admin_count < phantom.max_admins)
  let count1 : Nat :=
    if is_root then phantom.current_admin_count + 1 else phantom.current_admin_count
  match phantom_tree_insert MAX_CHILDREN fuel phantom.tree account
      (if is_root then none else some parent_id) with
  | none => none
  | some (node, t) =>
    some (node, { tree := t, current_admin_count := count1, max_admins := phantom.max_admins })

/-- Handles one create command per account of the list, in turn; returns what each command's
`phantom_tree_insert` returned and the daemon at the end. -/
def create_all (MAX_CHILDREN : Nat) (fuel : Nat) :
    PhantomDaemon → List PhantomAccount → Option (List (Option Addr) × PhantomDaemon)
  | s, [] => some ([], s)
  | s, account :: rest =>
    match phantom_on_client_data MAX_CHILDREN fuel s account with
    | none => none
    | some (node, s1) =>
      match create_all MAX_CHILDREN fuel s1 rest with
      | none => none
      | some (nodes, s2) => some (node :: nodes, s2)

/-- No allocated node carries the empty identifier. -/
def NoEmptyId (t : PhantomTree) : Prop :=
  ∀ a n, load t.heap a = some n → n.account.id ≠ ""

/-- Seven accounts with the identifiers `a1` .. `a7`. -/
def seven_accounts : List PhantomAccount :=
  [account_of "a1", account_of "a2", account_of "a3", account_of "a4", account_of "a5",
   account_of "a6", account_of "a7"]

/-- The daemon after five create commands with `MAX_CHILDREN = 10`: the quota is used up. -/
def full_daemon : PhantomDaemon :=
  match create_all 10 10 phantom_init (seven_accounts.take 5) with
  | some (_, s) => s
  | none => phantom_init

/-- A checkable form of `NoEmptyId`. -/
def no_empty_id_check (t : PhantomTree) : Bool :=
  t.heap.all (fun cell =>
    match cell with
    | some n => decide (n.account.id ≠ "")
    | none => true)

/-- The sum the specification gives for the checksum of `b_0 .. b_(n-1)`: the sum over `i`
of `b_i * 33^(n-1-i)`. -/
def weighted_sum (data : List Nat) : Nat :=
  ((List.range data.length).map (fun i => data.getD i 0 * 33 ^ (data.length - 1 - i))).sum

/-- The iteration the specification gives for the checksum: start from 0 and replace the
checksum by `checksum * 33 + byte` in 32-bit unsigned arithmetic, byte after byte. -/
def multiply_add_checksum (data : List Nat) : Nat :=
  data.foldl (fun checksum byte => (checksum * 33 + byte) % U32_MOD) 0

/-! ## phantomid.c: lock events -/

/-- The mutexes of phantomid.c: the `tree_lock` of the tree and the `node_lock` of the node
at an address. All of them are initialised with `pthread_mutex_init(.., NULL)`: they are
not recursive. -/
inductive Mutex where
  | tree_lock
  | node_lock (node : Addr)
  deriving DecidableEq, Repr

/-- A call of `pthread_mutex_lock` or of `pthread_mutex_unlock`. -/
inductive LockEvent where
  | lock (m : Mutex)
  | unlock (m : Mutex)
  deriving DecidableEq, Repr

/-- The loop of `phantom_tree_find` with its lock calls: the calls in program order, written
down as if each of them returned, and the node found. -/
def bfs_find_events (look : Addr → Option (Ident × List Addr)) (id : Ident) :
    Nat → NodeQueue → Option (List LockEvent × Option Addr)
  | fuel, q =>
    match queue_pop q with
    | none => some ([], none)
    | some (node, q1) =>
      match fuel with
      | 0 => none
      | fuel1 + 1 =>
        match look node with
        | none => none
        | some (node_id, children) =>
          if node_id = id then
            some ([LockEvent.lock (Mutex.node_lock node),
                   LockEvent.unlock (Mutex.node_lock node)], some node)
          else
            (bfs_find_events look id fuel1 (push_children q1 children)).map
              (fun out =>
                (LockEvent.lock (Mutex.node_lock node) ::
                  LockEvent.unlock (Mutex.node_lock node) :: out.1, out.2))

/-- The lock calls of `phantom_tree_find` in program order, and the node it returns. -/
def phantom_tree_find_events (fuel : Nat) (t : PhantomTree) (id : Ident) :
    Option (List LockEvent × Option Addr) :=
  match t.root with
  | none => some ([LockEvent.lock Mutex.tree_lock, LockEvent.unlock Mutex.tree_lock], none)
  | some r =>
    (bfs_find_events (phantom_look t) id fuel (queue_push queue_init r).2).map
      (fun out =>
        ([LockEvent.lock Mutex.tree_lock] ++ out.1 ++ [LockEvent.unlock Mutex.tree_lock],
         out.2))

/-- The lock calls of `phantom_tree_insert` in program order, written down as if each of
them returned. With a parent identifier the calls of `phantom_tree_find` come right after
the call that takes `tree_lock`. -/
def phantom_tree_insert_events (fuel : Nat) (t : PhantomTree) (parent_id : Option Ident) :
    Option (List LockEvent) :=
  match t.root with
  | none => some [LockEvent.lock Mutex.tree_lock, LockEvent.unlock Mutex.tree_lock]
  | some r =>
    match (match parent_id with
           | some pid => phantom_tree_find_events fuel t pid
           | none => some ([], some r)) with
    | none => none
    | some (found, none) =>
      some ([LockEvent.lock Mutex.tree_lock] ++ found ++ [LockEvent.unlock Mutex.tree_lock])
    | some (found, some parent) =>
      some ([LockEvent.lock Mutex.tree_lock] ++ found ++
        [LockEvent.lock (Mutex.node_lock parent), LockEvent.unlock (Mutex.node_lock parent),
         LockEvent.unlock Mutex.tree_lock])

/-- The lock calls of `phantom_tree_delete` in program order, written down as if each of
them returned. -/
def phantom_tree_delete_events (fuel : Nat) (t : PhantomTree) (id : Ident) :
    Option (List LockEvent) :=
  match phantom_tree_find_events fuel t id with
  | none => none
  | some (found, none) =>
    some ([LockEvent.lock Mutex.tree_lock] ++ found ++ [LockEvent.unlock Mutex.tree_lock])
  | some (found, some node) =>
    match load t.heap node with
    | none => none
    | some n =>
      if n.is_root && decide (n.children.length > 0) then
        some ([LockEvent.lock Mutex.tree_lock] ++ found ++
          [LockEvent.lock (Mutex.node_lock node), LockEvent.unlock (Mutex.node_lock node),
           LockEvent.unlock Mutex.tree_lock])
      else
        let on_parent : List LockEvent :=
          match n.parent with
          | some p => [LockEvent.lock (Mutex.node_lock p), LockEvent.unlock (Mutex.node_lock p)]
          | none => []
        let on_children : List LockEvent :=
          (n.children.map (fun c =>
            [LockEvent.lock (Mutex.node_lock c)] ++ on_parent ++
              [LockEvent.unlock (Mutex.node_lock c)])).flatten
        some ([LockEvent.lock Mutex.tree_lock] ++ found ++
          [LockEvent.lock (Mutex.node_lock node)] ++ on_parent ++ on_children ++
          [LockEvent.unlock (Mutex.node_lock node), LockEvent.unlock Mutex.tree_lock])

/-- Runs through lock calls with the mutexes held so far: the first mutex that a lock call
asks for while the same call sequence holds it. -/
def first_relock : List Mutex → List LockEvent → Option Mutex
  | _, [] => none
  | held, LockEvent.lock m :: rest =>
    if m ∈ held then some m else first_relock (m :: held) rest
  | held, LockEvent.unlock m :: rest => first_relock (held.erase m) rest

/-! ## interface/state.c -/

/-- The constant `MAGIC_NUMBER` of interface/state.c ("PHID"). -/
def Interface.MAGIC_NUMBER : Nat := 0x50484944

/-- The `StateHeader` of interface/state.h. -/
structure Interface.StateHeader where
  magic : Nat
  version : Nat
  flags : Nat
  timestamp : Nat
  checksum : Nat
  deriving DecidableEq, Repr

/-- The fields of the `StateContext` of interface/state.c that `save_state` and `load_state`
read or write; `cache` holds the `cache_size` bytes at `cache` (empty for `NULL`). -/
structure Interface.StateContext where
  header : Interface.StateHeader
  cache : List Nat
  deriving DecidableEq, Repr

/-- A file of the program-state interface: the header and the bytes that follow it. -/
structure Interface.StateFile where
  header : Interface.StateHeader
  data : List Nat
  deriving DecidableEq, Repr

/-- Models what `init_state_context` sets up; `now` is the clock reading. -/
def Interface.init_state_context (now : Nat) : Interface.StateContext :=
  { header := { magic := Interface.MAGIC_NUMBER, version := 1, flags := 0, timestamp := now,
                checksum := 0 }
    cache := [] }

/-- Models `save_state` of interface/state.c with every stream operation succeeding: the
returned flag, the context afterwards and the file written. The stream is opened with
`"wb"`, so the checksum loop reads from a write-only stream. -/
def Interface.save_state (ctx : Interface.StateContext) (now : Nat) :
    Bool × Interface.StateContext × Interface.StateFile :=
  let header1 := { ctx.header with timestamp := now, checksum := 0 }
  let data := ctx.cache
  let checksum := checksum_loop false data data.length 0 0
  let header2 := { header1 with checksum := checksum }
  (true, { header := header2, cache := ctx.cache }, { header := header2, data := data })

/-- Models `load_state` of interface/state.c: the returned flag and the context afterwards.
`fread(new_cache, file_size, 1, file)` returns 0 for `file_size = 0`. -/
def Interface.load_state (ctx : Interface.StateContext) (file : Interface.StateFile) :
    Bool × Interface.StateContext :=
  if file.header.magic ≠ Interface.MAGIC_NUMBER ∨ file.header.version > ctx.header.version then
    (false, ctx)
  else
    let file_size := file.data.length
    if file_size = 0 then (false, ctx)
    else
      let checksum := calculate_checksum file.data
      if checksum ≠ file.header.checksum then (false, ctx)
      else (true, { header := file.header, cache := file.data })

/-- The bytes of one `StateEntry` (88 bytes on LP64) with type `STATE_PROGRAM`, id `"a"`,
no data, and zeroed padding. -/
def entry_bytes : List Nat :=
  [0, 0, 0, 0, 97] ++ List.replicate 83 0

/-- A context as `init_state_context` leaves it at clock reading 7, with the one entry
`entry_bytes` in the cache. -/
def entry_ctx : Interface.StateContext :=
  { header := (Interface.init_state_context 7).header, cache := entry_bytes }

/-- A payload of 4097 bytes, one more than a chunk: 4095 zeros, a 1 and a 0. -/
def two_chunk_payload : List Nat :=
  List.replicate 4095 0 ++ [1, 0]

/-! ## phantomid.c: calls under the mutexes of the source

The definitions `phantom_tree_insert`, `phantom_tree_delete` and `phantom_on_client_data`
above give the effect of a call on the data, with every lock call let through. The
definitions here put the lock calls back: a call that asks for a mutex it already holds
does not return, because the mutexes of the source are not recursive. -/

/-- How a call ends under the mutexes of the source: it returns a value, or it waits for
ever for a mutex that the calling thread itself holds. A call that blocks has written
nothing yet: the first lock request that can block precedes every store. -/
inductive Outcome (α : Type) where
  | returned (value : α)
  | blocked (mutex : Mutex)
  deriving DecidableEq, Repr

/-- Models the call `phantom_tree_insert` with its lock calls: it blocks on the first mutex
it asks for while holding it, and otherwise returns what `phantom_tree_insert` computes. -/
def phantom_tree_insert_locked (MAX_CHILDREN : Nat) (fuel : Nat) (t : PhantomTree)
    (account : PhantomAccount) (parent_id : Option Ident) :
    Option (Outcome (Option Addr × PhantomTree)) :=
  match phantom_tree_insert_events fuel t parent_id with
  | none => none
  | some events =>
    match first_relock [] events with
    | some m => some (Outcome.blocked m)
    | none =>
      (phantom_tree_insert MAX_CHILDREN fuel t account parent_id).map Outcome.returned

/-- Models the call `phantom_tree_delete` with its lock calls: it blocks on the first mutex
it asks for while holding it, and otherwise returns what `phantom_tree_delete` computes. -/
def phantom_tree_delete_locked (fuel : Nat) (t : PhantomTree) (id : Ident) :
    Option (Outcome (Bool × PhantomTree)) :=
  match phantom_tree_delete_events fuel t id with
  | none => none
  | some events =>
    match first_relock [] events with
    | some m => some (Outcome.blocked m)
    | none => (phantom_tree_delete fuel t id).map Outcome.returned

/-- Models the branch of `phantom_on_client_data` for a create command with the lock calls
of the `phantom_tree_insert` it makes. -/
def phantom_on_client_data_locked (MAX_CHILDREN : Nat) (fuel : Nat) (phantom : PhantomDaemon)
    (account : PhantomAccount) : Option (Outcome (Option Addr × PhantomDaemon)) :=
  let parent_id : Ident := ""
  let is_root : Bool := decide (phantom.current_admin_count < phantom.max_admins)
  let count1 : Nat :=
    if is_root then phantom.current_admin_count + 1 else phantom.current_admin_count
  match phantom_tree_insert_locked MAX_CHILDREN fuel phantom.tree account
      (if is_root then none else some parent_id) with
  | none => none
  | some (Outcome.blocked m) => some (Outcome.blocked m)
  | some (Outcome.returned (node, t)) =>
    some (Outcome.returned
      (node, { tree := t, current_admin_count := count1, max_admins := phantom.max_admins }))

/-- Handles one create command per account of the list, in turn, until a command blocks:
what the commands that returned got from `phantom_tree_insert`, the daemon then, and the
mutex the blocked command waits for (`none` when every command returned). -/
def create_all_locked (MAX_CHILDREN : Nat) (fuel : Nat) :
    PhantomDaemon → List PhantomAccount →
      Option (List (Option Addr) × PhantomDaemon × Option Mutex)
  | s, [] => some ([], s, none)
  | s, account :: rest =>
    match phantom_on_client_data_locked MAX_CHILDREN fuel s account with
    | none => none
    | some (Outcome.blocked m) => some ([], s, some m)
    | some (Outcome.returned (node, s1)) =>
      match create_all_locked MAX_CHILDREN fuel s1 rest with
      | none => none
      | some (nodes, s2, m) => some (node :: nodes, s2, m)

/-- Makes one call of a history under the mutexes of the source and counts it when it
succeeds. -/
def trace_call_locked (MAX_CHILDREN : Nat) (fuel : Nat) (s : PhantomTrace) :
    PhantomCall → Option (Outcome PhantomTrace)
  | PhantomCall.insert account parent_id =>
    match phantom_tree_insert_locked MAX_CHILDREN fuel s.tree account parent_id with
    | none => none
    | some (Outcome.blocked m) => some (Outcome.blocked m)
    | some (Outcome.returned (none, t)) =>
      some (Outcome.returned { tree := t, inserts := s.inserts, deletes := s.deletes })
    | some (Outcome.returned (some _, t)) =>
      some (Outcome.returned { tree := t, inserts := s.inserts + 1, deletes := s.deletes })
  | PhantomCall.delete id =>
    match phantom_tree_delete_locked fuel s.tree id with
    | none => none
    | some (Outcome.blocked m) => some (Outcome.blocked m)
    | some (Outcome.returned (false, t)) =>
      some (Outcome.returned { tree := t, inserts := s.inserts, deletes := s.deletes })
    | some (Outcome.returned (true, t)) =>
      some (Outcome.returned { tree := t, inserts := s.inserts, deletes := s.deletes + 1 })

/-- Makes the calls of a list in turn under the mutexes of the source, until a call blocks:
the history then, and the mutex the blocked call waits for (`none` when every call
returned). After a call has blocked the thread makes no further call. -/
def trace_run_locked (MAX_CHILDREN : Nat) (fuel : Nat) :
    PhantomTrace → List PhantomCall → Option (PhantomTrace × Option Mutex)
  | s, [] => some (s, none)
  | s, call :: rest =>
    match trace_call_locked MAX_CHILDREN fuel s call with
    | none => none
    | some (Outcome.blocked m) => some (s, some m)
    | some (Outcome.returned s1) => trace_run_locked MAX_CHILDREN fuel s1 rest

/-- A history under the mutexes of the source: the root `R`, two children `A` and `B` given
without parent identifier, then an insert under `A` by identifier and a delete of `B`. -/
def locked_calls : List PhantomCall :=
  [PhantomCall.insert (account_of "R") none,
   PhantomCall.insert (account_of "A") none,
   PhantomCall.insert (account_of "B") none,
   PhantomCall.insert (account_of "G") (some "A"),
   PhantomCall.delete "B"]

/-- The history that `locked_calls` leaves with `MAX_CHILDREN = 3`: the root `R` with the
children `A` and `B`, three inserts counted. -/
def locked_scenario : PhantomTrace :=
  match trace_run_locked 3 10 trace_init locked_calls with
  | some (s, _) => s
  | none => trace_init

/-- The complete binary tree of 2002 nodes laid out level by level (`MAX_CHILDREN = 3`) in
which the last node, at address 2001, carries the identifier of the node at address 2000.
The field `id` is set from the file by `state_load` and can be written by any caller of
tree.h; nothing in tree.c keeps identifiers distinct. -/
def twin_ctx : TreeContext :=
  { heap := store (binary_ctx 3 2002).heap 2001
      { binary_node 3 2002 2001 with id := Tree.generate_node_id 7 2000 }
    root := (binary_ctx 3 2002).root
    total_nodes := (binary_ctx 3 2002).total_nodes
    id_counter := (binary_ctx 3 2002).id_counter }

/-! ## Memory lemmas -/

theorem load_lt {α : Type} {h : List (Option α)} {a : Nat} {v : α}
    (hl : load h a = some v) : a < h.length := by
  by_contra hc
  have hle : h.length ≤ a := Nat.le_of_not_lt hc
  simp [load, List.getD_eq_getElem?_getD, List.getElem?_eq_none hle] at hl

theorem load_store {α : Type} (h : List (Option α)) (a b : Nat) (v : α) :
    load (store h a v) b = if b = a ∧ a < h.length then some v else load h b := by
  unfold load store
  simp only [List.getD_eq_getElem?_getD, List.getElem?_set]
  by_cases hab : a = b
  · subst hab
    by_cases hlt : a < h.length
    · simp [hlt]
    · simp [hlt, List.getElem?_eq_none (Nat.le_of_not_lt hlt)]
  · have hba : ¬ b = a := fun e => hab e.symm
    simp [hab, hba]

theorem load_store_same {α : Type} {h : List (Option α)} {a : Nat} {w : α} (v : α)
    (hl : load h a = some w) : load (store h a v) a = some v := by
  rw [load_store]; simp [load_lt hl]

theorem load_store_ne {α : Type} (h : List (Option α)) {a b : Nat} (v : α)
    (hne : b ≠ a) : load (store h a v) b = load h b := by
  rw [load_store]; simp [hne]

theorem load_release {α : Type} (h : List (Option α)) (a b : Nat) :
    load (release h a) b = if b = a then none else load h b := by
  unfold load release
  simp only [List.getD_eq_getElem?_getD, List.getElem?_set]
  by_cases hab : a = b
  · subst hab
    by_cases hlt : a < h.length
    · simp [hlt]
    · simp [hlt, List.getElem?_eq_none (Nat.le_of_not_lt hlt)]
  · have hba : ¬ b = a := fun e => hab e.symm
    simp [hab, hba]

theorem load_append {α : Type} (h : List (Option α)) (x : Option α) (b : Nat) :
    load (h ++ [x]) b = if b = h.length then x else load h b := by
  unfold load
  simp only [List.getD_eq_getElem?_getD]
  by_cases hb : b < h.length
  · have hne : b ≠ h.length := Nat.ne_of_lt hb
    simp [List.getElem?_append_left hb, hne]
  · by_cases he : b = h.length
    · subst he; simp
    · have h1 : h.length < b := by omega
      have h2 : (h ++ [x]).length ≤ b := by
        rw [List.length_append, List.length_singleton]; omega
      simp [he, List.getElem?_eq_none h2, List.getElem?_eq_none (Nat.le_of_lt h1)]

theorem load_length {α : Type} (h : List (Option α)) : load h h.length = none := by
  cases hx : load h h.length with
  | none => rfl
  | some v => exact absurd (load_lt hx) (Nat.lt_irrefl _)

theorem length_store {α : Type} (h : List (Option α)) (a : Nat) (v : α) :
    (store h a v).length = h.length := by
  simp [store]

/-! ## The work queue and the search loop -/

theorem push_children_eq (q : List Nat) (children : List Nat) :
    push_children q children = q ++ children.take (QUEUE_SIZE - q.length) := by
  induction children generalizing q with
  | nil => simp [push_children]
  | cons c cs ih =>
    have hstep : push_children q (c :: cs) = push_children (queue_push q c).2 cs := rfl
    rw [hstep, ih]
    by_cases hq : q.length ≥ QUEUE_SIZE
    · have h0 : QUEUE_SIZE - q.length = 0 := Nat.sub_eq_zero_of_le hq
      simp [queue_push, hq, h0]
    · have hlt : q.length < QUEUE_SIZE := Nat.lt_of_not_le hq
      have h1 : QUEUE_SIZE - q.length = (QUEUE_SIZE - (q.length + 1)) + 1 := by omega
      simp [queue_push, hq, h1, List.take_succ_cons]

theorem bfs_find_nil (look : Addr → Option (Ident × List Addr)) (id : Ident) (fuel : Nat) :
    bfs_find look id fuel [] = some none := by
  unfold bfs_find; rfl

theorem bfs_find_zero (look : Addr → Option (Ident × List Addr)) (id : Ident)
    (a : Nat) (q : List Nat) : bfs_find look id 0 (a :: q) = none := by
  unfold bfs_find; rfl

theorem bfs_find_succ (look : Addr → Option (Ident × List Addr)) (id : Ident) (fuel : Nat)
    (a : Nat) (q : List Nat) :
    bfs_find look id (fuel + 1) (a :: q) =
      match look a with
      | none => none
      | some (node_id, children) =>
        if node_id = id then some (some a)
        else bfs_find look id fuel (push_children q children) := by
  conv => lhs; unfold bfs_find
  rfl

/-- More fuel never changes a result the search has already produced. -/
theorem bfs_find_mono (look : Addr → Option (Ident × List Addr)) (id : Ident) :
    ∀ (fuel : Nat) (q : List Nat) (r : Option Addr), bfs_find look id fuel q = some r →
      ∀ fuel2, fuel ≤ fuel2 → bfs_find look id fuel2 q = some r := by
  intro fuel
  induction fuel with
  | zero =>
    intro q r h fuel2 _
    cases q with
    | nil => rw [bfs_find_nil] at h ⊢; exact h
    | cons a q1 => rw [bfs_find_zero] at h; cases h
  | succ f ih =>
    intro q r h fuel2 hle
    cases q with
    | nil => rw [bfs_find_nil] at h ⊢; exact h
    | cons a q1 =>
      obtain ⟨g, rfl⟩ : ∃ g, fuel2 = g + 1 := ⟨fuel2 - 1, by omega⟩
      rw [bfs_find_succ] at h ⊢
      cases hl : look a with
      | none => rw [hl] at h; cases h
      | some pr =>
        obtain ⟨nid, kids⟩ := pr
        rw [hl] at h
        simp only at h ⊢
        by_cases hid : nid = id
        · rw [if_pos hid] at h ⊢; exact h
        · rw [if_neg hid] at h ⊢
          exact ih _ r h g (by omega)

/-- A node the search returns is reachable and carries the queried identifier. -/
theorem bfs_find_sound (look : Addr → Option (Ident × List Addr)) (root : Option Addr)
    (id : Ident) :
    ∀ (fuel : Nat) (q : List Nat) (d : Nat), (∀ a ∈ q, Reachable look root a) →
      bfs_find look id fuel q = some (some d) →
      Reachable look root d ∧ ∃ children, look d = some (id, children) := by
  intro fuel
  induction fuel with
  | zero =>
    intro q d _ h
    cases q with
    | nil => rw [bfs_find_nil] at h; cases h
    | cons a q1 => rw [bfs_find_zero] at h; cases h
  | succ f ih =>
    intro q d hq h
    cases q with
    | nil => rw [bfs_find_nil] at h; cases h
    | cons a q1 =>
      rw [bfs_find_succ] at h
      cases hl : look a with
      | none => rw [hl] at h; cases h
      | some pr =>
        obtain ⟨nid, kids⟩ := pr
        rw [hl] at h
        simp only at h
        by_cases hid : nid = id
        · rw [if_pos hid] at h
          have hda : a = d := by simpa using h
          subst hda
          exact ⟨hq a (List.mem_cons_self _ _), kids, by rw [hl, hid]⟩
        · rw [if_neg hid] at h
          refine ih _ d ?_ h
          intro b hb
          rw [push_children_eq] at hb
          rcases List.mem_append.mp hb with hb1 | hb2
          · exact hq b (List.mem_cons_of_mem _ hb1)
          · exact Reachable.child a b nid kids (hq a (List.mem_cons_self _ _)) hl
              (List.mem_of_mem_take hb2)

theorem queue_weight_append (rank : Addr → Nat) (q1 q2 : List Nat) :
    queue_weight rank (q1 ++ q2) = queue_weight rank q1 + queue_weight rank q2 := by
  simp [queue_weight]

theorem queue_weight_le (rank : Addr → Nat) (r : Nat) :
    ∀ l : List Nat, (∀ c ∈ l, rank c ≤ r) →
      queue_weight rank l ≤ l.length * (QUEUE_SIZE + 1) ^ r := by
  intro l
  induction l with
  | nil => intro _; simp [queue_weight]
  | cons c cs ih =>
    intro hc
    have h1 : (QUEUE_SIZE + 1) ^ rank c ≤ (QUEUE_SIZE + 1) ^ r :=
      Nat.pow_le_pow_right (by simp [QUEUE_SIZE]) (hc c (List.mem_cons_self _ _))
    have h2 := ih (fun x hx => hc x (List.mem_cons_of_mem _ hx))
    have h3 : queue_weight rank (c :: cs) =
        (QUEUE_SIZE + 1) ^ rank c + queue_weight rank cs := by
      simp [queue_weight]
    rw [h3, List.length_cons, Nat.add_mul, Nat.one_mul]
    omega

/-- The entries pushed for one node weigh less than the node itself. -/
theorem queue_weight_children_lt (rank : Addr → Nat) (r : Nat) (l : List Nat)
    (hlen : l.length ≤ QUEUE_SIZE) (hc : ∀ c ∈ l, rank c < r) :
    queue_weight rank l < (QUEUE_SIZE + 1) ^ r := by
  cases r with
  | zero =>
    cases l with
    | nil => simp [queue_weight]
    | cons c cs => exact absurd (hc c (List.mem_cons_self _ _)) (Nat.not_lt_zero _)
  | succ r1 =>
    have h1 := queue_weight_le rank r1 l (fun c hcl => Nat.le_of_lt_succ (hc c hcl))
    have h2 : l.length * (QUEUE_SIZE + 1) ^ r1 ≤ QUEUE_SIZE * (QUEUE_SIZE + 1) ^ r1 :=
      Nat.mul_le_mul_right _ hlen
    have h3 : 0 < (QUEUE_SIZE + 1) ^ r1 := by positivity
    have h4 : (QUEUE_SIZE + 1) ^ (r1 + 1) =
        QUEUE_SIZE * (QUEUE_SIZE + 1) ^ r1 + (QUEUE_SIZE + 1) ^ r1 := by
      rw [Nat.pow_succ, Nat.mul_comm, Nat.add_mul, Nat.one_mul]
    omega

/-- On a tree-shaped graph in which no reachable node carries the identifier, the search
loop ends with "not found" as soon as the fuel exceeds the weight of the queue. -/
theorem bfs_find_none_of_no_match (look : Addr → Option (Ident × List Addr))
    (root : Option Addr) (id : Ident) (rank : Addr → Nat)
    (hrank : ∀ a nid children, look a = some (nid, children) →
      ∀ c ∈ children, (look c).isSome = true ∧ rank c < rank a)
    (hno : ∀ a nid children, Reachable look root a → look a = some (nid, children) → nid ≠ id) :
    ∀ (n : Nat) (q : List Nat), queue_weight rank q < n →
      (∀ a ∈ q, Reachable look root a ∧ (look a).isSome = true) →
      ∀ fuel, n ≤ fuel → bfs_find look id fuel q = some none := by
  intro n
  induction n with
  | zero => intro q hw; exact absurd hw (Nat.not_lt_zero _)
  | succ m ih =>
    intro q hw hq fuel hfuel
    cases q with
    | nil => exact bfs_find_nil look id fuel
    | cons a q1 =>
      obtain ⟨g, rfl⟩ : ∃ g, fuel = g + 1 := ⟨fuel - 1, by omega⟩
      rw [bfs_find_succ]
      obtain ⟨hra, hsa⟩ := hq a (List.mem_cons_self _ _)
      cases hl : look a with
      | none => rw [hl] at hsa; cases hsa
      | some pr =>
        obtain ⟨nid, kids⟩ := pr
        simp only
        rw [if_neg (hno a nid kids hra hl)]
        apply ih _ _ _ g (by omega)
        · rw [push_children_eq, queue_weight_append]
          have hk : queue_weight rank (kids.take (QUEUE_SIZE - q1.length)) <
              (QUEUE_SIZE + 1) ^ rank a := by
            apply queue_weight_children_lt
            · rw [List.length_take]; exact Nat.le_trans (Nat.min_le_left _ _) (Nat.sub_le _ _)
            · intro c hc
              exact (hrank a nid kids hl c (List.mem_of_mem_take hc)).2
          have hq0 : queue_weight rank (a :: q1) =
              (QUEUE_SIZE + 1) ^ rank a + queue_weight rank q1 := by
            simp [queue_weight]
          rw [hq0] at hw
          omega
        · intro b hb
          rw [push_children_eq] at hb
          rcases List.mem_append.mp hb with hb1 | hb2
          · exact hq b (List.mem_cons_of_mem _ hb1)
          · have hbk := List.mem_of_mem_take hb2
            exact ⟨Reachable.child a b nid kids hra hl hbk, (hrank a nid kids hl b hbk).1⟩

/-! ## phantomid.c: the redistribution loop -/

theorem phantom_redistribute_step (p : Nat) (adm : Bool) (h : List (Option PhantomNode))
    (c : Nat) (rest : List Nat) (cn pn : PhantomNode)
    (hc : load h c = some cn) (hp : load h p = some pn) :
    ∃ h2, phantom_redistribute (some p) adm h (c :: rest) =
        phantom_redistribute (some p) adm h2 rest ∧
      (∀ b nb, load h b = some nb →
        ∃ nb2, load h2 b = some nb2 ∧ Reparented p adm [c] b nb nb2) ∧
      (∀ b, load h b = none → load h2 b = none) := by
  have hclt := load_lt hc
  have hplt := load_lt hp
  by_cases hpc : p = c
  · subst hpc
    have hpn : pn = cn := by rw [hc] at hp; exact (Option.some.inj hp).symm
    subst hpn
    refine ⟨store (store h p { pn with parent := some p, is_admin := adm }) p
      { pn with parent := some p, is_admin := adm, children := pn.children ++ [p] }, ?_, ?_, ?_⟩
    · simp [phantom_redistribute, hc, load_store, hplt]
    · intro b nb hb
      by_cases hbp : b = p
      · subst hbp
        rw [hc] at hb
        have hnb : nb = pn := (Option.some.inj hb).symm
        subst hnb
        refine ⟨{ nb with parent := some b, is_admin := adm, children := nb.children ++ [b] },
          ?_, ?_⟩
        · simp [load_store, hplt, length_store]
        · simp [Reparented]
      · refine ⟨nb, ?_, ?_⟩
        · simp [load_store, hbp, hb]
        · simp [Reparented, hbp]
    · intro b hb
      have hbp : b ≠ p := by
        intro e; rw [e, hc] at hb; cases hb
      simp [load_store, hbp, hb]
  · have hcp : c ≠ p := fun e => hpc e.symm
    refine ⟨store (store h c { cn with parent := some p, is_admin := adm }) p
      { pn with children := pn.children ++ [c] }, ?_, ?_, ?_⟩
    · simp [phantom_redistribute, hc, load_store, hpc, hp]
    · intro b nb hb
      by_cases hbp : b = p
      · subst hbp
        rw [hp] at hb
        have hnb : nb = pn := (Option.some.inj hb).symm
        subst hnb
        refine ⟨{ nb with children := nb.children ++ [c] }, ?_, ?_⟩
        · simp [load_store, hplt, length_store]
        · simp [Reparented, hpc]
      · by_cases hbc : b = c
        · subst hbc
          rw [hc] at hb
          have hnb : nb = cn := (Option.some.inj hb).symm
          subst hnb
          refine ⟨{ nb with parent := some p, is_admin := adm }, ?_, ?_⟩
          · simp [load_store, hbp, hclt]
          · simp [Reparented, hbp]
        · refine ⟨nb, ?_, ?_⟩
          · simp [load_store, hbp, hbc, hb]
          · simp [Reparented, hbp, hbc]
    · intro b hb
      have hbp : b ≠ p := by
        intro e; rw [e, hp] at hb; cases hb
      have hbc : b ≠ c := by
        intro e; rw [e, hc] at hb; cases hb
      simp [load_store, hbp, hbc, hb]

theorem Reparented.trans (p : Nat) (adm : Bool) (c : Nat) (rest : List Nat) (b : Nat)
    (n0 n1 n2 : PhantomNode)
    (h1 : Reparented p adm [c] b n0 n1) (h2 : Reparented p adm rest b n1 n2) :
    Reparented p adm (c :: rest) b n0 n2 := by
  obtain ⟨a1, m1, r1, k1, in1, out1⟩ := h1
  obtain ⟨a2, m2, r2, k2, in2, out2⟩ := h2
  refine ⟨a2.trans a1, m2.trans m1, r2.trans r1, ?_, ?_, ?_⟩
  · rw [k2, k1]
    by_cases hbp : b = p
    · simp [hbp]
    · simp [hbp]
  · intro hb
    by_cases hbr : b ∈ rest
    · exact in2 hbr
    · have hbc : b ∈ [c] := by
        rcases List.mem_cons.mp hb with e | e
        · simp [e]
        · exact absurd e hbr
      obtain ⟨e1, e2⟩ := in1 hbc
      obtain ⟨e3, e4⟩ := out2 hbr
      exact ⟨e3.trans e1, e4.trans e2⟩
  · intro hb
    have hbr : b ∉ rest := fun e => hb (List.mem_cons_of_mem _ e)
    have hbc : b ∉ [c] := by
      intro e
      exact hb (by rw [List.mem_singleton.mp e]; exact List.mem_cons_self _ _)
    obtain ⟨e1, e2⟩ := out1 hbc
    obtain ⟨e3, e4⟩ := out2 hbr
    exact ⟨e3.trans e1, e4.trans e2⟩

/-- The redistribution loop towards an allocated parent `p` runs to completion when every
child is allocated, and changes each record as `Reparented` says. -/
theorem phantom_redistribute_spec (p : Nat) (adm : Bool) :
    ∀ (kids : List Nat) (h : List (Option PhantomNode)),
      (∀ c ∈ kids, (load h c).isSome = true) → (load h p).isSome = true →
      ∃ h2, phantom_redistribute (some p) adm h kids = some h2 ∧
        (∀ b nb, load h b = some nb →
          ∃ nb2, load h2 b = some nb2 ∧ Reparented p adm kids b nb nb2) ∧
        (∀ b, load h b = none → load h2 b = none) := by
  intro kids
  induction kids with
  | nil =>
    intro h _ _
    refine ⟨h, rfl, ?_, fun b hb => hb⟩
    intro b nb hb
    exact ⟨nb, hb, by simp [Reparented]⟩
  | cons c rest ih =>
    intro h hkids hp
    obtain ⟨cn, hc⟩ := Option.isSome_iff_exists.mp (hkids c (List.mem_cons_self _ _))
    obtain ⟨pn, hpn⟩ := Option.isSome_iff_exists.mp hp
    obtain ⟨h1, hrun, hsome, hnone⟩ := phantom_redistribute_step p adm h c rest cn pn hc hpn
    have hkids1 : ∀ x ∈ rest, (load h1 x).isSome = true := by
      intro x hx
      obtain ⟨xn, hxn⟩ := Option.isSome_iff_exists.mp (hkids x (List.mem_cons_of_mem _ hx))
      obtain ⟨xn2, hx2, _⟩ := hsome x xn hxn
      rw [hx2]; rfl
    have hp1 : (load h1 p).isSome = true := by
      obtain ⟨pn2, hp2, _⟩ := hsome p pn hpn
      rw [hp2]; rfl
    obtain ⟨h2, hrun2, hsome2, hnone2⟩ := ih h1 hkids1 hp1
    refine ⟨h2, by rw [hrun, hrun2], ?_, fun b hb => hnone2 b (hnone b hb)⟩
    intro b nb hb
    obtain ⟨nb1, hb1, hr1⟩ := hsome b nb hb
    obtain ⟨nb2, hb2, hr2⟩ := hsome2 b nb1 hb1
    exact ⟨nb2, hb2, Reparented.trans p adm c rest b nb nb1 nb2 hr1 hr2⟩

theorem size_dec_add_one (n : Nat) (h0 : 0 < n) : size_dec n + 1 = n := by
  unfold size_dec
  rw [if_neg (Nat.pos_iff_ne_zero.mp h0)]
  omega

theorem size_inc_eq (n : Nat) (h : n < SIZE_MAX) : size_inc n = n + 1 := by
  unfold size_inc
  rw [if_neg (Nat.ne_of_lt h)]

theorem phantom_tree_delete_of_parent (fuel : Nat) (t : PhantomTree) (id : Ident)
    (d p : Nat) (nd np : PhantomNode)
    (hfind : phantom_tree_find fuel t id = some (some d))
    (hd : load t.heap d = some nd) (hnr : nd.is_root = false) (hpar : nd.parent = some p)
    (hpd : p ≠ d) (hp : load t.heap p = some np) :
    phantom_tree_delete fuel t id =
      match phantom_redistribute (some p) nd.is_admin
          (store t.heap p { np with children := np.children.erase d }) nd.children with
      | none => none
      | some h2 => some (true, { heap := release h2 d, root := t.root,
                                 total_nodes := size_dec t.total_nodes }) := by
  unfold phantom_tree_delete
  rw [hfind]
  simp only [hd, hnr, hpar, hp, Bool.false_and, if_neg hpd]
  rfl

theorem phantom_look_eq (t : PhantomTree) (a : Nat) (n : PhantomNode)
    (h : load t.heap a = some n) : phantom_look t a = some (n.account.id, n.children) := by
  simp [phantom_look, h]

theorem phantom_look_isSome (t : PhantomTree) (a : Nat)
    (h : (phantom_look t a).isSome = true) : (load t.heap a).isSome = true := by
  unfold phantom_look at h
  cases hl : load t.heap a with
  | none => rw [hl] at h; cases h
  | some n => rfl

/-! ## Shape of concrete trees -/

/-- Addresses at or beyond the end of memory are unallocated, so a passed `ordered_check`
yields `TreeShaped` with the distance to the end of memory as height. -/
theorem tree_shaped_of_ordered_check (look : Addr → Option (Ident × List Addr))
    (root : Option Addr) (n : Nat) (hout : ∀ a, n ≤ a → look a = none)
    (hchk : ordered_check look root n = true) : TreeShaped look root := by
  unfold ordered_check at hchk
  rw [Bool.and_eq_true] at hchk
  obtain ⟨hroot, hall⟩ := hchk
  refine ⟨?_, fun a => n - a, ?_⟩
  · intro r hr
    rw [hr] at hroot
    exact hroot
  · intro a nid children hl c hc
    have han : a < n := by
      by_contra hge
      rw [hout a (Nat.le_of_not_lt hge)] at hl
      cases hl
    have h1 := List.all_eq_true.mp hall a (List.mem_range.mpr han)
    rw [hl] at h1
    have h2 := List.all_eq_true.mp h1 c hc
    rw [Bool.and_eq_true] at h2
    obtain ⟨hcs, hac⟩ := h2
    have hac2 : a < c := of_decide_eq_true hac
    exact ⟨hcs, Nat.sub_lt_sub_left han hac2⟩

theorem phantom_look_none (t : PhantomTree) (a : Nat) (h : t.heap.length ≤ a) :
    phantom_look t a = none := by
  cases hl : load t.heap a with
  | none => simp [phantom_look, hl]
  | some n => exact absurd (load_lt hl) (Nat.not_lt.mpr h)

theorem phantom_tree_shaped (t : PhantomTree)
    (hchk : ordered_check (phantom_look t) t.root t.heap.length = true) :
    TreeShaped (phantom_look t) t.root :=
  tree_shaped_of_ordered_check _ _ _ (phantom_look_none t) hchk

theorem scenario_tree_built :
    phantom_insert_all 3 10 phantom_tree_init
      [("R", none), ("A", some "R"), ("B", some "R"), ("G", some "A")] = some scenario_tree := by
  decide

/-! ## Capacity and orphans: where the code leaves the documented behaviour -/

/-- C3, evaluated with `MAX_CHILDREN = 3`: the root gets three children, the first of them
two children of its own (identifiers `node_7_4` and `node_7_5`). Deleting the first child
returns true and lowers the size from 6 to 5; `node_7_4` is re-attached to the root, which
is then full, and `node_7_5` is flagged `is_root` with no parent, is still allocated, and is
no longer returned by `tree_find_node`. -/
theorem tree_delete_node_loses_orphan :
    orphan_scenario.map (fun r => (r.1, tree_get_size r.2)) = some (true, 5) ∧
    orphan_scenario.map (fun r => (load r.2.heap 0).map (fun n => n.children)) =
      some (some [2, 3, 4]) ∧
    orphan_scenario.map (fun r => tree_find_node 10 r.2 "node_7_4") = some (some (some 4)) ∧
    orphan_scenario.map (fun r => tree_find_node 10 r.2 "node_7_5") = some (some none) ∧
    orphan_scenario.map (fun r => (load r.2.heap 5).map (fun n => (n.id, n.parent, n.is_root))) =
      some (some ("node_7_5", none, true)) := by
  refine ⟨?_, ?_, ?_, ?_, ?_⟩ <;> decide

/-- C4, evaluated with `MAX_CHILDREN = 3` on a root `node_7_0` with one child `node_7_1`:
`tree_delete_node` on the root's identifier returns true, the context has no root afterwards,
the size drops from 2 to 1, and the child has lost its parent and is flagged `is_root`. -/
theorem tree_delete_node_removes_root_with_child :
    root_delete_scenario.map (fun r => (r.1, tree_has_root r.2, tree_get_size r.2)) =
      some (true, false, 1) ∧
    root_delete_scenario.map
        (fun r => (load r.2.heap 1).map (fun n => (n.id, n.parent, n.is_root))) =
      some (some ("node_7_1", none, true)) := by
  refine ⟨?_, ?_⟩ <;> decide

/-! ## Inserting into an empty tree -/

theorem queue_push_init (r : Nat) : (queue_push queue_init r).2 = [r] := by
  simp [queue_push, queue_init, QUEUE_SIZE]

/-- C6. On a tree without root (size 0), `phantom_tree_insert` with a parent identifier
returns no node for every account, capacity and fuel, and the tree it leaves is the tree it
was given: still no root, size still 0. -/
theorem phantom_tree_insert_parent_on_empty (MAX_CHILDREN fuel : Nat) (t : PhantomTree)
    (account : PhantomAccount) (parent_id : Ident)
    (hroot : t.root = none) (hsize : phantom_tree_size t = 0) :
    ∃ t2, phantom_tree_insert MAX_CHILDREN fuel t account (some parent_id) = some (none, t2) ∧
      t2 = t ∧ phantom_tree_has_root t2 = false ∧ phantom_tree_size t2 = 0 := by
  refine ⟨t, ?_, rfl, ?_, hsize⟩
  · unfold phantom_tree_insert
    rw [hroot]
  · unfold phantom_tree_has_root
    rw [hroot]
    rfl

/-- C6 at a concrete input: the tree `phantom_tree_init` sets up, account `X`, parent
identifier `P`, `MAX_CHILDREN = 3`. -/
theorem phantom_tree_insert_parent_on_empty_witness :
    ∃ t2, phantom_tree_insert 3 10 phantom_tree_init (account_of "X") (some "P") =
        some (none, t2) ∧
      t2 = phantom_tree_init ∧ phantom_tree_has_root t2 = false ∧ phantom_tree_size t2 = 0 :=
  phantom_tree_insert_parent_on_empty 3 10 phantom_tree_init (account_of "X") "P" rfl rfl

/-- C7 as stated fails: on the freshly created context, `tree_create_node` with the parent
identifier `node_7_9` returns a node (address 0), and afterwards `tree_has_root` is true and
`tree_get_size` is 1. -/
theorem tree_create_node_parent_on_empty_counterexample :
    (tree_create_node 3 10 (tree_create 0) 7 (some "node_7_9")).map
      (fun r => (r.1, tree_has_root r.2, tree_get_size r.2)) = some (some 0, true, 1) := by
  decide

/-- C7 as the code behaves: on a context without root, `tree_create_node` ignores a supplied
parent identifier. It returns a new node that is flagged `is_root`, has no parent and no
children, and is installed as the root; `tree_has_root` is true and `tree_get_size` has
grown by one. -/
theorem tree_create_node_parent_on_empty (MAX_CHILDREN fuel : Nat) (ctx : TreeContext)
    (now : Nat) (parent_id : Ident)
    (hroot : ctx.root = none) (hsize : ctx.total_nodes < SIZE_MAX) :
    ∃ node ctx2, tree_create_node MAX_CHILDREN fuel ctx now (some parent_id) =
        some (some node, ctx2) ∧
      load ctx.heap node = none ∧
      load ctx2.heap node = some
        { id := Tree.generate_node_id now ctx.id_counter, creation_time := now,
          is_root := true, is_active := true, parent := none, children := [],
          max_children := MAX_CHILDREN } ∧
      ctx2.root = some node ∧ tree_has_root ctx2 = true ∧
      tree_get_size ctx2 = tree_get_size ctx + 1 := by
  refine ⟨ctx.heap.length,
    { heap := ctx.heap ++ [some { id := Tree.generate_node_id now ctx.id_counter,
                                  creation_time := now, is_root := true, is_active := true,
                                  parent := none, children := [],
                                  max_children := MAX_CHILDREN }],
      root := some ctx.heap.length, total_nodes := size_inc ctx.total_nodes,
      id_counter := size_inc ctx.id_counter }, ?_, load_length _, ?_, rfl, rfl, ?_⟩
  · unfold tree_create_node
    simp [hroot, alloc, Tree.create_node]
  · rw [load_append]; simp
  · unfold tree_get_size
    exact size_inc_eq _ hsize

/-- C7 as the code behaves, at the freshly created context with parent identifier
`node_7_9`. -/
theorem tree_create_node_parent_on_empty_witness :
    ∃ node ctx2, tree_create_node 3 10 (tree_create 0) 7 (some "node_7_9") =
        some (some node, ctx2) ∧
      load (tree_create 0).heap node = none ∧
      load ctx2.heap node = some
        { id := Tree.generate_node_id 7 (tree_create 0).id_counter, creation_time := 7,
          is_root := true, is_active := true, parent := none, children := [],
          max_children := 3 } ∧
      ctx2.root = some node ∧ tree_has_root ctx2 = true ∧
      tree_get_size ctx2 = tree_get_size (tree_create 0) + 1 :=
  tree_create_node_parent_on_empty 3 10 (tree_create 0) 7 "node_7_9" rfl (by decide)

/-- C10. A freshly created context has size 0, no root and depth 0. `tree_create_node`
without parent identifier returns a node flagged `is_root`, without parent and without
children, and installs it as root; afterwards `tree_has_root` is true, `tree_get_size` is 1
and `tree_get_depth` is 1 (for every positive fuel). -/
theorem tree_create_node_first_root (MAX_CHILDREN fuel counter now : Nat) :
    tree_get_size (tree_create counter) = 0 ∧ tree_has_root (tree_create counter) = false ∧
    tree_get_depth fuel (tree_create counter) = some 0 ∧
    ∃ node ctx2, tree_create_node MAX_CHILDREN fuel (tree_create counter) now none =
        some (some node, ctx2) ∧
      (∃ n, load ctx2.heap node = some n ∧ n.is_root = true ∧ n.parent = none ∧
        n.children = []) ∧
      ctx2.root = some node ∧ tree_has_root ctx2 = true ∧ tree_get_size ctx2 = 1 ∧
      tree_get_depth (fuel + 1) ctx2 = some 1 := by
  refine ⟨rfl, rfl, ?_, 0,
    { heap := [some { id := Tree.generate_node_id now counter, creation_time := now,
                      is_root := true, is_active := true, parent := none, children := [],
                      max_children := MAX_CHILDREN }],
      root := some 0, total_nodes := 1, id_counter := size_inc counter },
    ?_, ⟨_, rfl, rfl, rfl, rfl⟩, rfl, rfl, rfl, ?_⟩
  · cases fuel <;> rfl
  · unfold tree_create_node
    simp [tree_create, alloc, Tree.create_node, size_inc, SIZE_MAX]
  · simp [tree_get_depth, get_depth_helper, load]

/-! ## Searches that start at the root -/

theorem bfs_find_root_match (look : Addr → Option (Ident × List Addr)) (id : Ident)
    (r : Nat) (children : List Nat) (h : look r = some (id, children)) (fuel : Nat) :
    bfs_find look id (fuel + 1) [r] = some (some r) := by
  rw [bfs_find_succ, h]
  simp

/-- On a tree-shaped graph in which no reachable node carries the identifier, the search
from the root returns "not found" for all sufficiently large fuel. -/
theorem bfs_find_from_root_none (look : Addr → Option (Ident × List Addr))
    (root : Option Addr) (id : Ident) (hshape : TreeShaped look root)
    (hno : ∀ a nid children, Reachable look root a → look a = some (nid, children) → nid ≠ id)
    (r : Nat) (hr : root = some r) :
    ∃ N, ∀ fuel, N ≤ fuel → bfs_find look id fuel [r] = some none := by
  obtain ⟨hroot, rank, hrank⟩ := hshape
  refine ⟨queue_weight rank [r] + 1, fun fuel hfuel => ?_⟩
  apply bfs_find_none_of_no_match look root id rank hrank hno (queue_weight rank [r] + 1) [r]
    (Nat.lt_succ_self _) _ fuel hfuel
  intro a ha
  have har : a = r := List.mem_singleton.mp ha
  rw [har]
  exact ⟨Reachable.root r hr, hroot r hr⟩

theorem phantom_tree_find_none (t : PhantomTree) (id : Ident)
    (hshape : TreeShaped (phantom_look t) t.root)
    (hno : ∀ a n, Reachable (phantom_look t) t.root a → load t.heap a = some n →
      n.account.id ≠ id) :
    ∃ N, ∀ fuel, N ≤ fuel → phantom_tree_find fuel t id = some none := by
  cases hr : t.root with
  | none =>
    refine ⟨0, fun fuel _ => ?_⟩
    unfold phantom_tree_find
    rw [hr]
  | some r =>
    have hno2 : ∀ a nid children, Reachable (phantom_look t) t.root a →
        phantom_look t a = some (nid, children) → nid ≠ id := by
      intro a nid children hreach hl
      unfold phantom_look at hl
      cases hla : load t.heap a with
      | none => rw [hla] at hl; cases hl
      | some n =>
        rw [hla] at hl
        have hnid : n.account.id = nid := by
          have := Option.some.inj hl
          exact (Prod.mk.inj this).1
        rw [← hnid]
        exact hno a n hreach hla
    obtain ⟨N, hN⟩ := bfs_find_from_root_none (phantom_look t) t.root id hshape hno2 r hr
    refine ⟨N, fun fuel hfuel => ?_⟩
    unfold phantom_tree_find
    rw [hr]
    simp only
    rw [queue_push_init]
    exact hN fuel hfuel

theorem phantom_tree_find_root (t : PhantomTree) (id : Ident) (r : Nat) (n : PhantomNode)
    (hr : t.root = some r) (hl : load t.heap r = some n) (hid : n.account.id = id)
    (fuel : Nat) : phantom_tree_find (fuel + 1) t id = some (some r) := by
  unfold phantom_tree_find
  rw [hr]
  simp only
  rw [queue_push_init]
  apply bfs_find_root_match _ _ _ n.children
  rw [phantom_look_eq t r n hl, hid]

theorem phantom_tree_find_mono (t : PhantomTree) (id : Ident) (fuel fuel2 : Nat)
    (res : Option Addr) (h : phantom_tree_find fuel t id = some res) (hle : fuel ≤ fuel2) :
    phantom_tree_find fuel2 t id = some res := by
  unfold phantom_tree_find at h ⊢
  cases hr : t.root with
  | none => rw [hr] at h; exact h
  | some r =>
    rw [hr] at h
    exact bfs_find_mono _ _ _ _ _ h _ hle

theorem scenario_tree_no_id (id : Ident)
    (hid : id ≠ "R" ∧ id ≠ "A" ∧ id ≠ "B" ∧ id ≠ "G") :
    ∀ a n, Reachable (phantom_look scenario_tree) scenario_tree.root a →
      load scenario_tree.heap a = some n → n.account.id ≠ id := by
  intro a n _ hl
  have hlt : a < 4 := load_lt hl
  obtain ⟨h0, h1, h2, h3⟩ := hid
  interval_cases a
  · obtain rfl := Option.some.inj hl; exact fun e => h0 e.symm
  · obtain rfl := Option.some.inj hl; exact fun e => h1 e.symm
  · obtain rfl := Option.some.inj hl; exact fun e => h2 e.symm
  · obtain rfl := Option.some.inj hl; exact fun e => h3 e.symm

/-! ## phantom_tree_insert on a non-empty tree -/

theorem phantom_resolve_parent_mono (t : PhantomTree) (parent_id : Option Ident)
    (fuel fuel2 : Nat) (res : Option Addr)
    (h : phantom_resolve_parent fuel t parent_id = some res) (hle : fuel ≤ fuel2) :
    phantom_resolve_parent fuel2 t parent_id = some res := by
  cases parent_id with
  | none => exact h
  | some pid => exact phantom_tree_find_mono t pid fuel fuel2 res h hle

/-- The tree of the capacity scenario: root `R` with `max_children = 2` and children `A`,
`B`. -/
theorem full_root_tree_built :
    phantom_insert_all 2 10 phantom_tree_init [("R", none), ("A", some "R"), ("B", some "R")] =
      some full_root_tree := by
  decide

/-! ## Attaching a new node to a parent with room -/

/-- Memory after `calloc` of the new node `x` and the store that appends it to the children
of the parent at `p`. -/
theorem load_store_append {α : Type} (h : List (Option α)) (p b : Nat) (v x : α)
    (hp : p < h.length) :
    load (store (h ++ [some x]) p v) b =
      if b = p then some v else if b = h.length then some x else load h b := by
  rw [load_store, load_append]
  have hp2 : p < (h ++ [some x]).length := by
    rw [List.length_append, List.length_singleton]; omega
  by_cases hbp : b = p
  · rw [if_pos ⟨hbp, hp2⟩, if_pos hbp]
  · rw [if_neg (fun hh => hbp hh.1), if_neg hbp]

theorem tree_look_eq (ctx : TreeContext) (a : Nat) (n : TreeNode)
    (h : load ctx.heap a = some n) : tree_look ctx a = some (n.id, n.children) := by
  simp [tree_look, h]

theorem lone_root_ctx_built :
    tree_create_all 3 10 7 (tree_create 0) [none] = some lone_root_ctx := by
  decide

/-- C11. On a non-empty tree whose root has fewer than `max_children` children,
`phantom_tree_insert` without parent identifier takes the root as parent: it returns a node
that was not allocated before, with parent the root, no children, and `is_root` and
`is_admin` both false; the root's children are its former children, in order, followed by
the new node; the size has grown by one; the root slot and every other node are unchanged.
No search is made, so the result does not depend on the fuel. -/
theorem phantom_tree_insert_under_root (MAX_CHILDREN fuel : Nat) (t : PhantomTree)
    (account : PhantomAccount) (r : Nat) (rn : PhantomNode)
    (hroot : t.root = some r) (hr : load t.heap r = some rn)
    (hroom : rn.children.length < rn.max_children)
    (hsize : t.total_nodes < SIZE_MAX) :
    ∃ node t2, phantom_tree_insert MAX_CHILDREN fuel t account none = some (some node, t2) ∧
      load t.heap node = none ∧
      load t2.heap node = some
        { account := account, parent := some r, children := [],
          max_children := MAX_CHILDREN, is_root := false, is_admin := false } ∧
      load t2.heap r = some { rn with children := rn.children ++ [node] } ∧
      phantom_tree_size t2 = phantom_tree_size t + 1 ∧
      t2.root = some r ∧
      (∀ b, b ≠ r → b ≠ node → load t2.heap b = load t.heap b) := by
  have hrlt := load_lt hr
  have hrne : r ≠ t.heap.length := Nat.ne_of_lt hrlt
  refine ⟨t.heap.length,
    { heap := store (t.heap ++ [some { account := account, parent := some r, children := [],
                                       max_children := MAX_CHILDREN, is_root := false,
                                       is_admin := false }]) r
                { rn with children := rn.children ++ [t.heap.length] },
      root := t.root, total_nodes := size_inc t.total_nodes },
    ?_, load_length _, ?_, ?_, ?_, hroot, ?_⟩
  · unfold phantom_tree_insert
    simp [hroot, phantom_resolve_parent, hr, Nat.not_le.mpr hroom, alloc, create_node]
  · rw [load_store_append _ _ _ _ _ hrlt]
    simp [Ne.symm hrne]
  · rw [load_store_append _ _ _ _ _ hrlt]
    simp
  · unfold phantom_tree_size
    exact size_inc_eq _ hsize
  · intro b hbr hbn
    rw [load_store_append _ _ _ _ _ hrlt]
    simp [hbr, hbn]

/-- C11 at a concrete input: account `X` is inserted without parent identifier into
`R -> (A -> G), B`, whose root has two of three child slots in use. -/
theorem phantom_tree_insert_under_root_witness :
    ∃ node t2, phantom_tree_insert 3 10 scenario_tree (account_of "X") none =
        some (some node, t2) ∧
      load scenario_tree.heap node = none ∧
      load t2.heap node = some
        { account := account_of "X", parent := some 0, children := [],
          max_children := 3, is_root := false, is_admin := false } ∧
      load t2.heap 0 = some
        { account := account_of "R", parent := none, children := [1, 2] ++ [node],
          max_children := 3, is_root := true, is_admin := true } ∧
      phantom_tree_size t2 = phantom_tree_size scenario_tree + 1 ∧
      t2.root = some 0 ∧
      (∀ b, b ≠ 0 → b ≠ node → load t2.heap b = load scenario_tree.heap b) :=
  phantom_tree_insert_under_root 3 10 scenario_tree (account_of "X") 0
    { account := account_of "R", parent := none, children := [1, 2],
      max_children := 3, is_root := true, is_admin := true }
    rfl rfl (by decide) (by decide)

/-! ## A tree wider than the work queue -/

theorem binary_ctx_built :
    tree_create_all 3 10 7 (tree_create 0)
      [none, some "node_7_0", some "node_7_0", some "node_7_1", some "node_7_1",
       some "node_7_2", some "node_7_2"] = some (binary_ctx 3 7) := by
  decide

theorem load_binary_cells (MAX_CHILDREN n : Nat) :
    ∀ (count k a : Nat), load (binary_cells MAX_CHILDREN n count k) a =
      if a < count then some (binary_node MAX_CHILDREN n (k + a)) else none := by
  intro count
  induction count with
  | zero => intro k a; simp [binary_cells, load]
  | succ c ih =>
    intro k a
    cases a with
    | zero => simp [binary_cells, load]
    | succ b =>
      have h1 : load (binary_cells MAX_CHILDREN n (c + 1) k) (b + 1) =
          load (binary_cells MAX_CHILDREN n c (k + 1)) b := by
        simp [binary_cells, load]
      rw [h1, ih (k + 1) b]
      have h2 : k + 1 + b = k + (b + 1) := by omega
      rw [h2]
      by_cases hb : b < c
      · have hb2 : b + 1 < c + 1 := by omega
        rw [if_pos hb, if_pos hb2]
      · have hb2 : ¬ b + 1 < c + 1 := by omega
        rw [if_neg hb, if_neg hb2]

theorem tree_look_binary (MAX_CHILDREN n k : Nat) (hk : k < n) :
    tree_look (binary_ctx MAX_CHILDREN n) k =
      some (Tree.generate_node_id 7 k,
            [2 * k + 1, 2 * k + 2].filter (fun c => decide (c < n))) := by
  unfold tree_look binary_ctx
  simp only
  rw [load_binary_cells, if_pos hk, Nat.zero_add]
  rfl

/-- Every node of the complete binary tree is reachable from its root. -/
theorem binary_ctx_reachable (MAX_CHILDREN n : Nat) :
    ∀ k, k < n → Reachable (tree_look (binary_ctx MAX_CHILDREN n))
      (binary_ctx MAX_CHILDREN n).root k := by
  intro k
  induction k using Nat.strong_induction_on with
  | _ k ih =>
    intro hk
    cases k with
    | zero =>
      apply Reachable.root
      have hn : n ≠ 0 := by omega
      simp [binary_ctx, hn]
    | succ j =>
      have hp : j / 2 < n := by omega
      have hpar := ih (j / 2) (by omega) hp
      refine Reachable.child (j / 2) (j + 1) _ _ hpar (tree_look_binary MAX_CHILDREN n _ hp) ?_
      rw [List.mem_filter]
      refine ⟨?_, by simpa using hk⟩
      have : j + 1 = 2 * (j / 2) + 1 ∨ j + 1 = 2 * (j / 2) + 2 := by omega
      rcases this with h | h
      · rw [h]; simp
      · rw [h]; simp

/-- A queue of childless nodes none of which carries the identifier is emptied without a
match. -/
theorem bfs_find_leaves (look : Addr → Option (Ident × List Addr)) (id : Ident) :
    ∀ (q : List Nat) (fuel : Nat),
      (∀ a ∈ q, ∃ nid, look a = some (nid, []) ∧ nid ≠ id) →
      bfs_find look id (fuel + q.length) q = some none := by
  intro q
  induction q with
  | nil => intro fuel _; exact bfs_find_nil look id _
  | cons a rest ih =>
    intro fuel hq
    obtain ⟨nid, hl, hne⟩ := hq a (List.mem_cons_self _ _)
    have hlen : fuel + (a :: rest).length = (fuel + rest.length) + 1 := by
      simp [List.length_cons]; omega
    rw [hlen, bfs_find_succ, hl]
    simp only
    rw [if_neg hne]
    have hpush : push_children rest [] = rest := rfl
    rw [hpush]
    exact ih fuel (fun b hb => hq b (List.mem_cons_of_mem _ hb))

theorem binary_ids_distinct :
    ∀ k, k < 2000 → Tree.generate_node_id 7 k ≠ Tree.generate_node_id 7 2000 := by
  decide!

/-- One pass of the search over the complete binary tree while the queue has room: the
queue `[i, ..., 2i]` becomes `[i + 1, ..., 2i + 2]`. -/
theorem bfs_find_binary_step (MAX_CHILDREN n : Nat) (id : Ident) (i fuel : Nat)
    (hn : 2 * i + 2 < n) (hq : i + 2 ≤ QUEUE_SIZE)
    (hne : Tree.generate_node_id 7 i ≠ id) :
    bfs_find (tree_look (binary_ctx MAX_CHILDREN n)) id (fuel + 1) (List.range' i (i + 1)) =
      bfs_find (tree_look (binary_ctx MAX_CHILDREN n)) id fuel
        (List.range' (i + 1) (i + 2)) := by
  rw [List.range'_succ, bfs_find_succ, tree_look_binary MAX_CHILDREN n i (by omega)]
  simp only
  rw [if_neg hne, push_children_eq]
  have hk : [2 * i + 1, 2 * i + 2].filter (fun c => decide (c < n)) =
      [2 * i + 1, 2 * i + 2] := by
    have h1 : 2 * i + 1 < n := by omega
    simp [List.filter, h1, hn]
  rw [hk, List.length_range']
  have ht : QUEUE_SIZE - i = (QUEUE_SIZE - i - 2) + 2 := by omega
  rw [ht]
  have hrange : List.range' (i + 1) (i + 2) =
      List.range' (i + 1) i ++ [2 * i + 1, 2 * i + 2] := by
    have h := List.range'_append_1 (i + 1) i 2
    rw [show 2 + i = i + 2 by omega, show i + 1 + i = 2 * i + 1 by omega] at h
    rw [← h]
    rfl
  rw [hrange]
  simp [List.take]


/-- The search over the complete binary tree reaches the queue `[i, ..., 2i]` after `i`
passes, as long as every push so far found room. -/
theorem bfs_find_binary_prefix (MAX_CHILDREN n : Nat) (id : Ident)
    (hne : ∀ k, k < n - 1 → Tree.generate_node_id 7 k ≠ id) :
    ∀ (i fuel : Nat), 2 * i < n → i + 1 ≤ QUEUE_SIZE →
      bfs_find (tree_look (binary_ctx MAX_CHILDREN n)) id (fuel + i) [0] =
        bfs_find (tree_look (binary_ctx MAX_CHILDREN n)) id fuel (List.range' i (i + 1)) := by
  intro i
  induction i with
  | zero => intro fuel _ _; rfl
  | succ j ih =>
    intro fuel hn hq
    have h1 : fuel + (j + 1) = (fuel + 1) + j := by omega
    rw [h1, ih (fuel + 1) (by omega) (by omega)]
    exact bfs_find_binary_step MAX_CHILDREN n id j fuel (by omega) (by omega)
      (hne j (by omega))

/-- C12, evaluated on the complete binary tree of 2001 nodes that `tree_create_node` builds
level by level (identifiers `node_7_0` to `node_7_2000`, any `MAX_CHILDREN >= 2`; here 3):
the node `node_7_2000` is allocated, carries its identifier and is reachable from the root,
yet `tree_find_node` returns no node for it, whatever the fuel. When node 999 is expanded
the queue already holds 1000 entries and `queue_push` refuses its second child. -/
theorem tree_find_node_skips_reachable_node :
    Reachable (tree_look (binary_ctx 3 2001)) (binary_ctx 3 2001).root 2000 ∧
    tree_look (binary_ctx 3 2001) 2000 = some (Tree.generate_node_id 7 2000, []) ∧
    ∀ fuel, tree_find_node (fuel + 2000) (binary_ctx 3 2001) (Tree.generate_node_id 7 2000) =
      some none := by
  refine ⟨binary_ctx_reachable 3 2001 2000 (by omega), ?_, ?_⟩
  · rw [tree_look_binary 3 2001 2000 (by omega)]
    rfl
  · intro fuel
    have hroot : (binary_ctx 3 2001).root = some 0 := rfl
    unfold tree_find_node
    rw [hroot]
    simp only
    rw [queue_push_init]
    have hne : ∀ k, k < 2001 - 1 →
        Tree.generate_node_id 7 k ≠ Tree.generate_node_id 7 2000 :=
      fun k hk => binary_ids_distinct k hk
    have h1 : fuel + 2000 = (fuel + 1000 + 1) + 999 := by omega
    rw [h1, bfs_find_binary_prefix 3 2001 _ hne 999 (fuel + 1000 + 1) (by omega)
      (by simp [QUEUE_SIZE])]
    rw [List.range'_succ, bfs_find_succ, tree_look_binary 3 2001 999 (by omega)]
    simp only
    rw [if_neg (hne 999 (by omega)), push_children_eq, List.length_range']
    have hq : push_children (List.range' (999 + 1) 999) [] = List.range' 1000 999 := rfl
    have hk : ([2 * 999 + 1, 2 * 999 + 2].filter (fun c => decide (c < 2001))).take
        (QUEUE_SIZE - 999) = [1999] := by decide
    rw [hk]
    have hrange : List.range' (999 + 1) 999 ++ [1999] = List.range' 1000 1000 := by
      have h := List.range'_append_1 1000 999 1
      exact h
    rw [hrange]
    have hlen : fuel + 1000 = fuel + (List.range' 1000 1000).length := by
      rw [List.length_range']
    rw [hlen]
    apply bfs_find_leaves
    intro a ha
    rw [List.mem_range'_1] at ha
    refine ⟨Tree.generate_node_id 7 a, ?_, hne a (by omega)⟩
    rw [tree_look_binary 3 2001 a (by omega)]
    have hf : [2 * a + 1, 2 * a + 2].filter (fun c => decide (c < 2001)) = [] := by
      have h1 : ¬ 2 * a + 1 < 2001 := by omega
      have h2 : ¬ 2 * a + 2 < 2001 := by omega
      simp [List.filter, h1, h2]
    rw [hf]

/-! ## The search returns the first match in breadth-first visiting order -/

theorem bfs_visit_nil (look : Addr → Option (Ident × List Addr)) (fuel : Nat) :
    bfs_visit look fuel [] = some [] := by
  unfold bfs_visit; rfl

theorem bfs_visit_zero (look : Addr → Option (Ident × List Addr))
    (a : Nat) (q : List Nat) : bfs_visit look 0 (a :: q) = none := by
  unfold bfs_visit; rfl

theorem bfs_visit_succ (look : Addr → Option (Ident × List Addr)) (fuel : Nat)
    (a : Nat) (q : List Nat) :
    bfs_visit look (fuel + 1) (a :: q) =
      match look a with
      | none => none
      | some (_, children) =>
        (bfs_visit look fuel (push_children q children)).map (fun rest => a :: rest) := by
  conv => lhs; unfold bfs_visit
  rfl

/-- On a tree-shaped graph the traversal loop ends, with the same visiting order for all
sufficiently large fuel. -/
theorem bfs_visit_terminates (look : Addr → Option (Ident × List Addr))
    (root : Option Addr) (rank : Addr → Nat)
    (hrank : ∀ a nid children, look a = some (nid, children) →
      ∀ c ∈ children, (look c).isSome = true ∧ rank c < rank a) :
    ∀ (n : Nat) (q : List Nat), queue_weight rank q < n →
      (∀ a ∈ q, Reachable look root a ∧ (look a).isSome = true) →
      ∃ order, ∀ fuel, n ≤ fuel → bfs_visit look fuel q = some order := by
  intro n
  induction n with
  | zero => intro q hw; exact absurd hw (Nat.not_lt_zero _)
  | succ m ih =>
    intro q hw hq
    cases q with
    | nil => exact ⟨[], fun fuel _ => bfs_visit_nil look fuel⟩
    | cons a q1 =>
      obtain ⟨hra, hsa⟩ := hq a (List.mem_cons_self _ _)
      cases hl : look a with
      | none => rw [hl] at hsa; cases hsa
      | some pr =>
        obtain ⟨nid, kids⟩ := pr
        have hw2 : queue_weight rank (push_children q1 kids) < m := by
          rw [push_children_eq, queue_weight_append]
          have hk : queue_weight rank (kids.take (QUEUE_SIZE - q1.length)) <
              (QUEUE_SIZE + 1) ^ rank a := by
            apply queue_weight_children_lt
            · rw [List.length_take]; exact Nat.le_trans (Nat.min_le_left _ _) (Nat.sub_le _ _)
            · intro c hc
              exact (hrank a nid kids hl c (List.mem_of_mem_take hc)).2
          have hq0 : queue_weight rank (a :: q1) =
              (QUEUE_SIZE + 1) ^ rank a + queue_weight rank q1 := by
            simp [queue_weight]
          rw [hq0] at hw
          omega
        have hq2 : ∀ b ∈ push_children q1 kids,
            Reachable look root b ∧ (look b).isSome = true := by
          intro b hb
          rw [push_children_eq] at hb
          rcases List.mem_append.mp hb with hb1 | hb2
          · exact hq b (List.mem_cons_of_mem _ hb1)
          · have hbk := List.mem_of_mem_take hb2
            exact ⟨Reachable.child a b nid kids hra hl hbk, (hrank a nid kids hl b hbk).1⟩
        obtain ⟨rest, hrest⟩ := ih _ hw2 hq2
        refine ⟨a :: rest, fun fuel hfuel => ?_⟩
        obtain ⟨g, rfl⟩ : ∃ g, fuel = g + 1 := ⟨fuel - 1, by omega⟩
        rw [bfs_visit_succ, hl]
        simp only
        rw [hrest g (by omega)]
        rfl

/-- With the same fuel, the search returns the first node of the visiting order that carries
the identifier. -/
theorem bfs_find_eq_first_match (look : Addr → Option (Ident × List Addr)) (id : Ident) :
    ∀ (fuel : Nat) (q order : List Nat), bfs_visit look fuel q = some order →
      bfs_find look id fuel q = some (first_match look id order) := by
  intro fuel
  induction fuel with
  | zero =>
    intro q order h
    cases q with
    | nil =>
      rw [bfs_visit_nil] at h
      rw [bfs_find_nil, ← Option.some.inj h]
      rfl
    | cons a q1 => rw [bfs_visit_zero] at h; cases h
  | succ f ih =>
    intro q order h
    cases q with
    | nil =>
      rw [bfs_visit_nil] at h
      rw [bfs_find_nil, ← Option.some.inj h]
      rfl
    | cons a q1 =>
      rw [bfs_visit_succ] at h
      rw [bfs_find_succ]
      cases hl : look a with
      | none => rw [hl] at h; cases h
      | some pr =>
        obtain ⟨nid, kids⟩ := pr
        rw [hl] at h
        simp only at h ⊢
        cases hv : bfs_visit look f (push_children q1 kids) with
        | none => rw [hv] at h; cases h
        | some rest =>
          rw [hv] at h
          have horder : order = a :: rest := (Option.some.inj h).symm
          rw [horder]
          by_cases hid : nid = id
          · rw [if_pos hid]
            simp [first_match, List.find?, hl, hid]
          · rw [if_neg hid, ih _ rest hv]
            simp [first_match, List.find?, hl, hid]

theorem tree_look_none (ctx : TreeContext) (a : Nat) (h : ctx.heap.length ≤ a) :
    tree_look ctx a = none := by
  cases hl : load ctx.heap a with
  | none => simp [tree_look, hl]
  | some n => exact absurd (load_lt hl) (Nat.not_lt.mpr h)

theorem tree_ctx_shaped (ctx : TreeContext)
    (hchk : ordered_check (tree_look ctx) ctx.root ctx.heap.length = true) :
    TreeShaped (tree_look ctx) ctx.root :=
  tree_shaped_of_ordered_check _ _ _ (tree_look_none ctx) hchk

theorem tree_look_some (ctx : TreeContext) (a : Nat) (nid : Ident) (children : List Addr)
    (h : tree_look ctx a = some (nid, children)) :
    ∃ n, load ctx.heap a = some n ∧ n.id = nid ∧ n.children = children := by
  unfold tree_look at h
  cases hl : load ctx.heap a with
  | none => rw [hl] at h; cases h
  | some n =>
    rw [hl] at h
    have hp := Prod.mk.inj (Option.some.inj h)
    exact ⟨n, rfl, hp.1, hp.2⟩

/-! ## state.c: saving and loading -/

/-- The checksum loop of `state_save` reads from a write-only stream: no pass transfers a
byte and the checksum stays at its initial value. -/
theorem checksum_loop_write_only (file : List Nat) (passes pos checksum : Nat) :
    checksum_loop false file passes pos checksum = checksum := by
  cases passes with
  | zero => rfl
  | succ n => simp [checksum_loop, fread_bytes]

/-- Whatever the tree, the checksum `state_save` stores in the header is 0. -/
theorem state_save_checksum_zero (fuel : Nat) (ctx : StateContext) (tree : TreeContext)
    (now : Nat) (ok : Bool) (ctx2 : StateContext) (file : List Nat)
    (h : state_save fuel ctx tree now = some (ok, ctx2, file)) :
    ctx2.header.checksum = 0 := by
  unfold state_save at h
  cases hd : tree_traverse_dfs fuel tree with
  | none => rw [hd] at h; cases h
  | some visited =>
    rw [hd] at h
    simp only at h
    cases hm : save_nodes tree visited with
    | none => rw [hm] at h; cases h
    | some records =>
      rw [hm] at h
      simp only [checksum_loop_write_only] at h
      have h2 := (Prod.mk.inj (Prod.mk.inj (Option.some.inj h)).2).1
      rw [← h2]

/-- C16, evaluated on the three-node tree: `state_save` returns true and stores checksum 0
in the header, while the checksum of the node-record region of the file it wrote, computed
as `state_verify_checksum` computes it, is 2441521429; `state_verify_checksum` on the
just-saved file returns false. -/
theorem state_save_checksum_mismatch :
    snapshot_scenario.map (fun r => (r.1, r.2.1.header.checksum)) = some (true, 0) ∧
    snapshot_file.length = 496 ∧
    (decode_header (snapshot_file.take 40)).checksum = 0 ∧
    checksum_loop true snapshot_file snapshot_file.length HEADER_SIZE 0 = 2441521429 ∧
    state_verify_checksum snapshot_ctx snapshot_file = false := by
  refine ⟨?_, ?_, ?_, ?_, ?_⟩ <;> decide!

/-- C15, evaluated on the saved three-node tree: byte 168 of the file, the low byte of the
root record's `creation_time`, lies in the node-record region and holds 7; with that byte
changed to 8, `state_load` into a fresh tree returns true and builds the three nodes, the
root with creation time 8. -/
theorem state_load_accepts_changed_byte :
    snapshot_file.getD 168 0 = 7 ∧
    (state_load 3 10 11 (state_create 6) (snapshot_file.set 168 8) (tree_create 100)).map
      (fun r => (r.1, tree_get_size r.2.2,
                 (load r.2.2.heap 0).map (fun n => (n.id, n.creation_time)))) =
      some (true, 3, some ("node_7_0", 8)) := by
  refine ⟨?_, ?_⟩ <;> decide!

/-- C17 (the code against the claim): the saved three-node file cut after the first record
(192 of 496 bytes) announces three records; `state_load` into a fresh tree returns false,
and the tree it leaves is not the tree it was given: it has a root, the node of the first
record, and size 1, and the context holds the file's header. -/
theorem state_load_truncated_counterexample :
    (state_load 3 10 11 (state_create 6) (snapshot_file.take 192) (tree_create 100)).map
      (fun r => (r.1, r.2.1.header.node_count, tree_has_root r.2.2, tree_get_size r.2.2,
                 (load r.2.2.heap 0).map (fun n => n.id))) =
      some (false, 3, true, 1, some "node_7_0") := by
  decide!

/-- C18. When the header read from the file has a magic other than `STATE_MAGIC`
(`0x50484944`) or a version above `STATE_VERSION` (1), `state_load` returns false, and both
the tree and the context (with its stored header) are exactly as they were: no node is
inserted. -/
theorem state_load_rejects_header (MAX_CHILDREN fuel now : Nat) (ctx : StateContext)
    (file : List Nat) (tree : TreeContext)
    (hbad : (decode_header (fread_bytes true file 0 HEADER_SIZE)).magic ≠ STATE_MAGIC ∨
      (decode_header (fread_bytes true file 0 HEADER_SIZE)).version > STATE_VERSION) :
    state_load MAX_CHILDREN fuel now ctx file tree = some (false, ctx, tree) := by
  unfold state_load
  simp only
  by_cases hlen : (fread_bytes true file 0 HEADER_SIZE).length < HEADER_SIZE
  · rw [if_pos hlen]
  · rw [if_neg hlen, if_pos hbad]

/-- C18 at concrete inputs: the saved three-node file with the low byte of `magic` changed,
and the same file with `version` changed to 2. -/
theorem state_load_rejects_header_witness :
    state_load 3 10 11 (state_create 6) (snapshot_file.set 0 0) (tree_create 100) =
      some (false, state_create 6, tree_create 100) ∧
    state_load 3 10 11 (state_create 6) (snapshot_file.set 4 2) (tree_create 100) =
      some (false, state_create 6, tree_create 100) :=
  ⟨state_load_rejects_header 3 10 11 (state_create 6) (snapshot_file.set 0 0)
      (tree_create 100) (Or.inl (by decide!)),
   state_load_rejects_header 3 10 11 (state_create 6) (snapshot_file.set 4 2)
      (tree_create 100) (Or.inr (by decide!))⟩

theorem length_fread_bytes (file : List Nat) (pos n : Nat) :
    (fread_bytes true file pos n).length = min n (file.length - pos) := by
  simp [fread_bytes]

/-- A record loop that reports failure stopped at the first record the file does not hold
in full; the tree it leaves is the tree the loop builds from the complete records before
that one. -/
theorem state_load_nodes_failure (MAX_CHILDREN fuel now : Nat) (file : List Nat) :
    ∀ (count pos : Nat) (tree tree2 : TreeContext),
      state_load_nodes MAX_CHILDREN fuel now file count pos tree = some (false, tree2) →
      ∃ k, k < count ∧ file.length < pos + NODE_STATE_SIZE * (k + 1) ∧
        state_load_nodes MAX_CHILDREN fuel now file k pos tree = some (true, tree2) := by
  intro count
  induction count with
  | zero =>
    intro pos tree tree2 h
    simp [state_load_nodes] at h
  | succ c ih =>
    intro pos tree tree2 h
    by_cases hlen : (fread_bytes true file pos NODE_STATE_SIZE).length < NODE_STATE_SIZE
    · have hres : state_load_nodes MAX_CHILDREN fuel now file (c + 1) pos tree =
          some (false, tree) := by
        simp [state_load_nodes, hlen]
      rw [hres] at h
      have ht : tree = tree2 := (Prod.mk.inj (Option.some.inj h)).2
      refine ⟨0, Nat.succ_pos c, ?_, ?_⟩
      · rw [length_fread_bytes] at hlen
        simp only [NODE_STATE_SIZE] at hlen ⊢
        omega
      · rw [← ht]; rfl
    · have hstep : ∀ n, state_load_nodes MAX_CHILDREN fuel now file (n + 1) pos tree =
          match state_load_record MAX_CHILDREN fuel now
              (decode_node_state (fread_bytes true file pos NODE_STATE_SIZE)) tree with
          | none => none
          | some tree1 =>
            state_load_nodes MAX_CHILDREN fuel now file n (pos + NODE_STATE_SIZE) tree1 := by
        intro n
        conv => lhs; unfold state_load_nodes
        simp only [if_neg hlen]
      rw [hstep c] at h
      cases hc : state_load_record MAX_CHILDREN fuel now
          (decode_node_state (fread_bytes true file pos NODE_STATE_SIZE)) tree with
      | none => rw [hc] at h; cases h
      | some tree1 =>
        rw [hc] at h
        simp only at h
        obtain ⟨k, hk, hl, hr⟩ := ih (pos + NODE_STATE_SIZE) tree1 tree2 h
        refine ⟨k + 1, by omega, ?_, ?_⟩
        · simp only [NODE_STATE_SIZE] at hl ⊢
          omega
        · rw [hstep k, hc]
          exact hr

/-! ## Depth-first traversal -/

theorem dfs_helper_zero (look : Addr → Option (Ident × List Addr)) (node : Nat) :
    dfs_helper look 0 node = none := rfl

theorem dfs_helper_succ (look : Addr → Option (Ident × List Addr)) (fuel node : Nat) :
    dfs_helper look (fuel + 1) node =
      match look node with
      | none => none
      | some (_, children) =>
        children.foldlM
          (fun visited c => (dfs_helper look fuel c).map (fun sub => visited ++ sub))
          [node] := rfl

/-- The fold over the children succeeds exactly when the traversal of every child does, and
then it appends the children's visiting orders, in order, to what was visited before. -/
theorem dfs_fold_eq (look : Addr → Option (Ident × List Addr)) (fuel : Nat) :
    ∀ (cs : List Nat) (acc l : List Nat),
      cs.foldlM (fun visited c => (dfs_helper look fuel c).map (fun sub => visited ++ sub))
          acc = some l ↔
        ∃ subs, List.Forall₂ (fun c s => dfs_helper look fuel c = some s) cs subs ∧
          l = acc ++ subs.flatten := by
  intro cs
  induction cs with
  | nil =>
    intro acc l
    constructor
    · intro h
      have hl : acc = l := by simpa [List.foldlM] using h
      exact ⟨[], List.Forall₂.nil, by simp [hl]⟩
    · rintro ⟨subs, hf, hl⟩
      cases hf
      simp [List.foldlM, hl]
  | cons c cs ih =>
    intro acc l
    rw [List.foldlM_cons]
    cases hc : dfs_helper look fuel c with
    | none =>
      constructor
      · intro h; simp at h
      · rintro ⟨subs, hf, _⟩
        cases hf with
        | cons h1 _ => rw [hc] at h1; cases h1
    | some s =>
      have hstep : ((some s : Option (List Nat)).map (fun sub => acc ++ sub) >>= fun x =>
          cs.foldlM (fun visited c =>
            (dfs_helper look fuel c).map (fun sub => visited ++ sub)) x) =
          cs.foldlM (fun visited c =>
            (dfs_helper look fuel c).map (fun sub => visited ++ sub)) (acc ++ s) := rfl
      rw [hstep, ih]
      constructor
      · rintro ⟨subs, hf, hl⟩
        refine ⟨s :: subs, List.Forall₂.cons hc hf, ?_⟩
        rw [hl]; simp
      · rintro ⟨subs, hf, hl⟩
        cases hf with
        | @cons _ s2 _ subs2 h1 h2 =>
          rw [hc] at h1
          have hs : s = s2 := Option.some.inj h1
          refine ⟨subs2, h2, ?_⟩
          rw [hl, hs]; simp

theorem forall₂_right_mem {α β : Type} {R : α → β → Prop} :
    ∀ {l1 : List α} {l2 : List β}, List.Forall₂ R l1 l2 →
      ∀ y ∈ l2, ∃ x ∈ l1, R x y := by
  intro l1 l2 h
  induction h with
  | nil => intro y hy; cases hy
  | cons h1 _ ih =>
    intro y hy
    rcases List.mem_cons.mp hy with e | e
    · exact ⟨_, List.mem_cons_self _ _, e ▸ h1⟩
    · obtain ⟨x, hx, hr⟩ := ih y e
      exact ⟨x, List.mem_cons_of_mem _ hx, hr⟩

theorem forall₂_left_mem {α β : Type} {R : α → β → Prop} :
    ∀ {l1 : List α} {l2 : List β}, List.Forall₂ R l1 l2 →
      ∀ x ∈ l1, ∃ y ∈ l2, R x y := by
  intro l1 l2 h
  induction h with
  | nil => intro x hx; cases hx
  | cons h1 _ ih =>
    intro x hx
    rcases List.mem_cons.mp hx with e | e
    · exact ⟨_, List.mem_cons_self _ _, e ▸ h1⟩
    · obtain ⟨y, hy, hr⟩ := ih x e
      exact ⟨y, List.mem_cons_of_mem _ hy, hr⟩

/-- What a successful traversal of a node looks like: the node, then the traversals of its
children. -/
theorem dfs_helper_some (look : Addr → Option (Ident × List Addr)) (fuel node : Nat)
    (l : List Nat) (h : dfs_helper look (fuel + 1) node = some l) :
    ∃ nid children subs, look node = some (nid, children) ∧
      List.Forall₂ (fun c s => dfs_helper look fuel c = some s) children subs ∧
      l = node :: subs.flatten := by
  rw [dfs_helper_succ] at h
  cases hl : look node with
  | none => rw [hl] at h; cases h
  | some pr =>
    obtain ⟨nid, children⟩ := pr
    rw [hl] at h
    simp only at h
    obtain ⟨subs, hf, hl2⟩ := (dfs_fold_eq look fuel children [node] l).mp h
    exact ⟨nid, children, subs, rfl, hf, by simpa using hl2⟩

/-- On a tree-shaped graph the traversal of an allocated node ends, with the same visiting
order for all sufficiently large fuel. -/
theorem dfs_helper_terminates (look : Addr → Option (Ident × List Addr))
    (rank : Addr → Nat)
    (hrank : ∀ a nid children, look a = some (nid, children) →
      ∀ c ∈ children, (look c).isSome = true ∧ rank c < rank a) :
    ∀ (r a : Nat), rank a < r → (look a).isSome = true →
      ∃ l, ∀ fuel, r ≤ fuel → dfs_helper look fuel a = some l := by
  intro r
  induction r with
  | zero => intro a h; exact absurd h (Nat.not_lt_zero _)
  | succ m ih =>
    intro a ha hsome
    cases hl : look a with
    | none => rw [hl] at hsome; cases hsome
    | some pr =>
      obtain ⟨nid, children⟩ := pr
      have hkids : ∀ cs : List Nat, (∀ c ∈ cs, c ∈ children) →
          ∃ subs, ∀ fuel, m ≤ fuel →
            List.Forall₂ (fun c s => dfs_helper look fuel c = some s) cs subs := by
        intro cs
        induction cs with
        | nil => intro _; exact ⟨[], fun _ _ => List.Forall₂.nil⟩
        | cons c rest ihc =>
          intro hsub
          have hc := hrank a nid children hl c (hsub c (List.mem_cons_self _ _))
          obtain ⟨s, hs⟩ := ih c (by omega) hc.1
          obtain ⟨subs, hsubs⟩ := ihc (fun x hx => hsub x (List.mem_cons_of_mem _ hx))
          exact ⟨s :: subs, fun fuel hf => List.Forall₂.cons (hs fuel hf) (hsubs fuel hf)⟩
      obtain ⟨subs, hsubs⟩ := hkids children (fun c hc => hc)
      refine ⟨a :: subs.flatten, fun fuel hfuel => ?_⟩
      obtain ⟨g, rfl⟩ : ∃ g, fuel = g + 1 := ⟨fuel - 1, by omega⟩
      rw [dfs_helper_succ, hl]
      simp only
      rw [dfs_fold_eq]
      exact ⟨subs, hsubs g (by omega), by simp⟩

theorem reachable_from_child (look : Addr → Option (Ident × List Addr)) (a c : Nat)
    (nid : Ident) (children : List Addr) (hl : look a = some (nid, children))
    (hc : c ∈ children) :
    ∀ x, Reachable look (some c) x → Reachable look (some a) x := by
  intro x hx
  induction hx with
  | root r hr =>
    have hrc : c = r := Option.some.inj hr
    rw [← hrc]
    exact Reachable.child a c nid children (Reachable.root a rfl) hl hc
  | child p y pid pkids _ hlp hy ih =>
    exact Reachable.child p y pid pkids ih hlp hy

theorem reachable_trans (look : Addr → Option (Ident × List Addr)) (root : Option Addr)
    (a : Nat) (ha : Reachable look root a) :
    ∀ x, Reachable look (some a) x → Reachable look root x := by
  intro x hx
  induction hx with
  | root r hr =>
    have hra : a = r := Option.some.inj hr
    rw [← hra]; exact ha
  | child p y pid pkids _ hlp hy ih =>
    exact Reachable.child p y pid pkids ih hlp hy

theorem reachable_rank_le (look : Addr → Option (Ident × List Addr)) (rank : Addr → Nat)
    (hrank : ∀ a nid children, look a = some (nid, children) →
      ∀ c ∈ children, (look c).isSome = true ∧ rank c < rank a) (a : Nat) :
    ∀ x, Reachable look (some a) x → rank x ≤ rank a := by
  intro x hx
  induction hx with
  | root r hr =>
    have hra : a = r := Option.some.inj hr
    rw [hra]
  | child p y pid pkids _ hlp hy ih =>
    exact Nat.le_trans (Nat.le_of_lt (hrank p pid pkids hlp y hy).2) ih

/-- Every node a traversal visits is the start node or a descendant of it. -/
theorem dfs_helper_mem_reachable (look : Addr → Option (Ident × List Addr)) :
    ∀ (fuel a : Nat) (l : List Nat), dfs_helper look fuel a = some l →
      ∀ x ∈ l, Reachable look (some a) x := by
  intro fuel
  induction fuel with
  | zero => intro a l h; rw [dfs_helper_zero] at h; cases h
  | succ f ih =>
    intro a l h x hx
    obtain ⟨nid, children, subs, hl, hf, hlist⟩ := dfs_helper_some look f a l h
    rw [hlist] at hx
    rcases List.mem_cons.mp hx with e | e
    · rw [e]; exact Reachable.root a rfl
    · obtain ⟨s, hs, hxs⟩ := List.mem_flatten.mp e
      obtain ⟨c, hc, hcs⟩ := forall₂_right_mem hf s hs
      exact reachable_from_child look a c nid children hl hc x (ih c s hcs x hxs)

/-- The visiting order starts with the start node. -/
theorem dfs_helper_head (look : Addr → Option (Ident × List Addr)) (fuel a : Nat)
    (l : List Nat) (h : dfs_helper look fuel a = some l) : ∃ tail, l = a :: tail := by
  cases fuel with
  | zero => rw [dfs_helper_zero] at h; cases h
  | succ f =>
    obtain ⟨_, _, subs, _, _, hlist⟩ := dfs_helper_some look f a l h
    exact ⟨subs.flatten, hlist⟩

/-- A traversal visits every child of every node it visits. -/
theorem dfs_helper_closed (look : Addr → Option (Ident × List Addr)) :
    ∀ (fuel a : Nat) (l : List Nat), dfs_helper look fuel a = some l →
      ∀ x ∈ l, ∀ nid children, look x = some (nid, children) → ∀ c ∈ children, c ∈ l := by
  intro fuel
  induction fuel with
  | zero => intro a l h; rw [dfs_helper_zero] at h; cases h
  | succ f ih =>
    intro a l h x hx xid xkids hlx c hc
    obtain ⟨nid, children, subs, hl, hf, hlist⟩ := dfs_helper_some look f a l h
    rw [hlist] at hx ⊢
    rcases List.mem_cons.mp hx with e | e
    · rw [e, hl] at hlx
      have hk : children = xkids := (Prod.mk.inj (Option.some.inj hlx)).2
      rw [← hk] at hc
      obtain ⟨s, hs, hcs⟩ := forall₂_left_mem hf c hc
      obtain ⟨tail, htail⟩ := dfs_helper_head look f c s hcs
      refine List.mem_cons_of_mem _ (List.mem_flatten.mpr ⟨s, hs, ?_⟩)
      rw [htail]; exact List.mem_cons_self _ _
    · obtain ⟨s, hs, hxs⟩ := List.mem_flatten.mp e
      obtain ⟨c2, _, hcs⟩ := forall₂_right_mem hf s hs
      exact List.mem_cons_of_mem _
        (List.mem_flatten.mpr ⟨s, hs, ih c2 s hcs x hxs xid xkids hlx c hc⟩)

/-- A traversal visits exactly the start node and its descendants. -/
theorem dfs_helper_mem_iff (look : Addr → Option (Ident × List Addr)) (fuel a : Nat)
    (l : List Nat) (h : dfs_helper look fuel a = some l) (x : Nat) :
    x ∈ l ↔ Reachable look (some a) x := by
  constructor
  · exact dfs_helper_mem_reachable look fuel a l h x
  · intro hx
    induction hx with
    | root r hr =>
      obtain ⟨tail, htail⟩ := dfs_helper_head look fuel a l h
      have hra : a = r := Option.some.inj hr
      rw [htail, ← hra]; exact List.mem_cons_self _ _
    | child p y pid pkids _ hlp hy ih =>
      exact dfs_helper_closed look fuel a l h p ih pid pkids hlp y hy

/-- With unique parents, two nodes that share a descendant lie on one branch. -/
theorem reachable_comparable (look : Addr → Option (Ident × List Addr))
    (huniq : UniqueParents look) (b1 b2 : Nat) :
    ∀ x, Reachable look (some b1) x → Reachable look (some b2) x →
      Reachable look (some b1) b2 ∨ Reachable look (some b2) b1 := by
  intro x h1
  induction h1 with
  | root r hr =>
    intro h2
    have hrb : b1 = r := Option.some.inj hr
    rw [hrb]; exact Or.inr h2
  | child p y pid pkids hp hlp hy ih =>
    intro h2
    cases h2 with
    | root r hr =>
      have hrb : b2 = y := Option.some.inj hr
      rw [hrb]
      exact Or.inl (Reachable.child p y pid pkids hp hlp hy)
    | child p2 _ pid2 pkids2 hp2 hlp2 hy2 =>
      have hpp : p = p2 := huniq.2 p p2 pid pid2 pkids pkids2 y hlp hlp2 hy hy2
      rw [← hpp] at hp2
      exact ih hp2

theorem forall₂_pairwise {α β : Type} {R : α → β → Prop} {P : α → α → Prop}
    {Q : β → β → Prop} (hPQ : ∀ a b x y, R a x → R b y → P a b → Q x y) :
    ∀ {l1 : List α} {l2 : List β}, List.Forall₂ R l1 l2 →
      List.Pairwise P l1 → List.Pairwise Q l2 := by
  intro l1 l2 h
  induction h with
  | nil => intro _; exact List.Pairwise.nil
  | @cons a x l1 l2 h1 h2 ih =>
    intro hp
    rw [List.pairwise_cons] at hp ⊢
    refine ⟨?_, ih hp.2⟩
    intro y hy
    obtain ⟨b, hb, hr⟩ := forall₂_right_mem h2 y hy
    exact hPQ a b x y h1 hr (hp.1 b hb)

/-- On a tree (no cycle, unique parents) the traversal visits no node twice. -/
theorem dfs_helper_nodup (look : Addr → Option (Ident × List Addr)) (rank : Addr → Nat)
    (hrank : ∀ a nid children, look a = some (nid, children) →
      ∀ c ∈ children, (look c).isSome = true ∧ rank c < rank a)
    (huniq : UniqueParents look) :
    ∀ (fuel a : Nat) (l : List Nat), dfs_helper look fuel a = some l → l.Nodup := by
  intro fuel
  induction fuel with
  | zero => intro a l h; rw [dfs_helper_zero] at h; cases h
  | succ f ih =>
    intro a l h
    obtain ⟨nid, children, subs, hl, hf, hlist⟩ := dfs_helper_some look f a l h
    rw [hlist, List.nodup_cons]
    constructor
    · intro hmem
      obtain ⟨s, hs, has⟩ := List.mem_flatten.mp hmem
      obtain ⟨c, hc, hcs⟩ := forall₂_right_mem hf s hs
      have h1 := reachable_rank_le look rank hrank c a
        (dfs_helper_mem_reachable look f c s hcs a has)
      have h2 := (hrank a nid children hl c hc).2
      omega
    · rw [List.nodup_flatten]
      constructor
      · intro s hs
        obtain ⟨c, _, hcs⟩ := forall₂_right_mem hf s hs
        exact ih c s hcs
      · have hpair : List.Pairwise (fun c1 c2 => c1 ≠ c2 ∧ c1 ∈ children ∧ c2 ∈ children)
            children := by
          have hnd : children.Nodup := huniq.1 a nid children hl
          have hall : ∀ c ∈ children, c ∈ children := fun c hc => hc
          exact (List.Pairwise.and_mem.mp hnd).imp
            (fun {c1 c2} hh => ⟨hh.2.2, hh.1, hh.2.1⟩)
        refine forall₂_pairwise ?_ hf hpair
        intro c1 c2 s1 s2 hs1 hs2 ⟨hne, hc1, hc2⟩ x hx1 hx2
        have hr1 := dfs_helper_mem_reachable look f c1 s1 hs1 x hx1
        have hr2 := dfs_helper_mem_reachable look f c2 s2 hs2 x hx2
        have hcontra : ∀ u v, u ≠ v → u ∈ children → v ∈ children →
            Reachable look (some u) v → False := by
          intro u v huv hu hv hreach
          cases hreach with
          | root r hr => exact huv (Option.some.inj hr)
          | child p _ pid pkids hp hlp hy =>
            have hpa : p = a := huniq.2 p a pid nid pkids children v hlp hl hy hv
            rw [hpa] at hp
            have h1 := reachable_rank_le look rank hrank u a hp
            have h2 := (hrank a nid children hl u hu).2
            omega
        rcases reachable_comparable look huniq c1 c2 x hr1 hr2 with hh | hh
        · exact hcontra c1 c2 hne hc1 hc2 hh
        · exact hcontra c2 c1 (Ne.symm hne) hc2 hc1 hh

theorem parent_first_append (look : Addr → Option (Ident × List Addr)) (l1 l2 : List Nat)
    (h1 : ParentFirst look l1) (h2 : ParentFirst look l2)
    (hhead : ∀ c tail, l2 = c :: tail →
      ∃ p ∈ l1, ∃ nid children, look p = some (nid, children) ∧ c ∈ children) :
    ParentFirst look (l1 ++ l2) := by
  intro pre c post hdec hpre
  rcases List.append_eq_append_iff.mp hdec with ⟨a2, hp, hl2⟩ | ⟨c2, hl1, hc⟩
  · cases a2 with
    | nil =>
      simp only [List.nil_append] at hl2
      simp only [List.append_nil] at hp
      rw [hp]
      exact hhead c post hl2
    | cons x xs =>
      obtain ⟨p, hpm, hrest⟩ := h2 (x :: xs) c post hl2 (by simp)
      exact ⟨p, by rw [hp]; exact List.mem_append_right _ hpm, hrest⟩
  · cases c2 with
    | nil =>
      simp only [List.nil_append] at hc
      simp only [List.append_nil] at hl1
      rw [← hl1]
      exact hhead c post hc.symm
    | cons x xs =>
      have hx : c = x ∧ post = xs ++ l2 := by
        have := List.cons_eq_cons.mp hc
        simpa using this
      rw [hx.1] at *
      exact h1 pre x xs hl1 hpre

/-- The order of a depth-first traversal lists every node after its parent. -/
theorem dfs_helper_parent_first (look : Addr → Option (Ident × List Addr)) :
    ∀ (fuel a : Nat) (l : List Nat), dfs_helper look fuel a = some l → ParentFirst look l := by
  intro fuel
  induction fuel with
  | zero => intro a l h; rw [dfs_helper_zero] at h; cases h
  | succ f ih =>
    intro a l h
    obtain ⟨nid, children, subs, hl, hf, hlist⟩ := dfs_helper_some look f a l h
    have hfold : ∀ (cs : List Nat) (ss : List (List Nat)),
        List.Forall₂ (fun c s => dfs_helper look f c = some s) cs ss →
        (∀ c ∈ cs, c ∈ children) →
        ∀ acc, ParentFirst look acc → a ∈ acc → ParentFirst look (acc ++ ss.flatten) := by
      intro cs ss hfs
      induction hfs with
      | nil => intro _ acc hacc _; simpa using hacc
      | @cons c s cs2 ss2 hcs _ ih2 =>
        intro hsub acc hacc ha
        have happ : acc ++ (s :: ss2).flatten = (acc ++ s) ++ ss2.flatten := by simp
        rw [happ]
        apply ih2 (fun x hx => hsub x (List.mem_cons_of_mem _ hx))
        · apply parent_first_append look acc s hacc (ih c s hcs)
          intro h2 tail hs
          obtain ⟨t2, ht2⟩ := dfs_helper_head look f c s hcs
          rw [ht2] at hs
          have hh : c = h2 := (List.cons_eq_cons.mp hs).1
          rw [← hh]
          exact ⟨a, ha, nid, children, hl, hsub c (List.mem_cons_self _ _)⟩
        · exact List.mem_append_left _ ha
    have hbase : ParentFirst look [a] := by
      intro pre c post hdec hpre
      cases pre with
      | nil => exact absurd rfl hpre
      | cons x xs =>
        have := congrArg List.length hdec
        simp at this
    have := hfold children subs hf (fun c hc => hc) [a] hbase (List.mem_singleton.mpr rfl)
    rw [hlist]
    simpa using this

theorem forall₂_split_right {α β : Type} {R : α → β → Prop} :
    ∀ (pre : List β) (r : β) (post : List β) (l : List α),
      List.Forall₂ R l (pre ++ r :: post) →
      ∃ lpre c lpost, l = lpre ++ c :: lpost ∧ List.Forall₂ R lpre pre ∧ R c r ∧
        List.Forall₂ R lpost post := by
  intro pre
  induction pre with
  | nil =>
    intro r post l h
    cases h with
    | cons h1 h2 => exact ⟨[], _, _, rfl, List.Forall₂.nil, h1, h2⟩
  | cons y ys ih =>
    intro r post l h
    cases h with
    | @cons a _ l2 _ h1 h2 =>
      obtain ⟨lpre, c, lpost, hl, hfp, hr, hfo⟩ := ih r post l2 h2
      exact ⟨a :: lpre, c, lpost, by rw [hl]; rfl, List.Forall₂.cons h1 hfp, hr, hfo⟩

theorem save_nodes_forall₂ (ctx : TreeContext) :
    ∀ (order : List Nat) (records : List NodeState),
      save_nodes ctx order = some records ↔
        List.Forall₂ (fun a r => save_node ctx a = some r) order records := by
  intro order
  induction order with
  | nil =>
    intro records
    constructor
    · intro h
      have : records = [] := by simpa [save_nodes] using h.symm
      rw [this]; exact List.Forall₂.nil
    · intro h; cases h; rfl
  | cons a rest ih =>
    intro records
    constructor
    · intro h
      unfold save_nodes at h
      cases hs : save_node ctx a with
      | none => rw [hs] at h; simp at h
      | some s =>
        cases hr : save_nodes ctx rest with
        | none => rw [hs, hr] at h; simp at h
        | some rs =>
          rw [hs, hr] at h
          have : records = s :: rs := by simpa using h.symm
          rw [this]
          exact List.Forall₂.cons hs ((ih rs).mp hr)
    · intro h
      cases h with
      | @cons _ s _ rs h1 h2 =>
        unfold save_nodes
        rw [h1, (ih rs).mpr h2]

/-! ## state.c: what `state_save` writes -/

theorem le_bytes_length : ∀ (width n : Nat), (le_bytes width n).length = width := by
  intro width
  induction width with
  | zero => intro n; rfl
  | succ w ih => intro n; simp [le_bytes, ih]

theorem encode_header_length (h : StateHeader) : (encode_header h).length = HEADER_SIZE := by
  simp [encode_header, le_bytes_length, HEADER_SIZE]

theorem cstr_field_length (s : Ident) : (cstr_field s).length = 64 := by
  unfold cstr_field
  simp only [List.length_append, List.length_replicate, List.length_take]
  omega

theorem encode_node_state_length (s : NodeState) :
    (encode_node_state s).length = NODE_STATE_SIZE := by
  simp [encode_node_state, le_bytes_length, cstr_field_length, NODE_STATE_SIZE]

theorem save_node_record (ctx : TreeContext) (a : Nat) (r : NodeState)
    (h : save_node ctx a = some r) : RecordOf ctx a r := by
  unfold save_node at h
  cases hl : load ctx.heap a with
  | none => rw [hl] at h; cases h
  | some n =>
    rw [hl] at h
    simp only at h
    cases hp : n.parent with
    | none =>
      rw [hp] at h
      simp only at h
      have hr := Option.some.inj h
      rw [← hr]
      exact ⟨n, hl, rfl, rfl, rfl, rfl, rfl, Or.inl ⟨hp, rfl⟩⟩
    | some p =>
      rw [hp] at h
      simp only at h
      cases hlp : load ctx.heap p with
      | none => rw [hlp] at h; cases h
      | some pn =>
        rw [hlp] at h
        simp only at h
        have hr := Option.some.inj h
        rw [← hr]
        exact ⟨n, hl, rfl, rfl, rfl, rfl, rfl, Or.inr ⟨p, pn, hp, hlp, rfl⟩⟩

theorem tree_proper_unique (ctx : TreeContext) (hproper : TreeProper ctx) :
    UniqueParents (tree_look ctx) := by
  obtain ⟨_, _, hkids⟩ := hproper
  constructor
  · intro a nid children hl
    obtain ⟨n, hn, _, hc⟩ := tree_look_some ctx a nid children hl
    rw [← hc]
    exact (hkids a n hn).1
  · intro a b na nb ka kb c hla hlb hca hcb
    obtain ⟨n1, hn1, _, hc1⟩ := tree_look_some ctx a na ka hla
    obtain ⟨n2, hn2, _, hc2⟩ := tree_look_some ctx b nb kb hlb
    rw [← hc1] at hca
    rw [← hc2] at hcb
    obtain ⟨m1, hm1, hp1⟩ := (hkids a n1 hn1).2 c hca
    obtain ⟨m2, hm2, hp2⟩ := (hkids b n2 hn2).2 c hcb
    rw [hm1] at hm2
    have hm : m1 = m2 := Option.some.inj hm2
    rw [hm, hp2] at hp1
    exact (Option.some.inj hp1).symm

/-- In a proper tree `save_node` succeeds on every reachable node. -/
theorem save_node_reachable (ctx : TreeContext) (hproper : TreeProper ctx) (a : Nat)
    (ha : Reachable (tree_look ctx) ctx.root a) : ∃ r, save_node ctx a = some r := by
  obtain ⟨⟨hroot, rank, hrank⟩, hrootpar, hkids⟩ := hproper
  cases ha with
  | root r hr =>
    obtain ⟨n, hn⟩ := Option.isSome_iff_exists.mp
      (show (load ctx.heap a).isSome = true by
        have := hroot a hr
        unfold tree_look at this
        cases hl : load ctx.heap a with
        | none => rw [hl] at this; cases this
        | some n => rfl)
    have hp := hrootpar a n hr hn
    unfold save_node
    rw [hn]
    simp only
    rw [hp]
    exact ⟨_, rfl⟩
  | child p _ pid pkids _ hlp hy =>
    obtain ⟨pn, hpn, _, hpc⟩ := tree_look_some ctx p pid pkids hlp
    rw [← hpc] at hy
    obtain ⟨m, hm, hmp⟩ := (hkids p pn hpn).2 a hy
    unfold save_node
    rw [hm]
    simp only
    rw [hmp]
    simp only
    rw [hpn]
    exact ⟨_, rfl⟩

theorem not_reachable_of_no_root (look : Addr → Option (Ident × List Addr)) (a : Nat) :
    ¬ Reachable look none a := by
  intro h
  induction h with
  | root r hr => cases hr
  | child _ _ _ _ _ _ _ ih => exact ih

theorem tree_proper_of_checks (ctx : TreeContext)
    (hord : ordered_check (tree_look ctx) ctx.root ctx.heap.length = true)
    (hchk : proper_check ctx = true) : TreeProper ctx := by
  unfold proper_check at hchk
  rw [Bool.and_eq_true] at hchk
  refine ⟨tree_ctx_shaped ctx hord, ?_, ?_⟩
  · intro r n hr hn
    have h1 := hchk.1
    rw [hr] at h1
    simp only at h1
    rw [hn] at h1
    simp only at h1
    exact Option.isNone_iff_eq_none.mp h1
  · intro a n hn
    have h2 := hchk.2
    rw [List.all_eq_true] at h2
    have h3 := h2 a (List.mem_range.mpr (load_lt hn))
    rw [hn] at h3
    simp only at h3
    rw [Bool.and_eq_true, decide_eq_true_eq, List.all_eq_true] at h3
    refine ⟨h3.1, fun c hc => ?_⟩
    have hc2 := h3.2 c hc
    cases hm : load ctx.heap c with
    | none => rw [hm] at hc2; cases hc2
    | some m =>
      rw [hm] at hc2
      exact ⟨m, rfl, of_decide_eq_true hc2⟩

theorem save_nodes_total (ctx : TreeContext) :
    ∀ (order : List Nat), (∀ a ∈ order, ∃ r, save_node ctx a = some r) →
      ∃ records, List.Forall₂ (fun a r => save_node ctx a = some r) order records := by
  intro order
  induction order with
  | nil => intro _; exact ⟨[], List.Forall₂.nil⟩
  | cons a rest ih =>
    intro h
    obtain ⟨r, hr⟩ := h a (List.mem_cons_self _ _)
    obtain ⟨records, hrec⟩ := ih (fun b hb => h b (List.mem_cons_of_mem _ hb))
    exact ⟨r :: records, List.Forall₂.cons hr hrec⟩

/-- What `state_save` returns once both traversals and the record writes are known. -/
theorem state_save_of_order (fuel : Nat) (ctx : StateContext) (tree : TreeContext) (now : Nat)
    (order : List Nat) (records : List NodeState)
    (hdfs : tree_traverse_dfs fuel tree = some order)
    (hsave : save_nodes tree order = some records) :
    state_save fuel ctx tree now =
      some (true,
        { ctx with header :=
            { ctx.header with node_count := order.length, timestamp := now, checksum := 0 } },
        encode_header
            { ctx.header with node_count := order.length, timestamp := now, checksum := 0 } ++
          (records.map encode_node_state).flatten) := by
  unfold state_save
  rw [hdfs]
  simp only
  rw [hsave]
  simp only
  rw [checksum_loop_write_only, List.drop_left' (encode_header_length _)]

/-- C19: for a tree with consistent parent pointers, `state_save` returns true for every
large enough fuel and writes a header followed by one record per visited node, where the
visiting order `order` of `tree_traverse_dfs` lists every node reachable from the root
exactly once, `node_count` is its length, the record at each position describes the node at
that position (`RecordOf`: id, the parent's id or the empty string, creation time, flags and
child count), the first record has an empty `parent_id`, and every record with a non-empty
`parent_id` comes after a record whose id is that `parent_id`. -/
theorem state_save_layout (ctx : StateContext) (tree : TreeContext) (now : Nat)
    (hproper : TreeProper tree) :
    ∃ (order : List Addr) (records : List NodeState) (header : StateHeader) (bound : Nat),
      (∀ fuel, bound ≤ fuel →
        tree_traverse_dfs fuel tree = some order ∧
        state_save fuel ctx tree now =
          some (true, { ctx with header := header },
            encode_header header ++ (records.map encode_node_state).flatten)) ∧
      header.node_count = order.length ∧ records.length = order.length ∧
      order.Nodup ∧ (∀ a, a ∈ order ↔ Reachable (tree_look tree) tree.root a) ∧
      List.Forall₂ (RecordOf tree) order records ∧
      (∀ r post, records = r :: post → r.parent_id = "") ∧
      (∀ pre r post, records = pre ++ r :: post → r.parent_id ≠ "" →
        ∃ q ∈ pre, q.id = r.parent_id) := by
  have huniq := tree_proper_unique tree hproper
  obtain ⟨⟨hroot_alloc, rank, hrank⟩, hrootpar, hkids⟩ := id hproper
  cases hroot : tree.root with
  | none =>
    refine ⟨[], [], { ctx.header with node_count := 0, timestamp := now, checksum := 0 }, 0,
      ?_, rfl, rfl, List.nodup_nil, ?_, List.Forall₂.nil, ?_, ?_⟩
    · intro fuel _
      have hdfs : tree_traverse_dfs fuel tree = some [] := by
        unfold tree_traverse_dfs
        rw [hroot]
      exact ⟨hdfs, state_save_of_order fuel ctx tree now [] [] hdfs rfl⟩
    · intro a
      constructor
      · intro h
        cases h
      · intro h
        exact absurd h (not_reachable_of_no_root _ a)
    · intro r post h
      cases h
    · intro pre r post h
      cases pre <;> cases h
  | some r0 =>
    obtain ⟨order, horder⟩ := dfs_helper_terminates (tree_look tree) rank hrank
      (rank r0 + 1) r0 (Nat.lt_succ_self _) (hroot_alloc r0 hroot)
    have hd := horder (rank r0 + 1) (Nat.le_refl _)
    have hmem : ∀ a, a ∈ order ↔ Reachable (tree_look tree) (some r0) a :=
      fun a => dfs_helper_mem_iff _ _ _ _ hd a
    obtain ⟨records, hrecs⟩ := save_nodes_total tree order (fun a ha =>
      save_node_reachable tree hproper a (by rw [hroot]; exact (hmem a).mp ha))
    have hrecof : List.Forall₂ (RecordOf tree) order records :=
      hrecs.imp (fun a r h => save_node_record tree a r h)
    obtain ⟨tail, htail⟩ := dfs_helper_head _ _ _ _ hd
    have hfirst := dfs_helper_parent_first (tree_look tree) _ _ _ hd
    refine ⟨order, records,
      { ctx.header with node_count := order.length, timestamp := now, checksum := 0 },
      rank r0 + 1, ?_, rfl, hrecs.length_eq.symm,
      dfs_helper_nodup _ rank hrank huniq _ _ _ hd, hmem, hrecof, ?_, ?_⟩
    · intro fuel hfuel
      have hdfs : tree_traverse_dfs fuel tree = some order := by
        unfold tree_traverse_dfs
        rw [hroot]
        exact horder fuel hfuel
      exact ⟨hdfs, state_save_of_order fuel ctx tree now order records hdfs
        ((save_nodes_forall₂ tree order records).mpr hrecs)⟩
    · intro r post hr
      rw [htail, hr] at hrecof
      cases hrecof with
      | cons h1 _ =>
        obtain ⟨n, hn, _, _, _, _, _, hpar⟩ := h1
        rcases hpar with ⟨_, hp⟩ | ⟨p, pn, hp, _, _⟩
        · exact hp
        · rw [hrootpar r0 n hroot hn] at hp
          cases hp
    · intro pre r post hr hne
      rw [hr] at hrecof
      obtain ⟨lpre, c, lpost, hsplit, hpre, hc, _⟩ := forall₂_split_right pre r post order hrecof
      obtain ⟨n, hn, _, _, _, _, _, hpar⟩ := hc
      rcases hpar with ⟨_, hp⟩ | ⟨p, pn, hp, hpn, hpid⟩
      · exact absurd hp hne
      · have hlpre : lpre ≠ [] := by
          intro hnil
          rw [hnil, htail] at hsplit
          have hc0 : r0 = c := by
            simp only [List.nil_append, List.cons.injEq] at hsplit
            exact hsplit.1
          rw [← hc0] at hn
          rw [hrootpar r0 n hroot hn] at hp
          cases hp
        obtain ⟨p2, hp2, nid, children, hl2, hcin⟩ := hfirst lpre c lpost hsplit hlpre
        obtain ⟨n2, hn2, _, hch2⟩ := tree_look_some tree p2 nid children hl2
        rw [← hch2] at hcin
        obtain ⟨m, hm, hmp⟩ := (hkids p2 n2 hn2).2 c hcin
        rw [hn] at hm
        have hnm : n = m := Option.some.inj hm
        rw [hnm, hmp] at hp
        have hpp : p2 = p := Option.some.inj hp
        rw [hpp] at hp2
        obtain ⟨q, hq, hqrec⟩ := forall₂_left_mem hpre p hp2
        obtain ⟨pn2, hpn2, hqid, _⟩ := hqrec
        rw [hpn] at hpn2
        have hpe : pn = pn2 := Option.some.inj hpn2
        refine ⟨q, hq, ?_⟩
        rw [hqid, hpid, hpe]

/-- C19 witness: the three-node tree `node_7_0 -> node_7_1, node_7_2`. -/
theorem state_save_layout_witness :
    TreeProper (binary_ctx 3 3) ∧
    ∃ (order : List Addr) (records : List NodeState) (header : StateHeader) (bound : Nat),
      (∀ fuel, bound ≤ fuel →
        tree_traverse_dfs fuel (binary_ctx 3 3) = some order ∧
        state_save fuel (state_create 5) (binary_ctx 3 3) 9 =
          some (true, { state_create 5 with header := header },
            encode_header header ++ (records.map encode_node_state).flatten)) ∧
      header.node_count = order.length ∧ records.length = order.length ∧
      order.Nodup ∧
      (∀ a, a ∈ order ↔ Reachable (tree_look (binary_ctx 3 3)) (binary_ctx 3 3).root a) ∧
      List.Forall₂ (RecordOf (binary_ctx 3 3)) order records ∧
      (∀ r post, records = r :: post → r.parent_id = "") ∧
      (∀ pre r post, records = pre ++ r :: post → r.parent_id ≠ "" →
        ∃ q ∈ pre, q.id = r.parent_id) :=
  ⟨tree_proper_of_checks _ (by decide) (by decide),
   state_save_layout (state_create 5) (binary_ctx 3 3) 9
     (tree_proper_of_checks _ (by decide) (by decide))⟩

/-! ## phantomid.c: the size counter along histories -/

theorem mem_live_cells {α : Type} (h : List (Option α)) (a : Nat) :
    a ∈ live_cells h ↔ (load h a).isSome = true := by
  unfold live_cells
  rw [List.mem_filter, List.mem_range]
  constructor
  · intro hx
    exact hx.2
  · intro hx
    obtain ⟨v, hv⟩ := Option.isSome_iff_exists.mp hx
    exact ⟨load_lt hv, hx⟩

theorem live_cells_nodup {α : Type} (h : List (Option α)) : (live_cells h).Nodup :=
  (List.nodup_range _).filter _

theorem live_cells_length_eq {α : Type} (h h2 : List (Option α))
    (hiff : ∀ a, (load h a).isSome = true ↔ (load h2 a).isSome = true) :
    (live_cells h2).length = (live_cells h).length := by
  apply List.Perm.length_eq
  apply (List.perm_ext_iff_of_nodup (live_cells_nodup _) (live_cells_nodup _)).mpr
  intro a
  rw [mem_live_cells, mem_live_cells]
  exact (hiff a).symm

theorem live_cells_length_succ {α : Type} (h h2 : List (Option α)) (d : Nat)
    (hd2 : (load h2 d).isSome = true) (hd : load h d = none)
    (hother : ∀ a, a ≠ d → ((load h a).isSome = true ↔ (load h2 a).isSome = true)) :
    (live_cells h2).length = (live_cells h).length + 1 := by
  have hnot : d ∉ live_cells h := by
    rw [mem_live_cells, hd]
    simp
  have hperm : (live_cells h2).Perm (d :: live_cells h) := by
    apply (List.perm_ext_iff_of_nodup (live_cells_nodup _)
      (List.nodup_cons.mpr ⟨hnot, live_cells_nodup _⟩)).mpr
    intro a
    rw [List.mem_cons, mem_live_cells, mem_live_cells]
    by_cases had : a = d
    · subst had
      exact ⟨fun _ => Or.inl rfl, fun _ => hd2⟩
    · constructor
      · intro ha
        exact Or.inr ((hother a had).mpr ha)
      · intro ha
        rcases ha with ha | ha
        · exact absurd ha had
        · exact (hother a had).mp ha
  rw [hperm.length_eq, List.length_cons]

theorem reachable_leaf_root (look : Addr → Option (Ident × List Addr)) (r : Nat) (nid : Ident)
    (hleaf : look r = some (nid, [])) (a : Nat) (h : Reachable look (some r) a) : a = r := by
  induction h with
  | root r2 hr => exact (Option.some.inj hr).symm
  | child p c pid children _ hl hc ih =>
    rw [ih, hleaf] at hl
    have := Option.some.inj hl
    rw [← (Prod.mk.inj this).2] at hc
    cases hc

/-- The three ways `phantom_tree_insert` returns: without a node and without a change, with
the first node of an empty tree, or with a new last child of an allocated node with room. -/
theorem phantom_tree_insert_cases (MAX_CHILDREN fuel : Nat) (t : PhantomTree)
    (account : PhantomAccount) (parent_id : Option Ident) (res : Option Addr) (t2 : PhantomTree)
    (h : phantom_tree_insert MAX_CHILDREN fuel t account parent_id = some (res, t2)) :
    (res = none ∧ t2 = t) ∨
    (t.root = none ∧ res = some t.heap.length ∧
      t2 = { heap := t.heap ++ [some (create_node MAX_CHILDREN account true)],
             root := some t.heap.length, total_nodes := 1 }) ∨
    (∃ r parent pn, t.root = some r ∧ load t.heap parent = some pn ∧
      pn.children.length < pn.max_children ∧ res = some t.heap.length ∧
      t2 = { heap := store (t.heap ++ [some { create_node MAX_CHILDREN account false with
                                              parent := some parent }]) parent
                       { pn with children := pn.children ++ [t.heap.length] },
             root := t.root, total_nodes := size_inc t.total_nodes }) := by
  unfold phantom_tree_insert at h
  cases hr : t.root with
  | none =>
    rw [hr] at h
    cases parent_id with
    | some pid =>
      simp only at h
      have h2 := Prod.mk.inj (Option.some.inj h)
      exact Or.inl ⟨h2.1.symm, h2.2.symm⟩
    | none =>
      simp only [alloc] at h
      have h2 := Prod.mk.inj (Option.some.inj h)
      exact Or.inr (Or.inl ⟨rfl, h2.1.symm, h2.2.symm⟩)
  | some r =>
    rw [hr] at h
    simp only at h
    cases hres : phantom_resolve_parent fuel t parent_id with
    | none => rw [hres] at h; cases h
    | some found =>
      rw [hres] at h
      cases found with
      | none =>
        simp only at h
        have h2 := Prod.mk.inj (Option.some.inj h)
        exact Or.inl ⟨h2.1.symm, h2.2.symm⟩
      | some parent =>
        simp only at h
        cases hp : load t.heap parent with
        | none => rw [hp] at h; cases h
        | some pn =>
          rw [hp] at h
          simp only at h
          by_cases hfull : pn.children.length ≥ pn.max_children
          · rw [if_pos hfull] at h
            have h2 := Prod.mk.inj (Option.some.inj h)
            exact Or.inl ⟨h2.1.symm, h2.2.symm⟩
          · rw [if_neg hfull] at h
            simp only [alloc] at h
            have h2 := Prod.mk.inj (Option.some.inj h)
            refine Or.inr (Or.inr ⟨r, parent, pn, rfl, hp, Nat.lt_of_not_le hfull,
              h2.1.symm, ?_⟩)
            rw [← h2.2]

/-- The three ways `phantom_tree_delete` returns: false without a change, true after
unlinking a node from its parent and handing its children over, or true after removing a
parentless node that is not a root with children. -/
theorem phantom_tree_delete_cases (fuel : Nat) (t : PhantomTree) (id : Ident) (ok : Bool)
    (t2 : PhantomTree) (h : phantom_tree_delete fuel t id = some (ok, t2)) :
    (ok = false ∧ t2 = t) ∨
    (∃ d n p pn h2, load t.heap d = some n ∧ n.parent = some p ∧ p ≠ d ∧
      load t.heap p = some pn ∧
      phantom_redistribute (some p) n.is_admin
        (store t.heap p { pn with children := pn.children.erase d }) n.children = some h2 ∧
      ok = true ∧
      t2 = { heap := release h2 d, root := t.root, total_nodes := size_dec t.total_nodes }) ∨
    (∃ d n h2, load t.heap d = some n ∧ n.parent = none ∧
      (n.is_root && decide (n.children.length > 0)) = false ∧
      phantom_redistribute none n.is_admin t.heap n.children = some h2 ∧
      ok = true ∧
      t2 = { heap := release h2 d, root := none, total_nodes := size_dec t.total_nodes }) := by
  unfold phantom_tree_delete at h
  cases hf : phantom_tree_find fuel t id with
  | none => rw [hf] at h; cases h
  | some found =>
    rw [hf] at h
    cases found with
    | none =>
      simp only at h
      have h2 := Prod.mk.inj (Option.some.inj h)
      exact Or.inl ⟨h2.1.symm, h2.2.symm⟩
    | some d =>
      simp only at h
      cases hd : load t.heap d with
      | none => rw [hd] at h; cases h
      | some n =>
        rw [hd] at h
        simp only at h
        cases hguard : (n.is_root && decide (n.children.length > 0)) with
        | true =>
          rw [hguard] at h
          simp only [if_true] at h
          have h2 := Prod.mk.inj (Option.some.inj h)
          exact Or.inl ⟨h2.1.symm, h2.2.symm⟩
        | false =>
          rw [hguard] at h
          simp only [Bool.false_eq_true, if_false] at h
          cases hpar : n.parent with
          | some p =>
            rw [hpar] at h
            simp only at h
            by_cases hpd : p = d
            · rw [if_pos hpd] at h
              cases h
            · rw [if_neg hpd] at h
              cases hp : load t.heap p with
              | none => rw [hp] at h; cases h
              | some pn =>
                rw [hp] at h
                simp only at h
                cases hred : phantom_redistribute (some p) n.is_admin
                    (store t.heap p { pn with children := pn.children.erase d })
                    n.children with
                | none => rw [hred] at h; cases h
                | some h2 =>
                  rw [hred] at h
                  have h3 := Prod.mk.inj (Option.some.inj h)
                  exact Or.inr (Or.inl ⟨d, n, p, pn, h2, hd, hpar, hpd, hp, hred,
                    h3.1.symm, h3.2.symm⟩)
          | none =>
            rw [hpar] at h
            simp only at h
            cases hred : phantom_redistribute none n.is_admin t.heap n.children with
            | none => rw [hred] at h; cases h
            | some h2 =>
              rw [hred] at h
              have h3 := Prod.mk.inj (Option.some.inj h)
              exact Or.inr (Or.inr ⟨d, n, h2, hd, hpar, hguard, hred, h3.1.symm, h3.2.symm⟩)

theorem phantom_wf_no_root (t : PhantomTree) (hwf : PhantomWF t) (hr : t.root = none)
    (a : Nat) : load t.heap a = none := by
  cases hl : load t.heap a with
  | none => rfl
  | some n =>
    have hreach := (hwf.1 a).mp (by rw [hl]; rfl)
    rw [hr] at hreach
    exact absurd hreach (not_reachable_of_no_root _ a)

theorem phantom_wf_root_alloc (t : PhantomTree) (hwf : PhantomWF t) (r : Nat)
    (hr : t.root = some r) : (load t.heap r).isSome = true :=
  (hwf.1 r).mpr (Reachable.root r hr)

/-- The first node of an empty tree leaves a well-formed tree. -/
theorem phantom_wf_insert_root (MAX_CHILDREN : Nat) (t t2 : PhantomTree)
    (account : PhantomAccount) (hwf : PhantomWF t) (hr : t.root = none)
    (hheap : t2.heap = t.heap ++ [some (create_node MAX_CHILDREN account true)])
    (hroot : t2.root = some t.heap.length) : PhantomWF t2 := by
  have hload : ∀ b, load t2.heap b =
      if b = t.heap.length then some (create_node MAX_CHILDREN account true) else none := by
    intro b
    rw [hheap, load_append]
    by_cases hb : b = t.heap.length
    · rw [if_pos hb, if_pos hb]
    · rw [if_neg hb, if_neg hb]
      exact phantom_wf_no_root t hwf hr b
  have hcases : ∀ b n, load t2.heap b = some n →
      b = t.heap.length ∧ n = create_node MAX_CHILDREN account true := by
    intro b n h
    rw [hload] at h
    by_cases hb : b = t.heap.length
    · rw [if_pos hb] at h
      exact ⟨hb, (Option.some.inj h).symm⟩
    · rw [if_neg hb] at h
      cases h
  have hnew : load t2.heap t.heap.length = some (create_node MAX_CHILDREN account true) := by
    rw [hload, if_pos rfl]
  refine ⟨?_, ?_, ?_, ⟨fun _ => 0, ?_⟩⟩
  · intro a
    rw [hroot]
    constructor
    · intro ha
      obtain ⟨n, hn⟩ := Option.isSome_iff_exists.mp ha
      rw [(hcases a n hn).1]
      exact Reachable.root _ rfl
    · intro ha
      have := reachable_leaf_root (phantom_look t2) t.heap.length account.id
        (by rw [phantom_look_eq t2 _ _ hnew]; rfl) a ha
      rw [this, hnew]
      rfl
  · intro a n hn
    obtain ⟨ha, hnode⟩ := hcases a n hn
    rw [hnode, hroot, ha]
    exact ⟨⟨fun _ => rfl, fun _ => rfl⟩, fun _ => rfl⟩
  · intro a n hn
    obtain ⟨_, hnode⟩ := hcases a n hn
    rw [hnode]
    exact ⟨List.nodup_nil, fun c hc => by cases hc⟩
  · intro a n hn c hc
    obtain ⟨_, hnode⟩ := hcases a n hn
    rw [hnode] at hc
    cases hc

/-- A new last child under an allocated node leaves a well-formed tree. -/
theorem phantom_wf_insert_child (t t2 : PhantomTree) (parent : Nat) (pn node : PhantomNode)
    (hwf : PhantomWF t) (hp : load t.heap parent = some pn)
    (hnode : node.parent = some parent ∧ node.children = [])
    (hheap : t2.heap = store (t.heap ++ [some node]) parent
      { pn with children := pn.children ++ [t.heap.length] })
    (hroot : t2.root = t.root) : PhantomWF t2 := by
  obtain ⟨hA, hP, hK, rank, hrank⟩ := hwf
  have hplt : parent < t.heap.length := load_lt hp
  have hload : ∀ b, load t2.heap b =
      if b = parent then some { pn with children := pn.children ++ [t.heap.length] }
      else if b = t.heap.length then some node else load t.heap b := by
    intro b
    rw [hheap]
    exact load_store_append _ _ _ _ _ hplt
  have hcases : ∀ b n, load t2.heap b = some n →
      (b = parent ∧ n = { pn with children := pn.children ++ [t.heap.length] }) ∨
      (b = t.heap.length ∧ n = node) ∨
      (b ≠ parent ∧ b ≠ t.heap.length ∧ load t.heap b = some n) := by
    intro b n h
    rw [hload] at h
    by_cases h1 : b = parent
    · rw [if_pos h1] at h
      exact Or.inl ⟨h1, (Option.some.inj h).symm⟩
    · rw [if_neg h1] at h
      by_cases h2 : b = t.heap.length
      · rw [if_pos h2] at h
        exact Or.inr (Or.inl ⟨h2, (Option.some.inj h).symm⟩)
      · rw [if_neg h2] at h
        exact Or.inr (Or.inr ⟨h1, h2, h⟩)
  have hold : ∀ b n, load t.heap b = some n →
      ∃ n2, load t2.heap b = some n2 ∧ n2.parent = n.parent ∧ n2.is_root = n.is_root ∧
        (∀ c ∈ n.children, c ∈ n2.children) := by
    intro b n h
    rw [hload]
    by_cases h1 : b = parent
    · rw [if_pos h1]
      rw [h1, hp] at h
      have hn : pn = n := Option.some.inj h
      rw [← hn]
      exact ⟨_, rfl, rfl, rfl, fun c hc => List.mem_append_left _ hc⟩
    · rw [if_neg h1, if_neg (Nat.ne_of_lt (load_lt h))]
      exact ⟨n, h, rfl, rfl, fun c hc => hc⟩
  have hnew_ne : ∀ b n, load t.heap b = some n → b ≠ t.heap.length :=
    fun b n h => Nat.ne_of_lt (load_lt h)
  have hmono : ∀ b, Reachable (phantom_look t) t.root b →
      Reachable (phantom_look t2) t2.root b := by
    intro b hb
    induction hb with
    | root r hr => exact Reachable.root r (by rw [hroot]; exact hr)
    | child q c nid children _ hl hc ih =>
      unfold phantom_look at hl
      cases hq : load t.heap q with
      | none => rw [hq] at hl; cases hl
      | some qn =>
        rw [hq] at hl
        have hch : qn.children = children := (Prod.mk.inj (Option.some.inj hl)).2
        obtain ⟨n2, hn2, _, _, hsub⟩ := hold q qn hq
        exact Reachable.child q c _ _ ih (phantom_look_eq t2 q n2 hn2)
          (hsub c (by rw [hch]; exact hc))
  refine ⟨?_, ?_, ?_, ⟨fun x => if x = t.heap.length then 0 else rank x + 1, ?_⟩⟩
  · intro a
    constructor
    · intro ha
      obtain ⟨n, hn⟩ := Option.isSome_iff_exists.mp ha
      rcases hcases a n hn with ⟨h1, _⟩ | ⟨h1, _⟩ | ⟨_, _, h1⟩
      · rw [h1]
        exact hmono parent ((hA parent).mp (by rw [hp]; rfl))
      · rw [h1]
        have hpr := hmono parent ((hA parent).mp (by rw [hp]; rfl))
        have hlp : load t2.heap parent =
            some { pn with children := pn.children ++ [t.heap.length] } := by
          rw [hload, if_pos rfl]
        exact Reachable.child parent _ _ _ hpr (phantom_look_eq t2 parent _ hlp)
          (List.mem_append_right _ (List.mem_singleton_self _))
      · exact hmono a ((hA a).mp (by rw [h1]; rfl))
    · intro ha
      induction ha with
      | root r hr =>
        rw [hroot] at hr
        obtain ⟨n, hn⟩ := Option.isSome_iff_exists.mp ((hA r).mpr (Reachable.root r hr))
        obtain ⟨n2, hn2, _⟩ := hold r n hn
        rw [hn2]
        rfl
      | child q c nid children _ hl hc _ =>
        unfold phantom_look at hl
        cases hq : load t2.heap q with
        | none => rw [hq] at hl; cases hl
        | some qn =>
          rw [hq] at hl
          have hch : qn.children = children := (Prod.mk.inj (Option.some.inj hl)).2
          rw [← hch] at hc
          have hcold : c = t.heap.length ∨ ∃ m, load t.heap c = some m := by
            rcases hcases q qn hq with ⟨_, h2⟩ | ⟨_, h2⟩ | ⟨_, _, h2⟩
            · rw [h2] at hc
              rcases List.mem_append.mp hc with h3 | h3
              · obtain ⟨m, hm, _⟩ := (hK parent pn hp).2 c h3
                exact Or.inr ⟨m, hm⟩
              · exact Or.inl (List.mem_singleton.mp h3)
            · rw [h2, hnode.2] at hc
              cases hc
            · obtain ⟨m, hm, _⟩ := (hK q qn h2).2 c hc
              exact Or.inr ⟨m, hm⟩
          rcases hcold with h3 | ⟨m, hm⟩
          · rw [h3, hload, if_neg (Nat.ne_of_gt hplt), if_pos rfl]
            rfl
          · obtain ⟨n2, hn2, _⟩ := hold c m hm
            rw [hn2]
            rfl
  · intro a n hn
    rw [hroot]
    rcases hcases a n hn with ⟨h1, h2⟩ | ⟨h1, h2⟩ | ⟨_, _, h1⟩
    · rw [h1, h2]
      exact hP parent pn hp
    · have hnr : t.root ≠ some a := by
        intro hr
        obtain ⟨m, hm⟩ := Option.isSome_iff_exists.mp ((hA a).mpr (Reachable.root a hr))
        exact hnew_ne a m hm h1
      rw [h2]
      refine ⟨⟨fun h => ?_, fun h => absurd h hnr⟩, fun h => absurd h hnr⟩
      rw [hnode.1] at h
      cases h
    · exact hP a n h1
  · intro a n hn
    rcases hcases a n hn with ⟨h1, h2⟩ | ⟨h1, h2⟩ | ⟨_, _, h1⟩
    · rw [h2]
      constructor
      · apply List.Nodup.append (hK parent pn hp).1 (List.nodup_singleton _)
        intro x hx1 hx2
        obtain ⟨m, hm, _⟩ := (hK parent pn hp).2 x hx1
        exact hnew_ne x m hm (List.mem_singleton.mp hx2)
      · intro c hc
        rcases List.mem_append.mp hc with h3 | h3
        · obtain ⟨m, hm, hmp⟩ := (hK parent pn hp).2 c h3
          obtain ⟨n2, hn2, hpar, _⟩ := hold c m hm
          exact ⟨n2, hn2, by rw [hpar, hmp, h1]⟩
        · rw [List.mem_singleton.mp h3, h1]
          refine ⟨node, ?_, hnode.1⟩
          rw [hload, if_neg (Nat.ne_of_gt hplt), if_pos rfl]
    · rw [h2, hnode.2]
      exact ⟨List.nodup_nil, fun c hc => by cases hc⟩
    · refine ⟨(hK a n h1).1, fun c hc => ?_⟩
      obtain ⟨m, hm, hmp⟩ := (hK a n h1).2 c hc
      obtain ⟨n2, hn2, hpar, _⟩ := hold c m hm
      exact ⟨n2, hn2, by rw [hpar, hmp]⟩
  · intro a n hn c hc
    have hca : ∀ (x : Nat) (qn : PhantomNode), load t.heap x = some qn →
        (c = t.heap.length ∨ c ∈ qn.children) →
        (if c = t.heap.length then 0 else rank c + 1) <
          (if x = t.heap.length then 0 else rank x + 1) := by
      intro x qn hx hcx
      rw [if_neg (hnew_ne x qn hx)]
      by_cases hcl : c = t.heap.length
      · rw [if_pos hcl]
        exact Nat.succ_pos _
      · rw [if_neg hcl]
        rcases hcx with h3 | h3
        · exact absurd h3 hcl
        · exact Nat.succ_lt_succ (hrank x qn hx c h3)
    rcases hcases a n hn with ⟨h1, h2⟩ | ⟨h1, h2⟩ | ⟨_, _, h1⟩
    · rw [h2] at hc
      rw [h1]
      apply hca parent pn hp
      rcases List.mem_append.mp hc with h3 | h3
      · exact Or.inr h3
      · exact Or.inl (List.mem_singleton.mp h3)
    · rw [h2, hnode.2] at hc
      cases hc
    · exact hca a n h1 (Or.inr hc)

theorem phantom_wf_empty (t2 : PhantomTree) (hnone : ∀ a, load t2.heap a = none)
    (hroot : t2.root = none) : PhantomWF t2 := by
  refine ⟨?_, ?_, ?_, ⟨fun _ => 0, ?_⟩⟩
  · intro a
    rw [hnone a, hroot]
    constructor
    · intro h
      cases h
    · intro h
      exact absurd h (not_reachable_of_no_root _ a)
  · intro a n hn
    rw [hnone a] at hn
    cases hn
  · intro a n hn
    rw [hnone a] at hn
    cases hn
  · intro a n hn
    rw [hnone a] at hn
    cases hn

/-- In a well-formed tree the node a parent pointer refers to is allocated and lists the
node among its children. -/
theorem phantom_wf_parent_lists (t : PhantomTree) (hwf : PhantomWF t) (d p : Nat)
    (n : PhantomNode) (hd : load t.heap d = some n) (hpar : n.parent = some p) :
    ∃ pn, load t.heap p = some pn ∧ d ∈ pn.children := by
  obtain ⟨hA, hP, hK, _⟩ := hwf
  have hreach := (hA d).mp (by rw [hd]; rfl)
  cases hreach with
  | root r hr =>
    have := ((hP d n hd).1).mpr hr
    rw [hpar] at this
    cases this
  | child q _ nid children hq hl hc =>
    unfold phantom_look at hl
    cases hqn : load t.heap q with
    | none => rw [hqn] at hl; cases hl
    | some qn =>
      rw [hqn] at hl
      have hch : qn.children = children := (Prod.mk.inj (Option.some.inj hl)).2
      rw [← hch] at hc
      obtain ⟨m, hm, hmp⟩ := (hK q qn hqn).2 d hc
      rw [hd] at hm
      have hnm : n = m := Option.some.inj hm
      rw [← hnm, hpar] at hmp
      have hpq : p = q := Option.some.inj hmp
      rw [hpq]
      exact ⟨qn, hqn, hc⟩

/-- The memory after a delete below a parent, node by node. -/
theorem phantom_delete_desc (t : PhantomTree) (d p : Nat) (n pn : PhantomNode)
    (h2 : List (Option PhantomNode))
    (hp : load t.heap p = some pn)
    (hkids : ∀ c ∈ n.children, (load t.heap c).isSome = true)
    (hred : phantom_redistribute (some p) n.is_admin
      (store t.heap p { pn with children := pn.children.erase d }) n.children = some h2) :
    (∀ b nb, load t.heap b = some nb → b ≠ d →
      ∃ nb2, load (release h2 d) b = some nb2 ∧ nb2.is_root = nb.is_root ∧
        nb2.children = (if b = p then pn.children.erase d ++ n.children else nb.children) ∧
        (b ∈ n.children → nb2.parent = some p) ∧
        (b ∉ n.children → nb2.parent = nb.parent)) ∧
    (∀ b, load t.heap b = none → load (release h2 d) b = none) ∧
    load (release h2 d) d = none := by
  have hplt : p < t.heap.length := load_lt hp
  have hload1 : ∀ b, load (store t.heap p { pn with children := pn.children.erase d }) b =
      if b = p then some { pn with children := pn.children.erase d } else load t.heap b := by
    intro b
    rw [load_store]
    by_cases hb : b = p
    · rw [if_pos ⟨hb, hplt⟩, if_pos hb]
    · rw [if_neg (fun h => hb h.1), if_neg hb]
  have hsome1 : ∀ b, (load t.heap b).isSome = true →
      (load (store t.heap p { pn with children := pn.children.erase d }) b).isSome = true := by
    intro b hb
    rw [hload1]
    by_cases hbp : b = p
    · rw [if_pos hbp]
      rfl
    · rw [if_neg hbp]
      exact hb
  obtain ⟨h3, hrun, hsome, hnone⟩ := phantom_redistribute_spec p n.is_admin n.children
    (store t.heap p { pn with children := pn.children.erase d })
    (fun c hc => hsome1 c (hkids c hc)) (hsome1 p (by rw [hp]; rfl))
  rw [hrun] at hred
  have h32 : h3 = h2 := Option.some.inj hred
  rw [h32] at hsome hnone
  refine ⟨?_, ?_, ?_⟩
  · intro b nb hb hbd
    rw [load_release, if_neg hbd]
    by_cases hbp : b = p
    · have hb1 : load (store t.heap p { pn with children := pn.children.erase d }) b =
          some { pn with children := pn.children.erase d } := by
        rw [hload1, if_pos hbp]
      obtain ⟨nb2, hnb2, _, _, hroot, hch, hmoved, hstay⟩ := hsome b _ hb1
      rw [hbp, hp] at hb
      have hpe : pn = nb := Option.some.inj hb
      rw [if_pos hbp] at hch
      refine ⟨nb2, hnb2, ?_, ?_, fun h => (hmoved h).1, fun h => ?_⟩
      · rw [hroot, ← hpe]
      · rw [if_pos hbp, hch]
      · rw [(hstay h).1, ← hpe]
    · have hb1 : load (store t.heap p { pn with children := pn.children.erase d }) b =
          some nb := by
        rw [hload1, if_neg hbp]
        exact hb
      obtain ⟨nb2, hnb2, _, _, hroot, hch, hmoved, hstay⟩ := hsome b _ hb1
      rw [if_neg hbp] at hch
      refine ⟨nb2, hnb2, hroot, ?_, fun h => (hmoved h).1, fun h => (hstay h).1⟩
      rw [if_neg hbp, hch]
  · intro b hb
    rw [load_release]
    by_cases hbd : b = d
    · rw [if_pos hbd]
    · rw [if_neg hbd]
      apply hnone
      rw [hload1, if_neg]
      · exact hb
      · intro hbp
        rw [hbp, hp] at hb
        cases hb
  · rw [load_release, if_pos rfl]

/-- Unlinking a node from its parent and handing its children over leaves a well-formed
tree. -/
theorem phantom_wf_delete_child (t t2 : PhantomTree) (d p : Nat) (n pn : PhantomNode)
    (hwf : PhantomWF t) (hd : load t.heap d = some n) (hpar : n.parent = some p)
    (hp : load t.heap p = some pn) (hroot : t2.root = t.root)
    (hdesc : ∀ b nb, load t.heap b = some nb → b ≠ d →
      ∃ nb2, load t2.heap b = some nb2 ∧ nb2.is_root = nb.is_root ∧
        nb2.children = (if b = p then pn.children.erase d ++ n.children else nb.children) ∧
        (b ∈ n.children → nb2.parent = some p) ∧
        (b ∉ n.children → nb2.parent = nb.parent))
    (hnone : ∀ b, load t.heap b = none → load t2.heap b = none)
    (hdn : load t2.heap d = none) : PhantomWF t2 := by
  obtain ⟨pn0, hpn0, hdp0⟩ := phantom_wf_parent_lists t hwf d p n hd hpar
  rw [hp] at hpn0
  have hdp : d ∈ pn.children := by rw [Option.some.inj hpn0]; exact hdp0
  obtain ⟨hA, hP, hK, rank, hrank⟩ := hwf
  have hpd : p ≠ d := by
    intro h
    have := hrank p pn hp d hdp
    rw [h] at this
    exact Nat.lt_irrefl _ this
  -- every node allocated afterwards was allocated before and is not `d`
  have hback : ∀ b nb2, load t2.heap b = some nb2 →
      b ≠ d ∧ ∃ nb, load t.heap b = some nb ∧ nb2.is_root = nb.is_root ∧
        nb2.children = (if b = p then pn.children.erase d ++ n.children else nb.children) ∧
        (b ∈ n.children → nb2.parent = some p) ∧
        (b ∉ n.children → nb2.parent = nb.parent) := by
    intro b nb2 hb
    have hbd : b ≠ d := by
      intro h
      rw [h, hdn] at hb
      cases hb
    refine ⟨hbd, ?_⟩
    cases hold : load t.heap b with
    | none =>
      rw [hnone b hold] at hb
      cases hb
    | some nb =>
      obtain ⟨nb3, h3, hrest⟩ := hdesc b nb hold hbd
      rw [hb] at h3
      rw [Option.some.inj h3]
      exact ⟨nb, rfl, hrest⟩
  -- facts about the children of `d`
  have hkid : ∀ c ∈ n.children, ∃ m, load t.heap c = some m ∧ m.parent = some d :=
    (hK d n hd).2
  have hkid_ne : ∀ c ∈ n.children, c ≠ d := by
    intro c hc h
    have := hrank d n hd c hc
    rw [h] at this
    exact Nat.lt_irrefl _ this
  -- a node listed by `q` has parent `q`, so `d` is listed by `p` only
  have honly : ∀ q qn, load t.heap q = some qn → d ∈ qn.children → q = p := by
    intro q qn hq hdq
    obtain ⟨m, hm, hmp⟩ := (hK q qn hq).2 d hdq
    rw [hd] at hm
    rw [← Option.some.inj hm, hpar] at hmp
    exact (Option.some.inj hmp).symm
  have hkid_only : ∀ q qn c, load t.heap q = some qn → c ∈ qn.children → c ∈ n.children →
      q = d := by
    intro q qn c hq hcq hcn
    obtain ⟨m, hm, hmp⟩ := (hK q qn hq).2 c hcq
    obtain ⟨m2, hm2, hmp2⟩ := hkid c hcn
    rw [hm] at hm2
    rw [Option.some.inj hm2, hmp2] at hmp
    exact (Option.some.inj hmp).symm
  -- the children listed afterwards
  have hnewkids : ∀ q qn2 c, load t2.heap q = some qn2 → c ∈ qn2.children →
      c ≠ d ∧ ∃ m, load t.heap c = some m ∧ rank c < rank q ∧
        ((c ∈ n.children ∧ q = p) ∨ (c ∉ n.children ∧ m.parent = some q)) := by
    intro q qn2 c hq hc
    obtain ⟨hqd, qn, hqn, _, hch, _, _⟩ := hback q qn2 hq
    rw [hch] at hc
    by_cases hqp : q = p
    · rw [if_pos hqp] at hc
      rcases List.mem_append.mp hc with h1 | h1
      · have hne : c ≠ d := fun h => by
          rw [h] at h1
          exact (List.Nodup.mem_erase_iff (hK p pn hp).1).mp h1 |>.1 rfl
        have hcp : c ∈ pn.children := List.mem_of_mem_erase h1
        obtain ⟨m, hm, hmp⟩ := (hK p pn hp).2 c hcp
        refine ⟨hne, m, hm, ?_, Or.inr ⟨?_, ?_⟩⟩
        · rw [hqp]
          exact hrank p pn hp c hcp
        · intro hcn
          exact hpd (hkid_only p pn c hp hcp hcn)
        · rw [hqp]
          exact hmp
      · obtain ⟨m, hm, _⟩ := hkid c h1
        refine ⟨hkid_ne c h1, m, hm, ?_, Or.inl ⟨h1, hqp⟩⟩
        rw [hqp]
        exact Nat.lt_trans (hrank d n hd c h1) (hrank p pn hp d hdp)
    · rw [if_neg hqp] at hc
      obtain ⟨m, hm, hmp⟩ := (hK q qn hqn).2 c hc
      have hne : c ≠ d := fun h => by
        rw [h] at hc
        exact hqp (honly q qn hqn hc)
      refine ⟨hne, m, hm, hrank q qn hqn c hc, Or.inr ⟨?_, hmp⟩⟩
      intro hcn
      exact hqd (hkid_only q qn c hqn hc hcn)
  have hforward : ∀ a, Reachable (phantom_look t) t.root a →
      (a ≠ d → Reachable (phantom_look t2) t2.root a) ∧
      (a = d → Reachable (phantom_look t2) t2.root p) := by
    intro a ha
    induction ha with
    | root r hr =>
      have hrd : r ≠ d := by
        intro h
        rw [h] at hr
        have := ((hP d n hd).1).mpr hr
        rw [hpar] at this
        cases this
      exact ⟨fun _ => Reachable.root r (by rw [hroot]; exact hr), fun h => absurd h hrd⟩
    | child q c nid children _ hl hc ih =>
      unfold phantom_look at hl
      cases hq : load t.heap q with
      | none => rw [hq] at hl; cases hl
      | some qn =>
        rw [hq] at hl
        have hch : qn.children = children := (Prod.mk.inj (Option.some.inj hl)).2
        rw [← hch] at hc
        constructor
        · intro hcd
          by_cases hqd : q = d
          · have hpr := ih.2 hqd
            rw [hqd, hd] at hq
            rw [← Option.some.inj hq] at hc
            obtain ⟨pn2, hpn2, _, hch2, _, _⟩ := hdesc p pn hp hpd
            rw [if_pos rfl] at hch2
            exact Reachable.child p c _ _ hpr (phantom_look_eq t2 p pn2 hpn2)
              (by rw [hch2]; exact List.mem_append_right _ hc)
          · have hqr := ih.1 hqd
            obtain ⟨qn2, hqn2, _, hch2, _, _⟩ := hdesc q qn hq hqd
            refine Reachable.child q c _ _ hqr (phantom_look_eq t2 q qn2 hqn2) ?_
            rw [hch2]
            by_cases hqp : q = p
            · rw [if_pos hqp]
              rw [hqp, hp] at hq
              rw [← Option.some.inj hq] at hc
              exact List.mem_append_left _
                ((List.Nodup.mem_erase_iff (hK p pn hp).1).mpr ⟨hcd, hc⟩)
            · rw [if_neg hqp]
              exact hc
        · intro hcd
          rw [hcd] at hc
          have hqp := honly q qn hq hc
          have hqd : q ≠ d := by rw [hqp]; exact hpd
          rw [← hqp]
          exact ih.1 hqd
  refine ⟨?_, ?_, ?_, ⟨rank, ?_⟩⟩
  · intro a
    constructor
    · intro ha
      obtain ⟨na2, hna2⟩ := Option.isSome_iff_exists.mp ha
      obtain ⟨had, na, hna, _⟩ := hback a na2 hna2
      exact (hforward a ((hA a).mp (by rw [hna]; rfl))).1 had
    · intro ha
      induction ha with
      | root r hr =>
        rw [hroot] at hr
        obtain ⟨nr, hnr⟩ := Option.isSome_iff_exists.mp ((hA r).mpr (Reachable.root r hr))
        have hrd : r ≠ d := by
          intro h
          rw [h] at hr
          have := ((hP d n hd).1).mpr hr
          rw [hpar] at this
          cases this
        obtain ⟨nr2, hnr2, _⟩ := hdesc r nr hnr hrd
        rw [hnr2]
        rfl
      | child q c nid children _ hl hc _ =>
        unfold phantom_look at hl
        cases hq : load t2.heap q with
        | none => rw [hq] at hl; cases hl
        | some qn2 =>
          rw [hq] at hl
          have hch : qn2.children = children := (Prod.mk.inj (Option.some.inj hl)).2
          rw [← hch] at hc
          obtain ⟨hcd, m, hm, _⟩ := hnewkids q qn2 c hq hc
          obtain ⟨m2, hm2, _⟩ := hdesc c m hm hcd
          rw [hm2]
          rfl
  · intro a na2 hna2
    obtain ⟨had, na, hna, hroot2, _, hmoved, hstay⟩ := hback a na2 hna2
    rw [hroot, hroot2]
    refine ⟨?_, (hP a na hna).2⟩
    by_cases hak : a ∈ n.children
    · rw [hmoved hak]
      obtain ⟨m, hm, hmp⟩ := hkid a hak
      rw [hna] at hm
      have hnr : t.root ≠ some a := by
        intro hr
        have := ((hP a na hna).1).mpr hr
        rw [Option.some.inj hm, hmp] at this
        cases this
      exact ⟨fun h => Option.noConfusion h, fun h => absurd h hnr⟩
    · rw [hstay hak]
      exact (hP a na hna).1
  · intro a na2 hna2
    obtain ⟨had, na, hna, _, hch, _, _⟩ := hback a na2 hna2
    constructor
    · rw [hch]
      by_cases hap : a = p
      · rw [if_pos hap]
        apply List.Nodup.append ((hK p pn hp).1.erase d) (hK d n hd).1
        intro x hx1 hx2
        exact hpd (hkid_only p pn x hp (List.mem_of_mem_erase hx1) hx2)
      · rw [if_neg hap]
        exact (hK a na hna).1
    · intro c hc
      obtain ⟨hcd, m, hm, _, hor⟩ := hnewkids a na2 c hna2 hc
      obtain ⟨m2, hm2, _, _, hmoved, hstay⟩ := hdesc c m hm hcd
      refine ⟨m2, hm2, ?_⟩
      rcases hor with ⟨hcn, hap⟩ | ⟨hcn, hmp⟩
      · rw [hmoved hcn, hap]
      · rw [hstay hcn, hmp]
  · intro a na2 hna2 c hc
    exact (hnewkids a na2 c hna2 hc).2.choose_spec.2.1

/-- One `phantom_tree_insert` on a well-formed tree: the tree stays well-formed; a call that
returns no node changes nothing; a call that returns a node allocates exactly one node and
sets the counter to 1 on an empty tree, or increments it. -/
theorem phantom_insert_step (MAX_CHILDREN fuel : Nat) (t : PhantomTree)
    (account : PhantomAccount) (parent_id : Option Ident) (res : Option Addr) (t2 : PhantomTree)
    (hwf : PhantomWF t)
    (h : phantom_tree_insert MAX_CHILDREN fuel t account parent_id = some (res, t2)) :
    PhantomWF t2 ∧ (res = none → t2 = t) ∧
    (∀ node, res = some node →
      (live_cells t2.heap).length = (live_cells t.heap).length + 1 ∧
      ((t2.total_nodes = 1 ∧ (live_cells t.heap).length = 0) ∨
        t2.total_nodes = size_inc t.total_nodes)) := by
  rcases phantom_tree_insert_cases MAX_CHILDREN fuel t account parent_id res t2 h with
    ⟨hres, ht2⟩ | ⟨hr, hres, ht2⟩ | ⟨r, parent, pn, hr, hp, _, hres, ht2⟩
  · rw [ht2]
    refine ⟨hwf, fun _ => rfl, fun node hn => ?_⟩
    rw [hres] at hn
    cases hn
  · have hheap : t2.heap = t.heap ++ [some (create_node MAX_CHILDREN account true)] := by
      rw [ht2]
    have hroot : t2.root = some t.heap.length := by rw [ht2]
    have htot : t2.total_nodes = 1 := by rw [ht2]
    refine ⟨phantom_wf_insert_root MAX_CHILDREN t t2 account hwf hr hheap hroot,
      fun hn => ?_, fun node _ => ⟨?_, Or.inl ⟨htot, ?_⟩⟩⟩
    · rw [hres] at hn
      cases hn
    · apply live_cells_length_succ t.heap t2.heap t.heap.length
      · rw [hheap, load_append, if_pos rfl]
        rfl
      · exact load_length _
      · intro a ha
        rw [hheap, load_append, if_neg ha]
    · have hnil : live_cells t.heap = [] := by
        apply List.eq_nil_iff_forall_not_mem.mpr
        intro a ha
        rw [mem_live_cells, phantom_wf_no_root t hwf hr a] at ha
        cases ha
      rw [hnil]
      rfl
  · have hheap : t2.heap = store (t.heap ++ [some { create_node MAX_CHILDREN account false with
          parent := some parent }]) parent
          { pn with children := pn.children ++ [t.heap.length] } := by
      rw [ht2]
    have hroot : t2.root = t.root := by rw [ht2]
    have htot : t2.total_nodes = size_inc t.total_nodes := by rw [ht2]
    refine ⟨phantom_wf_insert_child t t2 parent pn _ hwf hp ⟨rfl, rfl⟩ hheap hroot,
      fun hn => ?_, fun node _ => ⟨?_, Or.inr htot⟩⟩
    · rw [hres] at hn
      cases hn
    · have hplt : parent < t.heap.length := load_lt hp
      have hload : ∀ b, load t2.heap b =
          if b = parent then some { pn with children := pn.children ++ [t.heap.length] }
          else if b = t.heap.length then
            some { create_node MAX_CHILDREN account false with parent := some parent }
          else load t.heap b := by
        intro b
        rw [hheap]
        exact load_store_append _ _ _ _ _ hplt
      apply live_cells_length_succ t.heap t2.heap t.heap.length
      · rw [hload, if_neg (Nat.ne_of_gt hplt), if_pos rfl]
        rfl
      · exact load_length _
      · intro a ha
        rw [hload, if_neg ha]
        by_cases hap : a = parent
        · rw [if_pos hap, hap, hp]
          exact ⟨fun _ => rfl, fun _ => rfl⟩
        · rw [if_neg hap]

/-- One `phantom_tree_delete` on a well-formed tree: the tree stays well-formed; a call that
returns false changes nothing; a call that returns true frees exactly one node and
decrements the counter. -/
theorem phantom_delete_step (fuel : Nat) (t : PhantomTree) (id : Ident) (ok : Bool)
    (t2 : PhantomTree) (hwf : PhantomWF t)
    (h : phantom_tree_delete fuel t id = some (ok, t2)) :
    PhantomWF t2 ∧ (ok = false → t2 = t) ∧
    (ok = true →
      (live_cells t.heap).length = (live_cells t2.heap).length + 1 ∧
      t2.total_nodes = size_dec t.total_nodes) := by
  rcases phantom_tree_delete_cases fuel t id ok t2 h with
    ⟨hok, ht2⟩ | ⟨d, n, p, pn, h2, hd, hpar, _, hp, hred, hok, ht2⟩ |
    ⟨d, n, h2, hd, hpar, hguard, hred, hok, ht2⟩
  · rw [ht2]
    refine ⟨hwf, fun _ => rfl, fun hn => ?_⟩
    rw [hok] at hn
    cases hn
  · have hheap : t2.heap = release h2 d := by rw [ht2]
    have hroot : t2.root = t.root := by rw [ht2]
    have htot : t2.total_nodes = size_dec t.total_nodes := by rw [ht2]
    have hkids : ∀ c ∈ n.children, (load t.heap c).isSome = true := by
      intro c hc
      obtain ⟨m, hm, _⟩ := (hwf.2.2.1 d n hd).2 c hc
      rw [hm]
      rfl
    obtain ⟨hdesc, hnone, hdn⟩ := phantom_delete_desc t d p n pn h2 hp hkids hred
    rw [← hheap] at hdesc hnone hdn
    refine ⟨phantom_wf_delete_child t t2 d p n pn hwf hd hpar hp hroot hdesc hnone hdn,
      fun hn => ?_, fun _ => ⟨?_, htot⟩⟩
    · rw [hok] at hn
      cases hn
    · apply live_cells_length_succ t2.heap t.heap d
      · rw [hd]
        rfl
      · exact hdn
      · intro a ha
        cases hold : load t.heap a with
        | none => rw [hnone a hold]
        | some na =>
          obtain ⟨na2, hna2, _⟩ := hdesc a na hold ha
          rw [hna2]
          exact ⟨fun _ => rfl, fun _ => rfl⟩
  · have hrd : t.root = some d := ((hwf.2.1 d n hd).1).mp hpar
    have hisroot : n.is_root = true := (hwf.2.1 d n hd).2 hrd
    have hnil : n.children = [] := by
      rw [hisroot, Bool.true_and, decide_eq_false_iff_not] at hguard
      exact List.length_eq_zero.mp (Nat.eq_zero_of_not_pos hguard)
    rw [hnil] at hred
    have hh2 : t.heap = h2 := Option.some.inj hred
    have hheap : t2.heap = release t.heap d := by rw [ht2, hh2]
    have hroot : t2.root = none := by rw [ht2]
    have htot : t2.total_nodes = size_dec t.total_nodes := by rw [ht2]
    have hall : ∀ a, load t2.heap a = none := by
      intro a
      rw [hheap, load_release]
      by_cases had : a = d
      · rw [if_pos had]
      · rw [if_neg had]
        cases hold : load t.heap a with
        | none => rfl
        | some na =>
          have hreach := (hwf.1 a).mp (by rw [hold]; rfl)
          rw [hrd] at hreach
          have := reachable_leaf_root (phantom_look t) d n.account.id
            (by rw [phantom_look_eq t d n hd, hnil]) a hreach
          exact absurd this had
    refine ⟨phantom_wf_empty t2 hall hroot, fun hn => ?_, fun _ => ⟨?_, htot⟩⟩
    · rw [hok] at hn
      cases hn
    · apply live_cells_length_succ t2.heap t.heap d
      · rw [hd]
        rfl
      · exact hall d
      · intro a ha
        rw [hheap, load_release, if_neg ha]

theorem trace_inv_init : TraceInv trace_init := by
  refine ⟨phantom_wf_empty _ (fun a => ?_) rfl, rfl, fun _ => rfl⟩
  cases hl : load trace_init.tree.heap a with
  | none => rfl
  | some n => exact absurd (load_lt hl) (Nat.not_lt_zero _)

theorem trace_inv_call (MAX_CHILDREN fuel : Nat) (s s1 : PhantomTrace)
    (call : PhantomCall) (hinv : TraceInv s)
    (h : trace_call MAX_CHILDREN fuel s call = some s1) : TraceInv s1 := by
  obtain ⟨hwf, hlive, htot⟩ := hinv
  cases call with
  | insert account parent_id =>
    simp only [trace_call] at h
    cases hins : phantom_tree_insert MAX_CHILDREN fuel s.tree account parent_id with
    | none => rw [hins] at h; cases h
    | some out =>
      obtain ⟨res, t2⟩ := out
      rw [hins] at h
      obtain ⟨hwf2, hsame, hnew⟩ := phantom_insert_step MAX_CHILDREN fuel s.tree account
        parent_id res t2 hwf hins
      cases res with
      | none =>
        simp only at h
        rw [← Option.some.inj h]
        have ht := hsame rfl
        rw [ht] at hwf2 ⊢
        exact ⟨hwf2, hlive, htot⟩
      | some node =>
        simp only at h
        rw [← Option.some.inj h]
        obtain ⟨hlen, hcount⟩ := hnew node rfl
        refine ⟨hwf2, ?_, ?_⟩
        · show (live_cells t2.heap).length + s.deletes = s.inserts + 1
          rw [hlen]
          omega
        · show s.inserts + 1 ≤ SIZE_MAX → t2.total_nodes + s.deletes = s.inserts + 1
          intro hfit
          have hold := htot (Nat.le_of_succ_le hfit)
          rcases hcount with ⟨h1, h0⟩ | h1
          · rw [h1]
            omega
          · rw [h1, size_inc_eq _ (by omega)]
            omega
  | delete id =>
    simp only [trace_call] at h
    cases hdel : phantom_tree_delete fuel s.tree id with
    | none => rw [hdel] at h; cases h
    | some out =>
      obtain ⟨ok, t2⟩ := out
      rw [hdel] at h
      obtain ⟨hwf2, hsame, hgone⟩ := phantom_delete_step fuel s.tree id ok t2 hwf hdel
      cases ok with
      | false =>
        simp only at h
        rw [← Option.some.inj h]
        have ht := hsame rfl
        rw [ht] at hwf2 ⊢
        exact ⟨hwf2, hlive, htot⟩
      | true =>
        simp only at h
        rw [← Option.some.inj h]
        obtain ⟨hlen, hcount⟩ := hgone rfl
        refine ⟨hwf2, ?_, ?_⟩
        · show (live_cells t2.heap).length + (s.deletes + 1) = s.inserts
          omega
        · show s.inserts ≤ SIZE_MAX → t2.total_nodes + (s.deletes + 1) = s.inserts
          intro hfit
          have hold := htot hfit
          have hpos : 0 < s.tree.total_nodes := by omega
          have hdec := size_dec_add_one _ hpos
          rw [hcount]
          omega

theorem trace_inv_run (MAX_CHILDREN fuel : Nat) :
    ∀ (calls : List PhantomCall) (s s1 : PhantomTrace), TraceInv s →
      trace_run MAX_CHILDREN fuel s calls = some s1 → TraceInv s1 := by
  intro calls
  induction calls with
  | nil =>
    intro s s1 hinv h
    unfold trace_run at h
    rw [← Option.some.inj h]
    exact hinv
  | cons call rest ih =>
    intro s s1 hinv h
    unfold trace_run at h
    cases hc : trace_call MAX_CHILDREN fuel s call with
    | none => rw [hc] at h; cases h
    | some s2 =>
      rw [hc] at h
      exact ih s2 s1 (trace_inv_call MAX_CHILDREN fuel s s2 call hinv hc) h

/-! ## phantomid.c: every call of a history returns -/

theorem phantom_wf_shaped (t : PhantomTree) (hwf : PhantomWF t) :
    TreeShaped (phantom_look t) t.root := by
  obtain ⟨hA, _, hK, rank, hrank⟩ := id hwf
  refine ⟨fun r hr => ?_, rank, ?_⟩
  · obtain ⟨n, hn⟩ := Option.isSome_iff_exists.mp (phantom_wf_root_alloc t hwf r hr)
    rw [phantom_look_eq t r n hn]
    rfl
  · intro a nid children hl c hc
    unfold phantom_look at hl
    cases ha : load t.heap a with
    | none => rw [ha] at hl; cases hl
    | some n =>
      rw [ha] at hl
      have hch : n.children = children := (Prod.mk.inj (Option.some.inj hl)).2
      rw [← hch] at hc
      obtain ⟨m, hm, _⟩ := (hK a n ha).2 c hc
      refine ⟨?_, hrank a n ha c hc⟩
      rw [phantom_look_eq t c m hm]
      rfl

/-- On a well-formed tree `phantom_tree_find` returns for every large enough fuel, and a
node it returns is allocated. -/
theorem phantom_tree_find_total (t : PhantomTree) (id : Ident) (hwf : PhantomWF t) :
    ∃ N res, (∀ fuel, N ≤ fuel → phantom_tree_find fuel t id = some res) ∧
      ∀ d, res = some d → (load t.heap d).isSome = true := by
  obtain ⟨hrootalloc, rank, hrank⟩ := phantom_wf_shaped t hwf
  cases hr : t.root with
  | none =>
    refine ⟨0, none, fun fuel _ => ?_, fun d hd => by cases hd⟩
    unfold phantom_tree_find
    rw [hr]
  | some r =>
    obtain ⟨order, horder⟩ := bfs_visit_terminates (phantom_look t) t.root rank hrank
      (queue_weight rank [r] + 1) [r] (Nat.lt_succ_self _) (fun a ha => by
        rw [List.mem_singleton.mp ha]
        exact ⟨Reachable.root r hr, hrootalloc r hr⟩)
    have hfind : ∀ fuel, queue_weight rank [r] + 1 ≤ fuel →
        phantom_tree_find fuel t id = some (first_match (phantom_look t) id order) := by
      intro fuel hfuel
      unfold phantom_tree_find
      rw [hr]
      simp only
      rw [queue_push_init]
      exact bfs_find_eq_first_match _ _ _ _ _ (horder fuel hfuel)
    refine ⟨queue_weight rank [r] + 1, first_match (phantom_look t) id order, hfind, ?_⟩
    intro d hd
    have h1 := hfind _ (Nat.le_refl _)
    rw [hd] at h1
    unfold phantom_tree_find at h1
    rw [hr] at h1
    simp only at h1
    rw [queue_push_init] at h1
    obtain ⟨_, children, hl⟩ := bfs_find_sound (phantom_look t) t.root id _ [r] d
      (fun a ha => by rw [List.mem_singleton.mp ha]; exact Reachable.root r hr) h1
    apply phantom_look_isSome
    rw [hl]
    rfl

theorem phantom_tree_insert_mono (MAX_CHILDREN fuel fuel2 : Nat) (t : PhantomTree)
    (account : PhantomAccount) (parent_id : Option Ident) (out : Option Addr × PhantomTree)
    (h : phantom_tree_insert MAX_CHILDREN fuel t account parent_id = some out)
    (hle : fuel ≤ fuel2) :
    phantom_tree_insert MAX_CHILDREN fuel2 t account parent_id = some out := by
  unfold phantom_tree_insert at h ⊢
  cases hr : t.root with
  | none =>
    rw [hr] at h
    exact h
  | some r =>
    rw [hr] at h
    simp only at h ⊢
    cases hres : phantom_resolve_parent fuel t parent_id with
    | none => rw [hres] at h; cases h
    | some found =>
      rw [phantom_resolve_parent_mono t parent_id fuel fuel2 found hres hle]
      rw [hres] at h
      exact h

theorem phantom_tree_delete_mono (fuel fuel2 : Nat) (t : PhantomTree) (id : Ident)
    (out : Bool × PhantomTree) (h : phantom_tree_delete fuel t id = some out)
    (hle : fuel ≤ fuel2) : phantom_tree_delete fuel2 t id = some out := by
  unfold phantom_tree_delete at h ⊢
  cases hf : phantom_tree_find fuel t id with
  | none => rw [hf] at h; cases h
  | some found =>
    rw [phantom_tree_find_mono t id fuel fuel2 found hf hle]
    rw [hf] at h
    exact h

theorem trace_call_mono (MAX_CHILDREN fuel fuel2 : Nat) (s s1 : PhantomTrace)
    (call : PhantomCall) (h : trace_call MAX_CHILDREN fuel s call = some s1)
    (hle : fuel ≤ fuel2) : trace_call MAX_CHILDREN fuel2 s call = some s1 := by
  cases call with
  | insert account parent_id =>
    simp only [trace_call] at h ⊢
    cases hins : phantom_tree_insert MAX_CHILDREN fuel s.tree account parent_id with
    | none => rw [hins] at h; cases h
    | some out =>
      rw [phantom_tree_insert_mono MAX_CHILDREN fuel fuel2 s.tree account parent_id out hins hle]
      rw [hins] at h
      exact h
  | delete id =>
    simp only [trace_call] at h ⊢
    cases hdel : phantom_tree_delete fuel s.tree id with
    | none => rw [hdel] at h; cases h
    | some out =>
      rw [phantom_tree_delete_mono fuel fuel2 s.tree id out hdel hle]
      rw [hdel] at h
      exact h

/-- On a well-formed tree `phantom_tree_insert` returns for every large enough fuel. -/
theorem phantom_tree_insert_total (MAX_CHILDREN : Nat) (t : PhantomTree)
    (account : PhantomAccount) (parent_id : Option Ident) (hwf : PhantomWF t) :
    ∃ N out, ∀ fuel, N ≤ fuel →
      phantom_tree_insert MAX_CHILDREN fuel t account parent_id = some out := by
  cases hr : t.root with
  | none =>
    cases parent_id with
    | some pid =>
      refine ⟨0, (none, t), fun fuel _ => ?_⟩
      unfold phantom_tree_insert
      rw [hr]
    | none =>
      refine ⟨0, (some t.heap.length,
        { heap := t.heap ++ [some (create_node MAX_CHILDREN account true)],
          root := some t.heap.length, total_nodes := 1 }), fun fuel _ => ?_⟩
      unfold phantom_tree_insert
      rw [hr]
      rfl
  | some r =>
    have hres : ∃ N res, (∀ fuel, N ≤ fuel →
        phantom_resolve_parent fuel t parent_id = some res) ∧
        ∀ d, res = some d → (load t.heap d).isSome = true := by
      cases parent_id with
      | some pid => exact phantom_tree_find_total t pid hwf
      | none =>
        refine ⟨0, t.root, fun fuel _ => rfl, fun d hd => ?_⟩
        exact phantom_wf_root_alloc t hwf d hd
    obtain ⟨N, res, hN, halloc⟩ := hres
    cases res with
    | none =>
      refine ⟨N, (none, t), fun fuel hfuel => ?_⟩
      unfold phantom_tree_insert
      rw [hr]
      simp only
      rw [hN fuel hfuel]
    | some parent =>
      obtain ⟨pn, hpn⟩ := Option.isSome_iff_exists.mp (halloc parent rfl)
      by_cases hfull : pn.children.length ≥ pn.max_children
      · refine ⟨N, (none, t), fun fuel hfuel => ?_⟩
        unfold phantom_tree_insert
        rw [hr]
        simp only
        rw [hN fuel hfuel]
        simp only
        rw [hpn]
        simp only
        rw [if_pos hfull]
      · refine ⟨N, (some t.heap.length,
          { heap := store (t.heap ++ [some { create_node MAX_CHILDREN account false with
                                             parent := some parent }]) parent
                      { pn with children := pn.children ++ [t.heap.length] },
            root := some r, total_nodes := size_inc t.total_nodes }), fun fuel hfuel => ?_⟩
        unfold phantom_tree_insert
        rw [hr]
        simp only
        rw [hN fuel hfuel]
        simp only
        rw [hpn]
        simp only
        rw [if_neg hfull]
        rfl

/-- On a well-formed tree `phantom_tree_delete` returns for every large enough fuel. -/
theorem phantom_tree_delete_total (t : PhantomTree) (id : Ident) (hwf : PhantomWF t) :
    ∃ N out, ∀ fuel, N ≤ fuel → phantom_tree_delete fuel t id = some out := by
  obtain ⟨N, res, hN, halloc⟩ := phantom_tree_find_total t id hwf
  cases res with
  | none =>
    refine ⟨N, (false, t), fun fuel hfuel => ?_⟩
    unfold phantom_tree_delete
    rw [hN fuel hfuel]
  | some d =>
    obtain ⟨n, hd⟩ := Option.isSome_iff_exists.mp (halloc d rfl)
    cases hguard : (n.is_root && decide (n.children.length > 0)) with
    | true =>
      refine ⟨N, (false, t), fun fuel hfuel => ?_⟩
      unfold phantom_tree_delete
      rw [hN fuel hfuel]
      simp only
      rw [hd]
      simp only
      rw [hguard]
      rfl
    | false =>
      cases hpar : n.parent with
      | some p =>
        obtain ⟨pn, hp, hdp⟩ := phantom_wf_parent_lists t hwf d p n hd hpar
        obtain ⟨_, _, hK, rank, hrank⟩ := hwf
        have hpd : p ≠ d := by
          intro h
          have := hrank p pn hp d hdp
          rw [h] at this
          exact Nat.lt_irrefl _ this
        have hload1 : ∀ b, (load t.heap b).isSome = true →
            (load (store t.heap p { pn with children := pn.children.erase d }) b).isSome
              = true := by
          intro b hb
          rw [load_store]
          by_cases hbp : b = p ∧ p < t.heap.length
          · rw [if_pos hbp]
            rfl
          · rw [if_neg hbp]
            exact hb
        obtain ⟨h2, hrun, _⟩ := phantom_redistribute_spec p n.is_admin n.children
          (store t.heap p { pn with children := pn.children.erase d })
          (fun c hc => by
            obtain ⟨m, hm, _⟩ := (hK d n hd).2 c hc
            apply hload1
            rw [hm]
            rfl)
          (hload1 p (by rw [hp]; rfl))
        refine ⟨N, (true, { heap := release h2 d, root := t.root,
                            total_nodes := size_dec t.total_nodes }), fun fuel hfuel => ?_⟩
        unfold phantom_tree_delete
        rw [hN fuel hfuel]
        simp only
        rw [hd]
        simp only
        rw [hguard, hpar]
        simp only [Bool.false_eq_true, if_false]
        rw [if_neg hpd, hp]
        simp only
        rw [hrun]
      | none =>
        have hrd : t.root = some d := ((hwf.2.1 d n hd).1).mp hpar
        have hisroot : n.is_root = true := (hwf.2.1 d n hd).2 hrd
        have hnil : n.children = [] := by
          rw [hisroot, Bool.true_and, decide_eq_false_iff_not] at hguard
          exact List.length_eq_zero.mp (Nat.eq_zero_of_not_pos hguard)
        refine ⟨N, (true, { heap := release t.heap d, root := none,
                            total_nodes := size_dec t.total_nodes }), fun fuel hfuel => ?_⟩
        unfold phantom_tree_delete
        rw [hN fuel hfuel]
        simp only
        rw [hd]
        simp only
        rw [hguard, hpar, hnil]
        simp only [Bool.false_eq_true, if_false, phantom_redistribute]

theorem trace_call_total (MAX_CHILDREN : Nat) (s : PhantomTrace) (call : PhantomCall)
    (hinv : TraceInv s) :
    ∃ N s1, ∀ fuel, N ≤ fuel → trace_call MAX_CHILDREN fuel s call = some s1 := by
  cases call with
  | insert account parent_id =>
    obtain ⟨N, out, hN⟩ := phantom_tree_insert_total MAX_CHILDREN s.tree account parent_id
      hinv.1
    obtain ⟨res, t2⟩ := out
    cases res with
    | none =>
      refine ⟨N, { tree := t2, inserts := s.inserts, deletes := s.deletes },
        fun fuel hfuel => ?_⟩
      simp only [trace_call]
      rw [hN fuel hfuel]
    | some node =>
      refine ⟨N, { tree := t2, inserts := s.inserts + 1, deletes := s.deletes },
        fun fuel hfuel => ?_⟩
      simp only [trace_call]
      rw [hN fuel hfuel]
  | delete id =>
    obtain ⟨N, out, hN⟩ := phantom_tree_delete_total s.tree id hinv.1
    obtain ⟨ok, t2⟩ := out
    cases ok with
    | false =>
      refine ⟨N, { tree := t2, inserts := s.inserts, deletes := s.deletes },
        fun fuel hfuel => ?_⟩
      simp only [trace_call]
      rw [hN fuel hfuel]
    | true =>
      refine ⟨N, { tree := t2, inserts := s.inserts, deletes := s.deletes + 1 },
        fun fuel hfuel => ?_⟩
      simp only [trace_call]
      rw [hN fuel hfuel]

/-- Every history runs to its end: for every list of calls there is a history that
`trace_run` returns for every large enough fuel. -/
theorem trace_run_total (MAX_CHILDREN : Nat) :
    ∀ (calls : List PhantomCall) (s : PhantomTrace), TraceInv s →
      ∃ N s1, ∀ fuel, N ≤ fuel → trace_run MAX_CHILDREN fuel s calls = some s1 := by
  intro calls
  induction calls with
  | nil =>
    intro s _
    exact ⟨0, s, fun fuel _ => rfl⟩
  | cons call rest ih =>
    intro s hinv
    obtain ⟨N1, s2, h1⟩ := trace_call_total MAX_CHILDREN s call hinv
    have hinv2 := trace_inv_call MAX_CHILDREN N1 s s2 call hinv (h1 N1 (Nat.le_refl _))
    obtain ⟨N2, s1, h2⟩ := ih s2 hinv2
    refine ⟨max N1 N2, s1, fun fuel hfuel => ?_⟩
    unfold trace_run
    rw [h1 fuel (Nat.le_trans (Nat.le_max_left _ _) hfuel)]
    exact h2 fuel (Nat.le_trans (Nat.le_max_right _ _) hfuel)

/-! ## The search within the queue capacity -/

theorem dfs_lists_length_le (look : Addr → Option (Ident × List Addr)) :
    ∀ (q : List Nat) (ls : List (List Nat)),
      List.Forall₂ (fun a l => ∃ f, dfs_helper look f a = some l) q ls →
      q.length ≤ ls.flatten.length := by
  intro q ls h
  induction h with
  | nil => exact Nat.le_refl _
  | cons h1 _ ih =>
    obtain ⟨f, hf⟩ := h1
    obtain ⟨tail, htail⟩ := dfs_helper_head _ _ _ _ hf
    rw [List.flatten_cons, List.length_append, List.length_cons, htail, List.length_cons]
    omega

/-- While the nodes below the queued nodes number at most `QUEUE_SIZE`, no push is refused:
the breadth-first loop returns for every fuel from that number on and visits exactly the
nodes the depth-first traversals of the queued nodes visit. -/
theorem bfs_visit_perm (look : Addr → Option (Ident × List Addr)) :
    ∀ (n : Nat) (q : List Nat) (ls : List (List Nat)),
      List.Forall₂ (fun a l => ∃ f, dfs_helper look f a = some l) q ls →
      ls.flatten.length ≤ n → ls.flatten.length ≤ QUEUE_SIZE →
      ∃ order, (∀ fuel, n ≤ fuel → bfs_visit look fuel q = some order) ∧
        order.Perm ls.flatten := by
  intro n
  induction n with
  | zero =>
    intro q ls h hle _
    have hq := dfs_lists_length_le look q ls h
    have hq0 : q = [] := List.length_eq_zero.mp (by omega)
    rw [hq0] at h ⊢
    cases h
    exact ⟨[], fun fuel _ => bfs_visit_nil look fuel, List.Perm.refl _⟩
  | succ n ih =>
    intro q ls h hle hcap
    cases h with
    | nil => exact ⟨[], fun fuel _ => bfs_visit_nil look fuel, List.Perm.refl _⟩
    | cons h1 hrest =>
      rename_i a l q1 ls1
      obtain ⟨f, hf⟩ := h1
      cases f with
      | zero => rw [dfs_helper_zero] at hf; cases hf
      | succ f1 =>
        obtain ⟨nid, children, subs, hl, hsubs, hlist⟩ := dfs_helper_some look f1 a l hf
        have hsubs2 : List.Forall₂ (fun c s => ∃ f, dfs_helper look f c = some s)
            children subs := hsubs.imp (fun c s h => ⟨f1, h⟩)
        have hnew := List.rel_append hrest hsubs2
        have hlen : (l :: ls1).flatten.length =
            subs.flatten.length + ls1.flatten.length + 1 := by
          rw [List.flatten_cons, List.length_append, hlist, List.length_cons]
          omega
        have hlen2 : (ls1 ++ subs).flatten.length =
            ls1.flatten.length + subs.flatten.length := by
          rw [List.flatten_append, List.length_append]
        have hq1 := dfs_lists_length_le look q1 ls1 hrest
        have hch := dfs_lists_length_le look children subs hsubs2
        obtain ⟨order1, horder1, hperm1⟩ := ih (q1 ++ children) (ls1 ++ subs) hnew
          (by omega) (by omega)
        have hpush : push_children q1 children = q1 ++ children := by
          rw [push_children_eq, List.take_of_length_le]
          omega
        refine ⟨a :: order1, fun fuel hfuel => ?_, ?_⟩
        · obtain ⟨fuel1, hfuel1⟩ : ∃ fuel1, fuel = fuel1 + 1 :=
            ⟨fuel - 1, by omega⟩
          rw [hfuel1, bfs_visit_succ, hl]
          simp only
          rw [hpush, horder1 fuel1 (by omega)]
          rfl
        · rw [List.flatten_cons, hlist, List.cons_append]
          apply List.Perm.cons
          rw [List.flatten_append] at hperm1
          exact hperm1.trans List.perm_append_comm

/-- A node that is the only one with its identifier among at most `QUEUE_SIZE` nodes below
`r` is what the search from `r` returns. -/
theorem bfs_find_unique (look : Addr → Option (Ident × List Addr)) (id : Ident)
    (r d f : Nat) (l : List Nat) (hdfs : dfs_helper look f r = some l)
    (hlen : l.length ≤ QUEUE_SIZE) (hd : d ∈ l) (hid : ∃ ch, look d = some (id, ch))
    (huniq : ∀ x ∈ l, ∀ ch, look x = some (id, ch) → x = d) :
    ∀ fuel, QUEUE_SIZE ≤ fuel → bfs_find look id fuel [r] = some (some d) := by
  intro fuel hfuel
  have hflat : [l].flatten = l := by simp
  obtain ⟨order, horder, hperm⟩ := bfs_visit_perm look QUEUE_SIZE [r] [l]
    (List.Forall₂.cons ⟨f, hdfs⟩ List.Forall₂.nil) (by rw [hflat]; exact hlen)
    (by rw [hflat]; exact hlen)
  rw [hflat] at hperm
  rw [bfs_find_eq_first_match look id fuel [r] order (horder fuel hfuel)]
  unfold first_match
  obtain ⟨ch, hch⟩ := hid
  cases hfind : order.find? (fun a =>
      match look a with
      | some (node_id, _) => decide (node_id = id)
      | none => false) with
  | none =>
    have := List.find?_eq_none.mp hfind d (hperm.mem_iff.mpr hd)
    rw [hch] at this
    simp at this
  | some x =>
    have hx := List.find?_some hfind
    have hxl : x ∈ l := hperm.mem_iff.mp (List.mem_of_find?_eq_some hfind)
    cases hlx : look x with
    | none => rw [hlx] at hx; cases hx
    | some v =>
      obtain ⟨xid, xch⟩ := v
      rw [hlx] at hx
      simp only [decide_eq_true_eq] at hx
      rw [hx] at hlx
      rw [huniq x hxl xch hlx]

/-! ## state.c: reading back what was written -/

theorem le_value_le_bytes : ∀ (width n : Nat), n < 256 ^ width →
    le_value (le_bytes width n) = n := by
  intro width
  induction width with
  | zero =>
    intro n h
    have h0 : n = 0 := by
      rw [pow_zero] at h
      omega
    rw [h0]
    rfl
  | succ w ih =>
    intro n h
    have h2 : n / 256 < 256 ^ w := by
      rw [Nat.div_lt_iff_lt_mul (by norm_num)]
      rw [pow_succ] at h
      exact h
    show n % 256 + 256 * le_value (le_bytes w (n / 256)) = n
    rw [ih _ h2]
    omega

theorem le_value_le_bytes_size (n : Nat) (h : n ≤ SIZE_MAX) :
    le_value (le_bytes 8 n) = n := by
  apply le_value_le_bytes
  have : SIZE_MAX < 256 ^ 8 := by norm_num [SIZE_MAX]
  omega

theorem slice_append {α : Type} (pre x post : List α) (n m : Nat) (hn : pre.length = n)
    (hm : x.length = m) : ((pre ++ (x ++ post)).drop n).take m = x := by
  rw [List.drop_left' hn, List.take_left' hm]

theorem getD_append_cons {α : Type} (pre post : List α) (x d : α) (n : Nat)
    (hn : pre.length = n) : (pre ++ x :: post).getD n d = x := by
  rw [← hn, List.getD_eq_getElem?_getD, List.getElem?_append_right (Nat.le_refl _)]
  simp

theorem cstr_read_field (s : Ident) (hok : ident_ok s = true) :
    cstr_read (cstr_field s) = s := by
  unfold ident_ok at hok
  rw [Bool.and_eq_true, decide_eq_true_eq, List.all_eq_true] at hok
  obtain ⟨hlen, hchars⟩ := hok
  have hbytes_len : (ident_bytes s).length ≤ 63 := by
    unfold ident_bytes
    rw [List.length_map]
    exact hlen
  have htake : (ident_bytes s).take 63 = ident_bytes s := List.take_of_length_le hbytes_len
  unfold cstr_field cstr_read
  simp only
  rw [htake]
  have hpos : 64 - (ident_bytes s).length = (63 - (ident_bytes s).length) + 1 := by omega
  rw [hpos, List.replicate_succ]
  have hall : ∀ b ∈ ident_bytes s, (b != 0) = true := by
    intro b hb
    unfold ident_bytes at hb
    obtain ⟨c, hc, hcb⟩ := List.mem_map.mp hb
    have := hchars c hc
    rw [Bool.and_eq_true, decide_eq_true_eq, decide_eq_true_eq] at this
    rw [← hcb, Nat.mod_eq_of_lt this.2]
    simp only [bne_iff_ne, ne_eq]
    omega
  rw [List.takeWhile_append, List.takeWhile_eq_self_iff.mpr hall, if_pos rfl]
  have hstop : List.takeWhile (fun b => b != 0)
      (0 :: List.replicate (63 - (ident_bytes s).length) 0) = [] := by
    rw [List.takeWhile_cons]
    simp
  rw [hstop, List.append_nil]
  unfold ident_bytes
  rw [List.map_map]
  have hid : List.map (Char.ofNat ∘ fun c => c.toNat % 256) s.toList = s.toList := by
    conv_rhs => rw [← List.map_id s.toList]
    apply List.map_congr_left
    intro c hc
    have := hchars c hc
    rw [Bool.and_eq_true, decide_eq_true_eq, decide_eq_true_eq] at this
    simp only [Function.comp_apply, id_eq]
    rw [Nat.mod_eq_of_lt this.2, Char.ofNat_toNat]
  rw [hid]
  cases s
  rfl

/-- A record whose identifiers fit their arrays and whose numbers fit 64 bits is read back
from its 152 bytes as it was written. -/
theorem decode_encode_node_state (s : NodeState) (hid : ident_ok s.id = true)
    (hpid : ident_ok s.parent_id = true) (htime : s.creation_time ≤ SIZE_MAX)
    (hcount : s.child_count ≤ SIZE_MAX) :
    decode_node_state (encode_node_state s) = s := by
  have hA := cstr_field_length s.id
  have hB := cstr_field_length s.parent_id
  have hT := le_bytes_length 8 s.creation_time
  have hC := le_bytes_length 8 s.child_count
  have e1 : encode_node_state s = [] ++ (cstr_field s.id ++ (cstr_field s.parent_id ++
      le_bytes 8 s.creation_time ++ [bool_byte s.is_root, bool_byte s.is_active] ++
      List.replicate 6 0 ++ le_bytes 8 s.child_count)) := by
    simp [encode_node_state, List.append_assoc]
  have e2 : encode_node_state s = cstr_field s.id ++ (cstr_field s.parent_id ++
      (le_bytes 8 s.creation_time ++ [bool_byte s.is_root, bool_byte s.is_active] ++
      List.replicate 6 0 ++ le_bytes 8 s.child_count)) := by
    simp [encode_node_state, List.append_assoc]
  have e3 : encode_node_state s = (cstr_field s.id ++ cstr_field s.parent_id) ++
      (le_bytes 8 s.creation_time ++ ([bool_byte s.is_root, bool_byte s.is_active] ++
      List.replicate 6 0 ++ le_bytes 8 s.child_count)) := by
    simp [encode_node_state, List.append_assoc]
  have e4 : encode_node_state s = (cstr_field s.id ++ cstr_field s.parent_id ++
      le_bytes 8 s.creation_time) ++ (bool_byte s.is_root :: ([bool_byte s.is_active] ++
      List.replicate 6 0 ++ le_bytes 8 s.child_count)) := by
    simp [encode_node_state, List.append_assoc]
  have e5 : encode_node_state s = (cstr_field s.id ++ cstr_field s.parent_id ++
      le_bytes 8 s.creation_time ++ [bool_byte s.is_root]) ++ (bool_byte s.is_active ::
      (List.replicate 6 0 ++ le_bytes 8 s.child_count)) := by
    simp [encode_node_state, List.append_assoc]
  have e6 : encode_node_state s = (cstr_field s.id ++ cstr_field s.parent_id ++
      le_bytes 8 s.creation_time ++ [bool_byte s.is_root, bool_byte s.is_active] ++
      List.replicate 6 0) ++ (le_bytes 8 s.child_count ++ []) := by
    simp [encode_node_state, List.append_assoc]
  have h1 : ((encode_node_state s).drop 0).take 64 = cstr_field s.id := by
    rw [e1]
    exact slice_append _ _ _ _ _ rfl hA
  have h2 : ((encode_node_state s).drop 64).take 64 = cstr_field s.parent_id := by
    rw [e2]
    exact slice_append _ _ _ _ _ hA hB
  have h3 : ((encode_node_state s).drop 128).take 8 = le_bytes 8 s.creation_time := by
    rw [e3]
    exact slice_append _ _ _ _ _ (by rw [List.length_append, hA, hB]) hT
  have h4 : (encode_node_state s).getD 136 0 = bool_byte s.is_root := by
    rw [e4]
    exact getD_append_cons _ _ _ _ _ (by rw [List.length_append, List.length_append, hA, hB, hT])
  have h5 : (encode_node_state s).getD 137 0 = bool_byte s.is_active := by
    rw [e5]
    exact getD_append_cons _ _ _ _ _ (by
      rw [List.length_append, List.length_append, List.length_append, hA, hB, hT]
      rfl)
  have h6 : ((encode_node_state s).drop 144).take 8 = le_bytes 8 s.child_count := by
    rw [e6]
    exact slice_append _ _ _ _ _ (by
      simp only [List.length_append, hA, hB, hT, List.length_replicate, List.length_cons,
        List.length_nil]) hC
  unfold decode_node_state
  rw [h1, h2, h3, h4, h5, h6, cstr_read_field _ hid, cstr_read_field _ hpid,
    le_value_le_bytes_size _ htime, le_value_le_bytes_size _ hcount]
  cases s with
  | mk id parent_id creation_time is_root is_active child_count =>
    cases is_root <;> cases is_active <;> rfl

theorem decode_encode_header (h : StateHeader) (hmagic : h.magic < 256 ^ 4)
    (hversion : h.version < 256 ^ 4) (hcount : h.node_count ≤ SIZE_MAX) :
    (decode_header (encode_header h)).magic = h.magic ∧
    (decode_header (encode_header h)).version = h.version ∧
    (decode_header (encode_header h)).node_count = h.node_count := by
  have e1 : encode_header h = [] ++ (le_bytes 4 h.magic ++ (le_bytes 4 h.version ++
      le_bytes 4 h.flags ++ List.replicate 4 0 ++ le_bytes 8 h.timestamp ++
      le_bytes 8 h.node_count ++ le_bytes 4 h.checksum ++ List.replicate 4 0)) := by
    simp [encode_header, List.append_assoc]
  have e2 : encode_header h = le_bytes 4 h.magic ++ (le_bytes 4 h.version ++
      (le_bytes 4 h.flags ++ List.replicate 4 0 ++ le_bytes 8 h.timestamp ++
      le_bytes 8 h.node_count ++ le_bytes 4 h.checksum ++ List.replicate 4 0)) := by
    simp [encode_header, List.append_assoc]
  have e3 : encode_header h = (le_bytes 4 h.magic ++ le_bytes 4 h.version ++
      le_bytes 4 h.flags ++ List.replicate 4 0 ++ le_bytes 8 h.timestamp) ++
      (le_bytes 8 h.node_count ++ (le_bytes 4 h.checksum ++ List.replicate 4 0)) := by
    simp [encode_header, List.append_assoc]
  have h1 : ((encode_header h).drop 0).take 4 = le_bytes 4 h.magic := by
    rw [e1]
    exact slice_append _ _ _ _ _ rfl (le_bytes_length _ _)
  have h2 : ((encode_header h).drop 4).take 4 = le_bytes 4 h.version := by
    rw [e2]
    exact slice_append _ _ _ _ _ (le_bytes_length _ _) (le_bytes_length _ _)
  have h3 : ((encode_header h).drop 24).take 8 = le_bytes 8 h.node_count := by
    rw [e3]
    exact slice_append _ _ _ _ _ (by
      simp only [List.length_append, le_bytes_length, List.length_replicate])
      (le_bytes_length _ _)
  unfold decode_header
  simp only
  rw [h1, h2, h3]
  exact ⟨le_value_le_bytes 4 _ hmagic, le_value_le_bytes 4 _ hversion,
    le_value_le_bytes_size _ hcount⟩

/-- The loop "Read nodes" on a file that holds the records `recs` from offset `pre.length`
on does to the tree what `state_load_records` does with `recs`. -/
theorem state_load_nodes_records (MAX_CHILDREN fuel now : Nat) :
    ∀ (recs : List NodeState) (pre post : List Nat) (tree : TreeContext),
      (∀ r ∈ recs, decode_node_state (encode_node_state r) = r) →
      state_load_nodes MAX_CHILDREN fuel now
          (pre ++ ((recs.map encode_node_state).flatten ++ post)) recs.length pre.length tree =
        (state_load_records MAX_CHILDREN fuel now recs tree).map (fun t => (true, t)) := by
  intro recs
  induction recs with
  | nil =>
    intro pre post tree _
    rfl
  | cons r rest ih =>
    intro pre post tree hdec
    have hfile : pre ++ (((r :: rest).map encode_node_state).flatten ++ post) =
        pre ++ (encode_node_state r ++ ((rest.map encode_node_state).flatten ++ post)) := by
      rw [List.map_cons, List.flatten_cons, List.append_assoc]
    have hread : fread_bytes true
        (pre ++ (((r :: rest).map encode_node_state).flatten ++ post)) pre.length
        NODE_STATE_SIZE = encode_node_state r := by
      unfold fread_bytes
      rw [if_pos rfl, hfile]
      exact slice_append _ _ _ _ _ rfl (encode_node_state_length r)
    rw [List.length_cons]
    unfold state_load_nodes
    simp only
    rw [hread, if_neg (by rw [encode_node_state_length]; exact Nat.lt_irrefl _),
      hdec r (List.mem_cons_self _ _)]
    unfold state_load_records
    cases hrec : state_load_record MAX_CHILDREN fuel now r tree with
    | none => rfl
    | some tree1 =>
      simp only
      have hfile2 : pre ++ (((r :: rest).map encode_node_state).flatten ++ post) =
          (pre ++ encode_node_state r) ++ ((rest.map encode_node_state).flatten ++ post) := by
        rw [hfile, List.append_assoc]
      have hlen : pre.length + NODE_STATE_SIZE = (pre ++ encode_node_state r).length := by
        rw [List.length_append, encode_node_state_length]
      rw [hfile2, hlen]
      exact ih (pre ++ encode_node_state r) post tree1
        (fun x hx => hdec x (List.mem_cons_of_mem _ hx))

/-! ## The depth-first order: siblings and prefixes -/

theorem nodup_split_unique {α : Type} (x : α) :
    ∀ (l1 l2 m1 m2 : List α), (l1 ++ x :: l2).Nodup → l1 ++ x :: l2 = m1 ++ x :: m2 →
      l1 = m1 ∧ l2 = m2 := by
  intro l1
  induction l1 with
  | nil =>
    intro l2 m1 m2 hnd h
    cases m1 with
    | nil =>
      simp only [List.nil_append, List.cons.injEq, true_and] at h
      exact ⟨rfl, h⟩
    | cons y m1 =>
      simp only [List.nil_append, List.cons_append, List.cons.injEq] at h
      have hx : x ∉ l2 := (List.nodup_cons.mp hnd).1
      rw [h.2] at hx
      exact absurd (List.mem_append_right _ (List.mem_cons_self _ _)) hx
  | cons y l1 ih =>
    intro l2 m1 m2 hnd h
    cases m1 with
    | nil =>
      simp only [List.nil_append, List.cons_append, List.cons.injEq] at h
      have hy : y ∉ l1 ++ x :: l2 := (List.nodup_cons.mp hnd).1
      rw [h.1] at hy
      exact absurd (List.mem_append_right _ (List.mem_cons_self _ _)) hy
    | cons z m1 =>
      simp only [List.cons_append, List.cons.injEq] at h
      obtain ⟨h1, h2⟩ := ih l2 m1 m2 (List.nodup_cons.mp hnd).2 h.2
      exact ⟨by rw [h.1, h1], h2⟩

/-- In an order without repetition, what occurs before a node of the prefix `done ++ [x]`
lies in `done`. -/
theorem before_in_done (done todo : List Nat) (x u v : Nat)
    (hnd : (done ++ x :: todo).Nodup) (hb : Before (done ++ x :: todo) u v)
    (hv : v = x ∨ v ∈ done) : u ∈ done := by
  obtain ⟨l1, l2, hl, hu⟩ := hb
  rcases hv with hv | hv
  · rw [hv] at hl
    have := (nodup_split_unique x done todo l1 l2 hnd hl).1
    rw [this]
    exact hu
  · obtain ⟨d1, d2, hd⟩ := List.append_of_mem hv
    have hl2 : d1 ++ v :: (d2 ++ x :: todo) = l1 ++ v :: l2 := by
      rw [← hl, hd, List.append_assoc, List.cons_append]
    have hnd2 : (d1 ++ v :: (d2 ++ x :: todo)).Nodup := by
      rw [hl2, ← hl]
      exact hnd
    have := (nodup_split_unique v d1 _ l1 l2 hnd2 hl2).1
    rw [hd, this]
    exact List.mem_append_left _ hu

theorem next_not_done (done todo : List Nat) (x : Nat) (hnd : (done ++ x :: todo).Nodup) :
    x ∉ done := by
  intro hx
  have := List.nodup_append.mp hnd
  exact this.2.2 hx (List.mem_cons_self _ _) 

/-- In an order without repetition, what occurs after `x` is neither `x` nor in the prefix
before `x`. -/
theorem after_not_done (done todo : List Nat) (x v : Nat)
    (hnd : (done ++ x :: todo).Nodup) (hb : Before (done ++ x :: todo) x v) :
    v ≠ x ∧ v ∉ done := by
  have hx := next_not_done done todo x hnd
  constructor
  · intro hv
    exact hx (before_in_done done todo x x v hnd hb (Or.inl hv))
  · intro hv
    exact hx (before_in_done done todo x x v hnd hb (Or.inr hv))

theorem forall₂_split_left {α β : Type} {R : α → β → Prop} :
    ∀ (pre : List α) (a : α) (post : List α) (l : List β),
      List.Forall₂ R (pre ++ a :: post) l →
      ∃ lpre b lpost, l = lpre ++ b :: lpost ∧ List.Forall₂ R pre lpre ∧ R a b ∧
        List.Forall₂ R post lpost := by
  intro pre
  induction pre with
  | nil =>
    intro a post l h
    cases h with
    | cons h1 h2 => exact ⟨[], _, _, rfl, List.Forall₂.nil, h1, h2⟩
  | cons p pre ih =>
    intro a post l h
    cases h with
    | cons h1 h2 =>
      obtain ⟨lpre, b, lpost, hl, hpre, hab, hpost⟩ := ih a post _ h2
      exact ⟨_ :: lpre, b, lpost, by rw [hl]; rfl, List.Forall₂.cons h1 hpre, hab, hpost⟩

theorem before_embed (s pre post : List Nat) (u v : Nat) (h : Before s u v) :
    Before (pre ++ s ++ post) u v := by
  obtain ⟨l1, l2, hl, hu⟩ := h
  refine ⟨pre ++ l1, l2 ++ post, ?_, List.mem_append_right _ hu⟩
  rw [hl]
  simp only [List.append_assoc, List.cons_append]

/-- The depth-first order visits the children of a node from left to right: a child listed
earlier in the children array occurs before every child listed later. -/
theorem dfs_helper_sibling_order (look : Addr → Option (Ident × List Addr)) :
    ∀ (fuel a : Nat) (l : List Nat), dfs_helper look fuel a = some l →
      ∀ x nid ch, x ∈ l → look x = some (nid, ch) →
      ∀ k1 u k2, ch = k1 ++ u :: k2 → ∀ c ∈ k1, Before l c u := by
  intro fuel
  induction fuel with
  | zero =>
    intro a l h
    rw [dfs_helper_zero] at h
    cases h
  | succ f ih =>
    intro a l h x nid ch hx hlx k1 u k2 hch c hc
    obtain ⟨aid, children, subs, hla, hsubs, hl⟩ := dfs_helper_some look f a l h
    rw [hl] at hx
    have hsub_case : ∀ s ∈ subs, x ∈ s → Before l c u := by
      intro s hs hxs
      obtain ⟨c0, _, hc0⟩ := forall₂_right_mem hsubs s hs
      have hb := ih c0 s hc0 x nid ch hxs hlx k1 u k2 hch c hc
      obtain ⟨sA, sB, hsplit⟩ := List.append_of_mem hs
      have := before_embed s (a :: sA.flatten) sB.flatten c u hb
      rw [hl, hsplit, List.flatten_append, List.flatten_cons]
      simpa [List.append_assoc] using this
    by_cases hxa : x = a
    · rw [hxa, hla] at hlx
      have hchildren : children = ch := (Prod.mk.inj (Option.some.inj hlx)).2
      rw [hchildren, hch] at hsubs
      obtain ⟨s1, su, s2, hsplit, hpre, hu, _⟩ := forall₂_split_left k1 u k2 subs hsubs
      obtain ⟨utail, hutail⟩ := dfs_helper_head _ _ _ _ hu
      obtain ⟨sc, hsc, hcsc⟩ := forall₂_left_mem hpre c hc
      obtain ⟨ctail, hctail⟩ := dfs_helper_head _ _ _ _ hcsc
      refine ⟨a :: s1.flatten, utail ++ s2.flatten, ?_, ?_⟩
      · rw [hl, hsplit, List.flatten_append, List.flatten_cons, hutail]
        simp only [List.append_assoc, List.cons_append]
      · apply List.mem_cons_of_mem
        apply List.mem_flatten.mpr
        exact ⟨sc, hsc, by rw [hctail]; exact List.mem_cons_self _ _⟩
    · rcases List.mem_cons.mp hx with hx1 | hx1
      · exact absurd hx1 hxa
      · obtain ⟨s, hs, hxs⟩ := List.mem_flatten.mp hx1
        exact hsub_case s hs hxs

/-! ## state.c: the loading loop rebuilds the saved tree -/

/-- What the order says about its next node `x`: it is allocated, none of its children was
written before it, and either it is the first node and has no parent, or its parent `p` was
written before it and the children of `p` listed before `x` were written, those listed after
`x` were not. -/
theorem source_step (MAX_CHILDREN : Nat) (src : TreeContext) (done todo : List Nat) (x : Nat)
    (F : SourceFacts MAX_CHILDREN src (done ++ x :: todo)) :
    ∃ n, load src.heap x = some n ∧ (∀ c ∈ n.children, c ∉ done ∧ c ≠ x) ∧
      ((done = [] ∧ n.parent = none) ∨
       (∃ p ∈ done, ∃ pn k1 k2, load src.heap p = some pn ∧ n.parent = some p ∧
          pn.children = k1 ++ x :: k2 ∧ (∀ c ∈ k1, c ∈ done) ∧
          (∀ c ∈ k2, c ∉ done ∧ c ≠ x))) := by
  have hx : x ∈ done ++ x :: todo := List.mem_append_right _ (List.mem_cons_self _ _)
  obtain ⟨n, hn⟩ := F.alloc x hx
  refine ⟨n, hn, ?_, ?_⟩
  · intro c hc
    have hcord := F.closed x n hx hn c hc
    obtain ⟨m, hm, hmp⟩ := (F.kids x n hn).2 c hc
    obtain ⟨pre, post, hsplit⟩ := List.append_of_mem hcord
    have hpre : pre ≠ [] := by
      intro hnil
      rw [hnil, List.nil_append] at hsplit
      have := F.root_parent c m (F.root_first c post hsplit) hm
      rw [hmp] at this
      cases this
    obtain ⟨p2, hp2, nid, children, hl, hcin⟩ := F.parent_first pre c post hsplit hpre
    obtain ⟨np2, hnp2, _, hch⟩ := tree_look_some src p2 nid children hl
    rw [← hch] at hcin
    obtain ⟨m2, hm2, hmp2⟩ := (F.kids p2 np2 hnp2).2 c hcin
    rw [hm] at hm2
    rw [← Option.some.inj hm2, hmp] at hmp2
    have hxp : x = p2 := Option.some.inj hmp2
    have hb : Before (done ++ x :: todo) x c := ⟨pre, post, hsplit, by rw [hxp]; exact hp2⟩
    have := after_not_done done todo x c F.nodup hb
    exact ⟨this.2, this.1⟩
  · by_cases hdone : done = []
    · left
      refine ⟨hdone, ?_⟩
      have hroot := F.root_first x todo (by rw [hdone]; rfl)
      exact F.root_parent x n hroot hn
    · right
      obtain ⟨p, hp, nid, children, hl, hxin⟩ := F.parent_first done x todo rfl hdone
      obtain ⟨pn, hpn, _, hch⟩ := tree_look_some src p nid children hl
      rw [← hch] at hxin
      obtain ⟨m, hm, hmp⟩ := (F.kids p pn hpn).2 x hxin
      rw [hn] at hm
      rw [← Option.some.inj hm] at hmp
      obtain ⟨k1, k2, hk⟩ := List.append_of_mem hxin
      have hpord : p ∈ done ++ x :: todo := List.mem_append_left _ hp
      refine ⟨p, hp, pn, k1, k2, hpn, hmp, hk, ?_, ?_⟩
      · intro c hc
        have hb := F.siblings p pn hpord hpn k1 x k2 hk c hc
        exact before_in_done done todo x c x F.nodup hb (Or.inl rfl)
      · intro c hc
        obtain ⟨k2a, k2b, hk2⟩ := List.append_of_mem hc
        have hk3 : pn.children = (k1 ++ x :: k2a) ++ c :: k2b := by
          rw [hk, hk2]
          simp only [List.append_assoc, List.cons_append]
        have hb := F.siblings p pn hpord hpn (k1 ++ x :: k2a) c k2b hk3 x
          (List.mem_append_right _ (List.mem_cons_self _ _))
        have := after_not_done done todo x c F.nodup hb
        exact ⟨this.2, this.1⟩

/-- Every cell of the tree being loaded is the cell of a node read so far. -/
theorem load_inv_cell (MAX_CHILDREN : Nat) (src dst : TreeContext) (done todo : List Nat)
    (σ : Addr → Addr) (F : SourceFacts MAX_CHILDREN src (done ++ todo))
    (hinv : LoadInv MAX_CHILDREN src done dst σ) (a : Nat) (n2 : TreeNode)
    (ha : load dst.heap a = some n2) :
    ∃ y ∈ done, ∃ ny, σ y = a ∧ load src.heap y = some ny ∧
      ImageCell MAX_CHILDREN done σ y ny n2 := by
  obtain ⟨hlen, _, _, _, _, hsurj, _, hcell⟩ := hinv
  have halt : a < done.length := by
    rw [← hlen]
    exact load_lt ha
  obtain ⟨y, hy, hya⟩ := hsurj a halt
  obtain ⟨ny, hny⟩ := F.alloc y (List.mem_append_left _ hy)
  obtain ⟨n3, hn3, himg⟩ := hcell y hy ny hny
  rw [hya, ha] at hn3
  rw [Option.some.inj hn3]
  exact ⟨y, hy, ny, hya, hny, himg⟩

/-- The children listed in the tree being loaded are allocated at higher addresses. -/
theorem load_inv_rank (MAX_CHILDREN : Nat) (src dst : TreeContext) (done todo : List Nat)
    (σ : Addr → Addr) (F : SourceFacts MAX_CHILDREN src (done ++ todo))
    (hinv : LoadInv MAX_CHILDREN src done dst σ) :
    ∀ a nid children, tree_look dst a = some (nid, children) →
      ∀ c ∈ children, (tree_look dst c).isSome = true ∧
        done.length - c < done.length - a := by
  intro a nid children hl c hc
  obtain ⟨n2, hn2, _, hch⟩ := tree_look_some dst a nid children hl
  obtain ⟨y, hy, ny, hya, hny, himg⟩ := load_inv_cell MAX_CHILDREN src dst done todo σ F hinv
    a n2 hn2
  obtain ⟨_, _, _, hlt, _, _, _, hcell⟩ := hinv
  obtain ⟨_, _, _, _, _, _, hkids⟩ := himg
  rw [← hch, hkids] at hc
  obtain ⟨c0, hc0, hc0c⟩ := List.mem_map.mp hc
  have hc0in := List.mem_filter.mp hc0
  have hc0done : c0 ∈ done := of_decide_eq_true hc0in.2
  obtain ⟨m, hm, hmp⟩ := (F.kids y ny hny).2 c0 hc0in.1
  obtain ⟨m2, hm2, _, _, _, _, _, hpar, _⟩ := hcell c0 hc0done m hm
  have hlt0 := hlt c0 hc0done
  rw [hc0c] at hm2 hlt0
  refine ⟨by rw [tree_look_eq dst c m2 hm2]; rfl, ?_⟩
  rcases hpar with ⟨hnone, _⟩ | ⟨q, _, hq, _, hqlt⟩
  · rw [hmp] at hnone
    cases hnone
  · rw [hmp] at hq
    rw [← Option.some.inj hq, hya, hc0c] at hqlt
    exact Nat.sub_lt_sub_left (Nat.lt_trans hqlt hlt0) hqlt

theorem load_inv_unique (MAX_CHILDREN : Nat) (src dst : TreeContext) (done todo : List Nat)
    (σ : Addr → Addr) (F : SourceFacts MAX_CHILDREN src (done ++ todo))
    (hinv : LoadInv MAX_CHILDREN src done dst σ) : UniqueParents (tree_look dst) := by
  have hinj := hinv.2.2.2.2.1
  have hfacts : ∀ a nid children, tree_look dst a = some (nid, children) →
      ∃ y ∈ done, ∃ ny, σ y = a ∧ load src.heap y = some ny ∧
        children = (ny.children.filter (fun c => decide (c ∈ done))).map σ := by
    intro a nid children hl
    obtain ⟨n2, hn2, _, hch⟩ := tree_look_some dst a nid children hl
    obtain ⟨y, hy, ny, hya, hny, himg⟩ := load_inv_cell MAX_CHILDREN src dst done todo σ F
      hinv a n2 hn2
    exact ⟨y, hy, ny, hya, hny, by rw [← hch]; exact himg.2.2.2.2.2.2⟩
  constructor
  · intro a nid children hl
    obtain ⟨y, _, ny, _, hny, hch⟩ := hfacts a nid children hl
    rw [hch]
    apply List.Nodup.map_on
    · intro u hu v hv huv
      exact hinj u (of_decide_eq_true (List.mem_filter.mp hu).2) v
        (of_decide_eq_true (List.mem_filter.mp hv).2) huv
    · exact (F.kids y ny hny).1.filter _
  · intro a b na nb ka kb c hla hlb hca hcb
    obtain ⟨y, _, ny, hya, hny, hcha⟩ := hfacts a na ka hla
    obtain ⟨z, _, nz, hzb, hnz, hchb⟩ := hfacts b nb kb hlb
    rw [hcha] at hca
    rw [hchb] at hcb
    obtain ⟨c1, hc1, hc1c⟩ := List.mem_map.mp hca
    obtain ⟨c2, hc2, hc2c⟩ := List.mem_map.mp hcb
    have h1 := List.mem_filter.mp hc1
    have h2 := List.mem_filter.mp hc2
    have hcc : c1 = c2 := hinj c1 (of_decide_eq_true h1.2) c2 (of_decide_eq_true h2.2)
      (by rw [hc1c, hc2c])
    obtain ⟨m1, hm1, hmp1⟩ := (F.kids y ny hny).2 c1 h1.1
    obtain ⟨m2, hm2, hmp2⟩ := (F.kids z nz hnz).2 c2 h2.1
    rw [hcc, hm2] at hm1
    rw [← Option.some.inj hm1, hmp2] at hmp1
    rw [← hya, ← hzb, Option.some.inj hmp1]

theorem tree_look_isSome (ctx : TreeContext) (a : Nat)
    (h : (tree_look ctx a).isSome = true) : (load ctx.heap a).isSome = true := by
  unfold tree_look at h
  cases hl : load ctx.heap a with
  | none => rw [hl] at h; cases h
  | some n => rfl

theorem reachable_allocated (look : Addr → Option (Ident × List Addr)) (r : Nat)
    (hr : (look r).isSome = true)
    (hkids : ∀ a nid children, look a = some (nid, children) →
      ∀ c ∈ children, (look c).isSome = true) :
    ∀ x, Reachable look (some r) x → (look x).isSome = true := by
  intro x hx
  induction hx with
  | root r2 h2 =>
    rw [← Option.some.inj h2]
    exact hr
  | child a c nid children _ hl hc _ => exact hkids a nid children hl c hc

/-- While at most `QUEUE_SIZE` nodes were read, the search in the tree being loaded finds
the cell of a node read so far by the identifier of that node. -/
theorem load_inv_find (MAX_CHILDREN : Nat) (src dst : TreeContext) (done todo : List Nat)
    (σ : Addr → Addr) (F : SourceFacts MAX_CHILDREN src (done ++ todo))
    (hinv : LoadInv MAX_CHILDREN src done dst σ) (p : Nat) (hp : p ∈ done) (pn : TreeNode)
    (hpn : load src.heap p = some pn) :
    ∀ fuel, QUEUE_SIZE ≤ fuel → tree_find_node fuel dst pn.id = some (some (σ p)) := by
  have hrank := load_inv_rank MAX_CHILDREN src dst done todo σ F hinv
  have huniqp := load_inv_unique MAX_CHILDREN src dst done todo σ F hinv
  have hcellof := load_inv_cell MAX_CHILDREN src dst done todo σ F hinv
  obtain ⟨hlen, _, hfirst, _, _, _, hreach, hcell⟩ := hinv
  obtain ⟨x0, rest, hdone⟩ : ∃ x0 rest, done = x0 :: rest := by
    cases done with
    | nil => cases hp
    | cons x0 rest => exact ⟨x0, rest, rfl⟩
  obtain ⟨hroot, hx0⟩ := hfirst x0 rest hdone
  obtain ⟨pn2, hpn2, hpid, _⟩ := hcell p hp pn hpn
  have hroot_alloc : (tree_look dst 0).isSome = true := by
    have hx0in : x0 ∈ done := by rw [hdone]; exact List.mem_cons_self _ _
    obtain ⟨n0, hn0⟩ := F.alloc x0 (List.mem_append_left _ hx0in)
    obtain ⟨n02, hn02, _⟩ := hcell x0 hx0in n0 hn0
    rw [hx0] at hn02
    rw [tree_look_eq dst 0 n02 hn02]
    rfl
  obtain ⟨l, hl⟩ := dfs_helper_terminates (tree_look dst) (fun a => done.length - a) hrank
    (done.length - 0 + 1) 0 (Nat.lt_succ_self _) hroot_alloc
  have hd := hl (done.length - 0 + 1) (Nat.le_refl _)
  have hnd := dfs_helper_nodup (tree_look dst) (fun a => done.length - a) hrank huniqp _ _ _ hd
  have hsub : l ⊆ List.range done.length := by
    intro y hy
    have hry := dfs_helper_mem_reachable (tree_look dst) _ _ _ hd y hy
    have hsome := reachable_allocated (tree_look dst) 0 hroot_alloc
      (fun a nid children h c hc => (hrank a nid children h c hc).1) y hry
    obtain ⟨v, hv⟩ := Option.isSome_iff_exists.mp (tree_look_isSome dst y hsome)
    rw [List.mem_range, ← hlen]
    exact load_lt hv
  have hllen : l.length ≤ QUEUE_SIZE := by
    have h1 := (hnd.subperm hsub).length_le
    rw [List.length_range] at h1
    have h2 := F.small
    rw [List.length_append] at h2
    omega
  have hmem : σ p ∈ l := by
    apply (dfs_helper_mem_iff (tree_look dst) _ 0 l hd (σ p)).mpr
    have := hreach p hp
    rw [hroot] at this
    exact this
  have hfind := bfs_find_unique (tree_look dst) pn.id 0 (σ p) _ l hd hllen hmem
    ⟨pn2.children, by rw [tree_look_eq dst _ pn2 hpn2, hpid]⟩
    (by
      intro y _ ch hly
      obtain ⟨ny2, hny2, hyid, _⟩ := tree_look_some dst y pn.id ch hly
      obtain ⟨z, hz, nz, hzy, hnz, himg⟩ := hcellof y ny2 hny2
      have hidz : nz.id = pn.id := by rw [← himg.1, hyid]
      have := F.ids z p nz pn (List.mem_append_left _ hz) (List.mem_append_left _ hp) hnz hpn
        hidz
      rw [← hzy, this])
  intro fuel hfuel
  unfold tree_find_node
  rw [hroot]
  simp only
  rw [queue_push_init]
  exact hfind fuel hfuel

theorem trunc_ident_ok (s : Ident) (hok : ident_ok s = true) :
    String.mk (s.toList.take 63) = s := by
  unfold ident_ok at hok
  rw [Bool.and_eq_true, decide_eq_true_eq] at hok
  rw [List.take_of_length_le hok.1]
  cases s
  rfl

/-- The body of the loading loop on a tree without root: the record becomes the root. -/
theorem state_load_record_root (MAX_CHILDREN now : Nat) (r : NodeState)
    (dst : TreeContext) (hroot : dst.root = none) :
    ∃ dst2 n2, (∀ fuel, state_load_record MAX_CHILDREN fuel now r dst = some dst2) ∧
      dst2.root = some dst.heap.length ∧ dst2.heap.length = dst.heap.length + 1 ∧
      (∀ b, load dst2.heap b = if b = dst.heap.length then some n2 else load dst.heap b) ∧
      n2.id = String.mk (r.id.toList.take 63) ∧ n2.creation_time = r.creation_time ∧
      n2.is_root = r.is_root ∧ n2.is_active = r.is_active ∧
      n2.max_children = MAX_CHILDREN ∧ n2.parent = none ∧ n2.children = [] := by
  have hcreate : ∀ fuel, tree_create_node MAX_CHILDREN fuel dst now (some r.parent_id) =
      some (some dst.heap.length,
        { heap := dst.heap ++ [some { Tree.create_node MAX_CHILDREN now with
              id := Tree.generate_node_id now dst.id_counter, is_root := true }],
          root := some dst.heap.length,
          total_nodes := size_inc dst.total_nodes,
          id_counter := size_inc dst.id_counter }) := by
    intro fuel
    unfold tree_create_node
    simp only [hroot, Option.isNone_none, Bool.or_true, if_true, alloc]
  have hnew : load (dst.heap ++ [some { Tree.create_node MAX_CHILDREN now with
      id := Tree.generate_node_id now dst.id_counter, is_root := true }]) dst.heap.length =
      some { Tree.create_node MAX_CHILDREN now with
        id := Tree.generate_node_id now dst.id_counter, is_root := true } := by
    rw [load_append, if_pos rfl]
  refine ⟨{ heap := store (dst.heap ++ [some { Tree.create_node MAX_CHILDREN now with
                id := Tree.generate_node_id now dst.id_counter, is_root := true }])
              dst.heap.length
              { Tree.create_node MAX_CHILDREN now with
                id := String.mk (r.id.toList.take 63), creation_time := r.creation_time,
                is_root := r.is_root, is_active := r.is_active },
            root := some dst.heap.length,
            total_nodes := size_inc dst.total_nodes,
            id_counter := size_inc dst.id_counter },
    { Tree.create_node MAX_CHILDREN now with
      id := String.mk (r.id.toList.take 63), creation_time := r.creation_time,
      is_root := r.is_root, is_active := r.is_active }, ?_, ?_, ?_, ?_,
      rfl, rfl, rfl, rfl, rfl, rfl, rfl⟩
  · intro fuel
    unfold state_load_record
    rw [hcreate fuel]
    simp only
    rw [hnew]
  · rfl
  · show (store _ _ _).length = _
    rw [length_store, List.length_append, List.length_singleton]
  · intro b
    show load (store _ _ _) b = _
    rw [load_store, List.length_append, List.length_singleton, load_append]
    by_cases hb : b = dst.heap.length
    · rw [if_pos ⟨hb, Nat.lt_succ_self _⟩, if_pos hb]
    · rw [if_neg (fun h => hb h.1), if_neg hb, if_neg hb]

/-- The body of the loading loop when the search returns a node with room: the record
becomes the last child of that node. -/
theorem state_load_record_child (MAX_CHILDREN bound now : Nat) (r : NodeState)
    (dst : TreeContext) (parent root : Nat) (pn2 : TreeNode) (hroot : dst.root = some root)
    (hfind : ∀ fuel, bound ≤ fuel →
      tree_find_node fuel dst r.parent_id = some (some parent))
    (hp : load dst.heap parent = some pn2)
    (hroom : pn2.children.length < pn2.max_children) :
    ∃ dst2 n2, (∀ fuel, bound ≤ fuel →
        state_load_record MAX_CHILDREN fuel now r dst = some dst2) ∧
      dst2.root = some root ∧ dst2.heap.length = dst.heap.length + 1 ∧
      (∀ b, load dst2.heap b =
        if b = dst.heap.length then some n2
        else if b = parent then
          some { pn2 with children := pn2.children ++ [dst.heap.length] }
        else load dst.heap b) ∧
      n2.id = String.mk (r.id.toList.take 63) ∧ n2.creation_time = r.creation_time ∧
      n2.is_root = r.is_root ∧ n2.is_active = r.is_active ∧
      n2.max_children = MAX_CHILDREN ∧ n2.parent = some parent ∧ n2.children = [] := by
  have hplt : parent < dst.heap.length := load_lt hp
  have hcreate : ∀ fuel, bound ≤ fuel →
      tree_create_node MAX_CHILDREN fuel dst now (some r.parent_id) =
      some (some dst.heap.length,
        { heap := store (dst.heap ++ [some { Tree.create_node MAX_CHILDREN now with
              id := Tree.generate_node_id now dst.id_counter, parent := some parent }])
              parent { pn2 with children := pn2.children ++ [dst.heap.length] },
          root := some root,
          total_nodes := size_inc dst.total_nodes,
          id_counter := size_inc dst.id_counter }) := by
    intro fuel hfuel
    unfold tree_create_node
    simp only [hroot, Option.isNone_some, Bool.or_false, Bool.false_eq_true, if_false,
      hfind fuel hfuel,
      hp, ge_iff_le, Nat.not_le.mpr hroom, alloc]
  have hload1 : ∀ b, load (store (dst.heap ++ [some { Tree.create_node MAX_CHILDREN now with
      id := Tree.generate_node_id now dst.id_counter, parent := some parent }])
      parent { pn2 with children := pn2.children ++ [dst.heap.length] }) b =
      if b = parent then some { pn2 with children := pn2.children ++ [dst.heap.length] }
      else if b = dst.heap.length then some { Tree.create_node MAX_CHILDREN now with
        id := Tree.generate_node_id now dst.id_counter, parent := some parent }
      else load dst.heap b := fun b => load_store_append _ _ _ _ _ hplt
  refine ⟨{ heap := store (store (dst.heap ++ [some { Tree.create_node MAX_CHILDREN now with
                id := Tree.generate_node_id now dst.id_counter, parent := some parent }])
                parent { pn2 with children := pn2.children ++ [dst.heap.length] })
              dst.heap.length
              { Tree.create_node MAX_CHILDREN now with
                id := String.mk (r.id.toList.take 63), creation_time := r.creation_time,
                is_root := r.is_root, is_active := r.is_active, parent := some parent },
            root := some root,
            total_nodes := size_inc dst.total_nodes,
            id_counter := size_inc dst.id_counter },
    { Tree.create_node MAX_CHILDREN now with
      id := String.mk (r.id.toList.take 63), creation_time := r.creation_time,
      is_root := r.is_root, is_active := r.is_active, parent := some parent }, ?_, ?_, ?_, ?_,
      rfl, rfl, rfl, rfl, rfl, rfl, rfl⟩
  · intro fuel hfuel
    unfold state_load_record
    rw [hcreate fuel hfuel]
    simp only
    rw [hload1, if_neg (Nat.ne_of_gt hplt), if_pos rfl]
  · rfl
  · show (store _ _ _).length = _
    rw [length_store, length_store, List.length_append, List.length_singleton]
  · intro b
    show load (store _ _ _) b = _
    rw [load_store, length_store, List.length_append, List.length_singleton, hload1]
    by_cases hb : b = dst.heap.length
    · rw [if_pos ⟨hb, Nat.lt_succ_self _⟩, if_pos hb]
    · rw [if_neg (fun h => hb h.1), if_neg hb, if_neg hb]

theorem filter_done_snoc_of_not_mem (done l : List Nat) (x : Nat) (hx : x ∉ l) :
    l.filter (fun c => decide (c ∈ done ++ [x])) = l.filter (fun c => decide (c ∈ done)) := by
  apply List.filter_congr
  intro c hc
  have hcx : c ≠ x := fun h => hx (h ▸ hc)
  simp [hcx]

theorem filter_done_none (done l : List Nat) (h : ∀ c ∈ l, c ∉ done) :
    l.filter (fun c => decide (c ∈ done)) = [] := by
  apply List.filter_eq_nil_iff.mpr
  intro c hc
  simp [h c hc]

theorem filter_done_all (done l : List Nat) (h : ∀ c ∈ l, c ∈ done) :
    l.filter (fun c => decide (c ∈ done)) = l := by
  apply List.filter_eq_self.mpr
  intro c hc
  simp [h c hc]

theorem map_update_done (done l : List Nat) (σ : Addr → Addr) (x v : Nat)
    (hl : ∀ c ∈ l, c ∈ done) (hx : x ∉ done) :
    l.map (Function.update σ x v) = l.map σ := by
  apply List.map_congr_left
  intro c hc
  have hcx : c ≠ x := fun h => hx (h ▸ hl c hc)
  exact Function.update_noteq hcx v σ

theorem map_update_filter_done (done l : List Nat) (σ : Addr → Addr) (x v : Nat)
    (hx : x ∉ done) :
    (l.filter (fun c => decide (c ∈ done))).map (Function.update σ x v) =
      (l.filter (fun c => decide (c ∈ done))).map σ :=
  map_update_done done _ σ x v
    (fun _ hc => of_decide_eq_true (List.mem_filter.mp hc).2) hx

/-- An image cell stays one when the next node `x` is read, as long as `x` is not among the
children of its node. -/
theorem image_cell_extend (MAX_CHILDREN : Nat) (done : List Nat) (σ : Addr → Addr)
    (x y : Nat) (ny n2 : TreeNode) (hx : x ∉ done) (hy : y ∈ done)
    (hxkid : x ∉ ny.children) (himg : ImageCell MAX_CHILDREN done σ y ny n2) :
    ImageCell MAX_CHILDREN (done ++ [x]) (Function.update σ x done.length) y ny n2 := by
  obtain ⟨h1, h2, h3, h4, h5, hpar, hch⟩ := himg
  have hyx : y ≠ x := fun h => hx (h ▸ hy)
  refine ⟨h1, h2, h3, h4, h5, ?_, ?_⟩
  · rcases hpar with hnone | ⟨q, hq, hq1, hq2, hq3⟩
    · exact Or.inl hnone
    · have hqx : q ≠ x := fun h => hx (h ▸ hq)
      refine Or.inr ⟨q, List.mem_append_left _ hq, hq1, ?_, ?_⟩
      · rw [Function.update_noteq hqx]
        exact hq2
      · rw [Function.update_noteq hqx, Function.update_noteq hyx]
        exact hq3
  · rw [filter_done_snoc_of_not_mem done ny.children x hxkid,
      map_update_filter_done done ny.children σ x done.length hx]
    exact hch

/-- The first record read leaves the invariant of the loading loop. -/
theorem load_inv_extend_root (MAX_CHILDREN : Nat) (src dst dst2 : TreeContext) (x : Nat)
    (σ : Addr → Addr) (n n2 : TreeNode)
    (hinv : LoadInv MAX_CHILDREN src [] dst σ)
    (hn : load src.heap x = some n) (hkidsx : ∀ c ∈ n.children, c ≠ x)
    (hpar : n.parent = none)
    (hroot2 : dst2.root = some dst.heap.length)
    (hlen2 : dst2.heap.length = dst.heap.length + 1)
    (hload2 : ∀ b, load dst2.heap b = if b = dst.heap.length then some n2 else load dst.heap b)
    (hfields : n2.id = n.id ∧ n2.creation_time = n.creation_time ∧ n2.is_root = n.is_root ∧
      n2.is_active = n.is_active ∧ n2.max_children = MAX_CHILDREN ∧ n2.parent = none ∧
      n2.children = []) :
    LoadInv MAX_CHILDREN src ([] ++ [x]) dst2 (Function.update σ x 0) := by
  have hlen : dst.heap.length = 0 := hinv.1
  rw [hlen] at hroot2 hlen2 hload2
  obtain ⟨f1, f2, f3, f4, f5, f6, f7⟩ := hfields
  have hσ : Function.update σ x 0 x = 0 := Function.update_same _ _ _
  have hmem : ∀ y, y ∈ [] ++ [x] → y = x := by
    intro y hy
    simpa using hy
  refine ⟨hlen2, ?_, ?_, ?_, ?_, ?_, ?_, ?_⟩
  · intro h
    cases h
  · intro y rest hy
    simp only [List.nil_append, List.cons.injEq] at hy
    rw [← hy.1]
    exact ⟨hroot2, hσ⟩
  · intro y hy
    rw [hmem y hy, hσ]
    exact Nat.lt_succ_self _
  · intro y hy z hz _
    rw [hmem y hy, hmem z hz]
  · intro a ha
    refine ⟨x, by simp, ?_⟩
    rw [hσ]
    have ha1 : a < 1 := ha
    exact (Nat.lt_one_iff.mp ha1).symm
  · intro y hy
    rw [hmem y hy, hσ]
    exact Reachable.root 0 hroot2
  · intro y hy ny hny
    rw [hmem y hy] at hny ⊢
    rw [hn] at hny
    rw [← Option.some.inj hny, hσ]
    refine ⟨n2, by rw [hload2, if_pos rfl], f1, f2, f3, f4, f5, Or.inl ⟨hpar, f6⟩, ?_⟩
    rw [f7]
    have : n.children.filter (fun c => decide (c ∈ [] ++ [x])) = [] := by
      apply filter_done_none
      intro c hc hcx
      exact hkidsx c hc (hmem c hcx)
    rw [this]
    rfl

/-- A record read as the last child of the cell of its parent leaves the invariant of the
loading loop. -/
theorem load_inv_extend_child (MAX_CHILDREN : Nat) (src dst dst2 : TreeContext)
    (done todo : List Nat) (x p : Nat) (σ : Addr → Addr) (n n2 pn pn2 : TreeNode)
    (k1 k2 : List Nat)
    (F : SourceFacts MAX_CHILDREN src (done ++ x :: todo))
    (hinv : LoadInv MAX_CHILDREN src done dst σ)
    (hn : load src.heap x = some n) (hkidsx : ∀ c ∈ n.children, c ∉ done ∧ c ≠ x)
    (hp : p ∈ done) (hpn : load src.heap p = some pn) (hpar : n.parent = some p)
    (hk : pn.children = k1 ++ x :: k2) (hk1 : ∀ c ∈ k1, c ∈ done)
    (hk2 : ∀ c ∈ k2, c ∉ done ∧ c ≠ x)
    (hpn2 : load dst.heap (σ p) = some pn2)
    (hroot2 : dst2.root = dst.root)
    (hlen2 : dst2.heap.length = dst.heap.length + 1)
    (hload2 : ∀ b, load dst2.heap b =
      if b = dst.heap.length then some n2
      else if b = σ p then some { pn2 with children := pn2.children ++ [dst.heap.length] }
      else load dst.heap b)
    (hfields : n2.id = n.id ∧ n2.creation_time = n.creation_time ∧ n2.is_root = n.is_root ∧
      n2.is_active = n.is_active ∧ n2.max_children = MAX_CHILDREN ∧
      n2.parent = some (σ p) ∧ n2.children = []) :
    LoadInv MAX_CHILDREN src (done ++ [x]) dst2 (Function.update σ x done.length) := by
  have hxnd : x ∉ done := next_not_done done todo x F.nodup
  obtain ⟨hlen, _, hfirst, hlt, hinj, hsurj, hreach, hcell⟩ := hinv
  rw [hlen] at hlen2 hload2
  obtain ⟨f1, f2, f3, f4, f5, f6, f7⟩ := hfields
  have hσx : Function.update σ x done.length x = done.length := Function.update_same _ _ _
  have hσy : ∀ y ∈ done, Function.update σ x done.length y = σ y := by
    intro y hy
    have hyx : y ≠ x := by
      intro h
      rw [h] at hy
      exact hxnd hy
    exact Function.update_noteq hyx _ _
  have hplt : σ p < done.length := hlt p hp
  obtain ⟨x0, rest, hdone⟩ : ∃ x0 rest, done = x0 :: rest := by
    cases done with
    | nil => cases hp
    | cons x0 rest => exact ⟨x0, rest, rfl⟩
  obtain ⟨hroot, hx0⟩ := hfirst x0 rest hdone
  have hx0in : x0 ∈ done := by rw [hdone]; exact List.mem_cons_self _ _
  have hlen_app : (done ++ [x]).length = done.length + 1 := by
    rw [List.length_append, List.length_singleton]
  have hmem_app : ∀ y, y ∈ done ++ [x] → y ∈ done ∨ y = x := by
    intro y hy
    rcases List.mem_append.mp hy with h | h
    · exact Or.inl h
    · exact Or.inr (List.mem_singleton.mp h)
  have hxkid : ∀ y ∈ done, ∀ ny, load src.heap y = some ny → x ∈ ny.children → y = p := by
    intro y _ ny hny hxin
    obtain ⟨m, hm, hmp⟩ := (F.kids y ny hny).2 x hxin
    rw [hn] at hm
    rw [← Option.some.inj hm, hpar] at hmp
    exact (Option.some.inj hmp).symm
  have hnewp : load dst2.heap (σ p) =
      some { pn2 with children := pn2.children ++ [done.length] } := by
    rw [hload2, if_neg (Nat.ne_of_lt hplt), if_pos rfl]
  have hstay : ∀ y ∈ done, y ≠ p → load dst2.heap (σ y) = load dst.heap (σ y) := by
    intro y hy hyp
    rw [hload2, if_neg (Nat.ne_of_lt (hlt y hy)), if_neg (fun h => hyp (hinj y hy p hp h))]
  have hmono : ∀ b, Reachable (tree_look dst) dst.root b →
      Reachable (tree_look dst2) dst2.root b := by
    intro b hb
    induction hb with
    | root r hr => exact Reachable.root r (by rw [hroot2]; exact hr)
    | child q c nid ch _ hl hc ih =>
      obtain ⟨qn, hqn, _, hch⟩ := tree_look_some dst q nid ch hl
      have hqlt : q < done.length := by
        rw [← hlen]
        exact load_lt hqn
      by_cases hqp : q = σ p
      · rw [hqp, hpn2] at hqn
        rw [← hch, ← Option.some.inj hqn] at hc
        rw [hqp] at ih
        exact Reachable.child (σ p) c _ _ ih (tree_look_eq dst2 _ _ hnewp)
          (List.mem_append_left _ hc)
      · have hq2 : load dst2.heap q = some qn := by
          rw [hload2, if_neg (Nat.ne_of_lt hqlt), if_neg hqp]
          exact hqn
        rw [← hch] at hc
        exact Reachable.child q c _ _ ih (tree_look_eq dst2 q qn hq2) hc
  refine ⟨by rw [hlen2, hlen_app], ?_, ?_, ?_, ?_, ?_, ?_, ?_⟩
  · intro h
    rw [hdone] at h
    cases h
  · intro y rest2 hy
    rw [hdone, List.cons_append] at hy
    have hy0 : x0 = y := (List.cons.inj hy).1
    rw [← hy0, hσy x0 hx0in, hroot2]
    exact ⟨hroot, hx0⟩
  · intro y hy
    rw [hlen_app]
    rcases hmem_app y hy with h | h
    · rw [hσy y h]
      exact Nat.lt_succ_of_lt (hlt y h)
    · rw [h, hσx]
      exact Nat.lt_succ_self _
  · intro y hy z hz hyz
    rcases hmem_app y hy with h1 | h1 <;> rcases hmem_app z hz with h2 | h2
    · rw [hσy y h1, hσy z h2] at hyz
      exact hinj y h1 z h2 hyz
    · rw [h2, hσy y h1, hσx] at hyz
      exact absurd hyz (Nat.ne_of_lt (hlt y h1))
    · rw [h1, hσy z h2, hσx] at hyz
      exact absurd hyz.symm (Nat.ne_of_lt (hlt z h2))
    · rw [h1, h2]
  · intro a ha
    rw [hlen_app] at ha
    by_cases hal : a < done.length
    · obtain ⟨y, hy, hya⟩ := hsurj a hal
      exact ⟨y, List.mem_append_left _ hy, by rw [hσy y hy, hya]⟩
    · refine ⟨x, List.mem_append_right _ (List.mem_singleton_self _), ?_⟩
      rw [hσx]
      exact Nat.le_antisymm (Nat.le_of_not_lt hal) (Nat.le_of_lt_succ ha)
  · intro y hy
    rcases hmem_app y hy with h | h
    · rw [hσy y h]
      exact hmono _ (hreach y h)
    · rw [h, hσx]
      have hpr := hmono _ (hreach p hp)
      exact Reachable.child (σ p) _ _ _ hpr (tree_look_eq dst2 _ _ hnewp)
        (List.mem_append_right _ (List.mem_singleton_self _))
  · intro y hy ny hny
    rcases hmem_app y hy with h | h
    · obtain ⟨nold, hnold, himg⟩ := hcell y h ny hny
      rw [hσy y h]
      by_cases hyp : y = p
      · rw [hyp] at hny hnold himg ⊢
        rw [hpn] at hny
        rw [hpn2] at hnold
        rw [← Option.some.inj hny, ← Option.some.inj hnold] at himg
        rw [← Option.some.inj hny]
        obtain ⟨g1, g2, g3, g4, g5, gpar, gch⟩ := himg
        refine ⟨_, hnewp, g1, g2, g3, g4, g5, ?_, ?_⟩
        · rcases gpar with hnone | ⟨q, hq, hq1, hq2, hq3⟩
          · exact Or.inl hnone
          · refine Or.inr ⟨q, List.mem_append_left _ hq, hq1, ?_, ?_⟩
            · rw [hσy q hq]
              exact hq2
            · rw [hσy q hq, hσy p hp]
              exact hq3
        · show pn2.children ++ [done.length] = _
          have hxk1 : x ∉ k1 := fun h => hxnd (hk1 x h)
          have hold : pn.children.filter (fun c => decide (c ∈ done)) = k1 := by
            rw [hk, List.filter_append, filter_done_all done k1 hk1, List.filter_cons,
              if_neg (by simpa using hxnd), filter_done_none done k2 (fun c hc => (hk2 c hc).1),
              List.append_nil]
          have hnew : pn.children.filter (fun c => decide (c ∈ done ++ [x])) = k1 ++ [x] := by
            rw [hk, List.filter_append,
              filter_done_all (done ++ [x]) k1 (fun c hc => List.mem_append_left _ (hk1 c hc)),
              List.filter_cons, if_pos (by simp),
              filter_done_none (done ++ [x]) k2 (fun c hc hcx => by
                rcases hmem_app c hcx with h1 | h1
                · exact (hk2 c hc).1 h1
                · exact (hk2 c hc).2 h1)]
          rw [hnew, List.map_append, map_update_done done k1 σ x done.length hk1 hxnd, gch,
            hold, List.map_singleton, hσx]
      · rw [hstay y h hyp]
        refine ⟨nold, hnold, image_cell_extend MAX_CHILDREN done σ x y ny nold hxnd h ?_ himg⟩
        intro hxin
        exact hyp (hxkid y h ny hny hxin)
    · rw [h] at hny ⊢
      rw [hn] at hny
      rw [← Option.some.inj hny, hσx]
      refine ⟨n2, by rw [hload2, if_pos rfl], f1, f2, f3, f4, f5, ?_, ?_⟩
      · refine Or.inr ⟨p, List.mem_append_left _ hp, hpar, ?_, ?_⟩
        · rw [hσy p hp]
          exact f6
        · rw [hσy p hp, hσx]
          exact hplt
      · rw [f7]
        have : n.children.filter (fun c => decide (c ∈ done ++ [x])) = [] := by
          apply filter_done_none
          intro c hc hcx
          rcases hmem_app c hcx with h1 | h1
          · exact (hkidsx c hc).1 h1
          · exact (hkidsx c hc).2 h1
        rw [this]
        rfl

theorem filter_done_split (done k1 k2 : List Nat) (x : Nat) (hx : x ∉ done)
    (hk1 : ∀ c ∈ k1, c ∈ done) (hk2 : ∀ c ∈ k2, c ∉ done) :
    (k1 ++ x :: k2).filter (fun c => decide (c ∈ done)) = k1 := by
  rw [List.filter_append, filter_done_all done k1 hk1, List.filter_cons,
    if_neg (by simpa using hx), filter_done_none done k2 hk2, List.append_nil]

/-- One pass of the loading loop: with fuel for the search, the record of the next node of
the order is read and the invariant holds with that node added. -/
theorem load_inv_step (MAX_CHILDREN now : Nat) (src dst : TreeContext)
    (done todo : List Nat) (x : Nat) (σ : Addr → Addr) (r : NodeState)
    (F : SourceFacts MAX_CHILDREN src (done ++ x :: todo))
    (hinv : LoadInv MAX_CHILDREN src done dst σ)
    (hrec : save_node src x = some r) :
    ∃ dst2, (∀ fuel, QUEUE_SIZE ≤ fuel →
        state_load_record MAX_CHILDREN fuel now r dst = some dst2) ∧
      LoadInv MAX_CHILDREN src (done ++ [x]) dst2 (Function.update σ x done.length) := by
  have hxin : x ∈ done ++ x :: todo := List.mem_append_right _ (List.mem_cons_self _ _)
  have hxnd : x ∉ done := next_not_done done todo x F.nodup
  obtain ⟨n, hn, hkidsx, hcase⟩ := source_step MAX_CHILDREN src done todo x F
  obtain ⟨n1, hn1, hrid, hrt, hrr, hra, _, hrpar⟩ := save_node_record src x r hrec
  rw [hn] at hn1
  rw [← Option.some.inj hn1] at hrid hrt hrr hra hrpar
  have hstor := F.storable x n hxin hn
  have hid : String.mk (r.id.toList.take 63) = n.id := by
    rw [hrid, trunc_ident_ok n.id hstor.1, trunc_ident_ok n.id hstor.1]
  rcases hcase with ⟨hdone, hparnone⟩ | ⟨p, hp, pn, k1, k2, hpn, hpar, hk, hk1, hk2⟩
  · rw [hdone] at hinv ⊢
    have hroot : dst.root = none := hinv.2.1 rfl
    obtain ⟨dst2, n2, hload, hroot2, hlen2, hcells, g1, g2, g3, g4, g5, g6, g7⟩ :=
      state_load_record_root MAX_CHILDREN now r dst hroot
    refine ⟨dst2, fun fuel _ => hload fuel, ?_⟩
    exact load_inv_extend_root MAX_CHILDREN src dst dst2 x σ n n2 hinv hn
      (fun c hc => (hkidsx c hc).2) hparnone hroot2 hlen2 hcells
      ⟨by rw [g1, hid], by rw [g2, hrt], by rw [g3, hrr], by rw [g4, hra], g5, g6, g7⟩
  · have hpstor := F.storable p pn (List.mem_append_left _ hp) hpn
    have hrpid : r.parent_id = pn.id := by
      rcases hrpar with ⟨hnone, _⟩ | ⟨p1, pn1, hp1, hpn1, hrp⟩
      · rw [hpar] at hnone
        cases hnone
      · rw [hpar] at hp1
        rw [← Option.some.inj hp1, hpn] at hpn1
        rw [hrp, ← Option.some.inj hpn1, trunc_ident_ok pn.id hpstor.1]
    have hfind := load_inv_find MAX_CHILDREN src dst done (x :: todo) σ F hinv p hp pn hpn
    obtain ⟨pn2, hpn2, himg⟩ := hinv.2.2.2.2.2.2.2 p hp pn hpn
    have hroot : dst.root = some 0 := by
      cases hd : done with
      | nil => rw [hd] at hp; cases hp
      | cons x0 rest => exact (hinv.2.2.1 x0 rest hd).1
    have hroom : pn2.children.length < pn2.max_children := by
      rw [himg.2.2.2.2.1, himg.2.2.2.2.2.2, List.length_map, hk,
        filter_done_split done k1 k2 x hxnd hk1 (fun c hc => (hk2 c hc).1)]
      have := hpstor.2.2
      rw [hk, List.length_append, List.length_cons] at this
      omega
    obtain ⟨dst2, n2, hload, hroot2, hlen2, hcells, g1, g2, g3, g4, g5, g6, g7⟩ :=
      state_load_record_child MAX_CHILDREN QUEUE_SIZE now r dst (σ p) 0 pn2 hroot
        (by rw [hrpid]; exact hfind) hpn2 hroom
    refine ⟨dst2, hload, ?_⟩
    exact load_inv_extend_child MAX_CHILDREN src dst dst2 done todo x p σ n n2 pn pn2 k1 k2
      F hinv hn hkidsx hp hpn hpar hk hk1 hk2 hpn2 (by rw [hroot2, hroot]) hlen2 hcells
      ⟨by rw [g1, hid], by rw [g2, hrt], by rw [g3, hrr], by rw [g4, hra], g5, g6, g7⟩

/-- The loading loop on the records of the rest of the order: it returns, and the invariant
holds for the whole order. -/
theorem load_inv_loop (MAX_CHILDREN now : Nat) (src : TreeContext) :
    ∀ (todo done : List Nat) (recs : List NodeState) (dst : TreeContext) (σ : Addr → Addr),
      SourceFacts MAX_CHILDREN src (done ++ todo) →
      LoadInv MAX_CHILDREN src done dst σ →
      List.Forall₂ (fun a r => save_node src a = some r) todo recs →
      ∃ dst2 σ2, (∀ fuel, QUEUE_SIZE ≤ fuel →
          state_load_records MAX_CHILDREN fuel now recs dst = some dst2) ∧
        LoadInv MAX_CHILDREN src (done ++ todo) dst2 σ2 := by
  intro todo
  induction todo with
  | nil =>
    intro done recs dst σ _ hinv hrecs
    cases hrecs
    rw [List.append_nil]
    exact ⟨dst, σ, fun _ _ => rfl, hinv⟩
  | cons x todo ih =>
    intro done recs dst σ F hinv hrecs
    cases hrecs with
    | cons hr hrest =>
      rename_i r recs1
      obtain ⟨dst1, hstep, hinv1⟩ := load_inv_step MAX_CHILDREN now src dst done todo x σ
        r F hinv hr
      have happ : (done ++ [x]) ++ todo = done ++ x :: todo := by
        rw [List.append_assoc]
        rfl
      obtain ⟨dst2, σ2, hrun, hinv2⟩ := ih (done ++ [x]) recs1 dst1 _
        (by rw [happ]; exact F) hinv1 hrest
      refine ⟨dst2, σ2, fun fuel hfuel => ?_, by rw [← happ]; exact hinv2⟩
      unfold state_load_records
      rw [hstep fuel hfuel]
      exact hrun fuel hfuel

/-- The visiting order of `tree_traverse_dfs` on a proper tree with distinct, storable
identifiers and at most `QUEUE_SIZE` nodes has what the loading loop needs. -/
theorem source_facts_of_proper (MAX_CHILDREN fuel : Nat) (src : TreeContext)
    (order : List Nat) (hproper : TreeProper src) (hids : DistinctIds src)
    (hstor : Storable MAX_CHILDREN src) (hsmall : AtMostNodes src QUEUE_SIZE)
    (hdfs : tree_traverse_dfs fuel src = some order) :
    SourceFacts MAX_CHILDREN src order := by
  have huniq := tree_proper_unique src hproper
  obtain ⟨⟨hroot_alloc, rank, hrank⟩, hrootpar, hkids⟩ := id hproper
  unfold tree_traverse_dfs at hdfs
  cases hroot : src.root with
  | none =>
    rw [hroot] at hdfs
    simp only at hdfs
    rw [← Option.some.inj hdfs]
    exact {
      nodup := List.nodup_nil
      small := Nat.zero_le _
      alloc := fun x hx => by cases hx
      root_first := fun x rest h => by cases h
      root_parent := fun x n hx => by rw [hroot] at hx; cases hx
      parent_first := fun pre c post h => by cases pre <;> cases h
      siblings := fun x n hx => by cases hx
      kids := hkids
      closed := fun x n hx => by cases hx
      ids := fun x y nx ny hx => by cases hx
      storable := fun x n hx => by cases hx }
  | some r =>
    rw [hroot] at hdfs
    simp only at hdfs
    have hreach : ∀ x, x ∈ order → Reachable (tree_look src) src.root x := by
      intro x hx
      rw [hroot]
      exact (dfs_helper_mem_iff _ _ _ _ hdfs x).mp hx
    have hnd := dfs_helper_nodup _ rank hrank huniq _ _ _ hdfs
    have halloc : ∀ x ∈ order, ∃ n, load src.heap x = some n := by
      intro x hx
      have h1 := reachable_allocated (tree_look src) r (hroot_alloc r hroot)
        (fun a nid children h c hc => (hrank a nid children h c hc).1) x
        ((dfs_helper_mem_iff _ _ _ _ hdfs x).mp hx)
      exact Option.isSome_iff_exists.mp (tree_look_isSome src x h1)
    obtain ⟨tail, htail⟩ := dfs_helper_head _ _ _ _ hdfs
    exact {
      nodup := hnd
      small := hsmall order hnd hreach
      alloc := halloc
      root_first := fun x rest h => by
        rw [htail] at h
        rw [← (List.cons.inj h).1]
        exact hroot
      root_parent := fun x n hx hn => hrootpar x n hx hn
      parent_first := dfs_helper_parent_first _ _ _ _ hdfs
      siblings := fun x n hx hn k1 u k2 hk c hc =>
        dfs_helper_sibling_order _ _ _ _ hdfs x n.id n.children hx (tree_look_eq src x n hn)
          k1 u k2 hk c hc
      kids := hkids
      closed := fun x n hx hn c hc =>
        dfs_helper_closed _ _ _ _ hdfs x hx n.id n.children (tree_look_eq src x n hn) c hc
      ids := fun x y nx ny hx hy hnx hny h =>
        hids x y nx ny (hreach x hx) (hreach y hy) hnx hny h
      storable := fun x n hx hn => hstor x n (hreach x hx) hn }

/-- The record written for a node of the order is read back as it was written. -/
theorem records_decodable (MAX_CHILDREN : Nat) (src : TreeContext) (order : List Nat)
    (F : SourceFacts MAX_CHILDREN src order) (x : Nat) (hx : x ∈ order) (r : NodeState)
    (hrec : save_node src x = some r) :
    decode_node_state (encode_node_state r) = r := by
  obtain ⟨n, hn, hrid, hrt, _, _, hrc, hrpar⟩ := save_node_record src x r hrec
  have hstor := F.storable x n hx hn
  have hsize : QUEUE_SIZE ≤ SIZE_MAX := by decide
  apply decode_encode_node_state
  · rw [hrid, trunc_ident_ok n.id hstor.1]
    exact hstor.1
  · rcases hrpar with ⟨_, hp⟩ | ⟨p, pn, hp, hpn, hrp⟩
    · rw [hp]
      rfl
    · obtain ⟨pre, post, hsplit⟩ := List.append_of_mem hx
      have hpre : pre ≠ [] := by
        intro hnil
        rw [hnil, List.nil_append] at hsplit
        have := F.root_parent x n (F.root_first x post hsplit) hn
        rw [hp] at this
        cases this
      obtain ⟨q, hq, nid, children, hl, hxin⟩ := F.parent_first pre x post hsplit hpre
      obtain ⟨qn, hqn, _, hch⟩ := tree_look_some src q nid children hl
      rw [← hch] at hxin
      obtain ⟨m, hm, hmp⟩ := (F.kids q qn hqn).2 x hxin
      rw [hn] at hm
      rw [← Option.some.inj hm, hp] at hmp
      have hpq : p = q := Option.some.inj hmp
      have hqord : q ∈ order := by
        rw [hsplit]
        exact List.mem_append_left _ hq
      rw [hpq, hqn] at hpn
      have hqstor := F.storable q qn hqord hqn
      rw [hrp, ← Option.some.inj hpn, trunc_ident_ok qn.id hqstor.1]
      exact hqstor.1
  · rw [hrt]
    exact hstor.2.1
  · rw [hrc]
    have hsub : n.children ⊆ order := fun c hc => F.closed x n hx hn c hc
    have h1 := ((F.kids x n hn).1.subperm hsub).length_le
    have h2 := F.small
    omega

/-- On a tree-shaped heap `tree_traverse_dfs` returns for every large enough fuel, and the
order it returns lists the nodes reachable from the root. -/
theorem tree_traverse_dfs_total (src : TreeContext)
    (hshape : TreeShaped (tree_look src) src.root) :
    ∃ N order, (∀ fuel, N ≤ fuel → tree_traverse_dfs fuel src = some order) ∧
      ∀ x, x ∈ order ↔ Reachable (tree_look src) src.root x := by
  obtain ⟨hroot_alloc, rank, hrank⟩ := hshape
  cases hroot : src.root with
  | none =>
    refine ⟨0, [], fun fuel _ => ?_, fun x => ?_⟩
    · unfold tree_traverse_dfs
      rw [hroot]
    · constructor
      · intro h
        cases h
      · intro h
        exact absurd h (not_reachable_of_no_root _ x)
  | some r =>
    obtain ⟨order, horder⟩ := dfs_helper_terminates (tree_look src) rank hrank
      (rank r + 1) r (Nat.lt_succ_self _) (hroot_alloc r hroot)
    refine ⟨rank r + 1, order, fun fuel hfuel => ?_, fun x => ?_⟩
    · unfold tree_traverse_dfs
      rw [hroot]
      exact horder fuel hfuel
    · exact dfs_helper_mem_iff _ _ _ _ (horder _ (Nat.le_refl _)) x

theorem load_inv_init (MAX_CHILDREN counter : Nat) (src : TreeContext) (σ : Addr → Addr) :
    LoadInv MAX_CHILDREN src [] (tree_create counter) σ := by
  refine ⟨rfl, fun _ => rfl, ?_, ?_, ?_, ?_, ?_, ?_⟩
  · intro x rest h
    cases h
  · intro x hx
    cases hx
  · intro x hx
    cases hx
  · intro a ha
    exact absurd ha (Nat.not_lt_zero _)
  · intro x hx
    cases hx
  · intro x hx
    cases hx

/-- Once every record was read, the tree loaded is the tree saved, renamed. -/
theorem same_tree_of_load_inv (MAX_CHILDREN : Nat) (src dst : TreeContext)
    (order : List Nat) (σ : Addr → Addr) (F : SourceFacts MAX_CHILDREN src order)
    (hmem : ∀ x, x ∈ order ↔ Reachable (tree_look src) src.root x)
    (hinv : LoadInv MAX_CHILDREN src order dst σ) : SameTree src dst σ := by
  obtain ⟨hlen, hnil, hfirst, hlt, hinj, hsurj, _, hcell⟩ := hinv
  refine ⟨?_, ?_, ?_, ?_⟩
  · cases horder : order with
    | nil =>
      rw [hnil horder]
      cases hroot : src.root with
      | none => rfl
      | some r =>
        have := (hmem r).mpr (Reachable.root r hroot)
        rw [horder] at this
        cases this
    | cons x rest =>
      rw [(hfirst x rest horder).1, F.root_first x rest horder]
      show some 0 = some (σ x)
      rw [(hfirst x rest horder).2]
  · intro a
    constructor
    · intro ha
      obtain ⟨v, hv⟩ := Option.isSome_iff_exists.mp ha
      have halt : a < order.length := by
        rw [← hlen]
        exact load_lt hv
      obtain ⟨x, hx, hxa⟩ := hsurj a halt
      exact ⟨x, (hmem x).mp hx, hxa⟩
    · intro ha
      obtain ⟨x, hx, hxa⟩ := ha
      have hxo := (hmem x).mpr hx
      obtain ⟨n, hn⟩ := F.alloc x hxo
      obtain ⟨n2, hn2, _⟩ := hcell x hxo n hn
      rw [← hxa, hn2]
      rfl
  · intro x y hx hy hxy
    exact hinj x ((hmem x).mpr hx) y ((hmem y).mpr hy) hxy
  · intro x n hx hn
    have hxo := (hmem x).mpr hx
    obtain ⟨n2, hn2, g1, g2, g3, g4, _, gpar, gch⟩ := hcell x hxo n hn
    refine ⟨n2, hn2, g1, g2, g3, g4, ?_, ?_⟩
    · rcases gpar with ⟨h1, h2⟩ | ⟨q, _, h1, h2, _⟩
      · rw [h1, h2]
        rfl
      · rw [h1, h2]
        rfl
    · rw [gch, filter_done_all order n.children (fun c hc => F.closed x n hxo hn c hc)]

/-- What `state_load` does with a file that holds a header with the magic number, a known
version and the count of the records that follow it. -/
theorem state_load_saved (MAX_CHILDREN fuel now : Nat) (ctx0 : StateContext)
    (header : StateHeader) (recs : List NodeState) (tree : TreeContext)
    (hmagic : header.magic = STATE_MAGIC) (hversion : header.version ≤ STATE_VERSION)
    (hcount : header.node_count = recs.length) (hfit : recs.length ≤ SIZE_MAX)
    (hdec : ∀ r ∈ recs, decode_node_state (encode_node_state r) = r) :
    state_load MAX_CHILDREN fuel now ctx0
        (encode_header header ++ (recs.map encode_node_state).flatten) tree =
      (state_load_records MAX_CHILDREN fuel now recs tree).map
        (fun t => (true, { ctx0 with header := decode_header (encode_header header) }, t)) := by
  have hread : fread_bytes true
      (encode_header header ++ (recs.map encode_node_state).flatten) 0 HEADER_SIZE =
      encode_header header := by
    unfold fread_bytes
    rw [if_pos rfl, List.drop_zero, List.take_left' (encode_header_length header)]
  have hm4 : header.magic < 256 ^ 4 := by
    rw [hmagic]
    norm_num [STATE_MAGIC]
  have hv4 : header.version < 256 ^ 4 := by
    have : STATE_VERSION < 256 ^ 4 := by norm_num [STATE_VERSION]
    omega
  obtain ⟨d1, d2, d3⟩ := decode_encode_header header hm4 hv4 (by rw [hcount]; exact hfit)
  have hnodes := state_load_nodes_records MAX_CHILDREN fuel now recs (encode_header header) []
    tree hdec
  rw [List.append_nil, encode_header_length] at hnodes
  unfold state_load
  simp only
  rw [hread, if_neg (by rw [encode_header_length]; exact Nat.lt_irrefl _),
    if_neg (by
      rw [d1, d2, hmagic]
      intro h
      rcases h with h | h
      · exact h rfl
      · exact absurd h (Nat.not_lt.mpr hversion)),
    d3, hcount, hnodes]
  cases state_load_records MAX_CHILDREN fuel now recs tree with
  | none => rfl
  | some t => rfl

theorem load_getElem {α : Type} (h : List (Option α)) (a : Nat) (v : α)
    (hl : load h a = some v) : ∃ hlt : a < h.length, h.get ⟨a, hlt⟩ = some v := by
  have hlt := load_lt hl
  refine ⟨hlt, ?_⟩
  unfold load at hl
  rw [List.getD_eq_getElem?_getD, List.getElem?_eq_getElem hlt] at hl
  exact hl

theorem distinct_ids_of_check (ctx : TreeContext) (hchk : distinct_ids_check ctx = true) :
    DistinctIds ctx := by
  unfold distinct_ids_check at hchk
  have hpair := of_decide_eq_true hchk
  rw [List.pairwise_iff_get] at hpair
  have hlt : ∀ (a b : Nat) (na nb : TreeNode), load ctx.heap a = some na →
      load ctx.heap b = some nb → a < b → na.id ≠ nb.id := by
    intro a b na nb ha hb hab
    obtain ⟨ha1, ha2⟩ := load_getElem ctx.heap a na ha
    obtain ⟨hb1, hb2⟩ := load_getElem ctx.heap b nb hb
    have := hpair ⟨a, ha1⟩ ⟨b, hb1⟩ hab
    rw [ha2, hb2] at this
    simpa [cells_differ] using this
  intro a b na nb _ _ ha hb hid
  rcases Nat.lt_trichotomy a b with h | h | h
  · exact absurd hid (hlt a b na nb ha hb h)
  · exact h
  · exact absurd hid.symm (hlt b a nb na hb ha h)

theorem storable_of_check (MAX_CHILDREN : Nat) (ctx : TreeContext)
    (hchk : storable_check MAX_CHILDREN ctx = true) : Storable MAX_CHILDREN ctx := by
  unfold storable_check at hchk
  rw [List.all_eq_true] at hchk
  intro a n _ hn
  have := hchk a (List.mem_range.mpr (load_lt hn))
  rw [hn] at this
  simp only [Bool.and_eq_true, decide_eq_true_eq] at this
  exact ⟨this.1.1, this.1.2, this.2⟩

theorem at_most_nodes_of_length (ctx : TreeContext) (k : Nat)
    (hshape : TreeShaped (tree_look ctx) ctx.root) (hlen : ctx.heap.length ≤ k) :
    AtMostNodes ctx k := by
  obtain ⟨hroot_alloc, rank, hrank⟩ := hshape
  intro nodes hnd hreach
  have hsub : nodes ⊆ List.range ctx.heap.length := by
    intro a ha
    have hr := hreach a ha
    have hsome : (tree_look ctx a).isSome = true := by
      cases hroot : ctx.root with
      | none =>
        rw [hroot] at hr
        exact absurd hr (not_reachable_of_no_root _ a)
      | some r =>
        rw [hroot] at hr
        exact reachable_allocated (tree_look ctx) r (hroot_alloc r hroot)
          (fun a nid children h c hc => (hrank a nid children h c hc).1) a hr
    obtain ⟨v, hv⟩ := Option.isSome_iff_exists.mp (tree_look_isSome ctx a hsome)
    exact List.mem_range.mpr (load_lt hv)
  have h1 := (hnd.subperm hsub).length_le
  rw [List.length_range] at h1
  omega

/-- C14: for a tree with consistent parent pointers, pairwise distinct identifiers that fit
their arrays, creation times within 64 bits, at most `MAX_CHILDREN` children per node and at
most 1000 nodes, saved through a context with the magic number and a known version:
`state_save` returns true and writes a file, `state_load` of that file into the tree
`tree_create` leaves returns true, and the tree loaded is the tree saved with its nodes
renamed (`SameTree`): the image of each node carries the same identifier, creation time,
`is_root` and `is_active`, its parent is the image of the parent, and its children are the
images of the children in the same order. -/
theorem state_save_load_round_trip (MAX_CHILDREN now now2 counter : Nat)
    (ctx ctx0 : StateContext) (src : TreeContext)
    (hproper : TreeProper src) (hids : DistinctIds src) (hstor : Storable MAX_CHILDREN src)
    (hsmall : AtMostNodes src QUEUE_SIZE)
    (hmagic : ctx.header.magic = STATE_MAGIC)
    (hversion : ctx.header.version ≤ STATE_VERSION) :
    ∃ (N : Nat) (ctx2 : StateContext) (file : List Nat) (ctx3 : StateContext)
      (dst : TreeContext) (σ : Addr → Addr),
      SameTree src dst σ ∧
      ∀ fuel, N ≤ fuel →
        state_save fuel ctx src now = some (true, ctx2, file) ∧
        state_load MAX_CHILDREN fuel now2 ctx0 file (tree_create counter) =
          some (true, ctx3, dst) := by
  obtain ⟨N1, order, hdfs, hmem⟩ := tree_traverse_dfs_total src hproper.1
  have F := source_facts_of_proper MAX_CHILDREN N1 src order hproper hids hstor hsmall
    (hdfs N1 (Nat.le_refl _))
  obtain ⟨recs, hrecs⟩ := save_nodes_total src order (fun a ha =>
    save_node_reachable src hproper a ((hmem a).mp ha))
  have hsave := (save_nodes_forall₂ src order recs).mpr hrecs
  have hreclen : recs.length = order.length := hrecs.length_eq.symm
  obtain ⟨dst, σ, hloop, hinv⟩ := load_inv_loop MAX_CHILDREN now2 src order [] recs
    (tree_create counter) id F (load_inv_init MAX_CHILDREN counter src id) hrecs
  have hsame := same_tree_of_load_inv MAX_CHILDREN src dst order σ F hmem hinv
  have hdec : ∀ r ∈ recs, decode_node_state (encode_node_state r) = r := by
    intro r hr
    obtain ⟨x, hx, hxr⟩ := forall₂_right_mem hrecs r hr
    exact records_decodable MAX_CHILDREN src order F x hx r hxr
  have hfit : recs.length ≤ SIZE_MAX := by
    have h1 := F.small
    have h2 : QUEUE_SIZE ≤ SIZE_MAX := by decide
    omega
  refine ⟨max N1 QUEUE_SIZE,
    { ctx with header :=
        { ctx.header with node_count := order.length, timestamp := now, checksum := 0 } },
    encode_header
        { ctx.header with node_count := order.length, timestamp := now, checksum := 0 } ++
      (recs.map encode_node_state).flatten,
    { ctx0 with header := decode_header (encode_header
        { ctx.header with node_count := order.length, timestamp := now, checksum := 0 }) },
    dst, σ, hsame, fun fuel hfuel => ?_⟩
  have hf1 : N1 ≤ fuel := Nat.le_trans (Nat.le_max_left _ _) hfuel
  have hf2 : QUEUE_SIZE ≤ fuel := Nat.le_trans (Nat.le_max_right _ _) hfuel
  refine ⟨state_save_of_order fuel ctx src now order recs (hdfs fuel hf1) hsave, ?_⟩
  rw [state_load_saved MAX_CHILDREN fuel now2 ctx0
    { ctx.header with node_count := order.length, timestamp := now, checksum := 0 }
    recs (tree_create counter) hmagic hversion hreclen.symm hfit hdec, hloop fuel hf2]
  rfl

/-- C14 witness: the round trip of a tree built by seven `tree_create_node` calls and one
`tree_delete_node` call. -/
theorem state_save_load_round_trip_witness :
    tree_get_size round_trip_tree = 6 ∧
    TreeProper round_trip_tree ∧ DistinctIds round_trip_tree ∧
    Storable 3 round_trip_tree ∧ AtMostNodes round_trip_tree QUEUE_SIZE ∧
    ∃ (N : Nat) (ctx2 : StateContext) (file : List Nat) (ctx3 : StateContext)
      (dst : TreeContext) (σ : Addr → Addr),
      SameTree round_trip_tree dst σ ∧
      ∀ fuel, N ≤ fuel →
        state_save fuel (state_create 5) round_trip_tree 9 = some (true, ctx2, file) ∧
        state_load 3 fuel 11 (state_create 6) file (tree_create 100) =
          some (true, ctx3, dst) :=
  ⟨by decide,
   tree_proper_of_checks _ (by decide) (by decide),
   distinct_ids_of_check _ (by decide),
   storable_of_check 3 _ (by decide),
   at_most_nodes_of_length _ _ (tree_ctx_shaped _ (by decide)) (by decide),
   state_save_load_round_trip 3 9 11 100 (state_create 5) (state_create 6) round_trip_tree
     (tree_proper_of_checks _ (by decide) (by decide))
     (distinct_ids_of_check _ (by decide))
     (storable_of_check 3 _ (by decide))
     (at_most_nodes_of_length _ _ (tree_ctx_shaped _ (by decide)) (by decide))
     rfl (by decide)⟩

/-! ## phantomid.c: the shape of the tree along histories -/

theorem root_flag_insert (MAX_CHILDREN fuel : Nat) (t : PhantomTree)
    (account : PhantomAccount) (parent_id : Option Ident) (res : Option Addr) (t2 : PhantomTree)
    (hwf : PhantomWF t) (hflag : RootFlag t)
    (h : phantom_tree_insert MAX_CHILDREN fuel t account parent_id = some (res, t2)) :
    RootFlag t2 := by
  rcases phantom_tree_insert_cases MAX_CHILDREN fuel t account parent_id res t2 h with
    ⟨_, ht2⟩ | ⟨hr, _, ht2⟩ | ⟨r, parent, pn, hr, hp, _, _, ht2⟩
  · rw [ht2]
    exact hflag
  · intro a n hn _
    rw [ht2] at hn ⊢
    simp only at hn ⊢
    rw [load_append] at hn
    by_cases ha : a = t.heap.length
    · rw [ha]
    · rw [if_neg ha, phantom_wf_no_root t hwf hr a] at hn
      cases hn
  · intro a n hn hroot
    rw [ht2] at hn ⊢
    simp only at hn ⊢
    rw [load_store_append _ _ _ _ _ (load_lt hp)] at hn
    by_cases ha : a = parent
    · rw [if_pos ha] at hn
      rw [← Option.some.inj hn] at hroot
      rw [ha]
      exact hflag parent pn hp hroot
    · rw [if_neg ha] at hn
      by_cases hal : a = t.heap.length
      · rw [if_pos hal] at hn
        rw [← Option.some.inj hn] at hroot
        cases hroot
      · rw [if_neg hal] at hn
        exact hflag a n hn hroot

theorem root_flag_delete (fuel : Nat) (t : PhantomTree) (id : Ident) (ok : Bool)
    (t2 : PhantomTree) (hwf : PhantomWF t) (hflag : RootFlag t)
    (h : phantom_tree_delete fuel t id = some (ok, t2)) : RootFlag t2 := by
  rcases phantom_tree_delete_cases fuel t id ok t2 h with
    ⟨_, ht2⟩ | ⟨d, n, p, pn, h2, hd, hpar, _, hp, hred, _, ht2⟩ |
    ⟨d, n, h2, hd, hpar, hguard, hred, _, ht2⟩
  · rw [ht2]
    exact hflag
  · have hkids : ∀ c ∈ n.children, (load t.heap c).isSome = true := by
      intro c hc
      obtain ⟨m, hm, _⟩ := (hwf.2.2.1 d n hd).2 c hc
      rw [hm]
      rfl
    obtain ⟨hdesc, hnone, hdn⟩ := phantom_delete_desc t d p n pn h2 hp hkids hred
    intro a na2 hna2 hroot
    rw [ht2] at hna2 ⊢
    simp only at hna2 ⊢
    have had : a ≠ d := by
      intro hh
      rw [hh, hdn] at hna2
      cases hna2
    cases hold : load t.heap a with
    | none =>
      rw [hnone a hold] at hna2
      cases hna2
    | some na =>
      obtain ⟨na3, hna3, hr3, _⟩ := hdesc a na hold had
      rw [hna2] at hna3
      rw [Option.some.inj hna3, hr3] at hroot
      exact hflag a na hold hroot
  · have hrd : t.root = some d := ((hwf.2.1 d n hd).1).mp hpar
    have hisroot : n.is_root = true := (hwf.2.1 d n hd).2 hrd
    have hnil : n.children = [] := by
      rw [hisroot, Bool.true_and, decide_eq_false_iff_not] at hguard
      exact List.length_eq_zero.mp (Nat.eq_zero_of_not_pos hguard)
    rw [hnil] at hred
    have hh2 : t.heap = h2 := Option.some.inj hred
    intro a na hna hroot
    rw [ht2] at hna
    simp only at hna
    rw [← hh2, load_release] at hna
    by_cases had : a = d
    · rw [if_pos had] at hna
      cases hna
    · rw [if_neg had] at hna
      have := hflag a na hna hroot
      rw [hrd] at this
      exact absurd (Option.some.inj this).symm had

theorem root_flag_run (MAX_CHILDREN fuel : Nat) :
    ∀ (calls : List PhantomCall) (s s1 : PhantomTrace), TraceInv s → RootFlag s.tree →
      trace_run MAX_CHILDREN fuel s calls = some s1 → RootFlag s1.tree := by
  intro calls
  induction calls with
  | nil =>
    intro s s1 _ hflag h
    unfold trace_run at h
    rw [← Option.some.inj h]
    exact hflag
  | cons call rest ih =>
    intro s s1 hinv hflag h
    unfold trace_run at h
    cases hc : trace_call MAX_CHILDREN fuel s call with
    | none => rw [hc] at h; cases h
    | some s2 =>
      rw [hc] at h
      refine ih s2 s1 (trace_inv_call MAX_CHILDREN fuel s s2 call hinv hc) ?_ h
      cases call with
      | insert account parent_id =>
        simp only [trace_call] at hc
        cases hins : phantom_tree_insert MAX_CHILDREN fuel s.tree account parent_id with
        | none => rw [hins] at hc; cases hc
        | some out =>
          obtain ⟨res, t2⟩ := out
          rw [hins] at hc
          have hf2 := root_flag_insert MAX_CHILDREN fuel s.tree account parent_id res t2
            hinv.1 hflag hins
          cases res with
          | none =>
            simp only at hc
            rw [← Option.some.inj hc]
            exact hf2
          | some node =>
            simp only at hc
            rw [← Option.some.inj hc]
            exact hf2
      | delete id =>
        simp only [trace_call] at hc
        cases hdel : phantom_tree_delete fuel s.tree id with
        | none => rw [hdel] at hc; cases hc
        | some out =>
          obtain ⟨ok, t2⟩ := out
          rw [hdel] at hc
          have hf2 := root_flag_delete fuel s.tree id ok t2 hinv.1 hflag hdel
          cases ok with
          | false =>
            simp only at hc
            rw [← Option.some.inj hc]
            exact hf2
          | true =>
            simp only at hc
            rw [← Option.some.inj hc]
            exact hf2

/-! ## tree.c: the depth-first visiting order -/

theorem before_trans (l : List Nat) (x q d : Nat) (hnd : l.Nodup) (h1 : Before l x q)
    (h2 : Before l q d) : Before l x d := by
  obtain ⟨l1, l2, hl1, hx⟩ := h1
  obtain ⟨m1, m2, hl2, hq⟩ := h2
  obtain ⟨m1a, m1b, hm1⟩ := List.append_of_mem hq
  have hl3 : l = m1a ++ q :: (m1b ++ d :: m2) := by
    rw [hl2, hm1, List.append_assoc, List.cons_append]
  have hsame := (nodup_split_unique q l1 l2 m1a _ (by rw [← hl1]; exact hnd)
    (by rw [← hl1, ← hl3])).1
  refine ⟨m1, m2, hl2, ?_⟩
  rw [hm1, ← hsame]
  exact List.mem_append_left _ hx

/-- A visited node is visited before everything below it. -/
theorem dfs_helper_ancestor_first (look : Addr → Option (Ident × List Addr))
    (rank : Addr → Nat)
    (hrank : ∀ a nid children, look a = some (nid, children) →
      ∀ c ∈ children, (look c).isSome = true ∧ rank c < rank a)
    (huniq : UniqueParents look) (fuel a : Nat) (l : List Nat)
    (h : dfs_helper look fuel a = some l) :
    ∀ x, x ∈ l → ∀ d, Reachable look (some x) d → d ≠ x → Before l x d := by
  have hnd := dfs_helper_nodup look rank hrank huniq fuel a l h
  have hpf := dfs_helper_parent_first look fuel a l h
  obtain ⟨tail, htail⟩ := dfs_helper_head look fuel a l h
  have hclosed := dfs_helper_closed look fuel a l h
  have hstep : ∀ q nid children c, q ∈ l → look q = some (nid, children) → c ∈ children →
      Before l q c := by
    intro q nid children c hq hlq hc
    have hcl := hclosed q hq nid children hlq c hc
    obtain ⟨pre, post, hsplit⟩ := List.append_of_mem hcl
    have hpre : pre ≠ [] := by
      intro hnil
      rw [hnil, List.nil_append, htail] at hsplit
      have hca : a = c := (List.cons.inj hsplit).1
      have h1 := (hrank q nid children hlq c hc).2
      have h2 := reachable_rank_le look rank hrank a q
        ((dfs_helper_mem_iff look fuel a l h q).mp hq)
      rw [← hca] at h1
      exact absurd h1 (Nat.not_lt.mpr h2)
    obtain ⟨p, hp, pid, pch, hlp, hcp⟩ := hpf pre c post hsplit hpre
    have hpq : p = q := huniq.2 p q pid nid pch children c hlp hlq hcp hc
    exact ⟨pre, post, hsplit, by rw [← hpq]; exact hp⟩
  intro x hx d hd
  induction hd with
  | root r hr =>
    intro hne
    exact absurd (Option.some.inj hr).symm hne
  | child q c nid children hq hlq hc ih =>
    intro _
    have hql : q ∈ l := by
      apply (dfs_helper_mem_iff look fuel a l h q).mpr
      exact reachable_trans look (some a) x ((dfs_helper_mem_iff look fuel a l h x).mp hx) q hq
    have hqc := hstep q nid children c hql hlq hc
    by_cases hqx : q = x
    · rw [← hqx]
      exact hqc
    · exact before_trans l x q c hnd (ih hqx) hqc

/-- The subtree of a child listed earlier is visited before the subtree of a child listed
later. -/
theorem dfs_helper_subtree_order (look : Addr → Option (Ident × List Addr)) :
    ∀ (fuel a : Nat) (l : List Nat), dfs_helper look fuel a = some l →
      ∀ x nid ch, x ∈ l → look x = some (nid, ch) →
      ∀ k1 u k2, ch = k1 ++ u :: k2 → ∀ c ∈ k1,
      ∀ d1 d2, Reachable look (some c) d1 → Reachable look (some u) d2 → Before l d1 d2 := by
  intro fuel
  induction fuel with
  | zero =>
    intro a l h
    rw [dfs_helper_zero] at h
    cases h
  | succ f ih =>
    intro a l h x nid ch hx hlx k1 u k2 hch c hc d1 d2 hd1 hd2
    obtain ⟨aid, children, subs, hla, hsubs, hl⟩ := dfs_helper_some look f a l h
    rw [hl] at hx
    by_cases hxa : x = a
    · rw [hxa, hla] at hlx
      have hchildren : children = ch := (Prod.mk.inj (Option.some.inj hlx)).2
      rw [hchildren, hch] at hsubs
      obtain ⟨s1, su, s2, hsplit, hpre, hu, _⟩ := forall₂_split_left k1 u k2 subs hsubs
      obtain ⟨sc, hsc, hcsc⟩ := forall₂_left_mem hpre c hc
      have hd1in : d1 ∈ sc := (dfs_helper_mem_iff look f c sc hcsc d1).mpr hd1
      have hd2in : d2 ∈ su := (dfs_helper_mem_iff look f u su hu d2).mpr hd2
      obtain ⟨su1, su2, hsu⟩ := List.append_of_mem hd2in
      refine ⟨a :: s1.flatten ++ su1, su2 ++ s2.flatten, ?_, ?_⟩
      · rw [hl, hsplit, List.flatten_append, List.flatten_cons, hsu]
        simp only [List.append_assoc, List.cons_append]
      · apply List.mem_append_left
        apply List.mem_cons_of_mem
        exact List.mem_flatten.mpr ⟨sc, hsc, hd1in⟩
    · rcases List.mem_cons.mp hx with hx1 | hx1
      · exact absurd hx1 hxa
      · obtain ⟨s, hs, hxs⟩ := List.mem_flatten.mp hx1
        obtain ⟨c0, _, hc0⟩ := forall₂_right_mem hsubs s hs
        have hb := ih c0 s hc0 x nid ch hxs hlx k1 u k2 hch c hc d1 d2 hd1 hd2
        obtain ⟨sA, sB, hsplit⟩ := List.append_of_mem hs
        have := before_embed s (a :: sA.flatten) sB.flatten d1 d2 hb
        rw [hl, hsplit, List.flatten_append, List.flatten_cons]
        simpa [List.append_assoc] using this

/-- C22: on a tree-shaped heap in which no node is listed twice, `tree_traverse_dfs` returns
for every large enough fuel; the visiting order lists every node reachable from the root
exactly once; every node comes before all nodes below it; for two children of one node, the
whole subtree of the child listed earlier comes before the whole subtree of the child listed
later; and with no root nothing is visited. -/
theorem tree_traverse_dfs_preorder (ctx : TreeContext)
    (hshape : TreeShaped (tree_look ctx) ctx.root)
    (huniq : UniqueParents (tree_look ctx)) :
    ∃ (N : Nat) (order : List Addr),
      (∀ fuel, N ≤ fuel → tree_traverse_dfs fuel ctx = some order) ∧
      order.Nodup ∧
      (∀ a, a ∈ order ↔ Reachable (tree_look ctx) ctx.root a) ∧
      (∀ x, x ∈ order → ∀ d, Reachable (tree_look ctx) (some x) d → d ≠ x →
        Before order x d) ∧
      (∀ x n, x ∈ order → load ctx.heap x = some n →
        ∀ k1 u k2, n.children = k1 ++ u :: k2 → ∀ c ∈ k1,
        ∀ d1 d2, Reachable (tree_look ctx) (some c) d1 →
          Reachable (tree_look ctx) (some u) d2 → Before order d1 d2) ∧
      (ctx.root = none → order = []) := by
  obtain ⟨N, order, hdfs, hmem⟩ := tree_traverse_dfs_total ctx hshape
  obtain ⟨_, rank, hrank⟩ := hshape
  have hd := hdfs N (Nat.le_refl _)
  unfold tree_traverse_dfs at hd
  cases hroot : ctx.root with
  | none =>
    rw [hroot] at hd
    simp only at hd
    have horder : order = [] := (Option.some.inj hd).symm
    refine ⟨N, order, hdfs, ?_, ?_, ?_, ?_, fun _ => horder⟩
    · rw [horder]
      exact List.nodup_nil
    · intro a
      rw [← hroot]
      exact hmem a
    · intro x hx
      rw [horder] at hx
      cases hx
    · intro x n hx
      rw [horder] at hx
      cases hx
  | some r =>
    rw [hroot] at hd
    simp only at hd
    refine ⟨N, order, hdfs, dfs_helper_nodup _ rank hrank huniq _ _ _ hd, ?_,
      dfs_helper_ancestor_first _ rank hrank huniq _ _ _ hd, ?_, fun h => by cases h⟩
    · intro a
      rw [← hroot]
      exact hmem a
    · intro x n hx hn k1 u k2 hk c hc d1 d2 hd1 hd2
      exact dfs_helper_subtree_order _ _ _ _ hd x n.id n.children hx (tree_look_eq ctx x n hn)
        k1 u k2 hk c hc d1 d2 hd1 hd2

/-- C22 witness: the tree of six nodes that seven creations and one deletion leave. -/
theorem tree_traverse_dfs_preorder_witness :
    tree_traverse_dfs 10 round_trip_tree = some [0, 2, 6, 3, 5, 4] ∧
    ∃ (N : Nat) (order : List Addr),
      (∀ fuel, N ≤ fuel → tree_traverse_dfs fuel round_trip_tree = some order) ∧
      order.Nodup ∧
      (∀ a, a ∈ order ↔ Reachable (tree_look round_trip_tree) round_trip_tree.root a) ∧
      (∀ x, x ∈ order → ∀ d, Reachable (tree_look round_trip_tree) (some x) d → d ≠ x →
        Before order x d) ∧
      (∀ x n, x ∈ order → load round_trip_tree.heap x = some n →
        ∀ k1 u k2, n.children = k1 ++ u :: k2 → ∀ c ∈ k1,
        ∀ d1 d2, Reachable (tree_look round_trip_tree) (some c) d1 →
          Reachable (tree_look round_trip_tree) (some u) d2 → Before order d1 d2) ∧
      (round_trip_tree.root = none → order = []) :=
  ⟨by decide,
   tree_traverse_dfs_preorder round_trip_tree (tree_ctx_shaped _ (by decide))
     (tree_proper_unique _ (tree_proper_of_checks _ (by decide) (by decide)))⟩

/-! ## tree.c: the breadth-first visiting order -/

theorem level_order_nil (look : Addr → Option (Ident × List Addr)) :
    ∀ k, level_order look k [] = [] := by
  intro k
  induction k with
  | zero => rfl
  | succ k ih =>
    show [] ++ level_order look k (next_level look []) = []
    rw [List.nil_append]
    exact ih

theorem next_level_cons (look : Addr → Option (Ident × List Addr)) (a : Nat)
    (cur : List Nat) (nid : Ident) (children : List Addr)
    (hl : look a = some (nid, children)) :
    next_level look (a :: cur) = children ++ next_level look cur := by
  unfold next_level
  rw [List.map_cons, List.flatten_cons, hl]

/-- One pass of the loop on a queue whose nodes have at most `QUEUE_SIZE` nodes below them:
the children of the first node are all pushed. -/
theorem dfs_lists_step (look : Addr → Option (Ident × List Addr)) (a : Nat)
    (q1 : List Nat) (ls : List (List Nat))
    (h : List.Forall₂ (fun a l => ∃ f, dfs_helper look f a = some l) (a :: q1) ls)
    (hcap : ls.flatten.length ≤ QUEUE_SIZE) :
    ∃ nid children ls2, look a = some (nid, children) ∧
      List.Forall₂ (fun a l => ∃ f, dfs_helper look f a = some l) (q1 ++ children) ls2 ∧
      ls.flatten.length = ls2.flatten.length + 1 ∧
      push_children q1 children = q1 ++ children := by
  cases h with
  | cons h1 hrest =>
    rename_i l ls1
    obtain ⟨f, hf⟩ := h1
    cases f with
    | zero => rw [dfs_helper_zero] at hf; cases hf
    | succ f1 =>
      obtain ⟨nid, children, subs, hl, hsubs, hlist⟩ := dfs_helper_some look f1 a l hf
      have hsubs2 : List.Forall₂ (fun c s => ∃ f, dfs_helper look f c = some s)
          children subs := hsubs.imp (fun c s h => ⟨f1, h⟩)
      have hlen : (l :: ls1).flatten.length = (ls1 ++ subs).flatten.length + 1 := by
        rw [List.flatten_cons, List.length_append, hlist, List.length_cons,
          List.flatten_append, List.length_append]
        omega
      have hq1 := dfs_lists_length_le look q1 ls1 hrest
      have hch := dfs_lists_length_le look children subs hsubs2
      refine ⟨nid, children, ls1 ++ subs, hl, List.rel_append hrest hsubs2, hlen, ?_⟩
      rw [push_children_eq, List.take_of_length_le]
      rw [hlen, List.flatten_append, List.length_append] at hcap
      omega

/-- The loop works off one level: from a queue that holds the rest `cur` of a level followed
by the children `nxt` pushed so far, it visits `cur` and goes on with `nxt` followed by
the children of `cur`. -/
theorem bfs_visit_level (look : Addr → Option (Ident × List Addr)) :
    ∀ (cur nxt : List Nat) (ls : List (List Nat)) (fuel : Nat) (order : List Nat),
      List.Forall₂ (fun a l => ∃ f, dfs_helper look f a = some l) (cur ++ nxt) ls →
      ls.flatten.length ≤ QUEUE_SIZE →
      bfs_visit look fuel (cur ++ nxt) = some order →
      ∃ rest fuel2 ls2, order = cur ++ rest ∧
        bfs_visit look fuel2 (nxt ++ next_level look cur) = some rest ∧
        List.Forall₂ (fun a l => ∃ f, dfs_helper look f a = some l)
          (nxt ++ next_level look cur) ls2 ∧
        ls.flatten.length = ls2.flatten.length + cur.length := by
  intro cur
  induction cur with
  | nil =>
    intro nxt ls fuel order h _ hrun
    refine ⟨order, fuel, ls, rfl, ?_, ?_, rfl⟩
    · show bfs_visit look fuel (nxt ++ ([] : List (List Nat)).flatten) = some order
      rw [List.flatten_nil, List.append_nil]
      exact hrun
    · show List.Forall₂ _ (nxt ++ ([] : List (List Nat)).flatten) ls
      rw [List.flatten_nil, List.append_nil]
      exact h
  | cons a cur ih =>
    intro nxt ls fuel order h hcap hrun
    rw [List.cons_append] at h hrun
    obtain ⟨nid, children, ls1, hl, h1, hlen1, hpush⟩ :=
      dfs_lists_step look a (cur ++ nxt) ls h hcap
    cases fuel with
    | zero => rw [bfs_visit_zero] at hrun; cases hrun
    | succ fuel1 =>
      rw [bfs_visit_succ, hl] at hrun
      simp only at hrun
      rw [hpush, List.append_assoc] at hrun
      cases hrest : bfs_visit look fuel1 (cur ++ (nxt ++ children)) with
      | none => rw [hrest] at hrun; cases hrun
      | some order1 =>
        rw [hrest] at hrun
        rw [List.append_assoc] at h1
        obtain ⟨rest, fuel2, ls2, horder, hrun2, h2, hlen2⟩ :=
          ih (nxt ++ children) ls1 fuel1 order1 h1 (by omega) hrest
        refine ⟨rest, fuel2, ls2, ?_, ?_, ?_, ?_⟩
        · rw [← Option.some.inj hrun, horder]
          rfl
        · rw [next_level_cons look a cur nid children hl, ← List.append_assoc]
          exact hrun2
        · rw [next_level_cons look a cur nid children hl, ← List.append_assoc]
          exact h2
        · rw [hlen1, hlen2, List.length_cons]
          omega

/-- Below the queue capacity the loop visits level after level. -/
theorem bfs_visit_level_order (look : Addr → Option (Ident × List Addr)) :
    ∀ (n : Nat) (cur : List Nat) (ls : List (List Nat)) (fuel : Nat) (order : List Nat),
      List.Forall₂ (fun a l => ∃ f, dfs_helper look f a = some l) cur ls →
      ls.flatten.length ≤ n → ls.flatten.length ≤ QUEUE_SIZE →
      bfs_visit look fuel cur = some order →
      ∀ k, n < k → order = level_order look k cur := by
  intro n
  induction n with
  | zero =>
    intro cur ls fuel order h hle _ hrun k _
    have hq := dfs_lists_length_le look cur ls h
    have hq0 : cur = [] := List.length_eq_zero.mp (by omega)
    rw [hq0] at hrun ⊢
    rw [bfs_visit_nil] at hrun
    rw [level_order_nil, ← Option.some.inj hrun]
  | succ n ih =>
    intro cur ls fuel order h hle hcap hrun k hk
    cases hcur : cur with
    | nil =>
      rw [hcur] at hrun
      rw [bfs_visit_nil] at hrun
      rw [level_order_nil, ← Option.some.inj hrun]
    | cons a cur1 =>
      have happ : cur = cur ++ [] := (List.append_nil cur).symm
      rw [happ] at h hrun
      obtain ⟨rest, fuel2, ls2, horder, hrun2, h2, hlen2⟩ :=
        bfs_visit_level look cur [] ls fuel order h hcap hrun
      rw [List.nil_append] at hrun2 h2
      have hpos : 0 < cur.length := by
        rw [hcur]
        exact Nat.succ_pos _
      obtain ⟨k1, hk1⟩ : ∃ k1, k = k1 + 1 := ⟨k - 1, by omega⟩
      have hrest := ih (next_level look cur) ls2 fuel2 rest h2 (by omega) (by omega) hrun2
        k1 (by omega)
      rw [hk1, horder, hrest, ← hcur]
      rfl

/-- C23: on a tree-shaped heap in which no node is listed twice and that has at most
`QUEUE_SIZE` (1000) reachable nodes, `tree_traverse_bfs` returns for every large enough
fuel; the visiting order lists every node reachable from the root exactly once, and it is
the breadth-first order: the root, then the children of the root from left to right, then
level after level the children of the nodes of the level before, parent after parent in
the order of the parents and child after child in the order of each child list. -/
theorem tree_traverse_bfs_level_order (ctx : TreeContext)
    (hshape : TreeShaped (tree_look ctx) ctx.root)
    (huniq : UniqueParents (tree_look ctx))
    (hsmall : AtMostNodes ctx QUEUE_SIZE) :
    ∃ (N : Nat) (order : List Addr),
      (∀ fuel, N ≤ fuel → tree_traverse_bfs fuel ctx = some order) ∧
      order.Nodup ∧
      (∀ a, a ∈ order ↔ Reachable (tree_look ctx) ctx.root a) ∧
      (∀ k, N ≤ k → order = level_order (tree_look ctx) k ctx.root.toList) := by
  obtain ⟨hroot_alloc, rank, hrank⟩ := hshape
  cases hroot : ctx.root with
  | none =>
    refine ⟨0, [], fun fuel _ => ?_, List.nodup_nil, fun a => ?_, fun k _ => ?_⟩
    · unfold tree_traverse_bfs
      rw [hroot]
    · constructor
      · intro h
        cases h
      · intro h
        exact absurd h (not_reachable_of_no_root _ a)
    · exact (level_order_nil _ k).symm
  | some r =>
    obtain ⟨l, hl⟩ := dfs_helper_terminates (tree_look ctx) rank hrank
      (rank r + 1) r (Nat.lt_succ_self _) (hroot_alloc r hroot)
    have hl0 := hl _ (Nat.le_refl _)
    have hnd : l.Nodup := dfs_helper_nodup _ rank hrank huniq _ _ _ hl0
    have hmem : ∀ x, x ∈ l ↔ Reachable (tree_look ctx) (some r) x :=
      fun x => dfs_helper_mem_iff _ _ _ _ hl0 x
    have hlen : l.length ≤ QUEUE_SIZE := by
      apply hsmall l hnd
      intro a ha
      rw [hroot]
      exact (hmem a).mp ha
    have hrel : List.Forall₂ (fun a l => ∃ f, dfs_helper (tree_look ctx) f a = some l)
        [r] [l] := List.Forall₂.cons ⟨_, hl0⟩ List.Forall₂.nil
    have hflat : [l].flatten.length = l.length := by
      rw [List.flatten_cons, List.flatten_nil, List.append_nil]
    have hflat2 : [l].flatten = l := by
      rw [List.flatten_cons, List.flatten_nil, List.append_nil]
    obtain ⟨order, hrun, hperm⟩ := bfs_visit_perm (tree_look ctx) QUEUE_SIZE [r] [l] hrel
      (by rw [hflat]; exact hlen) (by rw [hflat]; exact hlen)
    rw [hflat2] at hperm
    refine ⟨QUEUE_SIZE + 1, order, fun fuel hfuel => ?_, hperm.nodup_iff.mpr hnd,
      fun a => ?_, fun k hk => ?_⟩
    · unfold tree_traverse_bfs
      rw [hroot]
      simp only
      rw [queue_push_init]
      exact hrun fuel (Nat.le_of_succ_le hfuel)
    · rw [hperm.mem_iff]
      exact hmem a
    · exact bfs_visit_level_order (tree_look ctx) QUEUE_SIZE [r] [l] QUEUE_SIZE order hrel
        (by rw [hflat]; exact hlen) (by rw [hflat]; exact hlen)
        (hrun _ (Nat.le_refl _)) k hk

/-- C23 witness: the tree of six nodes that seven creations and one deletion leave. -/
theorem tree_traverse_bfs_level_order_witness :
    tree_traverse_bfs 10 round_trip_tree = some [0, 2, 3, 4, 6, 5] ∧
    ∃ (N : Nat) (order : List Addr),
      (∀ fuel, N ≤ fuel → tree_traverse_bfs fuel round_trip_tree = some order) ∧
      order.Nodup ∧
      (∀ a, a ∈ order ↔ Reachable (tree_look round_trip_tree) round_trip_tree.root a) ∧
      (∀ k, N ≤ k →
        order = level_order (tree_look round_trip_tree) k round_trip_tree.root.toList) :=
  ⟨by decide,
   tree_traverse_bfs_level_order round_trip_tree (tree_ctx_shaped _ (by decide))
     (tree_proper_unique _ (tree_proper_of_checks _ (by decide) (by decide)))
     (at_most_nodes_of_length _ _ (tree_ctx_shaped _ (by decide)) (by decide))⟩

/-! ## tree.c: the depth of the tree -/

theorem get_depth_helper_none (kids : Addr → Option (List Addr)) (fuel : Nat) :
    get_depth_helper kids fuel none = some 0 := by
  cases fuel <;> rfl

theorem get_depth_helper_zero (kids : Addr → Option (List Addr)) (a : Nat) :
    get_depth_helper kids 0 (some a) = none := rfl

theorem get_depth_helper_succ (kids : Addr → Option (List Addr)) (fuel a : Nat) :
    get_depth_helper kids (fuel + 1) (some a) =
      match kids a with
      | none => none
      | some children =>
        (children.foldlM
          (fun max_depth c =>
            (get_depth_helper kids fuel (some c)).map
              (fun depth => if depth > max_depth then depth else max_depth))
          0).map (fun max_depth => max_depth + 1) := rfl

/-- The loop over the children succeeds exactly when the recursive call on every child does,
and then it returns the largest of the starting value and the children's depths. -/
theorem depth_fold_eq (kids : Addr → Option (List Addr)) (fuel : Nat) :
    ∀ (cs : List Nat) (init m : Nat),
      cs.foldlM
          (fun max_depth c =>
            (get_depth_helper kids fuel (some c)).map
              (fun depth => if depth > max_depth then depth else max_depth))
          init = some m ↔
        ∃ ds, List.Forall₂ (fun c d => get_depth_helper kids fuel (some c) = some d) cs ds ∧
          m = ds.foldl max init := by
  intro cs
  induction cs with
  | nil =>
    intro init m
    constructor
    · intro h
      have hm : init = m := by simpa [List.foldlM] using h
      exact ⟨[], List.Forall₂.nil, by simp [hm]⟩
    · rintro ⟨ds, hf, hm⟩
      cases hf
      simp [List.foldlM, hm]
  | cons c cs ih =>
    intro init m
    rw [List.foldlM_cons]
    cases hc : get_depth_helper kids fuel (some c) with
    | none =>
      constructor
      · intro h; simp at h
      · rintro ⟨ds, hf, _⟩
        cases hf with
        | cons h1 _ => rw [hc] at h1; cases h1
    | some d =>
      have hmax : (if d > init then d else init) = max init d := by
        by_cases hd : d > init
        · rw [if_pos hd]; omega
        · rw [if_neg hd]; omega
      have hstep : ((some d : Option Nat).map
            (fun depth => if depth > init then depth else init) >>= fun x =>
          cs.foldlM (fun max_depth c =>
            (get_depth_helper kids fuel (some c)).map
              (fun depth => if depth > max_depth then depth else max_depth)) x) =
          cs.foldlM (fun max_depth c =>
            (get_depth_helper kids fuel (some c)).map
              (fun depth => if depth > max_depth then depth else max_depth))
            (max init d) := by
        rw [← hmax]
        rfl
      rw [hstep, ih]
      constructor
      · rintro ⟨ds, hf, hm⟩
        exact ⟨d :: ds, List.Forall₂.cons hc hf, by rw [hm]; rfl⟩
      · rintro ⟨ds, hf, hm⟩
        cases hf with
        | @cons _ d2 _ ds2 h1 h2 =>
          rw [hc] at h1
          have hs : d = d2 := Option.some.inj h1
          refine ⟨ds2, h2, ?_⟩
          rw [hm, hs]
          rfl

theorem foldl_max_ge_init : ∀ (ds : List Nat) (init : Nat), init ≤ ds.foldl max init := by
  intro ds
  induction ds with
  | nil => intro init; exact Nat.le_refl _
  | cons d ds ih =>
    intro init
    rw [List.foldl_cons]
    exact Nat.le_trans (Nat.le_max_left _ _) (ih _)

theorem foldl_max_ge_mem : ∀ (ds : List Nat) (init d : Nat), d ∈ ds →
    d ≤ ds.foldl max init := by
  intro ds
  induction ds with
  | nil => intro init d h; cases h
  | cons d0 ds ih =>
    intro init d h
    rw [List.foldl_cons]
    rcases List.mem_cons.mp h with e | e
    · rw [e]
      exact Nat.le_trans (Nat.le_max_right _ _) (foldl_max_ge_init ds _)
    · exact ih _ d e

theorem foldl_max_attained : ∀ (ds : List Nat) (init : Nat),
    ds.foldl max init = init ∨ ds.foldl max init ∈ ds := by
  intro ds
  induction ds with
  | nil => intro init; exact Or.inl rfl
  | cons d ds ih =>
    intro init
    rw [List.foldl_cons]
    rcases ih (max init d) with h | h
    · rw [h]
      rcases Nat.le_total init d with hle | hle
      · rw [Nat.max_eq_right hle]
        exact Or.inr (List.mem_cons_self _ _)
      · rw [Nat.max_eq_left hle]
        exact Or.inl rfl
    · exact Or.inr (List.mem_cons_of_mem _ h)

/-- What a successful call of `get_depth_helper` on a node returns: one more than the largest
depth among its children. -/
theorem get_depth_helper_some (kids : Addr → Option (List Addr)) (fuel a d : Nat)
    (h : get_depth_helper kids (fuel + 1) (some a) = some d) :
    ∃ children ds, kids a = some children ∧
      List.Forall₂ (fun c dc => get_depth_helper kids fuel (some c) = some dc) children ds ∧
      d = ds.foldl max 0 + 1 := by
  rw [get_depth_helper_succ] at h
  cases hk : kids a with
  | none => rw [hk] at h; cases h
  | some children =>
    rw [hk] at h
    simp only at h
    cases hfold : children.foldlM
        (fun max_depth c =>
          (get_depth_helper kids fuel (some c)).map
            (fun depth => if depth > max_depth then depth else max_depth)) 0 with
    | none => rw [hfold] at h; cases h
    | some m =>
      rw [hfold] at h
      obtain ⟨ds, hf, hm⟩ := (depth_fold_eq kids fuel children 0 m).mp hfold
      refine ⟨children, ds, rfl, hf, ?_⟩
      rw [← hm]
      exact (Option.some.inj h).symm

/-- Whatever `get_depth_helper` returns for a node is the number of nodes on the longest
downward path from it. -/
theorem get_depth_helper_longest (kids : Addr → Option (List Addr)) :
    ∀ (fuel a d : Nat), get_depth_helper kids fuel (some a) = some d →
      LongestPath kids a d := by
  intro fuel
  induction fuel with
  | zero =>
    intro a d h
    rw [get_depth_helper_zero] at h
    cases h
  | succ fuel ih =>
    intro a d h
    obtain ⟨children, ds, hk, hf, hd⟩ := get_depth_helper_some kids fuel a d h
    constructor
    · rcases foldl_max_attained ds 0 with h0 | hin
      · cases hf with
        | nil =>
          refine ⟨[a], a, rfl, List.chain'_singleton a, rfl, hk, ?_⟩
          rw [hd]
          rfl
        | @cons c d0 cs ds1 h1 h2 =>
          obtain ⟨⟨path, leaf, hhead, _, _, _, hlen⟩, _⟩ := ih c d0 h1
          have hd0 := foldl_max_ge_mem (d0 :: ds1) 0 d0 (List.mem_cons_self _ _)
          rw [h0] at hd0
          have hd00 : d0 = 0 := Nat.le_zero.mp hd0
          rw [hd00] at hlen
          rw [List.length_eq_zero.mp hlen] at hhead
          cases hhead
      · obtain ⟨c, hc, hdc⟩ := forall₂_right_mem hf _ hin
        obtain ⟨⟨path, leaf, hhead, hchain, hlast, hleaf, hlen⟩, _⟩ := ih c _ hdc
        cases path with
        | nil => cases hhead
        | cons b rest =>
          have hb : b = c := Option.some.inj hhead
          refine ⟨a :: b :: rest, leaf, rfl, ?_, ?_, hleaf, ?_⟩
          · exact List.Chain'.cons ⟨children, hk, by rw [hb]; exact hc⟩ hchain
          · rw [List.getLast?_cons_cons]
            exact hlast
          · rw [List.length_cons, hlen, hd]
    · intro path hhead hchain
      cases path with
      | nil => cases hhead
      | cons x rest =>
        have hx : x = a := Option.some.inj hhead
        cases rest with
        | nil =>
          rw [hd]
          exact Nat.succ_le_succ (Nat.zero_le _)
        | cons b rest2 =>
          obtain ⟨hab, hchain2⟩ := List.chain'_cons.mp hchain
          rw [hx] at hab
          obtain ⟨children2, hk2, hb⟩ := hab
          rw [hk] at hk2
          rw [← Option.some.inj hk2] at hb
          obtain ⟨db, hdb, hgb⟩ := forall₂_left_mem hf b hb
          have hle := (ih b db hgb).2 (b :: rest2) rfl hchain2
          have hmax := foldl_max_ge_mem ds 0 db hdb
          rw [List.length_cons, hd]
          exact Nat.succ_le_succ (Nat.le_trans hle hmax)

/-- On a tree-shaped graph `get_depth_helper` returns, with the same value for all
sufficiently large fuel. -/
theorem get_depth_helper_terminates (kids : Addr → Option (List Addr))
    (rank : Addr → Nat)
    (hrank : ∀ a children, kids a = some children →
      ∀ c ∈ children, (kids c).isSome = true ∧ rank c < rank a) :
    ∀ (r a : Nat), rank a < r → (kids a).isSome = true →
      ∃ d, ∀ fuel, r ≤ fuel → get_depth_helper kids fuel (some a) = some d := by
  intro r
  induction r with
  | zero => intro a h; exact absurd h (Nat.not_lt_zero _)
  | succ m ih =>
    intro a ha hsome
    cases hk : kids a with
    | none => rw [hk] at hsome; cases hsome
    | some children =>
      have hkids : ∀ cs : List Nat, (∀ c ∈ cs, c ∈ children) →
          ∃ ds, ∀ fuel, m ≤ fuel →
            List.Forall₂ (fun c d => get_depth_helper kids fuel (some c) = some d) cs ds := by
        intro cs
        induction cs with
        | nil => intro _; exact ⟨[], fun _ _ => List.Forall₂.nil⟩
        | cons c rest ihc =>
          intro hsub
          have hc := hrank a children hk c (hsub c (List.mem_cons_self _ _))
          obtain ⟨s, hs⟩ := ih c (by omega) hc.1
          obtain ⟨ds, hds⟩ := ihc (fun x hx => hsub x (List.mem_cons_of_mem _ hx))
          exact ⟨s :: ds, fun fuel hf => List.Forall₂.cons (hs fuel hf) (hds fuel hf)⟩
      obtain ⟨ds, hds⟩ := hkids children (fun c hc => hc)
      refine ⟨ds.foldl max 0 + 1, fun fuel hfuel => ?_⟩
      obtain ⟨g, rfl⟩ : ∃ g, fuel = g + 1 := ⟨fuel - 1, by omega⟩
      rw [get_depth_helper_succ, hk]
      simp only
      rw [(depth_fold_eq kids g children 0 (ds.foldl max 0)).mpr ⟨ds, hds g (by omega), rfl⟩]
      rfl

theorem tree_kids_rank (ctx : TreeContext) (rank : Addr → Nat)
    (hrank : ∀ a nid children, tree_look ctx a = some (nid, children) →
      ∀ c ∈ children, (tree_look ctx c).isSome = true ∧ rank c < rank a) :
    ∀ a children, tree_kids ctx a = some children →
      ∀ c ∈ children, (tree_kids ctx c).isSome = true ∧ rank c < rank a := by
  intro a children hk c hc
  unfold tree_kids at hk
  cases hl : load ctx.heap a with
  | none => rw [hl] at hk; cases hk
  | some n =>
    rw [hl] at hk
    have hch : n.children = children := Option.some.inj hk
    have h := hrank a n.id children (by rw [tree_look_eq ctx a n hl, hch]) c hc
    refine ⟨?_, h.2⟩
    have h1 := h.1
    unfold tree_look at h1
    unfold tree_kids
    cases hlc : load ctx.heap c with
    | none => rw [hlc] at h1; cases h1
    | some nc => rfl

/-- C24: on a tree-shaped heap `tree_get_depth` returns for every large enough fuel. The
value is 0 when there is no root; otherwise it is the number of nodes on the longest path
from the root down to a leaf: 1 when the root has no children, 2 when the root has a child
and no child of the root has children, at least 3 when a grandchild exists, and 3 when a
grandchild exists and no grandchild has children. -/
theorem tree_get_depth_longest_path (ctx : TreeContext)
    (hshape : TreeShaped (tree_look ctx) ctx.root) :
    ∃ (N d : Nat),
      (∀ fuel, N ≤ fuel → tree_get_depth fuel ctx = some d) ∧
      (ctx.root = none → d = 0) ∧
      (∀ r, ctx.root = some r → LongestPath (tree_kids ctx) r d) ∧
      (∀ r, ctx.root = some r → tree_kids ctx r = some [] → d = 1) ∧
      (∀ r children, ctx.root = some r → tree_kids ctx r = some children →
        children ≠ [] → (∀ c ∈ children, tree_kids ctx c = some []) → d = 2) ∧
      (∀ r c g, ctx.root = some r → ChildOf (tree_kids ctx) r c →
        ChildOf (tree_kids ctx) c g → 3 ≤ d) ∧
      (∀ r c g, ctx.root = some r → ChildOf (tree_kids ctx) r c →
        ChildOf (tree_kids ctx) c g →
        (∀ c2 g2, ChildOf (tree_kids ctx) r c2 → ChildOf (tree_kids ctx) c2 g2 →
          tree_kids ctx g2 = some []) → d = 3) := by
  obtain ⟨hroot_alloc, rank, hrank⟩ := hshape
  cases hroot : ctx.root with
  | none =>
    refine ⟨0, 0, fun fuel _ => ?_, fun _ => rfl, fun _ h => Option.noConfusion h,
      fun _ h => Option.noConfusion h, fun _ _ h => Option.noConfusion h,
      fun _ _ _ h => Option.noConfusion h, fun _ _ _ h => Option.noConfusion h⟩
    unfold tree_get_depth
    rw [hroot]
    exact get_depth_helper_none _ fuel
  | some r =>
    have hsome : (tree_kids ctx r).isSome = true := by
      have h := hroot_alloc r hroot
      unfold tree_look at h
      unfold tree_kids
      cases hl : load ctx.heap r with
      | none => rw [hl] at h; cases h
      | some n => rfl
    obtain ⟨d, hd⟩ := get_depth_helper_terminates (tree_kids ctx) rank
      (tree_kids_rank ctx rank hrank) (rank r + 1) r (Nat.lt_succ_self _) hsome
    have hlong : LongestPath (tree_kids ctx) r d :=
      get_depth_helper_longest _ _ _ _ (hd _ (Nat.le_refl _))
    obtain ⟨⟨path, leaf, hhead, hchain, hlast, hleaf, hlen⟩, hmax⟩ := hlong
    have hpos : 1 ≤ d := hmax [r] rfl (List.chain'_singleton r)
    refine ⟨rank r + 1, d, fun fuel hfuel => ?_, fun h => Option.noConfusion h,
      ?_, ?_, ?_, ?_, ?_⟩
    · unfold tree_get_depth
      rw [hroot]
      exact hd fuel hfuel
    · intro r2 hr2
      rw [← Option.some.inj hr2]
      exact ⟨⟨path, leaf, hhead, hchain, hlast, hleaf, hlen⟩, hmax⟩
    · intro r2 hr2 hk
      rw [← Option.some.inj hr2] at hk
      cases path with
      | nil => cases hhead
      | cons x rest =>
        have hx : x = r := Option.some.inj hhead
        cases rest with
        | nil => exact hlen.symm
        | cons b rest2 =>
          obtain ⟨⟨children, hk2, hb⟩, _⟩ := List.chain'_cons.mp hchain
          rw [hx, hk] at hk2
          rw [← Option.some.inj hk2] at hb
          cases hb
    · intro r2 children hr2 hk hne hleaves
      rw [← Option.some.inj hr2] at hk
      have hlow : 2 ≤ d := by
        cases children with
        | nil => exact absurd rfl hne
        | cons c cs =>
          exact hmax [r, c] rfl
            (List.Chain'.cons ⟨c :: cs, hk, List.mem_cons_self _ _⟩ (List.chain'_singleton c))
      have hhigh : d ≤ 2 := by
        cases path with
        | nil => cases hhead
        | cons x rest =>
          have hx : x = r := Option.some.inj hhead
          cases rest with
          | nil => rw [← hlen]; exact Nat.le_succ 1
          | cons b rest2 =>
            obtain ⟨⟨children2, hk2, hb⟩, hchain2⟩ := List.chain'_cons.mp hchain
            rw [hx, hk] at hk2
            rw [← Option.some.inj hk2] at hb
            cases rest2 with
            | nil => rw [← hlen]; exact Nat.le_refl 2
            | cons g rest3 =>
              obtain ⟨⟨children3, hk3, hg⟩, _⟩ := List.chain'_cons.mp hchain2
              rw [hleaves b hb] at hk3
              rw [← Option.some.inj hk3] at hg
              cases hg
      exact Nat.le_antisymm hhigh hlow
    · intro r2 c g hr2 hc hg
      rw [← Option.some.inj hr2] at hc
      exact hmax [r, c, g] rfl
        (List.Chain'.cons hc (List.Chain'.cons hg (List.chain'_singleton g)))
    · intro r2 c g hr2 hc hg hleaves
      rw [← Option.some.inj hr2] at hc hleaves
      have hlow : 3 ≤ d := hmax [r, c, g] rfl
        (List.Chain'.cons hc (List.Chain'.cons hg (List.chain'_singleton g)))
      have hhigh : d ≤ 3 := by
        cases path with
        | nil => cases hhead
        | cons x rest =>
          have hx : x = r := Option.some.inj hhead
          cases rest with
          | nil => rw [← hlen]; exact Nat.le_succ_of_le (Nat.le_succ 1)
          | cons b rest2 =>
            obtain ⟨hb, hchain2⟩ := List.chain'_cons.mp hchain
            rw [hx] at hb
            cases rest2 with
            | nil => rw [← hlen]; exact Nat.le_succ 2
            | cons g2 rest3 =>
              obtain ⟨hg2, hchain3⟩ := List.chain'_cons.mp hchain2
              cases rest3 with
              | nil => rw [← hlen]; exact Nat.le_refl 3
              | cons e rest4 =>
                obtain ⟨⟨children4, hk4, he⟩, _⟩ := List.chain'_cons.mp hchain3
                rw [hleaves b g2 hb hg2] at hk4
                rw [← Option.some.inj hk4] at he
                cases he
      exact Nat.le_antisymm hhigh hlow

/-- C24 witness: the tree of `test_tree_relationships` (a root, two children, one grandchild)
has depth 3; before the grandchild is added the depth is 2; a lone root has depth 1 and a
context without root depth 0. -/
theorem tree_get_depth_longest_path_witness :
    tree_get_depth 10 (tree_create 0) = some 0 ∧
    tree_get_depth 10 lone_root_ctx = some 1 ∧
    tree_get_depth 10 two_level_ctx = some 2 ∧
    tree_get_depth 10 three_level_ctx = some 3 ∧
    ∃ (N d : Nat),
      (∀ fuel, N ≤ fuel → tree_get_depth fuel three_level_ctx = some d) ∧
      (three_level_ctx.root = none → d = 0) ∧
      (∀ r, three_level_ctx.root = some r → LongestPath (tree_kids three_level_ctx) r d) ∧
      (∀ r, three_level_ctx.root = some r → tree_kids three_level_ctx r = some [] → d = 1) ∧
      (∀ r children, three_level_ctx.root = some r →
        tree_kids three_level_ctx r = some children →
        children ≠ [] → (∀ c ∈ children, tree_kids three_level_ctx c = some []) → d = 2) ∧
      (∀ r c g, three_level_ctx.root = some r → ChildOf (tree_kids three_level_ctx) r c →
        ChildOf (tree_kids three_level_ctx) c g → 3 ≤ d) ∧
      (∀ r c g, three_level_ctx.root = some r → ChildOf (tree_kids three_level_ctx) r c →
        ChildOf (tree_kids three_level_ctx) c g →
        (∀ c2 g2, ChildOf (tree_kids three_level_ctx) r c2 →
          ChildOf (tree_kids three_level_ctx) c2 g2 →
          tree_kids three_level_ctx g2 = some []) → d = 3) :=
  ⟨by decide, by decide, by decide, by decide,
   tree_get_depth_longest_path three_level_ctx (tree_ctx_shaped _ (by decide))⟩

/-! ## phantomid.c: the admin quota of the create command -/

theorem phantom_on_client_data_below (MAX_CHILDREN fuel : Nat) (s : PhantomDaemon)
    (account : PhantomAccount) (hlt : s.current_admin_count < s.max_admins) :
    phantom_on_client_data MAX_CHILDREN fuel s account =
      match phantom_tree_insert MAX_CHILDREN fuel s.tree account none with
      | none => none
      | some (node, t) =>
        some (node, { tree := t, current_admin_count := s.current_admin_count + 1,
                      max_admins := s.max_admins }) := by
  unfold phantom_on_client_data
  simp only [decide_eq_true hlt, if_true]

theorem phantom_on_client_data_full (MAX_CHILDREN fuel : Nat) (s : PhantomDaemon)
    (account : PhantomAccount) (hge : s.max_admins ≤ s.current_admin_count) :
    phantom_on_client_data MAX_CHILDREN fuel s account =
      match phantom_tree_insert MAX_CHILDREN fuel s.tree account (some "") with
      | none => none
      | some (node, t) =>
        some (node, { tree := t, current_admin_count := s.current_admin_count,
                      max_admins := s.max_admins }) := by
  unfold phantom_on_client_data
  simp only [decide_eq_false (Nat.not_lt.mpr hge), Bool.false_eq_true, if_false]

/-- One create command on a well-formed tree: the tree stays well-formed, the quota is
untouched, the counter goes up by one exactly when it was below the quota, and a command
whose insert returns no node leaves the tree as it was. -/
theorem create_step (MAX_CHILDREN fuel : Nat) (s s1 : PhantomDaemon)
    (account : PhantomAccount) (node : Option Addr) (hwf : PhantomWF s.tree)
    (h : phantom_on_client_data MAX_CHILDREN fuel s account = some (node, s1)) :
    PhantomWF s1.tree ∧ s1.max_admins = s.max_admins ∧
    (s.current_admin_count < s.max_admins →
      s1.current_admin_count = s.current_admin_count + 1) ∧
    (s.max_admins ≤ s.current_admin_count → s1.current_admin_count = s.current_admin_count) ∧
    (node = none → s1.tree = s.tree) ∧
    (∀ a, node = some a →
      (live_cells s1.tree.heap).length = (live_cells s.tree.heap).length + 1 ∧
      s1.tree.total_nodes ≤ s.tree.total_nodes + 1) ∧
    (NoEmptyId s.tree → account.id ≠ "" → NoEmptyId s1.tree) := by
  have key : ∀ (parent_id : Option Ident) (t : PhantomTree),
      phantom_tree_insert MAX_CHILDREN fuel s.tree account parent_id = some (node, t) →
      PhantomWF t ∧ (node = none → t = s.tree) ∧
      (∀ a, node = some a →
        (live_cells t.heap).length = (live_cells s.tree.heap).length + 1 ∧
        t.total_nodes ≤ s.tree.total_nodes + 1) ∧
      (NoEmptyId s.tree → account.id ≠ "" → NoEmptyId t) := by
    intro parent_id t hins
    obtain ⟨hwf2, hsame, hnew⟩ := phantom_insert_step MAX_CHILDREN fuel s.tree account
      parent_id node t hwf hins
    refine ⟨hwf2, hsame, fun a ha => ?_, fun hno hid => ?_⟩
    · obtain ⟨hlive, htot⟩ := hnew a ha
      refine ⟨hlive, ?_⟩
      rcases htot with ⟨h1, _⟩ | hinc
      · rw [h1]
        exact Nat.succ_le_succ (Nat.zero_le _)
      · rw [hinc]
        unfold size_inc
        by_cases hmax : s.tree.total_nodes = SIZE_MAX
        · rw [if_pos hmax]
          exact Nat.zero_le _
        · rw [if_neg hmax]
    · rcases phantom_tree_insert_cases MAX_CHILDREN fuel s.tree account parent_id node t hins
        with ⟨_, ht⟩ | ⟨_, _, ht⟩ | ⟨r, parent, pn, _, hp, _, _, ht⟩
      · rw [ht]
        exact hno
      · intro b n hb
        rw [ht] at hb
        simp only at hb
        rw [load_append] at hb
        by_cases hbl : b = s.tree.heap.length
        · rw [if_pos hbl] at hb
          rw [← Option.some.inj hb]
          exact hid
        · rw [if_neg hbl] at hb
          exact hno b n hb
      · intro b n hb
        rw [ht] at hb
        simp only at hb
        rw [load_store] at hb
        by_cases hbp : b = parent ∧ parent < (s.tree.heap ++
            [some { create_node MAX_CHILDREN account false with parent := some parent }]).length
        · rw [if_pos hbp] at hb
          rw [← Option.some.inj hb]
          exact hno parent pn hp
        · rw [if_neg hbp, load_append] at hb
          by_cases hbl : b = s.tree.heap.length
          · rw [if_pos hbl] at hb
            rw [← Option.some.inj hb]
            exact hid
          · rw [if_neg hbl] at hb
            exact hno b n hb
  by_cases hlt : s.current_admin_count < s.max_admins
  · rw [phantom_on_client_data_below MAX_CHILDREN fuel s account hlt] at h
    cases hins : phantom_tree_insert MAX_CHILDREN fuel s.tree account none with
    | none => rw [hins] at h; cases h
    | some out =>
      obtain ⟨node2, t⟩ := out
      rw [hins] at h
      simp only at h
      have hpair := Prod.mk.inj (Option.some.inj h)
      have hnode : node2 = node := hpair.1
      have hs1 := hpair.2
      rw [hnode] at hins
      obtain ⟨k1, k2, k3, k4⟩ := key none t hins
      rw [← hs1]
      exact ⟨k1, rfl, fun _ => rfl, fun hge => absurd hlt (Nat.not_lt.mpr hge), k2, k3, k4⟩
  · have hge : s.max_admins ≤ s.current_admin_count := Nat.not_lt.mp hlt
    rw [phantom_on_client_data_full MAX_CHILDREN fuel s account hge] at h
    cases hins : phantom_tree_insert MAX_CHILDREN fuel s.tree account (some "") with
    | none => rw [hins] at h; cases h
    | some out =>
      obtain ⟨node2, t⟩ := out
      rw [hins] at h
      simp only at h
      have hpair := Prod.mk.inj (Option.some.inj h)
      have hnode : node2 = node := hpair.1
      have hs1 := hpair.2
      rw [hnode] at hins
      obtain ⟨k1, k2, k3, k4⟩ := key (some "") t hins
      rw [← hs1]
      exact ⟨k1, rfl, fun h2 => absurd h2 hlt, fun _ => rfl, k2, k3, k4⟩

/-- On a well-formed tree every create command returns, for every large enough fuel. -/
theorem phantom_on_client_data_total (MAX_CHILDREN : Nat) (s : PhantomDaemon)
    (account : PhantomAccount) (hwf : PhantomWF s.tree) :
    ∃ N node s1, ∀ fuel, N ≤ fuel →
      phantom_on_client_data MAX_CHILDREN fuel s account = some (node, s1) := by
  by_cases hlt : s.current_admin_count < s.max_admins
  · obtain ⟨N, out, hN⟩ := phantom_tree_insert_total MAX_CHILDREN s.tree account none hwf
    obtain ⟨node, t⟩ := out
    refine ⟨N, node,
      { tree := t, current_admin_count := s.current_admin_count + 1,
        max_admins := s.max_admins }, fun fuel hfuel => ?_⟩
    rw [phantom_on_client_data_below MAX_CHILDREN fuel s account hlt, hN fuel hfuel]
  · have hge : s.max_admins ≤ s.current_admin_count := Nat.not_lt.mp hlt
    obtain ⟨N, out, hN⟩ := phantom_tree_insert_total MAX_CHILDREN s.tree account (some "") hwf
    obtain ⟨node, t⟩ := out
    refine ⟨N, node,
      { tree := t, current_admin_count := s.current_admin_count,
        max_admins := s.max_admins }, fun fuel hfuel => ?_⟩
    rw [phantom_on_client_data_full MAX_CHILDREN fuel s account hge, hN fuel hfuel]

/-- With the quota used up and no node named by the empty string, a create command returns
no node and leaves the daemon as it was. -/
theorem create_rejected (MAX_CHILDREN : Nat) (s : PhantomDaemon)
    (hshape : TreeShaped (phantom_look s.tree) s.tree.root)
    (hfull : s.max_admins ≤ s.current_admin_count)
    (hno : ∀ a n, Reachable (phantom_look s.tree) s.tree.root a →
      load s.tree.heap a = some n → n.account.id ≠ "") :
    ∃ N, ∀ fuel, N ≤ fuel → ∀ account,
      phantom_on_client_data MAX_CHILDREN fuel s account = some (none, s) := by
  obtain ⟨N, hN⟩ := phantom_tree_find_none s.tree "" hshape hno
  refine ⟨N, fun fuel hfuel account => ?_⟩
  rw [phantom_on_client_data_full MAX_CHILDREN fuel s account hfull]
  have hins : phantom_tree_insert MAX_CHILDREN fuel s.tree account (some "") =
      some (none, s.tree) := by
    unfold phantom_tree_insert
    cases hr : s.tree.root with
    | none => rfl
    | some r =>
      simp only
      unfold phantom_resolve_parent
      simp only
      rw [hN fuel hfuel]
  rw [hins]

theorem create_all_cons (MAX_CHILDREN fuel : Nat) (s s1 s2 : PhantomDaemon)
    (account : PhantomAccount) (rest : List PhantomAccount) (node : Option Addr)
    (nodes : List (Option Addr))
    (h1 : phantom_on_client_data MAX_CHILDREN fuel s account = some (node, s1))
    (h2 : create_all MAX_CHILDREN fuel s1 rest = some (nodes, s2)) :
    create_all MAX_CHILDREN fuel s (account :: rest) = some (node :: nodes, s2) := by
  unfold create_all
  rw [h1]
  simp only
  rw [h2]

/-- Every sequence of create commands on a well-formed tree runs to its end, the tree stays
well-formed and the counter stays below or at the quota; when no identifier is empty, no
more nodes are returned than the counter goes up. -/
theorem create_all_inv (MAX_CHILDREN : Nat) :
    ∀ (accounts : List PhantomAccount) (s : PhantomDaemon), PhantomWF s.tree →
      s.current_admin_count ≤ s.max_admins →
      ∃ N nodes s2,
        (∀ fuel, N ≤ fuel → create_all MAX_CHILDREN fuel s accounts = some (nodes, s2)) ∧
        PhantomWF s2.tree ∧ s2.max_admins = s.max_admins ∧
        s2.current_admin_count ≤ s2.max_admins ∧
        ((∀ account ∈ accounts, account.id ≠ "") → NoEmptyId s.tree →
          NoEmptyId s2.tree ∧
          (nodes.filter Option.isSome).length + s.current_admin_count
            ≤ s2.current_admin_count ∧
          (live_cells s2.tree.heap).length + s.current_admin_count
            ≤ (live_cells s.tree.heap).length + s2.current_admin_count ∧
          s2.tree.total_nodes + s.current_admin_count
            ≤ s.tree.total_nodes + s2.current_admin_count) := by
  intro accounts
  induction accounts with
  | nil =>
    intro s hwf hle
    exact ⟨0, [], s, fun fuel _ => rfl, hwf, rfl, hle,
      fun _ hno => ⟨hno, Nat.le_of_eq (Nat.zero_add _), Nat.le_refl _, Nat.le_refl _⟩⟩
  | cons account rest ih =>
    intro s hwf hle
    obtain ⟨N1, node, s1, h1⟩ := phantom_on_client_data_total MAX_CHILDREN s account hwf
    obtain ⟨hwf1, hmax1, hbelow, hfull, hsame, hnew, hids⟩ :=
      create_step MAX_CHILDREN N1 s s1 account node hwf (h1 N1 (Nat.le_refl _))
    have hle1 : s1.current_admin_count ≤ s1.max_admins := by
      rw [hmax1]
      by_cases hlt : s.current_admin_count < s.max_admins
      · rw [hbelow hlt]
        exact hlt
      · rw [hfull (Nat.not_lt.mp hlt)]
        exact hle
    obtain ⟨N2, nodes, s2, h2, hwf2, hmax2, hle2, hrest⟩ := ih s1 hwf1 hle1
    refine ⟨max N1 N2, node :: nodes, s2, fun fuel hfuel => ?_, hwf2, hmax2.trans hmax1, hle2,
      fun hacc hno => ?_⟩
    · exact create_all_cons MAX_CHILDREN fuel s s1 s2 account rest node nodes
        (h1 fuel (Nat.le_trans (Nat.le_max_left _ _) hfuel))
        (h2 fuel (Nat.le_trans (Nat.le_max_right _ _) hfuel))
    · have hno1 := hids hno (hacc account (List.mem_cons_self _ _))
      obtain ⟨hno2, hcount, hlive, htot⟩ :=
        hrest (fun a ha => hacc a (List.mem_cons_of_mem _ ha)) hno1
      refine ⟨hno2, ?_, ?_, ?_⟩
      · cases hnode : node with
        | none =>
          have hstep : s.current_admin_count ≤ s1.current_admin_count := by
            by_cases hlt : s.current_admin_count < s.max_admins
            · rw [hbelow hlt]
              exact Nat.le_succ _
            · rw [hfull (Nat.not_lt.mp hlt)]
          have hf : ((none : Option Addr) :: nodes).filter Option.isSome =
              nodes.filter Option.isSome := rfl
          rw [hf]
          omega
        | some a =>
          have hlt : s.current_admin_count < s.max_admins := by
            by_contra hnot
            have hge : s.max_admins ≤ s.current_admin_count := Nat.not_lt.mp hnot
            obtain ⟨N3, h3⟩ := create_rejected MAX_CHILDREN s (phantom_wf_shaped s.tree hwf)
              hge (fun b n _ hb => hno b n hb)
            have e1 := h1 (max N1 N3) (Nat.le_max_left _ _)
            rw [h3 (max N1 N3) (Nat.le_max_right _ _) account, hnode] at e1
            cases e1
          have hf : ((some a : Option Addr) :: nodes).filter Option.isSome =
              some a :: nodes.filter Option.isSome := rfl
          rw [hf, List.length_cons]
          have := hbelow hlt
          omega
      · cases hnode : node with
        | none =>
          rw [hsame hnode] at hlive
          have hstep : s.current_admin_count ≤ s1.current_admin_count := by
            by_cases hlt : s.current_admin_count < s.max_admins
            · rw [hbelow hlt]
              exact Nat.le_succ _
            · rw [hfull (Nat.not_lt.mp hlt)]
          omega
        | some a =>
          have hlt : s.current_admin_count < s.max_admins := by
            by_contra hnot
            have hge : s.max_admins ≤ s.current_admin_count := Nat.not_lt.mp hnot
            obtain ⟨N3, h3⟩ := create_rejected MAX_CHILDREN s (phantom_wf_shaped s.tree hwf)
              hge (fun b n _ hb => hno b n hb)
            have e1 := h1 (max N1 N3) (Nat.le_max_left _ _)
            rw [h3 (max N1 N3) (Nat.le_max_right _ _) account, hnode] at e1
            cases e1
          have := hbelow hlt
          have := (hnew a hnode).1
          omega
      · cases hnode : node with
        | none =>
          rw [hsame hnode] at htot
          have hstep : s.current_admin_count ≤ s1.current_admin_count := by
            by_cases hlt : s.current_admin_count < s.max_admins
            · rw [hbelow hlt]
              exact Nat.le_succ _
            · rw [hfull (Nat.not_lt.mp hlt)]
          omega
        | some a =>
          have hlt : s.current_admin_count < s.max_admins := by
            by_contra hnot
            have hge : s.max_admins ≤ s.current_admin_count := Nat.not_lt.mp hnot
            obtain ⟨N3, h3⟩ := create_rejected MAX_CHILDREN s (phantom_wf_shaped s.tree hwf)
              hge (fun b n _ hb => hno b n hb)
            have e1 := h1 (max N1 N3) (Nat.le_max_left _ _)
            rw [h3 (max N1 N3) (Nat.le_max_right _ _) account, hnode] at e1
            cases e1
          have := hbelow hlt
          have := (hnew a hnode).2
          omega

theorem phantom_init_wf : PhantomWF phantom_init.tree := trace_inv_init.1

/-- C25: from the state `phantom_init` sets up, every sequence of create commands handled by
`phantom_on_client_data` runs to its end (for every large enough fuel), and in the daemon it
leaves `max_admins` is still 5 and `current_admin_count` is at most `max_admins`. -/
theorem phantom_create_count_bounded (MAX_CHILDREN : Nat) (accounts : List PhantomAccount) :
    phantom_init.current_admin_count = 0 ∧ phantom_init.max_admins = 5 ∧
    ∃ N nodes s,
      (∀ fuel, N ≤ fuel →
        create_all MAX_CHILDREN fuel phantom_init accounts = some (nodes, s)) ∧
      s.max_admins = 5 ∧ s.current_admin_count ≤ s.max_admins := by
  obtain ⟨N, nodes, s, hrun, _, hmax, hle, _⟩ :=
    create_all_inv MAX_CHILDREN accounts phantom_init phantom_init_wf (Nat.zero_le _)
  exact ⟨rfl, rfl, N, nodes, s, hrun, hmax, hle⟩

theorem no_empty_id_of_check (t : PhantomTree) (hchk : no_empty_id_check t = true) :
    NoEmptyId t := by
  intro a n hl
  obtain ⟨hlt, hget⟩ := load_getElem t.heap a n hl
  have hmem : some n ∈ t.heap := by
    rw [← hget]
    exact List.get_mem _ _ _
  unfold no_empty_id_check at hchk
  have h := List.all_eq_true.mp hchk (some n) hmem
  simp only at h
  exact of_decide_eq_true h

/-! ## state.c: the arithmetic of `calculate_checksum` -/

theorem checksum_step_eq (c b : Nat) : checksum_step c b = (c * 33 + b) % U32_MOD := by
  unfold checksum_step U32_MOD
  rw [Nat.shiftLeft_eq]
  omega

theorem weighted_sum_cons (b : Nat) (rest : List Nat) :
    weighted_sum (b :: rest) = b * 33 ^ rest.length + weighted_sum rest := by
  unfold weighted_sum
  rw [List.length_cons, List.range_succ_eq_map, List.map_cons, List.sum_cons, List.map_map]
  congr 1
  apply congrArg List.sum
  apply List.map_congr_left
  intro i _
  show (b :: rest).getD (i + 1) 0 * 33 ^ (rest.length + 1 - 1 - (i + 1)) =
    rest.getD i 0 * 33 ^ (rest.length - 1 - i)
  rw [List.getD_cons_succ]
  congr 2
  omega

/-- The multiply-add iteration from any starting value, as a sum. -/
theorem multiply_add_fold (M : Nat) : ∀ (data : List Nat) (c0 : Nat),
    data.foldl (fun checksum byte => (checksum * 33 + byte) % M) (c0 % M) =
      (c0 * 33 ^ data.length + weighted_sum data) % M := by
  intro data
  induction data with
  | nil =>
    intro c0
    show c0 % M = (c0 * 33 ^ 0 + weighted_sum []) % M
    have h0 : weighted_sum [] = 0 := rfl
    rw [h0, Nat.pow_zero, Nat.mul_one, Nat.add_zero]
  | cons b rest ih =>
    intro c0
    rw [List.foldl_cons]
    have hstep : (c0 % M * 33 + b) % M = (c0 * 33 + b) % M := by
      rw [Nat.add_mod, Nat.mul_mod, Nat.mod_mod, ← Nat.mul_mod, ← Nat.add_mod]
    rw [hstep, ih, weighted_sum_cons, List.length_cons]
    apply congrArg (fun x => x % M)
    ring

theorem calculate_checksum_eq_fold (data : List Nat) :
    calculate_checksum data = multiply_add_checksum data := by
  unfold calculate_checksum multiply_add_checksum
  apply congrArg (fun f => List.foldl f 0 data)
  funext c b
  exact checksum_step_eq c b

theorem calculate_checksum_eq_sum (data : List Nat) :
    calculate_checksum data = weighted_sum data % U32_MOD := by
  rw [calculate_checksum_eq_fold]
  unfold multiply_add_checksum
  have h := multiply_add_fold U32_MOD data 0
  rw [Nat.zero_mod, Nat.zero_mul, Nat.zero_add] at h
  exact h

/-- C26: for every byte sequence `calculate_checksum` returns what the iteration
`checksum = checksum * 33 + byte` from 0 in 32-bit unsigned arithmetic returns, which is the
sum over `i` of `b_i * 33^(n-1-i)` modulo `2^32`; and one pass of the loop, written with a
shift and two additions, yields `c * 33 + b` modulo `2^32` for every `c`. -/
theorem calculate_checksum_multiply_add (data : List Nat) :
    U32_MOD = 2 ^ 32 ∧
    calculate_checksum data = multiply_add_checksum data ∧
    calculate_checksum data = weighted_sum data % U32_MOD ∧
    ∀ c b, checksum_step c b = (c * 33 + b) % U32_MOD :=
  ⟨by norm_num [U32_MOD], calculate_checksum_eq_fold data, calculate_checksum_eq_sum data,
    checksum_step_eq⟩

/-! ## state.c: a changed byte changes the checksum -/

theorem u32_mod_pos : 0 < U32_MOD := by
  unfold U32_MOD
  omega

theorem checksum_step_lt (c b : Nat) : checksum_step c b < U32_MOD := by
  rw [checksum_step_eq]
  exact Nat.mod_lt _ u32_mod_pos

/-- One pass of the loop is injective in the checksum it starts from: 33 is odd. -/
theorem checksum_step_inj (x y b : Nat) (hx : x < U32_MOD) (hy : y < U32_MOD)
    (h : checksum_step x b = checksum_step y b) : x = y := by
  rw [checksum_step_eq, checksum_step_eq] at h
  have h1 : Nat.ModEq U32_MOD (x * 33 + b) (y * 33 + b) := h
  have h2 : Nat.ModEq U32_MOD (x * 33) (y * 33) := Nat.ModEq.add_right_cancel' b h1
  rw [Nat.mul_comm x, Nat.mul_comm y] at h2
  have hco : Nat.gcd U32_MOD 33 = 1 := by
    unfold U32_MOD
    norm_num
  have h3 : Nat.ModEq U32_MOD x y := Nat.ModEq.cancel_left_of_coprime hco h2
  have h4 : x % U32_MOD = y % U32_MOD := h3
  rw [Nat.mod_eq_of_lt hx, Nat.mod_eq_of_lt hy] at h4
  exact h4

/-- One pass of the loop tells two different bytes apart. -/
theorem checksum_step_byte (c b1 b2 : Nat) (h1 : b1 < 256) (h2 : b2 < 256) (hne : b1 ≠ b2) :
    checksum_step c b1 ≠ checksum_step c b2 := by
  intro h
  rw [checksum_step_eq, checksum_step_eq] at h
  have h3 : Nat.ModEq U32_MOD b1 b2 := Nat.ModEq.add_left_cancel' (c * 33) h
  have h4 : b1 % U32_MOD = b2 % U32_MOD := h3
  have hbig : 256 < U32_MOD := by
    unfold U32_MOD
    omega
  rw [Nat.mod_eq_of_lt (Nat.lt_trans h1 hbig), Nat.mod_eq_of_lt (Nat.lt_trans h2 hbig)] at h4
  exact hne h4

theorem checksum_fold_lt : ∀ (post : List Nat) (x : Nat), x < U32_MOD →
    post.foldl checksum_step x < U32_MOD := by
  intro post
  induction post with
  | nil => intro x hx; exact hx
  | cons b rest ih =>
    intro x _
    rw [List.foldl_cons]
    exact ih _ (checksum_step_lt x b)

theorem checksum_fold_inj : ∀ (post : List Nat) (x y : Nat), x < U32_MOD → y < U32_MOD →
    x ≠ y → post.foldl checksum_step x ≠ post.foldl checksum_step y := by
  intro post
  induction post with
  | nil => intro x y _ _ hne; exact hne
  | cons b rest ih =>
    intro x y hx hy hne
    rw [List.foldl_cons, List.foldl_cons]
    exact ih _ _ (checksum_step_lt x b) (checksum_step_lt y b)
      (fun h => hne (checksum_step_inj x y b hx hy h))

/-- Two sequences that differ in one byte have different checksums. -/
theorem calculate_checksum_split (pre post : List Nat) (b1 b2 : Nat) (h1 : b1 < 256)
    (h2 : b2 < 256) (hne : b1 ≠ b2) :
    calculate_checksum (pre ++ b1 :: post) ≠ calculate_checksum (pre ++ b2 :: post) := by
  unfold calculate_checksum
  rw [List.foldl_append, List.foldl_append, List.foldl_cons, List.foldl_cons]
  exact checksum_fold_inj post _ _ (checksum_step_lt _ b1) (checksum_step_lt _ b2)
    (checksum_step_byte _ b1 b2 h1 h2 hne)

/-- Two sequences of one length that differ in exactly the position `i` are one sequence
with another byte at `i`. -/
theorem split_at_difference (d1 d2 : List Nat) (i : Nat) (hlen : d1.length = d2.length)
    (hi : i < d1.length) (hsame : ∀ j, j ≠ i → d1.getD j 0 = d2.getD j 0) :
    d1 = d1.take i ++ d1.getD i 0 :: d1.drop (i + 1) ∧
    d2 = d1.take i ++ d2.getD i 0 :: d1.drop (i + 1) := by
  have hi2 : i < d2.length := by
    rw [← hlen]
    exact hi
  have hget : ∀ j (h1 : j < d1.length) (h2 : j < d2.length), j ≠ i → d1[j] = d2[j] := by
    intro j h1 h2 hj
    have h := hsame j hj
    rw [List.getD_eq_getElem d1 0 h1, List.getD_eq_getElem d2 0 h2] at h
    exact h
  have htake : d1.take i = d2.take i := by
    apply List.ext_getElem
    · rw [List.length_take, List.length_take, hlen]
    · intro n h1 h2
      rw [List.getElem_take, List.getElem_take]
      rw [List.length_take] at h1
      exact hget n (by omega) (by omega) (by omega)
  have hdrop : d1.drop (i + 1) = d2.drop (i + 1) := by
    apply List.ext_getElem
    · rw [List.length_drop, List.length_drop, hlen]
    · intro n h1 h2
      rw [List.getElem_drop, List.getElem_drop]
      rw [List.length_drop] at h1
      exact hget (i + 1 + n) (by omega) (by omega) (by omega)
  constructor
  · rw [List.getD_eq_getElem d1 0 hi, ← List.drop_eq_getElem_cons hi, List.take_append_drop]
  · rw [htake, hdrop, List.getD_eq_getElem d2 0 hi2, ← List.drop_eq_getElem_cons hi2,
      List.take_append_drop]

theorem checksum_loop_succ (readable : Bool) (file : List Nat) (passes pos checksum : Nat) :
    checksum_loop readable file (passes + 1) pos checksum =
      if (fread_bytes readable file pos STATE_BUFFER_SIZE).length = 0 then checksum
      else checksum_loop readable file passes
        (pos + (fread_bytes readable file pos STATE_BUFFER_SIZE).length)
        (checksum ^^^ calculate_checksum (fread_bytes readable file pos STATE_BUFFER_SIZE)) :=
  rfl

theorem fread_bytes_readable (file : List Nat) (pos n : Nat) :
    fread_bytes true file pos n = (file.drop pos).take n := rfl

theorem drop_add_drop (file : List Nat) (a b : Nat) :
    file.drop (a + b) = (file.drop a).drop b := by
  rw [List.drop_drop]

/-- The loop depends only on the bytes from the offset on. -/
theorem checksum_loop_congr : ∀ (passes : Nat) (f1 f2 : List Nat) (pos1 pos2 checksum : Nat),
    f1.drop pos1 = f2.drop pos2 →
    checksum_loop true f1 passes pos1 checksum = checksum_loop true f2 passes pos2 checksum := by
  intro passes
  induction passes with
  | zero => intro f1 f2 pos1 pos2 checksum _; rfl
  | succ n ih =>
    intro f1 f2 pos1 pos2 checksum h
    rw [checksum_loop_succ, checksum_loop_succ, fread_bytes_readable, fread_bytes_readable, h]
    by_cases h0 : (List.take STATE_BUFFER_SIZE (f2.drop pos2)).length = 0
    · rw [if_pos h0, if_pos h0]
    · rw [if_neg h0, if_neg h0]
      apply ih
      rw [drop_add_drop, drop_add_drop, h]

/-- The loop XORs the chunk checksums onto the value it starts from. -/
theorem checksum_loop_xor (readable : Bool) (file : List Nat) :
    ∀ (passes pos checksum : Nat),
      checksum_loop readable file passes pos checksum =
        checksum ^^^ checksum_loop readable file passes pos 0 := by
  intro passes
  induction passes with
  | zero =>
    intro pos checksum
    show checksum = checksum ^^^ 0
    rw [Nat.xor_zero]
  | succ n ih =>
    intro pos checksum
    rw [checksum_loop_succ, checksum_loop_succ]
    by_cases h0 : (fread_bytes readable file pos STATE_BUFFER_SIZE).length = 0
    · rw [if_pos h0, if_pos h0, Nat.xor_zero]
    · rw [if_neg h0, if_neg h0, ih, ih _ (0 ^^^ _), Nat.zero_xor, Nat.xor_assoc]

theorem state_buffer_size_pos : 0 < STATE_BUFFER_SIZE := by
  unfold STATE_BUFFER_SIZE
  omega

/-- The chunked checksums of two byte regions that differ in one byte differ. -/
theorem checksum_loop_split : ∀ (passes : Nat) (f1 f2 : List Nat) (pos checksum : Nat)
    (pre post : List Nat) (b1 b2 : Nat),
    f1.drop pos = pre ++ b1 :: post → f2.drop pos = pre ++ b2 :: post →
    b1 < 256 → b2 < 256 → b1 ≠ b2 → pre.length < passes * STATE_BUFFER_SIZE →
    checksum_loop true f1 passes pos checksum ≠ checksum_loop true f2 passes pos checksum := by
  intro passes
  induction passes with
  | zero =>
    intro f1 f2 pos checksum pre post b1 b2 _ _ _ _ _ hlen
    rw [Nat.zero_mul] at hlen
    exact absurd hlen (Nat.not_lt_zero _)
  | succ n ih =>
    intro f1 f2 pos checksum pre post b1 b2 hf1 hf2 h1 h2 hne hlen
    rw [checksum_loop_succ, checksum_loop_succ, fread_bytes_readable, fread_bytes_readable,
      hf1, hf2]
    have hB := state_buffer_size_pos
    by_cases hlt : pre.length < STATE_BUFFER_SIZE
    · obtain ⟨k, hk⟩ : ∃ k, STATE_BUFFER_SIZE - pre.length = k + 1 :=
        ⟨STATE_BUFFER_SIZE - pre.length - 1, by omega⟩
      have hbuf : ∀ b, List.take STATE_BUFFER_SIZE (pre ++ b :: post) =
          pre ++ b :: post.take k := by
        intro b
        rw [List.take_append_eq_append_take, List.take_of_length_le (Nat.le_of_lt hlt), hk,
          List.take_succ_cons]
      have hrest : ∀ b, pre ++ b :: post = (pre ++ b :: post.take k) ++ post.drop k := by
        intro b
        rw [List.append_assoc, List.cons_append, List.take_append_drop]
      have hlenb : ∀ b, (pre ++ b :: post.take k).length ≠ 0 := by
        intro b
        rw [List.length_append, List.length_cons]
        omega
      rw [hbuf b1, hbuf b2, if_neg (hlenb b1), if_neg (hlenb b2)]
      have htail : ∀ (f : List Nat) b, f.drop pos = pre ++ b :: post →
          f.drop (pos + (pre ++ b :: post.take k).length) = post.drop k := by
        intro f b hf
        rw [drop_add_drop, hf]
        nth_rewrite 1 [hrest b]
        exact List.drop_left _ _
      have hsame : checksum_loop true f1 n (pos + (pre ++ b1 :: post.take k).length) 0 =
          checksum_loop true f2 n (pos + (pre ++ b2 :: post.take k).length) 0 := by
        apply checksum_loop_congr
        rw [htail f1 b1 hf1, htail f2 b2 hf2]
      rw [checksum_loop_xor true f1 n _ (checksum ^^^ _),
        checksum_loop_xor true f2 n _ (checksum ^^^ _), hsame]
      intro h
      have h3 := Nat.xor_left_inj.mp h
      have h4 := Nat.xor_right_inj.mp h3
      exact calculate_checksum_split pre (post.take k) b1 b2 h1 h2 hne h4
    · have hge : STATE_BUFFER_SIZE ≤ pre.length := Nat.le_of_not_lt hlt
      have hlen0 : (List.take STATE_BUFFER_SIZE pre).length ≠ 0 := by
        rw [List.length_take]
        omega
      rw [List.take_append_of_le_length hge, List.take_append_of_le_length hge,
        if_neg hlen0, if_neg hlen0]
      have hl : (List.take STATE_BUFFER_SIZE pre).length = STATE_BUFFER_SIZE := by
        rw [List.length_take]
        omega
      rw [hl]
      apply ih f1 f2 (pos + STATE_BUFFER_SIZE) _ (pre.drop STATE_BUFFER_SIZE) post b1 b2
      · rw [drop_add_drop, hf1, List.drop_append_of_le_length hge]
      · rw [drop_add_drop, hf2, List.drop_append_of_le_length hge]
      · exact h1
      · exact h2
      · exact hne
      · rw [List.length_drop]
        rw [Nat.succ_mul] at hlen
        omega

/-- C29: two byte sequences of one length that differ in exactly one position have different
values of `calculate_checksum`; and for two snapshot files that hold such sequences as record
regions behind a header, the chunked checksums that `state_verify_checksum` computes differ,
so that it cannot return true for both. -/
theorem calculate_checksum_single_byte (d1 d2 : List Nat) (i : Nat)
    (hlen : d1.length = d2.length) (hi : i < d1.length)
    (hb1 : ∀ b ∈ d1, b < 256) (hb2 : ∀ b ∈ d2, b < 256)
    (hdiff : d1.getD i 0 ≠ d2.getD i 0)
    (hsame : ∀ j, j ≠ i → d1.getD j 0 = d2.getD j 0) :
    calculate_checksum d1 ≠ calculate_checksum d2 ∧
    ∀ header1 header2 : List Nat, header1.length = HEADER_SIZE → header2.length = HEADER_SIZE →
      checksum_loop true (header1 ++ d1) (header1 ++ d1).length HEADER_SIZE 0 ≠
        checksum_loop true (header2 ++ d2) (header2 ++ d2).length HEADER_SIZE 0 ∧
      ∀ ctx, ¬ (state_verify_checksum ctx (header1 ++ d1) = true ∧
        state_verify_checksum ctx (header2 ++ d2) = true) := by
  obtain ⟨hs1, hs2⟩ := split_at_difference d1 d2 i hlen hi hsame
  have hi2 : i < d2.length := by
    rw [← hlen]
    exact hi
  have hlt1 : d1.getD i 0 < 256 := by
    rw [List.getD_eq_getElem d1 0 hi]
    exact hb1 _ (List.getElem_mem _)
  have hlt2 : d2.getD i 0 < 256 := by
    rw [List.getD_eq_getElem d2 0 hi2]
    exact hb2 _ (List.getElem_mem _)
  constructor
  · have h := calculate_checksum_split (d1.take i) (d1.drop (i + 1)) _ _ hlt1 hlt2 hdiff
    rw [← hs1, ← hs2] at h
    exact h
  · intro header1 header2 hh1 hh2
    have hloop : checksum_loop true (header1 ++ d1) (header1 ++ d1).length HEADER_SIZE 0 ≠
        checksum_loop true (header2 ++ d2) (header2 ++ d2).length HEADER_SIZE 0 := by
      have hlen2 : (header2 ++ d2).length = (header1 ++ d1).length := by
        rw [List.length_append, List.length_append, hh1, hh2, hlen]
      rw [hlen2]
      apply checksum_loop_split (header1 ++ d1).length (header1 ++ d1) (header2 ++ d2)
        HEADER_SIZE 0 (d1.take i) (d1.drop (i + 1)) (d1.getD i 0) (d2.getD i 0)
      · rw [List.drop_left' hh1]
        exact hs1
      · rw [List.drop_left' hh2]
        exact hs2
      · exact hlt1
      · exact hlt2
      · exact hdiff
      · have hB := state_buffer_size_pos
        rw [List.length_take, List.length_append]
        calc min i d1.length ≤ i := Nat.min_le_left _ _
          _ < d1.length := hi
          _ ≤ header1.length + d1.length := Nat.le_add_left _ _
          _ = (header1.length + d1.length) * 1 := (Nat.mul_one _).symm
          _ ≤ (header1.length + d1.length) * STATE_BUFFER_SIZE := Nat.mul_le_mul_left _ hB
    refine ⟨hloop, fun ctx hboth => ?_⟩
    unfold state_verify_checksum at hboth
    have e1 := beq_iff_eq.mp hboth.1
    have e2 := beq_iff_eq.mp hboth.2
    exact hloop (e1.trans e2.symm)

/-- C29 witness: the sequences 1, 2, 3 and 1, 9, 3, which differ in the position 1. -/
theorem calculate_checksum_single_byte_witness :
    calculate_checksum [1, 2, 3] = 1158 ∧ calculate_checksum [1, 9, 3] = 1389 ∧
    calculate_checksum [1, 2, 3] ≠ calculate_checksum [1, 9, 3] ∧
    ∀ header1 header2 : List Nat, header1.length = HEADER_SIZE → header2.length = HEADER_SIZE →
      checksum_loop true (header1 ++ [1, 2, 3]) (header1 ++ [1, 2, 3]).length HEADER_SIZE 0 ≠
        checksum_loop true (header2 ++ [1, 9, 3]) (header2 ++ [1, 9, 3]).length
          HEADER_SIZE 0 ∧
      ∀ ctx, ¬ (state_verify_checksum ctx (header1 ++ [1, 2, 3]) = true ∧
        state_verify_checksum ctx (header2 ++ [1, 9, 3]) = true) :=
  ⟨by decide, by decide,
   calculate_checksum_single_byte [1, 2, 3] [1, 9, 3] 1 rfl (by decide) (by decide) (by decide)
    (by decide)
    (fun j hj =>
      match j, hj with
      | 0, _ => rfl
      | 1, h => absurd rfl h
      | _ + 2, _ => rfl)⟩

/-! ## phantomid.c: the lock calls of one call -/

/-- The search with lock calls returns the node the search returns. -/
theorem bfs_find_events_result (look : Addr → Option (Ident × List Addr)) (id : Ident) :
    ∀ (fuel : Nat) (q : List Nat),
      (bfs_find_events look id fuel q).map (fun out => out.2) = bfs_find look id fuel q := by
  intro fuel
  induction fuel with
  | zero =>
    intro q
    cases q with
    | nil => unfold bfs_find_events bfs_find; rfl
    | cons a q1 => unfold bfs_find_events bfs_find; rfl
  | succ n ih =>
    intro q
    cases q with
    | nil => unfold bfs_find_events bfs_find; rfl
    | cons a q1 =>
      rw [bfs_find_succ]
      unfold bfs_find_events
      simp only [queue_pop]
      cases hl : look a with
      | none => rfl
      | some pr =>
        obtain ⟨nid, children⟩ := pr
        simp only
        by_cases hid : nid = id
        · rw [if_pos hid, if_pos hid]
          rfl
        · rw [if_neg hid, if_neg hid, ← ih (push_children q1 children), Option.map_map]
          rfl

theorem phantom_tree_find_events_result (fuel : Nat) (t : PhantomTree) (id : Ident) :
    (phantom_tree_find_events fuel t id).map (fun out => out.2) = phantom_tree_find fuel t id := by
  unfold phantom_tree_find_events phantom_tree_find
  cases hr : t.root with
  | none => rfl
  | some r =>
    simp only
    rw [← bfs_find_events_result, Option.map_map]
    rfl

/-- The first lock call of `phantom_tree_find` takes `tree_lock`. -/
theorem phantom_tree_find_events_head (fuel : Nat) (t : PhantomTree) (id : Ident)
    (found : List LockEvent) (res : Option Addr)
    (h : phantom_tree_find_events fuel t id = some (found, res)) :
    ∃ rest, found = LockEvent.lock Mutex.tree_lock :: rest := by
  unfold phantom_tree_find_events at h
  cases hr : t.root with
  | none =>
    rw [hr] at h
    simp only at h
    have hf := (Prod.mk.inj (Option.some.inj h)).1
    exact ⟨_, hf.symm⟩
  | some r =>
    rw [hr] at h
    simp only at h
    cases hb : bfs_find_events (phantom_look t) id fuel (queue_push queue_init r).2 with
    | none => rw [hb] at h; cases h
    | some out =>
      rw [hb] at h
      have hf := (Prod.mk.inj (Option.some.inj h)).1
      exact ⟨_, hf.symm⟩

theorem first_relock_twice (m : Mutex) (rest : List LockEvent) :
    first_relock [] (LockEvent.lock m :: LockEvent.lock m :: rest) = some m := by
  simp [first_relock]

/-- Every `phantom_tree_delete` asks for `tree_lock` while it holds it. -/
theorem phantom_tree_delete_events_relock (fuel : Nat) (t : PhantomTree) (id : Ident) :
    (phantom_tree_delete_events fuel t id).all
      (fun ev => first_relock [] ev == some Mutex.tree_lock) = true := by
  unfold phantom_tree_delete_events
  cases hf : phantom_tree_find_events fuel t id with
  | none => rfl
  | some out =>
    obtain ⟨found, res⟩ := out
    obtain ⟨rest, hrest⟩ := phantom_tree_find_events_head fuel t id found res hf
    rw [hrest]
    cases res with
    | none =>
      simp only [Option.all, List.singleton_append, List.cons_append, first_relock_twice]
      rfl
    | some node =>
      simp only
      cases hl : load t.heap node with
      | none => rfl
      | some n =>
        simp only
        by_cases hroot : (n.is_root && decide (n.children.length > 0)) = true
        · rw [if_pos hroot]
          simp only [Option.all, List.singleton_append, List.cons_append, first_relock_twice]
          rfl
        · rw [if_neg hroot]
          simp only [Option.all, List.singleton_append, List.cons_append, first_relock_twice]
          rfl

/-- Every `phantom_tree_insert` with a parent identifier on a tree with a root asks for
`tree_lock` while it holds it. -/
theorem phantom_tree_insert_events_relock (fuel : Nat) (t : PhantomTree) (pid : Ident) :
    t.root = none ∨
    (phantom_tree_insert_events fuel t (some pid)).all
      (fun ev => first_relock [] ev == some Mutex.tree_lock) = true := by
  cases hr : t.root with
  | none => exact Or.inl rfl
  | some r =>
    right
    unfold phantom_tree_insert_events
    rw [hr]
    simp only
    cases hf : phantom_tree_find_events fuel t pid with
    | none => rfl
    | some out =>
      obtain ⟨found, res⟩ := out
      obtain ⟨rest, hrest⟩ := phantom_tree_find_events_head fuel t pid found res hf
      rw [hrest]
      cases res with
      | none =>
        simp only [Option.all, List.singleton_append, List.cons_append, first_relock_twice]
        rfl
      | some parent =>
        simp only [Option.all, List.singleton_append, List.cons_append, first_relock_twice]
        rfl

/-- Without a parent identifier, on a tree with the root `r`, the lock calls of
`phantom_tree_insert` are: take `tree_lock`, take the root's `node_lock`, release it,
release `tree_lock`. -/
theorem phantom_tree_insert_events_root (fuel : Nat) (t : PhantomTree) (r : Nat) :
    t.root ≠ some r ∨
    phantom_tree_insert_events fuel t none =
      some [LockEvent.lock Mutex.tree_lock, LockEvent.lock (Mutex.node_lock r),
            LockEvent.unlock (Mutex.node_lock r), LockEvent.unlock Mutex.tree_lock] := by
  by_cases hr : t.root = some r
  · right
    unfold phantom_tree_insert_events
    rw [hr]
    rfl
  · exact Or.inl hr

/-- C27 (the code against the claim): on the tree `R -> A, B`, `A -> G`, the call
`phantom_tree_insert` with the parent identifier `A` takes `tree_lock` and then, inside
`phantom_tree_find`, asks for `tree_lock` again; so does `phantom_tree_delete` of `B`. The
same holds for every insert with a parent identifier on a tree with a root and for every
delete. Only the insert without parent identifier makes the four lock calls in the order
tree lock, parent's node lock, release parent, release tree. -/
theorem phantom_tree_insert_relocks_tree_lock :
    phantom_tree_insert_events 10 scenario_tree (some "A") =
      some [LockEvent.lock Mutex.tree_lock,
            LockEvent.lock Mutex.tree_lock,
            LockEvent.lock (Mutex.node_lock 0), LockEvent.unlock (Mutex.node_lock 0),
            LockEvent.lock (Mutex.node_lock 1), LockEvent.unlock (Mutex.node_lock 1),
            LockEvent.unlock Mutex.tree_lock,
            LockEvent.lock (Mutex.node_lock 1), LockEvent.unlock (Mutex.node_lock 1),
            LockEvent.unlock Mutex.tree_lock] ∧
    (phantom_tree_insert_events 10 scenario_tree (some "A")).map (first_relock []) =
      some (some Mutex.tree_lock) ∧
    (phantom_tree_delete_events 10 scenario_tree "B").map (fun ev => ev.take 2) =
      some [LockEvent.lock Mutex.tree_lock, LockEvent.lock Mutex.tree_lock] ∧
    (phantom_tree_delete_events 10 scenario_tree "B").map (first_relock []) =
      some (some Mutex.tree_lock) ∧
    (phantom_tree_insert_events 10 scenario_tree none).map (first_relock []) = some none ∧
    (∀ fuel t pid, t.root = none ∨
      (phantom_tree_insert_events fuel t (some pid)).all
        (fun ev => first_relock [] ev == some Mutex.tree_lock) = true) ∧
    (∀ fuel t id, (phantom_tree_delete_events fuel t id).all
      (fun ev => first_relock [] ev == some Mutex.tree_lock) = true) ∧
    (∀ fuel t r, t.root ≠ some r ∨
      phantom_tree_insert_events fuel t none =
        some [LockEvent.lock Mutex.tree_lock, LockEvent.lock (Mutex.node_lock r),
              LockEvent.unlock (Mutex.node_lock r), LockEvent.unlock Mutex.tree_lock]) :=
  ⟨by decide, by decide, by decide, by decide, by decide,
   phantom_tree_insert_events_relock, phantom_tree_delete_events_relock,
   phantom_tree_insert_events_root⟩

/-! ## interface/state.c: the checksum of `save_state` against the check of `load_state` -/

theorem checksum_loop_at_end (file : List Nat) (passes pos checksum : Nat)
    (hpos : file.length ≤ pos) : checksum_loop true file passes pos checksum = checksum := by
  cases passes with
  | zero => rfl
  | succ n =>
    rw [checksum_loop_succ, fread_bytes_readable, List.drop_eq_nil_of_le hpos]
    rfl

/-- On a readable stream that holds one full chunk and a shorter non-empty rest, the loop
returns the XOR of the two chunk checksums. -/
theorem checksum_loop_two_chunks (chunk rest : List Nat)
    (hc : chunk.length = STATE_BUFFER_SIZE) (hr0 : rest.length ≠ 0)
    (hr : rest.length ≤ STATE_BUFFER_SIZE) :
    checksum_loop true (chunk ++ rest) (chunk ++ rest).length 0 0 =
      calculate_checksum chunk ^^^ calculate_checksum rest := by
  have hB := state_buffer_size_pos
  obtain ⟨n, hn⟩ : ∃ n, (chunk ++ rest).length = n + 1 + 1 :=
    ⟨(chunk ++ rest).length - 2, by rw [List.length_append]; omega⟩
  have hc0 : chunk.length ≠ 0 := by omega
  rw [hn, checksum_loop_succ, fread_bytes_readable, List.drop_zero, List.take_left' hc,
    if_neg hc0, checksum_loop_succ, fread_bytes_readable, Nat.zero_add, List.drop_left,
    List.take_of_length_le hr, if_neg hr0, Nat.zero_xor]
  apply checksum_loop_at_end
  rw [List.length_append]

theorem calculate_checksum_zeros : ∀ (n : Nat) (l : List Nat),
    calculate_checksum (List.replicate n 0 ++ l) = calculate_checksum l := by
  intro n
  induction n with
  | zero =>
    intro l
    rfl
  | succ n ih =>
    intro l
    have h := ih l
    unfold calculate_checksum at h ⊢
    rw [List.replicate_succ, List.cons_append, List.foldl_cons]
    have h0 : checksum_step 0 0 = 0 := by decide
    rw [h0]
    exact h

/-- What `save_state` stores as checksum is 0, whatever the cache holds. -/
theorem save_state_checksum_zero (ctx : Interface.StateContext) (now : Nat) :
    (Interface.save_state ctx now).2.2.header.checksum = 0 ∧
    (Interface.save_state ctx now).2.2.data = ctx.cache := by
  unfold Interface.save_state
  simp only [checksum_loop_write_only]
  exact ⟨trivial, trivial⟩

/-- C30 (the code against the claim): `save_state` stores the checksum 0 for every cache,
because its checksum loop reads from a write-only stream. For the cache that holds one
entry, `load_state` recomputes 646847169 over the bytes `save_state` wrote and returns
false. And on a readable stream the two computations still differ for a payload of 4097
bytes: the XOR of the chunk checksums is 1, the checksum of the whole region is 33. -/
theorem save_state_fails_load_check :
    (∀ ctx now, (Interface.save_state ctx now).2.2.header.checksum = 0 ∧
      (Interface.save_state ctx now).2.2.data = ctx.cache) ∧
    (Interface.save_state entry_ctx 8).1 = true ∧
    calculate_checksum (Interface.save_state entry_ctx 8).2.2.data = 646847169 ∧
    Interface.load_state (Interface.save_state entry_ctx 8).2.1
      (Interface.save_state entry_ctx 8).2.2 = (false, (Interface.save_state entry_ctx 8).2.1) ∧
    checksum_loop true two_chunk_payload two_chunk_payload.length 0 0 = 1 ∧
    calculate_checksum two_chunk_payload = 33 := by
  refine ⟨save_state_checksum_zero, rfl, ?_, ?_, ?_, ?_⟩
  · rw [(save_state_checksum_zero entry_ctx 8).2]
    decide!
  · have hsum : calculate_checksum entry_bytes = 646847169 := by decide!
    have hdata := (save_state_checksum_zero entry_ctx 8).2
    have hck := (save_state_checksum_zero entry_ctx 8).1
    unfold Interface.load_state
    have hmagic : ¬ ((Interface.save_state entry_ctx 8).2.2.header.magic ≠
        Interface.MAGIC_NUMBER ∨
        (Interface.save_state entry_ctx 8).2.2.header.version >
          (Interface.save_state entry_ctx 8).2.1.header.version) := by decide
    rw [if_neg hmagic]
    simp only
    rw [hdata, hck]
    have hlen : ¬ (entry_ctx.cache.length = 0) := by decide
    rw [if_neg hlen]
    have hne : calculate_checksum entry_ctx.cache ≠ 0 := by
      show calculate_checksum entry_bytes ≠ 0
      rw [hsum]
      decide
    rw [if_pos hne]
  · have hsplit : two_chunk_payload = (List.replicate 4095 0 ++ [1]) ++ [0] := by
      unfold two_chunk_payload
      rw [List.append_assoc]
      rfl
    rw [hsplit, checksum_loop_two_chunks _ _ (by rw [List.length_append, List.length_replicate]; rfl)
      (by decide) (by decide), calculate_checksum_zeros]
    decide
  · unfold two_chunk_payload
    rw [calculate_checksum_zeros]
    decide

/-! ## phantomid.c: calls under the mutexes of the source -/

theorem first_relock_of_all (out : Option (List LockEvent))
    (h : out.all (fun ev => first_relock [] ev == some Mutex.tree_lock) = true)
    (ev : List LockEvent) (he : out = some ev) :
    first_relock [] ev = some Mutex.tree_lock := by
  rw [he] at h
  exact beq_iff_eq.mp h

/-- Every `phantom_tree_delete` blocks on `tree_lock`: in the model the call either runs out
of fuel in the search or is blocked. -/
theorem phantom_tree_delete_locked_blocks (fuel : Nat) (t : PhantomTree) (id : Ident) :
    phantom_tree_delete_locked fuel t id = none ∨
    phantom_tree_delete_locked fuel t id = some (Outcome.blocked Mutex.tree_lock) := by
  unfold phantom_tree_delete_locked
  cases he : phantom_tree_delete_events fuel t id with
  | none => exact Or.inl rfl
  | some ev =>
    right
    simp only
    rw [first_relock_of_all _ (phantom_tree_delete_events_relock fuel t id) ev he]

/-- Every `phantom_tree_insert` with a parent identifier on a tree with a root blocks on
`tree_lock`. -/
theorem phantom_tree_insert_locked_blocks (MAX_CHILDREN fuel : Nat) (t : PhantomTree)
    (account : PhantomAccount) (pid : Ident) :
    t.root = none ∨
    phantom_tree_insert_locked MAX_CHILDREN fuel t account (some pid) = none ∨
    phantom_tree_insert_locked MAX_CHILDREN fuel t account (some pid) =
      some (Outcome.blocked Mutex.tree_lock) := by
  rcases phantom_tree_insert_events_relock fuel t pid with hr | hall
  · exact Or.inl hr
  · right
    unfold phantom_tree_insert_locked
    cases he : phantom_tree_insert_events fuel t (some pid) with
    | none => exact Or.inl rfl
    | some ev =>
      right
      simp only
      rw [first_relock_of_all _ hall ev he]

/-- Without a parent identifier `phantom_tree_insert` takes no mutex twice: the call returns
what `phantom_tree_insert` computes. -/
theorem phantom_tree_insert_locked_null (MAX_CHILDREN fuel : Nat) (t : PhantomTree)
    (account : PhantomAccount) :
    phantom_tree_insert_locked MAX_CHILDREN fuel t account none =
      (phantom_tree_insert MAX_CHILDREN fuel t account none).map Outcome.returned := by
  unfold phantom_tree_insert_locked phantom_tree_insert_events
  cases hr : t.root with
  | none => rfl
  | some r =>
    simp only
    have h : first_relock []
        ([LockEvent.lock Mutex.tree_lock] ++ [] ++
          [LockEvent.lock (Mutex.node_lock r), LockEvent.unlock (Mutex.node_lock r),
           LockEvent.unlock Mutex.tree_lock]) = none := by
      simp [first_relock]
    rw [h]

/-- On a tree without root `phantom_tree_insert` takes `tree_lock` once and returns. -/
theorem phantom_tree_insert_locked_empty (MAX_CHILDREN fuel : Nat) (t : PhantomTree)
    (account : PhantomAccount) (parent_id : Option Ident) (hr : t.root = none) :
    phantom_tree_insert_locked MAX_CHILDREN fuel t account parent_id =
      (phantom_tree_insert MAX_CHILDREN fuel t account parent_id).map Outcome.returned := by
  unfold phantom_tree_insert_locked phantom_tree_insert_events
  rw [hr]
  rfl

/-- A call of `phantom_tree_insert` that returns under the mutexes of the source returns
what `phantom_tree_insert` computes. -/
theorem phantom_tree_insert_locked_returned (MAX_CHILDREN fuel : Nat) (t : PhantomTree)
    (account : PhantomAccount) (parent_id : Option Ident) (out : Option Addr × PhantomTree)
    (h : phantom_tree_insert_locked MAX_CHILDREN fuel t account parent_id =
      some (Outcome.returned out)) :
    phantom_tree_insert MAX_CHILDREN fuel t account parent_id = some out := by
  unfold phantom_tree_insert_locked at h
  cases he : phantom_tree_insert_events fuel t parent_id with
  | none => rw [he] at h; cases h
  | some ev =>
    rw [he] at h
    simp only at h
    cases hf : first_relock [] ev with
    | some m => rw [hf] at h; cases h
    | none =>
      rw [hf] at h
      simp only at h
      cases hi : phantom_tree_insert MAX_CHILDREN fuel t account parent_id with
      | none => rw [hi] at h; cases h
      | some out2 =>
        rw [hi] at h
        have h2 := Option.some.inj h
        rw [Option.map_some'] at h
        cases h
        rfl

theorem phantom_tree_delete_locked_not_returned (fuel : Nat) (t : PhantomTree) (id : Ident)
    (out : Bool × PhantomTree) :
    phantom_tree_delete_locked fuel t id ≠ some (Outcome.returned out) := by
  intro h
  rcases phantom_tree_delete_locked_blocks fuel t id with h0 | h0
  · rw [h0] at h; cases h
  · rw [h0] at h; cases h

/-- A call of a history that returns under the mutexes of the source is an insert, and it
leaves what the call leaves with the lock calls let through. -/
theorem trace_call_locked_returned (MAX_CHILDREN fuel : Nat) (s s1 : PhantomTrace)
    (call : PhantomCall)
    (h : trace_call_locked MAX_CHILDREN fuel s call = some (Outcome.returned s1)) :
    trace_call MAX_CHILDREN fuel s call = some s1 ∧ s1.deletes = s.deletes := by
  cases call with
  | insert account parent_id =>
    simp only [trace_call_locked] at h
    cases hl : phantom_tree_insert_locked MAX_CHILDREN fuel s.tree account parent_id with
    | none => rw [hl] at h; cases h
    | some o =>
      rw [hl] at h
      cases o with
      | blocked m => cases h
      | returned out =>
        obtain ⟨res, t⟩ := out
        have hi := phantom_tree_insert_locked_returned MAX_CHILDREN fuel s.tree account
          parent_id (res, t) hl
        simp only [trace_call]
        rw [hi]
        cases res with
        | none =>
          simp only at h ⊢
          cases h
          exact ⟨rfl, rfl⟩
        | some node =>
          simp only at h ⊢
          cases h
          exact ⟨rfl, rfl⟩
  | delete id =>
    simp only [trace_call_locked] at h
    cases hl : phantom_tree_delete_locked fuel s.tree id with
    | none => rw [hl] at h; cases h
    | some o =>
      cases o with
      | blocked m => rw [hl] at h; cases h
      | returned out => exact absurd hl (phantom_tree_delete_locked_not_returned _ _ _ _)

/-- Along every history under the mutexes of the source the tree stays well-formed, the
counters agree with it, only the root carries `is_root`, and no delete is counted. -/
theorem trace_run_locked_inv (MAX_CHILDREN fuel : Nat) :
    ∀ (calls : List PhantomCall) (s s1 : PhantomTrace) (m : Option Mutex),
      TraceInv s → RootFlag s.tree →
      trace_run_locked MAX_CHILDREN fuel s calls = some (s1, m) →
      TraceInv s1 ∧ RootFlag s1.tree ∧ s1.deletes = s.deletes := by
  intro calls
  induction calls with
  | nil =>
    intro s s1 m hinv hflag h
    unfold trace_run_locked at h
    have hs := (Prod.mk.inj (Option.some.inj h)).1
    rw [← hs]
    exact ⟨hinv, hflag, rfl⟩
  | cons call rest ih =>
    intro s s1 m hinv hflag h
    unfold trace_run_locked at h
    cases hc : trace_call_locked MAX_CHILDREN fuel s call with
    | none => rw [hc] at h; cases h
    | some o =>
      rw [hc] at h
      cases o with
      | blocked m2 =>
        simp only at h
        have hs := (Prod.mk.inj (Option.some.inj h)).1
        rw [← hs]
        exact ⟨hinv, hflag, rfl⟩
      | returned s2 =>
        simp only at h
        obtain ⟨hdata, hdel⟩ := trace_call_locked_returned MAX_CHILDREN fuel s s2 call hc
        have hinv2 := trace_inv_call MAX_CHILDREN fuel s s2 call hinv hdata
        have hrun1 : trace_run MAX_CHILDREN fuel s [call] = some s2 := by
          unfold trace_run
          rw [hdata]
          rfl
        have hflag2 := root_flag_run MAX_CHILDREN fuel [call] s s2 hinv hflag hrun1
        obtain ⟨k1, k2, k3⟩ := ih s2 s1 m hinv2 hflag2 h
        exact ⟨k1, k2, k3.trans hdel⟩

theorem root_flag_init : RootFlag trace_init.tree := by
  intro a n hn
  exact absurd (load_lt hn) (Nat.not_lt_zero _)

/-! ### Every call under the mutexes of the source ends: it returns or it blocks -/

theorem phantom_tree_find_events_total (t : PhantomTree) (id : Ident) (hwf : PhantomWF t) :
    ∃ N res, ∀ fuel, N ≤ fuel →
      (∃ found, phantom_tree_find_events fuel t id = some (found, res)) ∧
      ∀ d, res = some d → (load t.heap d).isSome = true := by
  obtain ⟨N, res, hN, halloc⟩ := phantom_tree_find_total t id hwf
  refine ⟨N, res, fun fuel hfuel => ⟨?_, halloc⟩⟩
  have h := phantom_tree_find_events_result fuel t id
  rw [hN fuel hfuel] at h
  cases he : phantom_tree_find_events fuel t id with
  | none => rw [he] at h; cases h
  | some out =>
    obtain ⟨found, res2⟩ := out
    rw [he] at h
    have hres : res2 = res := Option.some.inj h
    rw [hres]
    exact ⟨found, rfl⟩

theorem phantom_tree_delete_locked_total (t : PhantomTree) (id : Ident) (hwf : PhantomWF t) :
    ∃ N, ∀ fuel, N ≤ fuel →
      phantom_tree_delete_locked fuel t id = some (Outcome.blocked Mutex.tree_lock) := by
  obtain ⟨N, res, hN⟩ := phantom_tree_find_events_total t id hwf
  refine ⟨N, fun fuel hfuel => ?_⟩
  rcases phantom_tree_delete_locked_blocks fuel t id with h0 | h0
  · exfalso
    obtain ⟨⟨found, hf⟩, halloc⟩ := hN fuel hfuel
    unfold phantom_tree_delete_locked at h0
    have hev : (phantom_tree_delete_events fuel t id).isSome = true := by
      unfold phantom_tree_delete_events
      rw [hf]
      cases res with
      | none => rfl
      | some node =>
        simp only
        obtain ⟨n, hn⟩ := Option.isSome_iff_exists.mp (halloc node rfl)
        rw [hn]
        simp only
        by_cases hroot : (n.is_root && decide (n.children.length > 0)) = true
        · rw [if_pos hroot]
          rfl
        · rw [if_neg hroot]
          rfl
    obtain ⟨ev, hev2⟩ := Option.isSome_iff_exists.mp hev
    rw [hev2] at h0
    simp only at h0
    rw [first_relock_of_all _ (phantom_tree_delete_events_relock fuel t id) ev hev2] at h0
    cases h0
  · exact h0

theorem phantom_tree_insert_locked_total (MAX_CHILDREN : Nat) (t : PhantomTree)
    (account : PhantomAccount) (parent_id : Option Ident) (hwf : PhantomWF t) :
    ∃ N o, ∀ fuel, N ≤ fuel →
      phantom_tree_insert_locked MAX_CHILDREN fuel t account parent_id = some o := by
  cases hr : t.root with
  | none =>
    obtain ⟨N, out, hN⟩ := phantom_tree_insert_total MAX_CHILDREN t account parent_id hwf
    refine ⟨N, Outcome.returned out, fun fuel hfuel => ?_⟩
    rw [phantom_tree_insert_locked_empty MAX_CHILDREN fuel t account parent_id hr,
      hN fuel hfuel]
    rfl
  | some r =>
    cases parent_id with
    | none =>
      obtain ⟨N, out, hN⟩ := phantom_tree_insert_total MAX_CHILDREN t account none hwf
      refine ⟨N, Outcome.returned out, fun fuel hfuel => ?_⟩
      rw [phantom_tree_insert_locked_null MAX_CHILDREN fuel t account, hN fuel hfuel]
      rfl
    | some pid =>
      obtain ⟨N, res, hN⟩ := phantom_tree_find_events_total t pid hwf
      refine ⟨N, Outcome.blocked Mutex.tree_lock, fun fuel hfuel => ?_⟩
      rcases phantom_tree_insert_locked_blocks MAX_CHILDREN fuel t account pid with h0 | h0 | h0
      · rw [hr] at h0
        cases h0
      · exfalso
        obtain ⟨⟨found, hf⟩, _⟩ := hN fuel hfuel
        unfold phantom_tree_insert_locked at h0
        have hev : (phantom_tree_insert_events fuel t (some pid)).isSome = true := by
          unfold phantom_tree_insert_events
          rw [hr]
          simp only
          rw [hf]
          cases res with
          | none => rfl
          | some parent => rfl
        obtain ⟨ev, hev2⟩ := Option.isSome_iff_exists.mp hev
        rw [hev2] at h0
        simp only at h0
        rcases phantom_tree_insert_events_relock fuel t pid with hr0 | hall
        · rw [hr] at hr0
          cases hr0
        · rw [first_relock_of_all _ hall ev hev2] at h0
          cases h0
      · exact h0

theorem trace_call_locked_total (MAX_CHILDREN : Nat) (s : PhantomTrace) (call : PhantomCall)
    (hinv : TraceInv s) :
    ∃ N o, ∀ fuel, N ≤ fuel → trace_call_locked MAX_CHILDREN fuel s call = some o := by
  cases call with
  | insert account parent_id =>
    obtain ⟨N, o, hN⟩ := phantom_tree_insert_locked_total MAX_CHILDREN s.tree account
      parent_id hinv.1
    cases o with
    | blocked m =>
      refine ⟨N, Outcome.blocked m, fun fuel hfuel => ?_⟩
      simp only [trace_call_locked]
      rw [hN fuel hfuel]
    | returned out =>
      obtain ⟨res, t⟩ := out
      cases res with
      | none =>
        refine ⟨N, Outcome.returned
          { tree := t, inserts := s.inserts, deletes := s.deletes }, fun fuel hfuel => ?_⟩
        simp only [trace_call_locked]
        rw [hN fuel hfuel]
      | some node =>
        refine ⟨N, Outcome.returned
          { tree := t, inserts := s.inserts + 1, deletes := s.deletes }, fun fuel hfuel => ?_⟩
        simp only [trace_call_locked]
        rw [hN fuel hfuel]
  | delete id =>
    obtain ⟨N, hN⟩ := phantom_tree_delete_locked_total s.tree id hinv.1
    refine ⟨N, Outcome.blocked Mutex.tree_lock, fun fuel hfuel => ?_⟩
    simp only [trace_call_locked]
    rw [hN fuel hfuel]

/-- Every history under the mutexes of the source comes to an end, by the last call
returning or by a call blocking, for every large enough fuel. -/
theorem trace_run_locked_total (MAX_CHILDREN : Nat) :
    ∀ (calls : List PhantomCall) (s : PhantomTrace), TraceInv s →
      ∃ N out, ∀ fuel, N ≤ fuel →
        trace_run_locked MAX_CHILDREN fuel s calls = some out := by
  intro calls
  induction calls with
  | nil =>
    intro s _
    exact ⟨0, (s, none), fun fuel _ => rfl⟩
  | cons call rest ih =>
    intro s hinv
    obtain ⟨N1, o, h1⟩ := trace_call_locked_total MAX_CHILDREN s call hinv
    cases o with
    | blocked m =>
      refine ⟨N1, (s, some m), fun fuel hfuel => ?_⟩
      unfold trace_run_locked
      rw [h1 fuel hfuel]
    | returned s2 =>
      have hdata := (trace_call_locked_returned MAX_CHILDREN N1 s s2 call
        (h1 N1 (Nat.le_refl _))).1
      have hinv2 := trace_inv_call MAX_CHILDREN N1 s s2 call hinv hdata
      obtain ⟨N2, out, h2⟩ := ih s2 hinv2
      refine ⟨max N1 N2, out, fun fuel hfuel => ?_⟩
      unfold trace_run_locked
      rw [h1 fuel (Nat.le_trans (Nat.le_max_left _ _) hfuel)]
      exact h2 fuel (Nat.le_trans (Nat.le_max_right _ _) hfuel)

/-! ## phantomid.c: the claims about calls that take `tree_lock` twice -/

/-- C1 (the code against the claim): on the tree `R -> A, B`, `A -> G` the call
`phantom_tree_delete` of `A` takes `tree_lock` and then, inside `phantom_tree_find`, asks
for `tree_lock` again: it blocks there and does not return. Nothing has been written: `G`
keeps the parent `A` and the size stays 4. Every call of `phantom_tree_delete` ends this
way. -/
theorem phantom_tree_delete_blocks_before_reparenting :
    (phantom_tree_delete_events 10 scenario_tree "A").map (fun ev => ev.take 2) =
      some [LockEvent.lock Mutex.tree_lock, LockEvent.lock Mutex.tree_lock] ∧
    phantom_tree_delete_locked 10 scenario_tree "A" = some (Outcome.blocked Mutex.tree_lock) ∧
    (load scenario_tree.heap 3).map (fun n => (n.account.id, n.parent)) =
      some ("G", some 1) ∧
    (load scenario_tree.heap 1).map (fun n => n.account.id) = some "A" ∧
    phantom_tree_size scenario_tree = 4 ∧
    ∀ fuel t id, phantom_tree_delete_locked fuel t id = none ∨
      phantom_tree_delete_locked fuel t id = some (Outcome.blocked Mutex.tree_lock) :=
  ⟨by decide, by decide, by decide, by decide, by decide, phantom_tree_delete_locked_blocks⟩

/-- C5 (the code against the claim): on the tree `R -> A, B`, `A -> G` the call
`phantom_tree_delete` with the identifier `Z`, which no node carries, and the call with the
identifier `R` of the root, which has two children, do not return false: both block on
`tree_lock`, which the call holds when `phantom_tree_find` asks for it. On every
well-formed tree every delete blocks, for every large enough fuel. -/
theorem phantom_tree_delete_blocks_instead_of_failing :
    phantom_tree_delete_locked 10 scenario_tree "Z" = some (Outcome.blocked Mutex.tree_lock) ∧
    phantom_tree_delete_locked 10 scenario_tree "R" = some (Outcome.blocked Mutex.tree_lock) ∧
    (phantom_tree_delete_events 10 scenario_tree "Z").map (first_relock []) =
      some (some Mutex.tree_lock) ∧
    (phantom_tree_delete_events 10 scenario_tree "R").map (first_relock []) =
      some (some Mutex.tree_lock) ∧
    ∀ fuel t id out, phantom_tree_delete_locked fuel t id ≠ some (Outcome.returned out) :=
  ⟨by decide, by decide, by decide, by decide, phantom_tree_delete_locked_not_returned⟩

/-- C8 (the code against the claim): on the tree `R -> A, B`, `A -> G` the call
`phantom_tree_insert` with the parent identifier `Z`, which no node carries, blocks on
`tree_lock`; on the tree whose root `R` holds `max_children = 2` children the call with the
parent identifier `R` blocks as well. So does every call with a parent identifier on a tree
with a root. Only the call without parent identifier on the full root returns no node and
leaves the tree as it was. -/
theorem phantom_tree_insert_blocks_with_parent_id :
    phantom_tree_insert_locked 3 10 scenario_tree (account_of "X") (some "Z") =
      some (Outcome.blocked Mutex.tree_lock) ∧
    phantom_tree_insert_locked 2 10 full_root_tree (account_of "X") (some "R") =
      some (Outcome.blocked Mutex.tree_lock) ∧
    phantom_tree_insert_locked 2 10 full_root_tree (account_of "X") none =
      some (Outcome.returned (none, full_root_tree)) ∧
    ∀ MAX_CHILDREN fuel t account pid, t.root = none ∨
      phantom_tree_insert_locked MAX_CHILDREN fuel t account (some pid) = none ∨
      phantom_tree_insert_locked MAX_CHILDREN fuel t account (some pid) =
        some (Outcome.blocked Mutex.tree_lock) :=
  ⟨by decide, by decide, by decide, phantom_tree_insert_locked_blocks⟩

/-- With the quota used up on a tree with a root, the create command blocks. -/
theorem phantom_on_client_data_locked_blocks (MAX_CHILDREN fuel : Nat) (s : PhantomDaemon)
    (account : PhantomAccount) :
    s.tree.root = none ∨ s.current_admin_count < s.max_admins ∨
    phantom_on_client_data_locked MAX_CHILDREN fuel s account = none ∨
    phantom_on_client_data_locked MAX_CHILDREN fuel s account =
      some (Outcome.blocked Mutex.tree_lock) := by
  by_cases hlt : s.current_admin_count < s.max_admins
  · exact Or.inr (Or.inl hlt)
  · rcases phantom_tree_insert_locked_blocks MAX_CHILDREN fuel s.tree account "" with
      hr | h0 | h0
    · exact Or.inl hr
    · right; right; left
      unfold phantom_on_client_data_locked
      simp only [decide_eq_false hlt, Bool.false_eq_true, if_false]
      rw [h0]
    · right; right; right
      unfold phantom_on_client_data_locked
      simp only [decide_eq_false hlt, Bool.false_eq_true, if_false]
      rw [h0]

/-- C28 (the code against the claim): from the state `phantom_init` sets up, with
`MAX_CHILDREN = 10`, five create commands return a node each and use up the quota; the
sixth passes the empty, non-null parent identifier to `phantom_tree_insert` on a tree with
a root, and that call blocks on `tree_lock` inside `phantom_tree_find`: the command does
not fail, it does not return. So does every create command once the quota is used up and
the tree has a root. The size stays 5. -/
theorem phantom_create_blocks_at_quota :
    create_all_locked 10 10 phantom_init seven_accounts =
      some ([some 0, some 1, some 2, some 3, some 4], full_daemon, some Mutex.tree_lock) ∧
    full_daemon.current_admin_count = 5 ∧ full_daemon.max_admins = 5 ∧
    phantom_tree_size full_daemon.tree = 5 ∧
    phantom_on_client_data_locked 10 10 full_daemon (account_of "a6") =
      some (Outcome.blocked Mutex.tree_lock) ∧
    (phantom_tree_insert_events 10 full_daemon.tree (some "")).map (fun ev => ev.take 2) =
      some [LockEvent.lock Mutex.tree_lock, LockEvent.lock Mutex.tree_lock] ∧
    ∀ MAX_CHILDREN fuel s account,
      s.tree.root = none ∨ s.current_admin_count < s.max_admins ∨
      phantom_on_client_data_locked MAX_CHILDREN fuel s account = none ∨
      phantom_on_client_data_locked MAX_CHILDREN fuel s account =
        some (Outcome.blocked Mutex.tree_lock) :=
  ⟨by decide, by decide, by decide, by decide, by decide, by decide,
   phantom_on_client_data_locked_blocks⟩

/-! ## phantomid.c: the invariants along histories under the mutexes of the source -/

/-- C20: in the state that any sequence of `phantom_tree_insert` and `phantom_tree_delete`
calls leaves when started from `phantom_tree_init` and made under the mutexes of the source
(the sequence ends where a call blocks), with the number of successful inserts within the
range of `size_t`: no delete has succeeded, `phantom_tree_size` is the number of successful
inserts less the number of successful deletes, it is the number of nodes reachable from the
root (`nodes` lists each of them once), and it is 0 exactly when there is no root. -/
theorem phantom_tree_size_counts (MAX_CHILDREN fuel : Nat) (calls : List PhantomCall)
    (s : PhantomTrace) (m : Option Mutex)
    (hrun : trace_run_locked MAX_CHILDREN fuel trace_init calls = some (s, m))
    (hfit : s.inserts ≤ SIZE_MAX) :
    s.deletes = 0 ∧
    phantom_tree_size s.tree = s.inserts - s.deletes ∧
    (∃ nodes : List Addr, nodes.Nodup ∧
      (∀ a, a ∈ nodes ↔ Reachable (phantom_look s.tree) s.tree.root a) ∧
      nodes.length = phantom_tree_size s.tree) ∧
    (phantom_tree_size s.tree = 0 ↔ s.tree.root = none) := by
  obtain ⟨⟨hwf, hlive, htot⟩, _, hdel⟩ :=
    trace_run_locked_inv MAX_CHILDREN fuel calls trace_init s m trace_inv_init
      root_flag_init hrun
  have hdel0 : s.deletes = 0 := hdel
  have hsize := htot hfit
  have hlen : (live_cells s.tree.heap).length = phantom_tree_size s.tree := by
    unfold phantom_tree_size
    omega
  refine ⟨hdel0, by unfold phantom_tree_size; omega, ⟨live_cells s.tree.heap,
    live_cells_nodup _, fun a => ?_, hlen⟩, ?_⟩
  · rw [mem_live_cells]
    exact hwf.1 a
  · rw [← hlen]
    constructor
    · intro h0
      cases hr : s.tree.root with
      | none => rfl
      | some r =>
        have hmem := (mem_live_cells s.tree.heap r).mpr (phantom_wf_root_alloc s.tree hwf r hr)
        rw [List.length_eq_zero.mp h0] at hmem
        cases hmem
    · intro hr
      apply List.length_eq_zero.mpr
      apply List.eq_nil_iff_forall_not_mem.mpr
      intro a ha
      rw [mem_live_cells, phantom_wf_no_root s.tree hwf hr a] at ha
      cases ha

/-- C20 witness: the root and two children inserted without parent identifier, then an
insert by parent identifier, which blocks; the size is 3. -/
theorem phantom_tree_size_counts_witness :
    trace_run_locked 3 10 trace_init locked_calls =
      some (locked_scenario, some Mutex.tree_lock) ∧
    locked_scenario.inserts = 3 ∧ phantom_tree_size locked_scenario.tree = 3 ∧
    locked_scenario.deletes = 0 ∧
    phantom_tree_size locked_scenario.tree =
      locked_scenario.inserts - locked_scenario.deletes ∧
    (∃ nodes : List Addr, nodes.Nodup ∧
      (∀ a, a ∈ nodes ↔
        Reachable (phantom_look locked_scenario.tree) locked_scenario.tree.root a) ∧
      nodes.length = phantom_tree_size locked_scenario.tree) ∧
    (phantom_tree_size locked_scenario.tree = 0 ↔ locked_scenario.tree.root = none) :=
  ⟨by decide, by decide, by decide,
   phantom_tree_size_counts 3 10 locked_calls locked_scenario (some Mutex.tree_lock)
     (by decide) (by decide)⟩

/-- C21: in the state that any sequence of `phantom_tree_insert` and `phantom_tree_delete`
calls leaves when started from `phantom_tree_init` and made under the mutexes of the source
(the sequence ends where a call blocks): the root, if there is one, has no parent and
carries `is_root`; no other reachable node carries `is_root`; and every other reachable node
has a parent that is reachable from the root and lists the node exactly once among its
children. -/
theorem phantom_tree_shape_invariant (MAX_CHILDREN fuel : Nat) (calls : List PhantomCall)
    (s : PhantomTrace) (m : Option Mutex)
    (hrun : trace_run_locked MAX_CHILDREN fuel trace_init calls = some (s, m)) :
    (∀ r, s.tree.root = some r →
      ∃ n, load s.tree.heap r = some n ∧ n.parent = none ∧ n.is_root = true) ∧
    (∀ a n, Reachable (phantom_look s.tree) s.tree.root a → load s.tree.heap a = some n →
      n.is_root = true → s.tree.root = some a) ∧
    (∀ a n, Reachable (phantom_look s.tree) s.tree.root a → load s.tree.heap a = some n →
      s.tree.root ≠ some a →
      ∃ p pn, n.parent = some p ∧ Reachable (phantom_look s.tree) s.tree.root p ∧
        load s.tree.heap p = some pn ∧ pn.children.count a = 1) := by
  obtain ⟨hinv, hflag, _⟩ :=
    trace_run_locked_inv MAX_CHILDREN fuel calls trace_init s m trace_inv_init
      root_flag_init hrun
  have hwf := hinv.1
  refine ⟨?_, ?_, ?_⟩
  · intro r hr
    obtain ⟨n, hn⟩ := Option.isSome_iff_exists.mp (phantom_wf_root_alloc s.tree hwf r hr)
    exact ⟨n, hn, ((hwf.2.1 r n hn).1).mpr hr, (hwf.2.1 r n hn).2 hr⟩
  · intro a n _ hn hroot
    exact hflag a n hn hroot
  · intro a n _ hn hnr
    cases hpar : n.parent with
    | none => exact absurd (((hwf.2.1 a n hn).1).mp hpar) hnr
    | some p =>
      obtain ⟨pn, hpn, hin⟩ := phantom_wf_parent_lists s.tree hwf a p n hn hpar
      refine ⟨p, pn, rfl, (hwf.1 p).mp (by rw [hpn]; rfl), hpn, ?_⟩
      exact List.count_eq_one_of_mem (hwf.2.2.1 p pn hpn).1 hin

/-- C21 witness: the root and two children inserted without parent identifier, then an
insert by parent identifier, which blocks. -/
theorem phantom_tree_shape_invariant_witness :
    trace_run_locked 3 10 trace_init locked_calls =
      some (locked_scenario, some Mutex.tree_lock) ∧
    locked_scenario.tree.root = some 0 ∧
    (∀ r, locked_scenario.tree.root = some r →
      ∃ n, load locked_scenario.tree.heap r = some n ∧ n.parent = none ∧
        n.is_root = true) ∧
    (∀ a n, Reachable (phantom_look locked_scenario.tree) locked_scenario.tree.root a →
      load locked_scenario.tree.heap a = some n →
      n.is_root = true → locked_scenario.tree.root = some a) ∧
    (∀ a n, Reachable (phantom_look locked_scenario.tree) locked_scenario.tree.root a →
      load locked_scenario.tree.heap a = some n →
      locked_scenario.tree.root ≠ some a →
      ∃ p pn, n.parent = some p ∧
        Reachable (phantom_look locked_scenario.tree) locked_scenario.tree.root p ∧
        load locked_scenario.tree.heap p = some pn ∧ pn.children.count a = 1) :=
  ⟨by decide, by decide,
   phantom_tree_shape_invariant 3 10 locked_calls locked_scenario (some Mutex.tree_lock)
     (by decide)⟩

/-! ## tree.c: the search on trees wider than the work queue, against the breadth-first
order -/

theorem length_binary_cells (MAX_CHILDREN n : Nat) :
    ∀ (count k : Nat), (binary_cells MAX_CHILDREN n count k).length = count := by
  intro count
  induction count with
  | zero => intro k; rfl
  | succ c ih =>
    intro k
    show (some (binary_node MAX_CHILDREN n k) ::
      binary_cells MAX_CHILDREN n c (k + 1)).length = c + 1
    rw [List.length_cons, ih]

/-- The children of a node of a tree laid out level by level, `n` nodes in all. -/
theorem layout_children (n a : Nat) :
    [2 * a + 1, 2 * a + 2].filter (fun c => decide (c < n)) =
      List.range' (2 * a + 1) (min 2 (n - (2 * a + 1))) := by
  by_cases h2 : 2 * a + 2 < n
  · have h1 : 2 * a + 1 < n := by omega
    have hm : min 2 (n - (2 * a + 1)) = 2 := by omega
    rw [hm]
    simp [List.filter, h1, h2, List.range']
  · by_cases h1 : 2 * a + 1 < n
    · have hm : min 2 (n - (2 * a + 1)) = 1 := by omega
      rw [hm]
      simp [List.filter, h1, h2, List.range']
    · have hm : min 2 (n - (2 * a + 1)) = 0 := by omega
      rw [hm]
      simp [List.filter, h1, h2, List.range']

/-- In a tree laid out level by level, the children of a run of consecutive nodes are a run
of consecutive nodes. -/
theorem next_level_range (look : Addr → Option (Ident × List Addr)) (n : Nat)
    (hlook : ∀ a, a < n → ∃ nid, look a =
      some (nid, [2 * a + 1, 2 * a + 2].filter (fun c => decide (c < n)))) :
    ∀ (len a : Nat), a + len ≤ n →
      next_level look (List.range' a len) =
        List.range' (2 * a + 1) (min (2 * len) (n - (2 * a + 1))) := by
  intro len
  induction len with
  | zero =>
    intro a _
    have hm : min (2 * 0) (n - (2 * a + 1)) = 0 := by omega
    rw [hm]
    rfl
  | succ len ih =>
    intro a ha
    obtain ⟨nid, hl⟩ := hlook a (by omega)
    rw [List.range'_succ, next_level_cons look a _ nid _ hl, ih (a + 1) (by omega),
      layout_children]
    have hs : 2 * (a + 1) + 1 = 2 * a + 1 + min 2 (n - (2 * a + 1)) ∨
        min (2 * len) (n - (2 * (a + 1) + 1)) = 0 := by omega
    rcases hs with hs | hs
    · rw [hs, List.range'_append_1]
      congr 1
      omega
    · rw [hs]
      have hm : min (2 * (len + 1)) (n - (2 * a + 1)) = min 2 (n - (2 * a + 1)) := by omega
      rw [hm]
      show _ ++ [] = _
      rw [List.append_nil]

/-- The breadth-first order of a tree laid out level by level: from a level on, the nodes in
the order of their addresses. -/
theorem level_order_layout (look : Addr → Option (Ident × List Addr)) (n : Nat)
    (hlook : ∀ a, a < n → ∃ nid, look a =
      some (nid, [2 * a + 1, 2 * a + 2].filter (fun c => decide (c < n)))) :
    ∀ (k a len : Nat), len ≤ a + 1 → a + len ≤ n → (len = a + 1 ∨ a + len = n) →
      n < k + a →
      level_order look k (List.range' a len) = List.range' a (n - a) := by
  intro k
  induction k with
  | zero =>
    intro a len _ h2 _ h4
    omega
  | succ k ih =>
    intro a len h1 h2 h3 h4
    show List.range' a len ++ level_order look k (next_level look (List.range' a len)) =
      List.range' a (n - a)
    rw [next_level_range look n hlook len a h2]
    by_cases hfull : len = a + 1
    · rw [ih (2 * a + 1) (min (2 * len) (n - (2 * a + 1))) (by omega) (by omega) (by omega)
        (by omega)]
      have hs : 2 * a + 1 = a + len := by omega
      rw [hs, List.range'_append_1]
      congr 1
      omega
    · have hm : min (2 * len) (n - (2 * a + 1)) = 0 := by omega
      rw [hm]
      have hnil : List.range' (2 * a + 1) 0 = [] := rfl
      rw [hnil, level_order_nil, List.append_nil]
      congr 1
      omega

/-- The breadth-first order of a tree of `n` nodes laid out level by level is
`0, 1, ..., n - 1`. -/
theorem level_order_layout_root (look : Addr → Option (Ident × List Addr)) (n k : Nat)
    (hlook : ∀ a, a < n → ∃ nid, look a =
      some (nid, [2 * a + 1, 2 * a + 2].filter (fun c => decide (c < n))))
    (hn : 0 < n) (hk : n < k) : level_order look k [0] = List.range' 0 n := by
  have h := level_order_layout look n hlook k 0 1 (by omega) (by omega) (Or.inl rfl) (by omega)
  exact h

/-- One pass of the search while the queue has room, on any tree laid out level by level:
the queue `[i, ..., 2i]` becomes `[i + 1, ..., 2i + 2]`. -/
theorem bfs_find_layout_step (look : Addr → Option (Ident × List Addr)) (id nid : Ident)
    (i fuel : Nat) (hl : look i = some (nid, [2 * i + 1, 2 * i + 2])) (hne : nid ≠ id)
    (hq : i + 2 ≤ QUEUE_SIZE) :
    bfs_find look id (fuel + 1) (List.range' i (i + 1)) =
      bfs_find look id fuel (List.range' (i + 1) (i + 2)) := by
  rw [List.range'_succ, bfs_find_succ, hl]
  simp only
  rw [if_neg hne, push_children_eq]
  rw [List.length_range']
  have ht : QUEUE_SIZE - i = (QUEUE_SIZE - i - 2) + 2 := by omega
  rw [ht]
  have hrange : List.range' (i + 1) (i + 2) =
      List.range' (i + 1) i ++ [2 * i + 1, 2 * i + 2] := by
    have h := List.range'_append_1 (i + 1) i 2
    rw [show 2 + i = i + 2 by omega, show i + 1 + i = 2 * i + 1 by omega] at h
    rw [← h]
    rfl
  rw [hrange]
  simp [List.take]

theorem bfs_find_layout_prefix (look : Addr → Option (Ident × List Addr)) (id : Ident)
    (m : Nat)
    (hl : ∀ i, i < m → ∃ nid, look i = some (nid, [2 * i + 1, 2 * i + 2]) ∧ nid ≠ id) :
    ∀ (i fuel : Nat), i ≤ m → i + 1 ≤ QUEUE_SIZE →
      bfs_find look id (fuel + i) [0] = bfs_find look id fuel (List.range' i (i + 1)) := by
  intro i
  induction i with
  | zero => intro fuel _ _; rfl
  | succ j ih =>
    intro fuel hm hq
    obtain ⟨nid, hlj, hne⟩ := hl j (by omega)
    have h1 : fuel + (j + 1) = (fuel + 1) + j := by omega
    rw [h1, ih (fuel + 1) (by omega) (by omega)]
    exact bfs_find_layout_step look id nid j fuel hlj hne (by omega)

/-- A queue of childless nodes none of which carries the identifier, followed by a node
that carries it: the search returns that node. -/
theorem bfs_find_leaves_then_match (look : Addr → Option (Ident × List Addr)) (id : Ident)
    (last : Nat) (children : List Addr) (hlast : look last = some (id, children)) :
    ∀ (q : List Nat) (fuel : Nat),
      (∀ a ∈ q, ∃ nid, look a = some (nid, []) ∧ nid ≠ id) →
      bfs_find look id (fuel + q.length + 1) (q ++ [last]) = some (some last) := by
  intro q
  induction q with
  | nil =>
    intro fuel _
    rw [List.nil_append, bfs_find_succ, hlast]
    simp
  | cons a rest ih =>
    intro fuel hq
    obtain ⟨nid, hl, hne⟩ := hq a (List.mem_cons_self _ _)
    have hlen : fuel + (a :: rest).length + 1 = (fuel + rest.length + 1) + 1 := by
      rw [List.length_cons]
      omega
    rw [hlen, List.cons_append, bfs_find_succ, hl]
    simp only
    rw [if_neg hne]
    have hpush : push_children (rest ++ [last]) [] = rest ++ [last] := rfl
    rw [hpush]
    exact ih fuel (fun b hb => hq b (List.mem_cons_of_mem _ hb))

/-- On the complete binary tree of 2001 nodes the search for the identifier of the last
node returns no node: when node 999 is expanded the queue is full and the push of its
second child is refused. -/
theorem binary_find_last_none (fuel : Nat) :
    tree_find_node (fuel + 2000) (binary_ctx 3 2001) (Tree.generate_node_id 7 2000) =
      some none := by
  have hroot : (binary_ctx 3 2001).root = some 0 := rfl
  unfold tree_find_node
  rw [hroot]
  simp only
  rw [queue_push_init]
  have hne : ∀ k, k < 2001 - 1 →
      Tree.generate_node_id 7 k ≠ Tree.generate_node_id 7 2000 :=
    fun k hk => binary_ids_distinct k hk
  have h1 : fuel + 2000 = (fuel + 1000 + 1) + 999 := by omega
  rw [h1, bfs_find_binary_prefix 3 2001 _ hne 999 (fuel + 1000 + 1) (by omega)
    (by simp [QUEUE_SIZE])]
  rw [List.range'_succ, bfs_find_succ, tree_look_binary 3 2001 999 (by omega)]
  simp only
  rw [if_neg (hne 999 (by omega)), push_children_eq, List.length_range']
  have hk : ([2 * 999 + 1, 2 * 999 + 2].filter (fun c => decide (c < 2001))).take
      (QUEUE_SIZE - 999) = [1999] := by decide
  rw [hk]
  have hrange : List.range' (999 + 1) 999 ++ [1999] = List.range' 1000 1000 := by
    have h := List.range'_append_1 1000 999 1
    exact h
  rw [hrange]
  have hlen : fuel + 1000 = fuel + (List.range' 1000 1000).length := by
    rw [List.length_range']
  rw [hlen]
  apply bfs_find_leaves
  intro a ha
  rw [List.mem_range'_1] at ha
  refine ⟨Tree.generate_node_id 7 a, ?_, hne a (by omega)⟩
  rw [tree_look_binary 3 2001 a (by omega)]
  have hf : [2 * a + 1, 2 * a + 2].filter (fun c => decide (c < 2001)) = [] := by
    have h1 : ¬ 2 * a + 1 < 2001 := by omega
    have h2 : ¬ 2 * a + 2 < 2001 := by omega
    simp [List.filter, h1, h2]
  rw [hf]

theorem find_after_none (p : Nat → Bool) (n : Nat) (rest : List Nat)
    (h1 : ∀ x ∈ List.range' 0 n, ¬ p x = true) (h2 : p n = true) :
    (List.find? p (List.range' 0 n)).or (List.find? p (n :: rest)) = some n := by
  rw [List.find?_eq_none.mpr h1, List.find?_cons_of_pos _ h2]
  rfl

theorem first_match_last (look : Addr → Option (Ident × List Addr)) (id : Ident) (n : Nat)
    (rest : List Nat)
    (hbefore : ∀ k, k < n → ∃ nid children, look k = some (nid, children) ∧ nid ≠ id)
    (hn : ∃ children, look n = some (id, children)) :
    first_match look id (List.range' 0 n ++ n :: rest) = some n := by
  unfold first_match
  rw [List.find?_append]
  apply find_after_none
  · intro x hx
    rw [List.mem_range'_1] at hx
    obtain ⟨nid, children, hl, hne⟩ := hbefore x (by omega)
    simp only [hl]
    exact fun h => hne (of_decide_eq_true h)
  · obtain ⟨children, hl⟩ := hn
    simp [hl]

/-- When the search does not find the parent, `tree_create_node` returns no node and only
the identifier counter has advanced. -/
theorem tree_create_node_parent_missing (MAX_CHILDREN fuel : Nat) (ctx : TreeContext)
    (now : Nat) (pid : Ident) (r : Nat) (hroot : ctx.root = some r)
    (hfind : tree_find_node fuel ctx pid = some none) :
    tree_create_node MAX_CHILDREN fuel ctx now (some pid) =
      some (none, { ctx with id_counter := size_inc ctx.id_counter }) := by
  unfold tree_create_node
  simp only [hroot, hfind, Option.isNone_some, Bool.or_self, Bool.false_eq_true, if_false]

/-- C9 (the code against the claim): on the complete binary tree of 2001 nodes that
`tree_create_node` builds level by level (`MAX_CHILDREN = 3`), the node at address 2000 is
reachable, it is the one node that carries `node_7_2000` and therefore the first match in
the breadth-first order `0, 1, ..., 2000`, and it has no child, fewer than its
`max_children = 3`. Yet `tree_create_node` with this parent identifier returns no node: the
search does not find the parent, and the tree is left as it was, only the identifier counter
has advanced. -/
theorem tree_create_node_misses_first_match :
    Reachable (tree_look (binary_ctx 3 2001)) (binary_ctx 3 2001).root 2000 ∧
    (∀ k, 2001 < k →
      level_order (tree_look (binary_ctx 3 2001)) k (binary_ctx 3 2001).root.toList =
        List.range' 0 2001) ∧
    first_match (tree_look (binary_ctx 3 2001)) (Tree.generate_node_id 7 2000)
      (List.range' 0 2001) = some 2000 ∧
    (load (binary_ctx 3 2001).heap 2000).map (fun n => (n.children, n.max_children)) =
      some ([], 3) ∧
    ∀ fuel now : Nat,
      tree_create_node 3 (fuel + 2000) (binary_ctx 3 2001) now
          (some (Tree.generate_node_id 7 2000)) =
        some (none, { heap := (binary_ctx 3 2001).heap, root := (binary_ctx 3 2001).root,
                      total_nodes := (binary_ctx 3 2001).total_nodes,
                      id_counter := 2002 }) := by
  have hlook : ∀ a : Nat, a < 2001 → ∃ nid, tree_look (binary_ctx 3 2001) a =
      some (nid, [2 * a + 1, 2 * a + 2].filter (fun c => decide (c < 2001))) :=
    fun a ha => ⟨_, tree_look_binary 3 2001 a ha⟩
  refine ⟨binary_ctx_reachable 3 2001 2000 (by omega), ?_, ?_, ?_, ?_⟩
  · intro k hk
    exact level_order_layout_root _ 2001 k hlook (by omega) hk
  · have hsplit : List.range' 0 2001 = List.range' 0 2000 ++ 2000 :: [] := by
      have h := List.range'_append_1 0 2000 1
      rw [Nat.zero_add] at h
      exact h.symm
    rw [hsplit]
    apply first_match_last
    · intro k hk
      exact ⟨_, _, tree_look_binary 3 2001 k (by omega), binary_ids_distinct k hk⟩
    · exact ⟨_, tree_look_binary 3 2001 2000 (by omega)⟩
  · unfold binary_ctx
    simp only
    rw [load_binary_cells, if_pos (by omega)]
    rfl
  · intro fuel now
    have hfind := binary_find_last_none fuel
    have hroot : (binary_ctx 3 2001).root = some 0 := rfl
    have hcount : (binary_ctx 3 2001).id_counter = 2001 := rfl
    rw [tree_create_node_parent_missing 3 (fuel + 2000) (binary_ctx 3 2001) now _ 0 hroot
      hfind]
    rfl

theorem tree_look_twin (k : Nat) (hk : k < 2002) :
    tree_look twin_ctx k =
      some (if k = 2001 then Tree.generate_node_id 7 2000 else Tree.generate_node_id 7 k,
            [2 * k + 1, 2 * k + 2].filter (fun c => decide (c < 2002))) := by
  have hb := tree_look_binary 3 2002 k hk
  unfold tree_look at hb ⊢
  unfold twin_ctx
  simp only
  rw [load_store]
  have hlen : (binary_ctx 3 2002).heap.length = 2002 := length_binary_cells 3 2002 2002 0
  by_cases hk1 : k = 2001
  · rw [if_pos ⟨hk1, by rw [hlen]; omega⟩, if_pos hk1, hk1]
    rfl
  · rw [if_neg (fun h => hk1 h.1), if_neg hk1]
    exact hb

/-- C13 (the code against the claim): on the complete binary tree of 2002 nodes laid out
level by level in which the nodes at the addresses 2000 and 2001 carry the same identifier,
the breadth-first order is `0, 1, ..., 2001` and the first node in it with that identifier
is the node at 2000; `tree_find_node` returns the node at 2001. When node 999 is expanded
the queue is full and the push of its second child, the node at 2000, is refused; the push
of the node at 2001, one pass later, finds room. -/
theorem tree_find_node_returns_later_match :
    (∀ k, 2002 < k →
      level_order (tree_look twin_ctx) k twin_ctx.root.toList = List.range' 0 2002) ∧
    tree_look twin_ctx 2000 = some (Tree.generate_node_id 7 2000, []) ∧
    tree_look twin_ctx 2001 = some (Tree.generate_node_id 7 2000, []) ∧
    Reachable (tree_look twin_ctx) twin_ctx.root 2000 ∧
    first_match (tree_look twin_ctx) (Tree.generate_node_id 7 2000) (List.range' 0 2002) =
      some 2000 ∧
    ∀ fuel : Nat, tree_find_node (fuel + 2001) twin_ctx (Tree.generate_node_id 7 2000) =
      some (some 2001) := by
  have hlook : ∀ a : Nat, a < 2002 → ∃ nid, tree_look twin_ctx a =
      some (nid, [2 * a + 1, 2 * a + 2].filter (fun c => decide (c < 2002))) :=
    fun a ha => ⟨_, tree_look_twin a ha⟩
  have hroot : twin_ctx.root = some 0 := rfl
  have hleaf : ∀ a : Nat, 1001 ≤ a → a < 2002 →
      [2 * a + 1, 2 * a + 2].filter (fun c => decide (c < 2002)) = [] := by
    intro a h1 h2
    have h3 : ¬ 2 * a + 1 < 2002 := by omega
    have h4 : ¬ 2 * a + 2 < 2002 := by omega
    simp [List.filter, h3, h4]
  have h2000 : tree_look twin_ctx 2000 = some (Tree.generate_node_id 7 2000, []) := by
    rw [tree_look_twin 2000 (by omega), hleaf 2000 (by omega) (by omega)]
    rfl
  have h2001 : tree_look twin_ctx 2001 = some (Tree.generate_node_id 7 2000, []) := by
    rw [tree_look_twin 2001 (by omega), hleaf 2001 (by omega) (by omega)]
    rfl
  have hother : ∀ k : Nat, k < 2000 → tree_look twin_ctx k =
      some (Tree.generate_node_id 7 k,
        [2 * k + 1, 2 * k + 2].filter (fun c => decide (c < 2002))) := by
    intro k hk
    rw [tree_look_twin k (by omega), if_neg (by omega)]
  refine ⟨?_, h2000, h2001, ?_, ?_, ?_⟩
  · intro k hk
    rw [hroot]
    exact level_order_layout_root _ 2002 k hlook (by omega) hk
  · have hreach : ∀ k : Nat, k < 2002 → Reachable (tree_look twin_ctx) twin_ctx.root k := by
      intro k
      induction k using Nat.strong_induction_on with
      | _ k ih =>
        intro hk
        cases k with
        | zero => exact Reachable.root 0 hroot
        | succ j =>
          have hp : j / 2 < 2002 := by omega
          have hpar := ih (j / 2) (by omega) hp
          refine Reachable.child (j / 2) (j + 1) _ _ hpar (tree_look_twin _ hp) ?_
          rw [List.mem_filter]
          refine ⟨?_, by simpa using hk⟩
          have : j + 1 = 2 * (j / 2) + 1 ∨ j + 1 = 2 * (j / 2) + 2 := by omega
          rcases this with h | h
          · rw [h]; simp
          · rw [h]; simp
    exact hreach 2000 (by omega)
  · have hsplit : List.range' 0 2002 = List.range' 0 2000 ++ 2000 :: [2001] := by
      have h := List.range'_append_1 0 2000 2
      rw [Nat.zero_add] at h
      exact h.symm
    rw [hsplit]
    apply first_match_last
    · intro k hk
      exact ⟨_, _, hother k hk, binary_ids_distinct k hk⟩
    · exact ⟨_, h2000⟩
  · intro fuel
    unfold tree_find_node
    rw [hroot]
    simp only
    rw [queue_push_init]
    have hfull : ∀ i : Nat, i < 1000 → [2 * i + 1, 2 * i + 2].filter
        (fun c => decide (c < 2002)) = [2 * i + 1, 2 * i + 2] := by
      intro i hi
      have h3 : 2 * i + 1 < 2002 := by omega
      have h4 : 2 * i + 2 < 2002 := by omega
      simp [List.filter, h3, h4]
    have hpre : ∀ i : Nat, i < 999 → ∃ nid, tree_look twin_ctx i =
        some (nid, [2 * i + 1, 2 * i + 2]) ∧ nid ≠ Tree.generate_node_id 7 2000 := by
      intro i hi
      refine ⟨_, ?_, binary_ids_distinct i (by omega)⟩
      rw [hother i (by omega), hfull i (by omega)]
    have h1 : fuel + 2001 = (fuel + 1000 + 1 + 1) + 999 := by omega
    rw [h1, bfs_find_layout_prefix _ _ 999 hpre 999 (fuel + 1000 + 1 + 1) (Nat.le_refl _)
      (by simp [QUEUE_SIZE])]
    rw [List.range'_succ, bfs_find_succ, hother 999 (by omega), hfull 999 (by omega)]
    simp only
    rw [if_neg (binary_ids_distinct 999 (by omega)), push_children_eq, List.length_range']
    have hk : ([2 * 999 + 1, 2 * 999 + 2] : List Nat).take (QUEUE_SIZE - 999) = [1999] := by
      decide
    rw [hk]
    have hrange : List.range' (999 + 1) 999 ++ [1999] = List.range' 1000 1000 := by
      have h := List.range'_append_1 1000 999 1
      exact h
    rw [hrange]
    have hsucc : List.range' 1000 1000 = 1000 :: List.range' 1001 999 := rfl
    rw [hsucc, bfs_find_succ, hother 1000 (by omega)]
    simp only
    rw [if_neg (binary_ids_distinct 1000 (by omega)), push_children_eq, List.length_range']
    have hk2 : ([2 * 1000 + 1, 2 * 1000 + 2].filter (fun c => decide (c < 2002))).take
        (QUEUE_SIZE - 999) = [2001] := by decide
    rw [hk2]
    have hlen : fuel + 1000 = fuel + (List.range' 1001 999).length + 1 := by
      rw [List.length_range']
    rw [hlen]
    apply bfs_find_leaves_then_match _ _ 2001 [] h2001
    intro a ha
    rw [List.mem_range'_1] at ha
    refine ⟨Tree.generate_node_id 7 a, ?_, binary_ids_distinct a (by omega)⟩
    rw [hother a (by omega), hleaf a (by omega) (by omega)]

end PhantomID
